import Mathlib

/-!
# Knuth-Morris-Pratt search: embedding of `kmp_search.c` and `kmp_search.cpp`

A shallow embedding of the C implementation of the KMP substring search
(`src/algorithms/searching/knuth-morris-pratt/implementations/c/kmp_search.c`),
of its C++ counterpart, and, in the sections after it, of `binary_search.c`,
`bubble_sort.c`, `stack.c` and `stack.cpp`, together with the properties
proved about them. All definitions come first, the theorems follow.

Modelling conventions.

* A `char` buffer is a `List Nat`; the code only ever compares characters for
  equality, so bytes are the special case of entries below 256.
* A pointer argument is an `Option`: `none` is `NULL`.
* `size_t` values are natural numbers; `SIZE_MAX` is `2 ^ 64 - 1`, and the
  subtraction `i - j` wraps around (`size_sub`).
* `malloc` and `realloc` always succeed and hand out zero-filled cells; the
  byte count that `kmp_result_init` and `stack_init` pass to `malloc` is a
  `size_t` product and wraps around (`malloc_cells`).
* A `while` loop is a function that is structurally recursive on a step
  budget (`fuel`); it answers `none` when the budget is used up before the
  loop condition becomes false.
* Reading `a[i]` is `a.getD i 0`, writing `a[i] = v` is `a.set i v`.
* The searches with a matcher are embedded a second time over an explicit
  store (`Store`), in which a pointer is an address and the objects behind two
  pointers may overlap.
-/

namespace KMP

/-! ## Data model (`kmp_search.h`) -/

/-- The largest `size_t`; `(size_t)-1` evaluates to it. -/
def SIZE_MAX : Nat := 2 ^ 64 - 1

/-- The struct `KMPResult`: the cells of `positions` (`[]` for `NULL`),
`count` and `capacity`. -/
structure KMPResult where
  positions : List Nat
  count : Nat
  capacity : Nat
deriving DecidableEq, Repr

/-- The positions a `KMPResult` reports: the first `count` cells. -/
def KMPResult.found (r : KMPResult) : List Nat :=
  r.positions.take r.count

/-- Subtraction of two `size_t` values, which wraps around modulo
`SIZE_MAX + 1`. -/
def size_sub (a b : Nat) : Nat := (a + (SIZE_MAX + 1) - b) % (SIZE_MAX + 1)

/-! ## Result management -/

/-- The value of `sizeof(size_t)`. -/
def sizeof_size_t : Nat := 8

/-- The number of whole `size_t` cells in the block that
`malloc(count * sizeof(size_t))` hands out: the byte count is a `size_t`
product, so it is taken modulo `SIZE_MAX + 1`. -/
def malloc_cells (count : Nat) : Nat :=
  (count * sizeof_size_t % (SIZE_MAX + 1)) / sizeof_size_t

/-- The function `kmp_result_init`. The block behind `positions` has the
cells that fit into `initial_capacity * sizeof(size_t)` bytes, a product that
wraps around from `initial_capacity = 2 ^ 61` on, while `capacity` records
`initial_capacity` itself. -/
def kmp_result_init (result : Option KMPResult) (initial_capacity : Nat) :
    Bool × Option KMPResult :=
  match result with
  | none => (false, none)
  | some _ =>
    if initial_capacity > 0 then
      (true, some
        { positions := List.replicate (malloc_cells initial_capacity) 0, count := 0,
          capacity := initial_capacity })
    else
      (true, some { positions := [], count := 0, capacity := 0 })

/-- The function `kmp_result_destroy`, on a present result. -/
def kmp_result_destroy (_result : KMPResult) : KMPResult :=
  { positions := [], count := 0, capacity := 0 }

/-- The function `kmp_result_add_position`; `realloc` keeps the old cells and
appends zero-filled ones up to the new capacity. The products
`capacity * 2` and `new_capacity * sizeof(size_t)` are taken without
wrap-around, which is what the code computes as long as
`new_capacity * sizeof(size_t) ≤ SIZE_MAX`; `kmp_result_add_position_wrapping`
has them as the `size_t` products they are. -/
def kmp_result_add_position (result : Option KMPResult) (position : Nat) :
    Bool × Option KMPResult :=
  match result with
  | none => (false, none)
  | some r =>
    let r1 : KMPResult :=
      if r.count ≥ r.capacity then
        let new_capacity := if r.capacity = 0 then 8 else r.capacity * 2
        { positions := (r.positions ++ List.replicate new_capacity 0).take new_capacity,
          count := r.count, capacity := new_capacity }
      else r
    (true, some
      { positions := r1.positions.set r1.count position, count := r1.count + 1,
        capacity := r1.capacity })

/-- The `while (i < pattern_length)` loop of `kmp_build_failure_function`. -/
def kmp_build_failure_function_loop (pattern : List Nat) (pattern_length : Nat) :
    Nat → List Nat → Nat → Nat → Option (List Nat)
  | 0, failure_function, _, i =>
    if i < pattern_length then none else some failure_function
  | fuel + 1, failure_function, length, i =>
    if i < pattern_length then
      if pattern.getD i 0 = pattern.getD length 0 then
        kmp_build_failure_function_loop pattern pattern_length fuel
          (failure_function.set i (length + 1)) (length + 1) (i + 1)
      else if length ≠ 0 then
        kmp_build_failure_function_loop pattern pattern_length fuel
          failure_function (failure_function.getD (length - 1) 0) i
      else
        kmp_build_failure_function_loop pattern pattern_length fuel
          (failure_function.set i 0) length (i + 1)
    else some failure_function

/-- The function `kmp_build_failure_function`: the returned flag and the
contents of the output array afterwards (`none` when it is `NULL`). -/
def kmp_build_failure_function (fuel : Nat) (pattern : Option (List Nat))
    (pattern_length : Nat) (failure_function : Option (List Nat)) :
    Option (Bool × Option (List Nat)) :=
  match pattern, failure_function with
  | some p, some ff =>
    if pattern_length = 0 then some (false, some ff)
    else
      (kmp_build_failure_function_loop p pattern_length fuel (ff.set 0 0) 0 1).map
        fun out => (true, some out)
  | _, ff => some (false, ff)

/-! ## One-shot search -/

/-- The `while (i < text_length)` loop of `kmp_search`. -/
def kmp_search_loop (text : List Nat) (text_length : Nat) (pattern : List Nat)
    (pattern_length : Nat) (lps : List Nat) :
    Nat → Nat → Nat → KMPResult → Option (Bool × KMPResult)
  | 0, i, _, result => if i < text_length then none else some (true, result)
  | fuel + 1, i, j, result =>
    if i < text_length then
      let j1 := if pattern.getD j 0 = text.getD i 0 then j + 1 else j
      let i1 := if pattern.getD j 0 = text.getD i 0 then i + 1 else i
      if j1 = pattern_length then
        match kmp_result_add_position (some result) (size_sub i1 j1) with
        | (true, some result1) =>
          kmp_search_loop text text_length pattern pattern_length lps fuel
            i1 (lps.getD (j1 - 1) 0) result1
        | _ => some (false, kmp_result_destroy result)
      else if i1 < text_length ∧ pattern.getD j1 0 ≠ text.getD i1 0 then
        if j1 ≠ 0 then
          kmp_search_loop text text_length pattern pattern_length lps fuel
            i1 (lps.getD (j1 - 1) 0) result
        else
          kmp_search_loop text text_length pattern pattern_length lps fuel
            (i1 + 1) j1 result
      else
        kmp_search_loop text text_length pattern pattern_length lps fuel i1 j1 result
    else some (true, result)

/-- The function `kmp_search`: the returned flag and the result struct
afterwards (`none` when the result pointer is `NULL`). -/
def kmp_search (fuel : Nat) (text : Option (List Nat)) (text_length : Nat)
    (pattern : Option (List Nat)) (pattern_length : Nat) (result : Option KMPResult) :
    Option (Bool × Option KMPResult) :=
  match text, pattern, result with
  | some t, some p, some r0 =>
    match kmp_result_init (some r0) 10 with
    | (true, some r) =>
      if pattern_length = 0 ∨ text_length = 0 ∨ pattern_length > text_length then
        some (true, some r)
      else
        match kmp_build_failure_function fuel (some p) pattern_length
            (some (List.replicate pattern_length 0)) with
        | none => none
        | some (true, some lps) =>
          (kmp_search_loop t text_length p pattern_length lps fuel 0 0 r).map
            fun out => (out.1, some out.2)
        | some _ => some (false, some (kmp_result_destroy r))
    | (_, r) => some (false, r)
  | _, _, r => some (false, r)

/-- The `while (i < text_length)` loop of `kmp_search_first`: the value
stored in `*position` when the function returns. -/
def kmp_search_first_loop (text : List Nat) (text_length : Nat) (pattern : List Nat)
    (pattern_length : Nat) (lps : List Nat) :
    Nat → Nat → Nat → Nat → Option Nat
  | 0, i, _, position => if i < text_length then none else some position
  | fuel + 1, i, j, position =>
    if i < text_length then
      let j1 := if pattern.getD j 0 = text.getD i 0 then j + 1 else j
      let i1 := if pattern.getD j 0 = text.getD i 0 then i + 1 else i
      if j1 = pattern_length then some (size_sub i1 j1)
      else if i1 < text_length ∧ pattern.getD j1 0 ≠ text.getD i1 0 then
        if j1 ≠ 0 then
          kmp_search_first_loop text text_length pattern pattern_length lps fuel
            i1 (lps.getD (j1 - 1) 0) position
        else
          kmp_search_first_loop text text_length pattern pattern_length lps fuel
            (i1 + 1) j1 position
      else
        kmp_search_first_loop text text_length pattern pattern_length lps fuel
          i1 j1 position
    else some position

/-- The function `kmp_search_first`: the returned flag and the value of
`*position` afterwards (`none` when the position pointer is `NULL`). -/
def kmp_search_first (fuel : Nat) (text : Option (List Nat)) (text_length : Nat)
    (pattern : Option (List Nat)) (pattern_length : Nat) (position : Option Nat) :
    Option (Bool × Option Nat) :=
  match text, pattern, position with
  | some t, some p, some _ =>
    if pattern_length = 0 ∨ text_length = 0 ∨ pattern_length > text_length then
      some (true, some SIZE_MAX)
    else
      match kmp_build_failure_function fuel (some p) pattern_length
          (some (List.replicate pattern_length 0)) with
      | none => none
      | some (true, some lps) =>
        (kmp_search_first_loop t text_length p pattern_length lps fuel 0 0 SIZE_MAX).map
          fun pos => (true, some pos)
      | some _ => some (false, some SIZE_MAX)
  | _, _, pos => some (false, pos)

/-- The characters of a string literal, as the bytes the C tests pass. -/
def bytes (s : String) : List Nat := s.toList.map Char.toNat


/-! ## Reusable matcher -/

/-- The struct `KMPMatcher`: the pattern pointer, the pattern length and the
pointer to the precomputed failure function. -/
structure KMPMatcher where
  pattern : Option (List Nat)
  pattern_length : Nat
  failure_function : Option (List Nat)
deriving DecidableEq, Repr

/-- The cells behind a pointer stored in a struct (none behind `NULL`). -/
def deref (p : Option (List Nat)) : List Nat := p.getD []

/-- The function `kmp_matcher_init`: the returned flag and the matcher struct
afterwards (`none` when the matcher pointer is `NULL`). -/
def kmp_matcher_init (fuel : Nat) (matcher : Option KMPMatcher)
    (pattern : Option (List Nat)) (pattern_length : Nat) :
    Option (Bool × Option KMPMatcher) :=
  match matcher, pattern with
  | some _, some p =>
    if pattern_length = 0 then some (false, matcher)
    else
      match kmp_build_failure_function fuel (some p) pattern_length
          (some (List.replicate pattern_length 0)) with
      | none => none
      | some (true, some lps) =>
        some (true, some
          { pattern := some p, pattern_length := pattern_length,
            failure_function := some lps })
      | some _ =>
        some (false, some
          { pattern := some p, pattern_length := pattern_length,
            failure_function := none })
  | _, _ => some (false, matcher)

/-- The `while (i < text_length)` loop of `kmp_matcher_search`. -/
def kmp_matcher_search_loop (matcher : KMPMatcher) (text : List Nat) (text_length : Nat) :
    Nat → Nat → Nat → KMPResult → Option (Bool × KMPResult)
  | 0, i, _, result => if i < text_length then none else some (true, result)
  | fuel + 1, i, j, result =>
    if i < text_length then
      let j1 := if (deref matcher.pattern).getD j 0 = text.getD i 0 then j + 1 else j
      let i1 := if (deref matcher.pattern).getD j 0 = text.getD i 0 then i + 1 else i
      if j1 = matcher.pattern_length then
        match kmp_result_add_position (some result) (size_sub i1 j1) with
        | (true, some result1) =>
          kmp_matcher_search_loop matcher text text_length fuel
            i1 ((deref matcher.failure_function).getD (j1 - 1) 0) result1
        | _ => some (false, kmp_result_destroy result)
      else if i1 < text_length ∧ (deref matcher.pattern).getD j1 0 ≠ text.getD i1 0 then
        if j1 ≠ 0 then
          kmp_matcher_search_loop matcher text text_length fuel
            i1 ((deref matcher.failure_function).getD (j1 - 1) 0) result
        else
          kmp_matcher_search_loop matcher text text_length fuel (i1 + 1) j1 result
      else
        kmp_matcher_search_loop matcher text text_length fuel i1 j1 result
    else some (true, result)

/-- The function `kmp_matcher_search`: the returned flag, the matcher struct
afterwards and the result struct afterwards. The matcher is passed as a
pointer to `const` and the body has no assignment through it; what the stores
through `result` do to a matcher they overlap is the subject of
`kmp_matcher_search_store`. -/
def kmp_matcher_search (fuel : Nat) (matcher : Option KMPMatcher)
    (text : Option (List Nat)) (text_length : Nat) (result : Option KMPResult) :
    Option (Bool × Option KMPMatcher × Option KMPResult) :=
  match matcher, text, result with
  | some mt, some t, some r0 =>
    match kmp_result_init (some r0) 10 with
    | (true, some r) =>
      if mt.pattern_length = 0 ∨ text_length = 0 ∨ mt.pattern_length > text_length then
        some (true, some mt, some r)
      else
        (kmp_matcher_search_loop mt t text_length fuel 0 0 r).map
          fun out => (out.1, some mt, some out.2)
    | (_, r) => some (false, some mt, r)
  | mt, _, r => some (false, mt, r)

/-- The `while (i < text_length)` loop of `kmp_matcher_search_first`: the
value stored in `*position` when the function returns. -/
def kmp_matcher_search_first_loop (matcher : KMPMatcher) (text : List Nat)
    (text_length : Nat) : Nat → Nat → Nat → Nat → Option Nat
  | 0, i, _, position => if i < text_length then none else some position
  | fuel + 1, i, j, position =>
    if i < text_length then
      let j1 := if (deref matcher.pattern).getD j 0 = text.getD i 0 then j + 1 else j
      let i1 := if (deref matcher.pattern).getD j 0 = text.getD i 0 then i + 1 else i
      if j1 = matcher.pattern_length then some (size_sub i1 j1)
      else if i1 < text_length ∧ (deref matcher.pattern).getD j1 0 ≠ text.getD i1 0 then
        if j1 ≠ 0 then
          kmp_matcher_search_first_loop matcher text text_length fuel
            i1 ((deref matcher.failure_function).getD (j1 - 1) 0) position
        else
          kmp_matcher_search_first_loop matcher text text_length fuel (i1 + 1) j1 position
      else
        kmp_matcher_search_first_loop matcher text text_length fuel i1 j1 position
    else some position

/-- The function `kmp_matcher_search_first`: the returned flag, the matcher
struct afterwards and the value of `*position` afterwards. -/
def kmp_matcher_search_first (fuel : Nat) (matcher : Option KMPMatcher)
    (text : Option (List Nat)) (text_length : Nat) (position : Option Nat) :
    Option (Bool × Option KMPMatcher × Option Nat) :=
  match matcher, text, position with
  | some mt, some t, some _ =>
    if mt.pattern_length = 0 ∨ text_length = 0 ∨ mt.pattern_length > text_length then
      some (true, some mt, some SIZE_MAX)
    else
      (kmp_matcher_search_first_loop mt t text_length fuel 0 0 SIZE_MAX).map
        fun pos => (true, some mt, some pos)
  | mt, _, pos => some (false, mt, pos)

/-! ## Rendering a failure function -/

/-- An output buffer: its cells, and the indices written so far, in order. -/
structure OutBuf where
  cells : List Nat
  writes : List Nat
deriving DecidableEq, Repr

/-- The store `buffer[i] = v`. -/
def OutBuf.put (b : OutBuf) (i v : Nat) : OutBuf :=
  { cells := b.cells.set i v, writes := b.writes ++ [i] }

/-- The call `memcpy(buffer + offset, src, len)` with `len` the length of
`src`. -/
def OutBuf.memcpy (b : OutBuf) (offset : Nat) : List Nat → OutBuf
  | [] => b
  | c :: cs => (b.put offset c).memcpy (offset + 1) cs

/-- The decimal digits of `v` as character codes: what
`snprintf(num_str, sizeof(num_str), "%zu", v)` produces, its length being the
value `snprintf` returns. -/
def decimal (v : Nat) : List Nat := (Nat.toDigits 10 v).map Char.toNat

/-- How one pass through the body of the `for` loop ends. -/
inductive Flow where
  /-- The body ran to its end. -/
  | next (offset : Nat) (buffer : OutBuf)
  /-- The body left the loop with `break`. -/
  | brk (offset : Nat) (buffer : OutBuf)
  /-- The body left the function with `return value`. -/
  | ret (value : Bool) (buffer : OutBuf)
deriving DecidableEq, Repr

/-- The part of the loop body that formats and copies the number
`failure_function[i]`. -/
def to_string_number (failure_function : List Nat) (buffer_size i offset : Nat)
    (buffer : OutBuf) : Flow :=
  let num_str := decimal (failure_function.getD i 0)
  let len := num_str.length
  if len ≥ 32 then Flow.ret false buffer
  else if offset + len ≥ buffer_size - 1 then Flow.brk offset buffer
  else Flow.next (offset + len) (buffer.memcpy offset num_str)

/-- The body of the `for` loop of `kmp_failure_function_to_string`. -/
def to_string_body (failure_function : List Nat) (buffer_size i offset : Nat)
    (buffer : OutBuf) : Flow :=
  if i > 0 then
    let buffer1 := buffer.put offset 44
    if offset + 1 ≥ buffer_size - 1 then Flow.brk (offset + 1) buffer1
    else
      to_string_number failure_function buffer_size i (offset + 1 + 1)
        (buffer1.put (offset + 1) 32)
  else to_string_number failure_function buffer_size i offset buffer

/-- The `for` loop of `kmp_failure_function_to_string`; leaving the loop
because its condition fails is reported like a `break`. -/
def to_string_loop (failure_function : List Nat) (length buffer_size : Nat) :
    Nat → Nat → Nat → OutBuf → Option Flow
  | 0, i, offset, buffer =>
    if i < length ∧ offset < buffer_size - 1 then none else some (Flow.brk offset buffer)
  | fuel + 1, i, offset, buffer =>
    if i < length ∧ offset < buffer_size - 1 then
      match to_string_body failure_function buffer_size i offset buffer with
      | Flow.next offset1 buffer1 =>
        to_string_loop failure_function length buffer_size fuel (i + 1) offset1 buffer1
      | other => some other
    else some (Flow.brk offset buffer)

/-- The function `kmp_failure_function_to_string`: the returned flag and the
output buffer afterwards (`none` when the buffer pointer is `NULL`). -/
def kmp_failure_function_to_string (fuel : Nat) (failure_function : Option (List Nat))
    (length : Nat) (buffer : Option (List Nat)) (buffer_size : Nat) :
    Option (Bool × Option OutBuf) :=
  match failure_function, buffer with
  | some ff, some buf =>
    if buffer_size = 0 then some (false, some { cells := buf, writes := [] })
    else
      match to_string_loop ff length buffer_size fuel 0 1
          (OutBuf.put { cells := buf, writes := [] } 0 91) with
      | none => none
      | some (Flow.ret value b) => some (value, some b)
      | some (Flow.brk offset b) | some (Flow.next offset b) =>
        if offset < buffer_size - 1 then
          some (true, some ((b.put offset 93).put (offset + 1) 0))
        else some (true, some (b.put offset 0))
  | _, _ => some (false, buffer.map fun buf => { cells := buf, writes := [] })

/-! ## The C++ implementation (`kmp_search.cpp`)

Strings are lists of character codes, `std::vector<int>` is `List Int`, and
an `int` variable is an `Int`; a `size_t` converted to `int` goes through
`static_cast_int`. -/

/-- The conversion `static_cast<int>` of a `size_t`: the value modulo `2 ^ 32`,
read as a signed 32-bit integer. -/
def static_cast_int (n : Nat) : Int :=
  if n % 2 ^ 32 < 2 ^ 31 then ((n % 2 ^ 32 : Nat) : Int)
  else ((n % 2 ^ 32 : Nat) : Int) - 2 ^ 32

/-- The `while (i < m)` loop of the C++ `buildFailureFunction`. -/
def buildFailureFunction_loop (pattern : List Nat) (m : Int) :
    Nat → List Int → Int → Int → Option (List Int)
  | 0, lps, _, i => if i < m then none else some lps
  | fuel + 1, lps, length, i =>
    if i < m then
      if pattern.getD i.toNat 0 = pattern.getD length.toNat 0 then
        buildFailureFunction_loop pattern m fuel
          (lps.set i.toNat (length + 1)) (length + 1) (i + 1)
      else if length ≠ 0 then
        buildFailureFunction_loop pattern m fuel lps (lps.getD (length - 1).toNat 0) i
      else
        buildFailureFunction_loop pattern m fuel (lps.set i.toNat 0) length (i + 1)
    else some lps

/-- The C++ function `buildFailureFunction`. -/
def buildFailureFunction (fuel : Nat) (pattern : List Nat) : Option (List Int) :=
  if pattern.isEmpty then some []
  else
    let m := static_cast_int pattern.length
    buildFailureFunction_loop pattern m fuel (List.replicate m.toNat 0) 0 1

/-- The `while (i < n)` loop of the C++ `kmpSearch`. -/
def kmpSearch_loop (text pattern : List Nat) (n m : Int) (lps : List Int) :
    Nat → Int → Int → List Int → Option (List Int)
  | 0, i, _, positions => if i < n then none else some positions
  | fuel + 1, i, j, positions =>
    if i < n then
      let j1 := if pattern.getD j.toNat 0 = text.getD i.toNat 0 then j + 1 else j
      let i1 := if pattern.getD j.toNat 0 = text.getD i.toNat 0 then i + 1 else i
      if j1 = m then
        kmpSearch_loop text pattern n m lps fuel i1 (lps.getD (j1 - 1).toNat 0)
          (positions ++ [i1 - j1])
      else if i1 < n ∧ pattern.getD j1.toNat 0 ≠ text.getD i1.toNat 0 then
        if j1 ≠ 0 then
          kmpSearch_loop text pattern n m lps fuel i1 (lps.getD (j1 - 1).toNat 0) positions
        else
          kmpSearch_loop text pattern n m lps fuel (i1 + 1) j1 positions
      else
        kmpSearch_loop text pattern n m lps fuel i1 j1 positions
    else some positions

/-- The C++ function `kmpSearch`. -/
def kmpSearch (fuel : Nat) (text pattern : List Nat) : Option (List Int) :=
  if text.isEmpty ∨ pattern.isEmpty then some []
  else
    let n := static_cast_int text.length
    let m := static_cast_int pattern.length
    match buildFailureFunction fuel pattern with
    | none => none
    | some lps => kmpSearch_loop text pattern n m lps fuel 0 0 []

/-- The C++ function `kmpSearchFirst`. -/
def kmpSearchFirst (fuel : Nat) (text pattern : List Nat) : Option Int :=
  (kmpSearch fuel text pattern).map fun positions =>
    if positions.isEmpty then -1 else positions.getD 0 0

/-! ## Specification vocabulary -/

/-- The first `k` characters of `p` are the `k` characters of `t` that end
just before index `i`: `p[0..k) = t[i-k..i)`. -/
def Mat (p t : List Nat) (i k : Nat) : Prop :=
  k ≤ i ∧ ∀ x, x < k → p.getD x 0 = t.getD (i - k + x) 0

instance (p t : List Nat) (i k : Nat) : Decidable (Mat p t i k) := by
  unfold Mat; infer_instance

/-- The number `v` is the length of the longest proper prefix of `p[0..i]`
that is also a suffix of `p[0..i]`. -/
structure IsLps (p : List Nat) (i v : Nat) : Prop where
  le : v ≤ i
  border : Mat p p (i + 1) v
  longest : ∀ k, k ≤ i → Mat p p (i + 1) k → k ≤ v

/-- The list `s` has a proper prefix of length `v` that is also a suffix of
`s`: its first `v` elements are its last `v` elements, and `v < |s|`. -/
def HasBorder (s : List Nat) (v : Nat) : Prop :=
  v < s.length ∧ s.take v = s.drop (s.length - v)

instance (s : List Nat) (v : Nat) : Decidable (HasBorder s v) := by
  unfold HasBorder; infer_instance

/-- The number `v` is the length of the longest proper prefix of `s` that is
also a suffix of `s`. -/
def LongestBorder (s : List Nat) (v : Nat) : Prop :=
  HasBorder s v ∧ ∀ k, HasBorder s k → k ≤ v

/-- The pattern `p` occurs in `t` at offset `k`: `t[k .. k+|p|) = p`. -/
def OccursAt (t p : List Nat) (k : Nat) : Prop :=
  (t.drop k).take p.length = p

instance (t p : List Nat) (k : Nat) : Decidable (OccursAt t p k) := by
  unfold OccursAt; infer_instance

/-- The offsets below `bound` at which the first `m` characters of `p` occur
in `t`, in increasing order. -/
def occurrences (t p : List Nat) (m bound : Nat) : List Nat :=
  (List.range bound).filter fun s => decide (Mat p t (s + m) m)

/-- The full rendering of a failure-function array: "[", the decimal values
separated by ", ", and "]". -/
def render (ff : List Nat) : List Nat :=
  [91] ++ List.intercalate [44, 32] (ff.map decimal) ++ [93]

/-- The rendering of the items after the first one: each is preceded by
", ". -/
def renderRest : List Nat → List Nat
  | [] => []
  | v :: vs => [44, 32] ++ decimal v ++ renderRest vs

/-- The rendering of the items from index `i` on, as the loop emits them. -/
def renderFrom (i : Nat) (items : List Nat) : List Nat :=
  match i, items with
  | _, [] => []
  | 0, v :: vs => decimal v ++ renderRest vs
  | _ + 1, items => renderRest items

/-- Every store into the buffer so far went to an index below `buffer_size`. -/
def OutBuf.Safe (buffer_size : Nat) (b : OutBuf) : Prop :=
  ∀ w, w ∈ b.writes → w < buffer_size

/-- A pass through the loop body kept every store below `buffer_size` and left
`offset` at most `buffer_size - 1`. -/
def Flow.Safe (buffer_size : Nat) : Flow → Prop
  | Flow.next offset b => offset ≤ buffer_size - 1 ∧ b.Safe buffer_size
  | Flow.brk offset b => offset ≤ buffer_size - 1 ∧ b.Safe buffer_size
  | Flow.ret _ b => b.Safe buffer_size

/-! ## Loop invariants -/

/-- Loop invariant of `kmp_build_failure_function` at the loop head. -/
structure BuildInv (p : List Nat) (m : Nat) (ff : List Nat) (len i : Nat) : Prop where
  i_pos : 1 ≤ i
  i_le : i ≤ m
  len_lt : len < i
  size : m ≤ ff.length
  border : Mat p p i len
  done : ∀ k, k < i → IsLps p k (ff.getD k 0)
  cand : ∀ k, k ≤ i → Mat p p (i + 1) k → k ≤ len + 1

/-- Loop invariant of the scan at the loop head: `j` characters of the
pattern match the text just before `i`, and no match ending at `i + 1` is
longer than `j + 1`. -/
structure ScanInv (t p : List Nat) (n m i j : Nat) : Prop where
  i_le : i ≤ n
  j_lt : j < m
  mat : Mat p t i j
  cand : ∀ k, k ≤ m → Mat p t (i + 1) k → k ≤ j + 1

/-- A result struct whose `positions` array has `capacity` cells, the first
`count` of them in use. -/
def KMPResult.WF (r : KMPResult) : Prop :=
  r.count ≤ r.capacity ∧ r.positions.length = r.capacity

end KMP

/-!
# Binary search: embedding of `binary_search.c`

Arrays of `int` are lists of integers, `size_t` indices are natural numbers,
and the conversion `(int)mid` goes through `size_to_int`. The subtractions
`size - 1`, `right - left` and `mid - 1` are guarded in the source by
`size == 0`, `left <= right` and `mid == 0`.
-/

namespace BinarySearch

/-- The largest `int`. -/
def INT_MAX : Nat := 2 ^ 31 - 1

/-- The conversion `(int)mid` of a `size_t`: the value modulo `2 ^ 32`, read
as a signed 32-bit integer. -/
def size_to_int (n : Nat) : Int :=
  if n % 2 ^ 32 < 2 ^ 31 then ((n % 2 ^ 32 : Nat) : Int)
  else ((n % 2 ^ 32 : Nat) : Int) - 2 ^ 32

/-- The struct `BinarySearchResult`. -/
structure BinarySearchResult where
  index : Int
  found : Bool
deriving DecidableEq, Repr

/-- The `while (left <= right)` loop of `binary_search`, up to the `return`
that follows it. -/
def binary_search_loop (arr : List Int) (target : Int) :
    Nat → Nat → Nat → BinarySearchResult → Option BinarySearchResult
  | 0, left, right, result => if left ≤ right then none else some result
  | fuel + 1, left, right, result =>
    if left ≤ right then
      let mid := left + (right - left) / 2
      if arr.getD mid 0 = target then
        some { result with index := size_to_int mid, found := true }
      else if arr.getD mid 0 < target then
        binary_search_loop arr target fuel (mid + 1) right result
      else
        if mid = 0 then some result
        else binary_search_loop arr target fuel left (mid - 1) result
    else some result

/-- The function `binary_search`. -/
def binary_search (fuel : Nat) (arr : Option (List Int)) (size : Nat) (target : Int) :
    Option BinarySearchResult :=
  match arr with
  | none => some { index := -1, found := false }
  | some a =>
    if size = 0 then some { index := -1, found := false }
    else binary_search_loop a target fuel 0 (size - 1) { index := -1, found := false }

/-- Loop invariant of `binary_search`: everything left of `left` is below the
target and everything right of `right` is above it. -/
structure SearchInv (arr : List Int) (target : Int) (left right : Nat) : Prop where
  right_lt : right < arr.length
  left_le : left ≤ right + 1
  below : ∀ k, k < left → arr.getD k 0 < target
  above : ∀ k, right < k → k < arr.length → target < arr.getD k 0

/-- The function `binary_search_recursive_helper`; the step budget bounds the
depth of the recursion. -/
def binary_search_recursive_helper (arr : List Int) (target : Int) :
    Nat → Nat → Nat → Option BinarySearchResult
  | 0, left, right =>
    if left > right then some { index := -1, found := false } else none
  | fuel + 1, left, right =>
    if left > right then some { index := -1, found := false }
    else
      let mid := left + (right - left) / 2
      if arr.getD mid 0 = target then some { index := size_to_int mid, found := true }
      else if arr.getD mid 0 < target then
        binary_search_recursive_helper arr target fuel (mid + 1) right
      else
        if mid = 0 then some { index := -1, found := false }
        else binary_search_recursive_helper arr target fuel left (mid - 1)

/-- The function `binary_search_recursive`. -/
def binary_search_recursive (fuel : Nat) (arr : Option (List Int)) (size : Nat)
    (target : Int) : Option BinarySearchResult :=
  match arr with
  | none => some { index := -1, found := false }
  | some a =>
    if size = 0 then some { index := -1, found := false }
    else binary_search_recursive_helper a target fuel 0 (size - 1)

/-- The `while (left <= right)` loop of `binary_search_first_occurrence`: the
values of `first_index` and `result` when the loop is left. -/
def binary_search_first_occurrence_loop (arr : List Int) (target : Int) :
    Nat → Nat → Nat → Int → BinarySearchResult → Option (Int × BinarySearchResult)
  | 0, left, right, first_index, result =>
    if left ≤ right then none else some (first_index, result)
  | fuel + 1, left, right, first_index, result =>
    if left ≤ right then
      let mid := left + (right - left) / 2
      if arr.getD mid 0 = target then
        if mid = 0 then some (size_to_int mid, { result with found := true })
        else
          binary_search_first_occurrence_loop arr target fuel left (mid - 1)
            (size_to_int mid) { result with found := true }
      else if arr.getD mid 0 < target then
        binary_search_first_occurrence_loop arr target fuel (mid + 1) right first_index result
      else
        if mid = 0 then some (first_index, result)
        else
          binary_search_first_occurrence_loop arr target fuel left (mid - 1) first_index
            result
    else some (first_index, result)

/-- The function `binary_search_first_occurrence`. -/
def binary_search_first_occurrence (fuel : Nat) (arr : Option (List Int)) (size : Nat)
    (target : Int) : Option BinarySearchResult :=
  match arr with
  | none => some { index := -1, found := false }
  | some a =>
    if size = 0 then some { index := -1, found := false }
    else
      (binary_search_first_occurrence_loop a target fuel 0 (size - 1) (-1)
        { index := -1, found := false }).map fun out => { out.2 with index := out.1 }

/-- The `while (left <= right)` loop of `binary_search_last_occurrence`: the
values of `last_index` and `result` when the loop is left. -/
def binary_search_last_occurrence_loop (arr : List Int) (target : Int) :
    Nat → Nat → Nat → Int → BinarySearchResult → Option (Int × BinarySearchResult)
  | 0, left, right, last_index, result =>
    if left ≤ right then none else some (last_index, result)
  | fuel + 1, left, right, last_index, result =>
    if left ≤ right then
      let mid := left + (right - left) / 2
      if arr.getD mid 0 = target then
        binary_search_last_occurrence_loop arr target fuel (mid + 1) right
          (size_to_int mid) { result with found := true }
      else if arr.getD mid 0 < target then
        binary_search_last_occurrence_loop arr target fuel (mid + 1) right last_index result
      else
        if mid = 0 then some (last_index, result)
        else
          binary_search_last_occurrence_loop arr target fuel left (mid - 1) last_index result
    else some (last_index, result)

/-- The function `binary_search_last_occurrence`. -/
def binary_search_last_occurrence (fuel : Nat) (arr : Option (List Int)) (size : Nat)
    (target : Int) : Option BinarySearchResult :=
  match arr with
  | none => some { index := -1, found := false }
  | some a =>
    if size = 0 then some { index := -1, found := false }
    else
      (binary_search_last_occurrence_loop a target fuel 0 (size - 1) (-1)
        { index := -1, found := false }).map fun out => { out.2 with index := out.1 }

/-- The `while (left < right)` loop of `binary_search_insertion_point`: the
value of `left` when the loop is left. -/
def binary_search_insertion_point_loop (arr : List Int) (target : Int) :
    Nat → Nat → Nat → Option Nat
  | 0, left, right => if left < right then none else some left
  | fuel + 1, left, right =>
    if left < right then
      let mid := left + (right - left) / 2
      if arr.getD mid 0 < target then
        binary_search_insertion_point_loop arr target fuel (mid + 1) right
      else binary_search_insertion_point_loop arr target fuel left mid
    else some left

/-- The function `binary_search_insertion_point`. -/
def binary_search_insertion_point (fuel : Nat) (arr : Option (List Int)) (size : Nat)
    (target : Int) : Option Nat :=
  match arr with
  | none => some 0
  | some a => binary_search_insertion_point_loop a target fuel 0 size

/-- Loop invariant of `binary_search_first_occurrence`: everything left of
`left` is below the target, everything right of `right` is at least the
target, and a recorded `first_index` is the cell just right of `right`. -/
structure FirstInv (arr : List Int) (target : Int) (left right : Nat) (first_index : Int)
    (found : Bool) : Prop where
  right_lt : right < arr.length
  left_le : left ≤ right + 1
  below : ∀ k, k < left → arr.getD k 0 < target
  above : ∀ k, right < k → k < arr.length → target ≤ arr.getD k 0
  hit : found = true →
    right + 1 < arr.length ∧ arr.getD (right + 1) 0 = target ∧
      first_index = size_to_int (right + 1)
  miss : found = false →
    first_index = -1 ∧ ∀ k, right < k → k < arr.length → target < arr.getD k 0

/-- Loop invariant of `binary_search_last_occurrence`: everything left of
`left` is at most the target, everything right of `right` is above it, and a
recorded `last_index` is the cell just left of `left`. -/
structure LastInv (arr : List Int) (target : Int) (left right : Nat) (last_index : Int)
    (found : Bool) : Prop where
  right_lt : right < arr.length
  left_le : left ≤ right + 1
  below : ∀ k, k < left → arr.getD k 0 ≤ target
  above : ∀ k, right < k → k < arr.length → target < arr.getD k 0
  hit : found = true →
    1 ≤ left ∧ arr.getD (left - 1) 0 = target ∧ last_index = size_to_int (left - 1)
  miss : found = false → last_index = -1 ∧ ∀ k, k < left → arr.getD k 0 < target

/-- Loop invariant of `binary_search_insertion_point`. -/
structure InsertInv (arr : List Int) (target : Int) (left right : Nat) : Prop where
  left_le : left ≤ right
  right_le : right ≤ arr.length
  below : ∀ k, k < left → arr.getD k 0 < target
  above : ∀ k, right ≤ k → k < arr.length → target ≤ arr.getD k 0

end BinarySearch

/-!
# Bubble sort: embedding of `bubble_sort.c`

Arrays of `int` are lists of integers. In `length - i - 1` the index `i` is
below `length`, so the subtraction does not wrap.
-/

namespace BubbleSort

/-- The function `swap`, called on the cells `a` and `b` of `arr`. -/
def swap (arr : List Int) (a b : Nat) : List Int :=
  let temp := arr.getD a 0
  (arr.set a (arr.getD b 0)).set b temp

/-- The inner `for (j = 0; j < length - i - 1; j++)` loop of `bubble_sort`: the
array and the flag `swapped` when the loop is left. -/
def bubble_sort_inner (length i : Nat) : Nat → Nat → List Int → Bool →
    Option (List Int × Bool)
  | 0, j, arr, swapped => if j < length - i - 1 then none else some (arr, swapped)
  | fuel + 1, j, arr, swapped =>
    if j < length - i - 1 then
      if arr.getD j 0 > arr.getD (j + 1) 0 then
        bubble_sort_inner length i fuel (j + 1) (swap arr j (j + 1)) true
      else bubble_sort_inner length i fuel (j + 1) arr swapped
    else some (arr, swapped)

/-- The outer `for (i = 0; i < length; i++)` loop of `bubble_sort`; every run
of the inner loop gets the step budget `inner_fuel`. -/
def bubble_sort_outer (length inner_fuel : Nat) : Nat → Nat → List Int → Option (List Int)
  | 0, i, arr => if i < length then none else some arr
  | fuel + 1, i, arr =>
    if i < length then
      match bubble_sort_inner length i inner_fuel 0 arr false with
      | none => none
      | some (arr1, swapped) =>
        if !swapped then some arr1
        else bubble_sort_outer length inner_fuel fuel (i + 1) arr1
    else some arr

/-- The function `bubble_sort`: the returned flag and the array afterwards
(`none` when the array pointer is `NULL`). -/
def bubble_sort (fuel : Nat) (arr : Option (List Int)) (length : Nat) :
    Option (Bool × Option (List Int)) :=
  match arr with
  | none => some (true, none)
  | some a =>
    if length = 0 then some (true, some a)
    else (bubble_sort_outer length fuel fuel 0 a).map fun out => (true, some out)

/-- The cells from index `m` on hold their final values: each is at least
every cell before it. -/
def Settled (arr : List Int) (n m : Nat) : Prop :=
  ∀ k l, m ≤ l → k ≤ l → l < n → arr.getD k 0 ≤ arr.getD l 0

/-- What one run of the inner loop from `j` up to `b` guarantees. -/
structure InnerPost (arr out : List Int) (j b : Nat) (sw sw1 : Bool) : Prop where
  perm : out.Perm arr
  length_eq : out.length = arr.length
  tail_eq : ∀ k, b < k → out.getD k 0 = arr.getD k 0
  bound : ∀ M, (∀ k, k ≤ b → arr.getD k 0 ≤ M) → ∀ k, k ≤ b → out.getD k 0 ≤ M
  top : (∀ k, k ≤ j → arr.getD k 0 ≤ arr.getD j 0) → ∀ k, k ≤ b → out.getD k 0 ≤ out.getD b 0
  quiet : sw1 = false → out = arr ∧ ∀ k, j ≤ k → k < b → arr.getD k 0 ≤ arr.getD (k + 1) 0
  sticky : sw = true → sw1 = true

end BubbleSort

/-!
# Stack: embedding of `stack.c`

A stored `void*` is a natural number, the `items` array is the list of its
cells (`[]` for `NULL`), and `malloc` and `realloc` always succeed and hand out
zero-filled cells. A function that takes the stack as pointer to `const`
gives the stack back as it got it.
-/

namespace CStack

/-- The enum `StackResult`. -/
inductive StackResult where
  | STACK_SUCCESS
  | STACK_ERROR_NULL_POINTER
  | STACK_ERROR_OVERFLOW
  | STACK_ERROR_UNDERFLOW
  | STACK_ERROR_MEMORY
  | STACK_ERROR_INVALID_ARGUMENT
deriving DecidableEq, Repr

open StackResult

/-- The struct `Stack`. -/
structure Stack where
  items : List Nat
  size : Nat
  capacity : Nat
deriving DecidableEq, Repr

/-- The largest `size_t`. -/
def SIZE_MAX : Nat := 2 ^ 64 - 1

/-- The value of `sizeof(void*)`. -/
def sizeof_pointer : Nat := 8

/-- The number of whole `void*` cells in the block that
`malloc(count * sizeof(void*))` hands out: the byte count is a `size_t`
product, so it is taken modulo `SIZE_MAX + 1`. -/
def malloc_cells (count : Nat) : Nat :=
  (count * sizeof_pointer % (SIZE_MAX + 1)) / sizeof_pointer

/-- The function `stack_init`. The block behind `items` has the cells that
fit into `initial_capacity * sizeof(void*)` bytes, a product that wraps
around from `initial_capacity = 2 ^ 61` on, while `capacity` records
`initial_capacity` itself. -/
def stack_init (stack : Option Stack) (initial_capacity : Nat) :
    StackResult × Option Stack :=
  match stack with
  | none => (STACK_ERROR_NULL_POINTER, none)
  | some _ =>
    if initial_capacity > 0 then
      (STACK_SUCCESS, some
        { items := List.replicate (malloc_cells initial_capacity) 0, size := 0,
          capacity := initial_capacity })
    else (STACK_SUCCESS, some { items := [], size := 0, capacity := initial_capacity })

/-- The function `stack_push`. -/
def stack_push (stack : Option Stack) (item : Nat) : StackResult × Option Stack :=
  match stack with
  | none => (STACK_ERROR_NULL_POINTER, none)
  | some s =>
    if s.capacity > 0 ∧ s.size ≥ s.capacity then (STACK_ERROR_OVERFLOW, some s)
    else
      let s1 : Stack :=
        if s.capacity = 0 ∨ s.size ≥ s.capacity then
          let new_capacity := if s.capacity = 0 then 8 else s.capacity * 2
          { items := (s.items ++ List.replicate new_capacity 0).take new_capacity,
            size := s.size, capacity := new_capacity }
        else s
      (STACK_SUCCESS, some
        { items := s1.items.set s1.size item, size := s1.size + 1,
          capacity := s1.capacity })

/-- A stack whose `items` array has `capacity` cells, the first `size` of
them in use. -/
def Stack.WF (s : Stack) : Prop :=
  s.size ≤ s.capacity ∧ s.items.length = s.capacity

instance (s : Stack) : Decidable s.WF :=
  inferInstanceAs (Decidable (s.size ≤ s.capacity ∧ s.items.length = s.capacity))

/-- The stored elements, bottom first. -/
def Stack.elements (s : Stack) : List Nat :=
  s.items.take s.size

end CStack

/-!
# Stack, C++: embedding of `stack.cpp`

A `std::vector` is the list of its elements, first element first:
`push_back(x)` appends `x`, `back()` is the last element and `pop_back()`
removes it. A `throw` is an `Except.error`. A `std::string` is the list of its
characters, and a range-`for` over it is a recursion over that list.
-/

namespace CppStack

/-- The exceptions thrown by the stack classes. -/
inductive Error where
  | overflow_error
  | underflow_error
deriving DecidableEq, Repr

/-- The class template `Stack<T>`. -/
structure Stack (T : Type) where
  _items : List T
  _capacity : Nat
deriving DecidableEq, Repr

/-- The constructor `Stack(size_t capacity = 0)`. -/
def Stack.new (T : Type) (capacity : Nat) : Stack T :=
  { _items := [], _capacity := capacity }

/-- The method `Stack::push`. -/
def Stack.push {T : Type} (s : Stack T) (item : T) : Except Error (Stack T) :=
  if s._capacity > 0 ∧ s._items.length ≥ s._capacity then Except.error Error.overflow_error
  else Except.ok { s with _items := s._items ++ [item] }

/-- The method `Stack::isEmpty`. -/
def Stack.isEmpty {T : Type} (s : Stack T) : Bool :=
  s._items.isEmpty

/-- The method `Stack::pop`: the returned element and the stack afterwards. -/
def Stack.pop {T : Type} (s : Stack T) : Except Error (T × Stack T) :=
  match s._items.getLast? with
  | none => Except.error Error.underflow_error
  | some top => Except.ok (top, { s with _items := s._items.dropLast })

/-- The class `MinStack`. -/
structure MinStack where
  _stack : List Int
  _minStack : List Int
deriving DecidableEq, Repr

/-- The constructor `MinStack()`. -/
def MinStack.new : MinStack :=
  { _stack := [], _minStack := [] }

/-- The method `MinStack::push`. -/
def MinStack.push (s : MinStack) (item : Int) : MinStack :=
  let _stack1 := s._stack ++ [item]
  match s._minStack.getLast? with
  | none => { _stack := _stack1, _minStack := s._minStack ++ [item] }
  | some back =>
    if item ≤ back then { _stack := _stack1, _minStack := s._minStack ++ [item] }
    else { _stack := _stack1, _minStack := s._minStack }

/-- The method `MinStack::pop`: the returned element and the stack
afterwards. -/
def MinStack.pop (s : MinStack) : Except Error (Int × MinStack) :=
  match s._stack.getLast? with
  | none => Except.error Error.underflow_error
  | some popped =>
    let _stack1 := s._stack.dropLast
    if s._minStack.getLast? = some popped then
      Except.ok (popped, { _stack := _stack1, _minStack := s._minStack.dropLast })
    else Except.ok (popped, { _stack := _stack1, _minStack := s._minStack })

/-- The method `MinStack::getMin`. -/
def MinStack.getMin (s : MinStack) : Except Error Int :=
  match s._minStack.getLast? with
  | none => Except.error Error.underflow_error
  | some back => Except.ok back

/-- A call of `push` or of `pop` on a `MinStack`. -/
inductive MinStackOp where
  | push (item : Int)
  | pop
deriving DecidableEq, Repr

/-- The `MinStack` after the calls `ops`, made in order; the error of the first
call that throws. -/
def MinStack.run : List MinStackOp → MinStack → Except Error MinStack
  | [], s => Except.ok s
  | MinStackOp.push item :: ops, s => MinStack.run ops (s.push item)
  | MinStackOp.pop :: ops, s =>
    match s.pop with
    | Except.error e => Except.error e
    | Except.ok (_, s1) => MinStack.run ops s1

/-- The elements a stack holds after the calls `ops` on the elements
`elements`, bottom first: `push` adds on top, `pop` removes the top. -/
def contents : List MinStackOp → List Int → List Int
  | [], elements => elements
  | MinStackOp.push item :: ops, elements => contents ops (elements ++ [item])
  | MinStackOp.pop :: ops, elements => contents ops elements.dropLast

/-- The running minima of a stack's elements, bottom first: an element is
recorded when nothing is recorded yet or when it is at most the last one
recorded. -/
def minima (elements : List Int) : List Int :=
  elements.foldl
    (fun acc x =>
      match acc.getLast? with
      | none => acc ++ [x]
      | some back => if x ≤ back then acc ++ [x] else acc)
    []

/-- The `for (char ch : expression)` loop of `balancedParentheses`, up to the
`return` that follows it. -/
def balancedParentheses_loop : List Char → Stack Char → Except Error Bool
  | [], stack => Except.ok stack.isEmpty
  | ch :: rest, stack =>
    if ch = '(' ∨ ch = '[' ∨ ch = '{' then
      match stack.push ch with
      | Except.error e => Except.error e
      | Except.ok stack1 => balancedParentheses_loop rest stack1
    else if ch = ')' ∨ ch = ']' ∨ ch = '}' then
      if stack.isEmpty then Except.ok false
      else
        match stack.pop with
        | Except.error e => Except.error e
        | Except.ok (top, stack1) =>
          if (ch = ')' ∧ top ≠ '(') ∨ (ch = ']' ∧ top ≠ '[') ∨ (ch = '}' ∧ top ≠ '{') then
            Except.ok false
          else balancedParentheses_loop rest stack1
    else balancedParentheses_loop rest stack

/-- The function `balancedParentheses`. -/
def balancedParentheses (expression : List Char) : Except Error Bool :=
  balancedParentheses_loop expression (Stack.new Char 0)

/-- The character is one of the six brackets. -/
def isBracket (ch : Char) : Bool :=
  ch = '(' ∨ ch = ')' ∨ ch = '[' ∨ ch = ']' ∨ ch = '{' ∨ ch = '}'

/-- A properly nested sequence of brackets: empty, a properly nested sequence
wrapped in a pair of brackets of one type, or two properly nested sequences
one after the other. -/
inductive Nested : List Char → Prop where
  | nil : Nested []
  | round (w : List Char) : Nested w → Nested ('(' :: w ++ [')'])
  | square (w : List Char) : Nested w → Nested ('[' :: w ++ [']'])
  | curly (w : List Char) : Nested w → Nested ('{' :: w ++ ['}'])
  | append (u v : List Char) : Nested u → Nested v → Nested (u ++ v)

/-- The bracket check on a stack kept as a list with its top first. -/
def check : List Char → List Char → Bool
  | [], st => st.isEmpty
  | ch :: rest, st =>
    if ch = '(' ∨ ch = '[' ∨ ch = '{' then check rest (ch :: st)
    else if ch = ')' ∨ ch = ']' ∨ ch = '}' then
      match st with
      | [] => false
      | top :: st1 =>
        if (ch = ')' ∧ top ≠ '(') ∨ (ch = ']' ∧ top ≠ '[') ∨ (ch = '}' ∧ top ≠ '{') then false
        else check rest st1
    else check rest st

/-- The text `p` read so far is properly nested except for the opening
brackets `st` (most recent first) that are still unclosed. -/
def Pending : List Char → List Char → Prop
  | [], p => Nested p
  | o :: st, p => ∃ p1 p2, p = p1 ++ o :: p2 ∧ Pending st p1 ∧ Nested p2

end CppStack

/-!
# Bubble sort: `bubble_sort_with_result` and `bubble_sort_generic`

The counters `comparisons` and `swaps` are `size_t` values: `++` wraps
around modulo `SIZE_MAX + 1`. The member `array` of `BubbleSortResult` points
to the array that is sorted in place; the array is passed along on its own.
For `bubble_sort_generic` the array is the list of its elements, each element
the list of its `element_size` bytes, so that `arr + j * element_size` is the
element with index `j`.
-/

namespace BubbleSort

/-- The largest `size_t`. -/
def SIZE_MAX : Nat := 2 ^ 64 - 1

/-- The struct `BubbleSortResult` without its `array` pointer. -/
structure BubbleSortResult where
  length : Nat
  comparisons : Nat
  swaps : Nat
deriving DecidableEq, Repr

/-- The inner `for (j = 0; j < length - i - 1; j++)` loop of
`bubble_sort_with_result`: the array, the flag `swapped` and the result struct
when the loop is left. -/
def bubble_sort_with_result_inner (length i : Nat) :
    Nat → Nat → List Int → Bool → BubbleSortResult →
      Option (List Int × Bool × BubbleSortResult)
  | 0, j, arr, swapped, result =>
    if j < length - i - 1 then none else some (arr, swapped, result)
  | fuel + 1, j, arr, swapped, result =>
    if j < length - i - 1 then
      let result1 : BubbleSortResult :=
        { result with comparisons := (result.comparisons + 1) % (SIZE_MAX + 1) }
      if arr.getD j 0 > arr.getD (j + 1) 0 then
        bubble_sort_with_result_inner length i fuel (j + 1) (swap arr j (j + 1)) true
          { result1 with swaps := (result1.swaps + 1) % (SIZE_MAX + 1) }
      else bubble_sort_with_result_inner length i fuel (j + 1) arr swapped result1
    else some (arr, swapped, result)

/-- The outer `for (i = 0; i < length; i++)` loop of `bubble_sort_with_result`;
every run of the inner loop gets the step budget `inner_fuel`. -/
def bubble_sort_with_result_outer (length inner_fuel : Nat) :
    Nat → Nat → List Int → BubbleSortResult → Option (List Int × BubbleSortResult)
  | 0, i, arr, result => if i < length then none else some (arr, result)
  | fuel + 1, i, arr, result =>
    if i < length then
      match bubble_sort_with_result_inner length i inner_fuel 0 arr false result with
      | none => none
      | some (arr1, swapped, result1) =>
        if !swapped then some (arr1, result1)
        else bubble_sort_with_result_outer length inner_fuel fuel (i + 1) arr1 result1
    else some (arr, result)

/-- The function `bubble_sort_with_result`: the returned flag, the array
afterwards and the result struct afterwards (`none` for a `NULL` pointer). -/
def bubble_sort_with_result (fuel : Nat) (arr : Option (List Int)) (length : Nat)
    (result : Option BubbleSortResult) :
    Option (Bool × Option (List Int) × Option BubbleSortResult) :=
  match arr, result with
  | some a, some _ =>
    let result1 : BubbleSortResult := { length := length, comparisons := 0, swaps := 0 }
    if length = 0 then some (true, some a, some result1)
    else
      (bubble_sort_with_result_outer length fuel fuel 0 a result1).map
        fun out => (true, some out.1, some out.2)
  | _, _ => some (false, arr, result)

/-- The pairs of positions `i < j` of an array whose elements are out of
order, `arr[i] > arr[j]`: the inversions of the array. -/
def inversion_pairs (arr : List Int) : List (Nat × Nat) :=
  ((List.range arr.length).product (List.range arr.length)).filter
    fun q => decide (q.1 < q.2 ∧ arr.getD q.1 0 > arr.getD q.2 0)

/-- The number of inversions of a list, counted by their first position: for
every element the number of smaller elements behind it. -/
def inversions : List Int → Nat
  | [] => 0
  | x :: xs => xs.countP (fun y => decide (x > y)) + inversions xs

/-- The `for (k = 0; k < element_size; k++)` loop of `bubble_sort_generic`,
which swaps the bytes of two elements one by one. -/
def bubble_sort_generic_swap (element_size : Nat) :
    Nat → Nat → List Nat → List Nat → Option (List Nat × List Nat)
  | 0, k, elem1, elem2 => if k < element_size then none else some (elem1, elem2)
  | fuel + 1, k, elem1, elem2 =>
    if k < element_size then
      let temp := elem1.getD k 0
      bubble_sort_generic_swap element_size fuel (k + 1) (elem1.set k (elem2.getD k 0))
        (elem2.set k temp)
    else some (elem1, elem2)

/-- The inner `for (j = 0; j < num_elements - i - 1; j++)` loop of
`bubble_sort_generic`; every run of the byte loop gets the step budget
`swap_fuel`. -/
def bubble_sort_generic_inner (num_elements element_size : Nat)
    (compare : List Nat → List Nat → Int) (i swap_fuel : Nat) :
    Nat → Nat → List (List Nat) → Bool → Option (List (List Nat) × Bool)
  | 0, j, arr, swapped => if j < num_elements - i - 1 then none else some (arr, swapped)
  | fuel + 1, j, arr, swapped =>
    if j < num_elements - i - 1 then
      let elem1 := arr.getD j []
      let elem2 := arr.getD (j + 1) []
      if compare elem1 elem2 > 0 then
        match bubble_sort_generic_swap element_size swap_fuel 0 elem1 elem2 with
        | none => none
        | some (elem1, elem2) =>
          bubble_sort_generic_inner num_elements element_size compare i swap_fuel fuel (j + 1)
            ((arr.set j elem1).set (j + 1) elem2) true
      else
        bubble_sort_generic_inner num_elements element_size compare i swap_fuel fuel (j + 1)
          arr swapped
    else some (arr, swapped)

/-- The outer `for (i = 0; i < num_elements; i++)` loop of
`bubble_sort_generic`. -/
def bubble_sort_generic_outer (num_elements element_size : Nat)
    (compare : List Nat → List Nat → Int) (inner_fuel : Nat) :
    Nat → Nat → List (List Nat) → Option (List (List Nat))
  | 0, i, arr => if i < num_elements then none else some arr
  | fuel + 1, i, arr =>
    if i < num_elements then
      match bubble_sort_generic_inner num_elements element_size compare i inner_fuel
          inner_fuel 0 arr false with
      | none => none
      | some (arr1, swapped) =>
        if !swapped then some arr1
        else
          bubble_sort_generic_outer num_elements element_size compare inner_fuel fuel (i + 1)
            arr1
    else some arr

/-- The function `bubble_sort_generic`: the returned flag and the array
afterwards (`none` for a `NULL` pointer). -/
def bubble_sort_generic (fuel : Nat) (base : Option (List (List Nat)))
    (num_elements element_size : Nat) (compare : Option (List Nat → List Nat → Int)) :
    Option (Bool × Option (List (List Nat))) :=
  match base, compare with
  | some arr, some cmp =>
    if num_elements = 0 ∨ element_size = 0 then some (true, some arr)
    else
      (bubble_sort_generic_outer num_elements element_size cmp fuel fuel 0 arr).map
        fun out => (true, some out)
  | _, _ => some (true, base)

/-- The elements `a` and `b` compare equal: neither is greater than the
other. -/
def Equal (compare : List Nat → List Nat → Int) (a b : List Nat) : Prop :=
  compare a b ≤ 0 ∧ compare b a ≤ 0

instance (compare : List Nat → List Nat → Int) (a b : List Nat) :
    Decidable (Equal compare a b) :=
  inferInstanceAs (Decidable (compare a b ≤ 0 ∧ compare b a ≤ 0))

/-- The comparison function is a total preorder: of two elements one is not
greater than the other, and "not greater than" is transitive. -/
def TotalPreorder (compare : List Nat → List Nat → Int) : Prop :=
  (∀ a b, compare a b ≤ 0 ∨ compare b a ≤ 0) ∧
  ∀ a b c, compare a b ≤ 0 → compare b c ≤ 0 → compare a c ≤ 0

/-- The cells from index `m` on hold their final values under `compare`: none
of them is less than a cell before it. -/
def SettledBy (compare : List Nat → List Nat → Int) (arr : List (List Nat)) (n m : Nat) :
    Prop :=
  ∀ k l, m ≤ l → k ≤ l → l < n → compare (arr.getD k []) (arr.getD l []) ≤ 0

/-- What one run of the inner loop of `bubble_sort_generic` from `j` up to `b`
guarantees. -/
structure GenericPost (compare : List Nat → List Nat → Int)
    (arr out : List (List Nat)) (j b : Nat) (sw sw1 : Bool) : Prop where
  perm : out.Perm arr
  length_eq : out.length = arr.length
  stable : ∀ x, out.filter (fun y => decide (Equal compare x y))
    = arr.filter (fun y => decide (Equal compare x y))
  tail_eq : ∀ k, b < k → out.getD k [] = arr.getD k []
  bound : ∀ M, (∀ k, k ≤ b → compare (arr.getD k []) M ≤ 0) →
    ∀ k, k ≤ b → compare (out.getD k []) M ≤ 0
  top : (∀ k, k ≤ j → compare (arr.getD k []) (arr.getD j []) ≤ 0) →
    ∀ k, k ≤ b → compare (out.getD k []) (out.getD b []) ≤ 0
  quiet : sw1 = false →
    out = arr ∧ ∀ k, j ≤ k → k < b → compare (arr.getD k []) (arr.getD (k + 1) []) ≤ 0
  sticky : sw = true → sw1 = true

/-- The comparison of two elements by their first byte. -/
def compare_first_byte (a b : List Nat) : Int :=
  (a.getD 0 0 : Int) - (b.getD 0 0 : Int)

end BubbleSort

/-!
# Binary search: the loops with a record of their array reads

The same loops once more, now keeping a list of events: every evaluation of
`arr[mid]`, with the bounds `left` and `right` at that moment, and every
decrement `v - 1` of an unsigned value `v`.
-/

namespace BinarySearch

/-- An array read or a decrement of an unsigned value made by a search. -/
inductive Event where
  /-- The cell `arr[mid]` is read while the bounds are `left` and `right`. -/
  | read (left mid right : Nat)
  /-- The value `v - 1` is computed from the unsigned value `v`. -/
  | decrement (v : Nat)
deriving DecidableEq, Repr

/-- The read is at an index `mid` with `left <= mid <= right < size`; the
decrement does not go below zero. -/
def Event.Safe (size : Nat) : Event → Prop
  | Event.read left mid right => left ≤ mid ∧ mid ≤ right ∧ right < size
  | Event.decrement v => 1 ≤ v

instance (size : Nat) (e : Event) : Decidable (e.Safe size) := by
  cases e <;> unfold Event.Safe <;> infer_instance

/-- The loop of `binary_search` with its events. -/
def binary_search_loop_traced (arr : List Int) (target : Int) :
    Nat → Nat → Nat → BinarySearchResult → List Event →
      Option (BinarySearchResult × List Event)
  | 0, left, right, result, events =>
    if left ≤ right then none else some (result, events)
  | fuel + 1, left, right, result, events =>
    if left ≤ right then
      let mid := left + (right - left) / 2
      let events1 := events ++ [Event.read left mid right]
      if arr.getD mid 0 = target then
        some ({ result with index := size_to_int mid, found := true }, events1)
      else
        let events2 := events1 ++ [Event.read left mid right]
        if arr.getD mid 0 < target then
          binary_search_loop_traced arr target fuel (mid + 1) right result events2
        else
          if mid = 0 then some (result, events2)
          else
            binary_search_loop_traced arr target fuel left (mid - 1) result
              (events2 ++ [Event.decrement mid])
    else some (result, events)

/-- The function `binary_search` with its events. -/
def binary_search_traced (fuel : Nat) (arr : Option (List Int)) (size : Nat) (target : Int) :
    Option (BinarySearchResult × List Event) :=
  match arr with
  | none => some ({ index := -1, found := false }, [])
  | some a =>
    if size = 0 then some ({ index := -1, found := false }, [])
    else
      binary_search_loop_traced a target fuel 0 (size - 1) { index := -1, found := false }
        [Event.decrement size]

/-- The loop of `binary_search_first_occurrence` with its events. -/
def binary_search_first_occurrence_loop_traced (arr : List Int) (target : Int) :
    Nat → Nat → Nat → Int → BinarySearchResult → List Event →
      Option ((Int × BinarySearchResult) × List Event)
  | 0, left, right, first_index, result, events =>
    if left ≤ right then none else some ((first_index, result), events)
  | fuel + 1, left, right, first_index, result, events =>
    if left ≤ right then
      let mid := left + (right - left) / 2
      let events1 := events ++ [Event.read left mid right]
      if arr.getD mid 0 = target then
        if mid = 0 then some ((size_to_int mid, { result with found := true }), events1)
        else
          binary_search_first_occurrence_loop_traced arr target fuel left (mid - 1)
            (size_to_int mid) { result with found := true }
            (events1 ++ [Event.decrement mid])
      else
        let events2 := events1 ++ [Event.read left mid right]
        if arr.getD mid 0 < target then
          binary_search_first_occurrence_loop_traced arr target fuel (mid + 1) right
            first_index result events2
        else
          if mid = 0 then some ((first_index, result), events2)
          else
            binary_search_first_occurrence_loop_traced arr target fuel left (mid - 1)
              first_index result (events2 ++ [Event.decrement mid])
    else some ((first_index, result), events)

/-- The function `binary_search_first_occurrence` with its events. -/
def binary_search_first_occurrence_traced (fuel : Nat) (arr : Option (List Int)) (size : Nat)
    (target : Int) : Option (BinarySearchResult × List Event) :=
  match arr with
  | none => some ({ index := -1, found := false }, [])
  | some a =>
    if size = 0 then some ({ index := -1, found := false }, [])
    else
      (binary_search_first_occurrence_loop_traced a target fuel 0 (size - 1) (-1)
        { index := -1, found := false } [Event.decrement size]).map
        fun out => ({ out.1.2 with index := out.1.1 }, out.2)

/-- The loop of `binary_search_last_occurrence` with its events. -/
def binary_search_last_occurrence_loop_traced (arr : List Int) (target : Int) :
    Nat → Nat → Nat → Int → BinarySearchResult → List Event →
      Option ((Int × BinarySearchResult) × List Event)
  | 0, left, right, last_index, result, events =>
    if left ≤ right then none else some ((last_index, result), events)
  | fuel + 1, left, right, last_index, result, events =>
    if left ≤ right then
      let mid := left + (right - left) / 2
      let events1 := events ++ [Event.read left mid right]
      if arr.getD mid 0 = target then
        binary_search_last_occurrence_loop_traced arr target fuel (mid + 1) right
          (size_to_int mid) { result with found := true } events1
      else
        let events2 := events1 ++ [Event.read left mid right]
        if arr.getD mid 0 < target then
          binary_search_last_occurrence_loop_traced arr target fuel (mid + 1) right
            last_index result events2
        else
          if mid = 0 then some ((last_index, result), events2)
          else
            binary_search_last_occurrence_loop_traced arr target fuel left (mid - 1)
              last_index result (events2 ++ [Event.decrement mid])
    else some ((last_index, result), events)

/-- The function `binary_search_last_occurrence` with its events. -/
def binary_search_last_occurrence_traced (fuel : Nat) (arr : Option (List Int)) (size : Nat)
    (target : Int) : Option (BinarySearchResult × List Event) :=
  match arr with
  | none => some ({ index := -1, found := false }, [])
  | some a =>
    if size = 0 then some ({ index := -1, found := false }, [])
    else
      (binary_search_last_occurrence_loop_traced a target fuel 0 (size - 1) (-1)
        { index := -1, found := false } [Event.decrement size]).map
        fun out => ({ out.1.2 with index := out.1.1 }, out.2)

end BinarySearch

/-!
# KMP: single passes through the loops, and the loops with a record of
their memory accesses

For the termination arguments the body of each loop is given as a function
on the loop variables, and the state after `k` passes is computed from it.
For the bounds of the array accesses the loops are given once more, now
keeping the list of the accesses they make.
-/

namespace KMP

/-- The largest `int`. -/
def INT_MAX : Nat := 2 ^ 31 - 1

/-! ## One pass through a loop -/

/-- The variables of the loop of `kmp_build_failure_function`. -/
structure BuildState where
  failure_function : List Nat
  length : Nat
  i : Nat
deriving DecidableEq, Repr

/-- The state in which `kmp_build_failure_function` enters its loop. -/
def kmp_build_failure_function_start (failure_function : List Nat) : BuildState :=
  { failure_function := failure_function.set 0 0, length := 0, i := 1 }

/-- One pass through the body of the loop of `kmp_build_failure_function`. -/
def kmp_build_failure_function_body (pattern : List Nat) (s : BuildState) : BuildState :=
  if pattern.getD s.i 0 = pattern.getD s.length 0 then
    { failure_function := s.failure_function.set s.i (s.length + 1), length := s.length + 1,
      i := s.i + 1 }
  else if s.length ≠ 0 then
    { failure_function := s.failure_function,
      length := s.failure_function.getD (s.length - 1) 0, i := s.i }
  else
    { failure_function := s.failure_function.set s.i 0, length := s.length, i := s.i + 1 }

/-- The state after `k` passes through the loop of
`kmp_build_failure_function`, fewer if the loop condition fails before. -/
def kmp_build_failure_function_passes (pattern : List Nat) (pattern_length : Nat) :
    Nat → BuildState → BuildState
  | 0, s => s
  | k + 1, s =>
    if s.i < pattern_length then
      kmp_build_failure_function_passes pattern pattern_length k
        (kmp_build_failure_function_body pattern s)
    else s

/-- The text index and the pattern index of the scan loop. -/
structure ScanState where
  i : Nat
  j : Nat
deriving DecidableEq, Repr

/-- One pass through the body of the scan loop of `kmp_search`, as far as the
indices `i` and `j` go. -/
def kmp_search_body (text : List Nat) (text_length : Nat) (pattern : List Nat)
    (pattern_length : Nat) (lps : List Nat) (s : ScanState) : ScanState :=
  let j1 := if pattern.getD s.j 0 = text.getD s.i 0 then s.j + 1 else s.j
  let i1 := if pattern.getD s.j 0 = text.getD s.i 0 then s.i + 1 else s.i
  if j1 = pattern_length then { i := i1, j := lps.getD (j1 - 1) 0 }
  else if i1 < text_length ∧ pattern.getD j1 0 ≠ text.getD i1 0 then
    if j1 ≠ 0 then { i := i1, j := lps.getD (j1 - 1) 0 }
    else { i := i1 + 1, j := j1 }
  else { i := i1, j := j1 }

/-- The indices after `k` passes through the scan loop, fewer if the loop
condition fails before. -/
def kmp_search_passes (text : List Nat) (text_length : Nat) (pattern : List Nat)
    (pattern_length : Nat) (lps : List Nat) : Nat → ScanState → ScanState
  | 0, s => s
  | k + 1, s =>
    if s.i < text_length then
      kmp_search_passes text text_length pattern pattern_length lps k
        (kmp_search_body text text_length pattern pattern_length lps s)
    else s

/-- A pass either advances the text index `i` or leaves it and strictly
decreases the pattern index `j`. -/
def ScanState.Progress (s s1 : ScanState) : Prop :=
  s1.i = s.i + 1 ∨ (s1.i = s.i ∧ s1.j < s.j)

instance (s s1 : ScanState) : Decidable (s.Progress s1) :=
  inferInstanceAs (Decidable (s1.i = s.i + 1 ∨ (s1.i = s.i ∧ s1.j < s.j)))

/-- A pass either advances `i` or leaves it and strictly decreases
`length`. -/
def BuildState.Progress (s s1 : BuildState) : Prop :=
  s1.i = s.i + 1 ∨ (s1.i = s.i ∧ s1.length < s.length)

instance (s s1 : BuildState) : Decidable (s.Progress s1) :=
  inferInstanceAs (Decidable (s1.i = s.i + 1 ∨ (s1.i = s.i ∧ s1.length < s.length)))

/-! ## The loops with their memory accesses -/

/-- An access to one of the arrays, or a subtraction of `size_t` values. -/
inductive Access where
  /-- The read `pattern[index]`. -/
  | pattern (index : Nat)
  /-- The read `text[index]`. -/
  | text (index : Nat)
  /-- The read of the failure function at `index - 1`, as in `lps[j - 1]` and
  `failure_function[length - 1]`. -/
  | lps_before (index : Nat)
  /-- The write `failure_function[index] = ...`. -/
  | lps_write (index : Nat)
  /-- The subtraction `a - b`, as in `i - j`. -/
  | sub (a b : Nat)
deriving DecidableEq, Repr

/-- The access is in bounds for a text of `n` and a pattern of `m`
characters: `pattern` and the failure function are accessed below `m`, `text`
below `n`, an index `index - 1` is at least 0, and `a - b` does not wrap. -/
def Access.InBounds (n m : Nat) : Access → Prop
  | Access.pattern index => index < m
  | Access.text index => index < n
  | Access.lps_before index => 1 ≤ index ∧ index - 1 < m
  | Access.lps_write index => index < m
  | Access.sub a b => b ≤ a

instance (n m : Nat) (a : Access) : Decidable (a.InBounds n m) := by
  cases a <;> unfold Access.InBounds <;> infer_instance

/-- The loop of `kmp_build_failure_function` with its accesses. -/
def kmp_build_failure_function_loop_traced (pattern : List Nat) (pattern_length : Nat) :
    Nat → List Nat → Nat → Nat → List Access → Option (List Nat × List Access)
  | 0, failure_function, _, i, accesses =>
    if i < pattern_length then none else some (failure_function, accesses)
  | fuel + 1, failure_function, length, i, accesses =>
    if i < pattern_length then
      let accesses1 := accesses ++ [Access.pattern i, Access.pattern length]
      if pattern.getD i 0 = pattern.getD length 0 then
        kmp_build_failure_function_loop_traced pattern pattern_length fuel
          (failure_function.set i (length + 1)) (length + 1) (i + 1)
          (accesses1 ++ [Access.lps_write i])
      else if length ≠ 0 then
        kmp_build_failure_function_loop_traced pattern pattern_length fuel
          failure_function (failure_function.getD (length - 1) 0) i
          (accesses1 ++ [Access.lps_before length])
      else
        kmp_build_failure_function_loop_traced pattern pattern_length fuel
          (failure_function.set i 0) length (i + 1) (accesses1 ++ [Access.lps_write i])
    else some (failure_function, accesses)

/-- The function `kmp_build_failure_function` with its accesses. -/
def kmp_build_failure_function_traced (fuel : Nat) (pattern : Option (List Nat))
    (pattern_length : Nat) (failure_function : Option (List Nat)) :
    Option ((Bool × Option (List Nat)) × List Access) :=
  match pattern, failure_function with
  | some p, some ff =>
    if pattern_length = 0 then some ((false, some ff), [])
    else
      (kmp_build_failure_function_loop_traced p pattern_length fuel (ff.set 0 0) 0 1
        [Access.lps_write 0]).map fun out => ((true, some out.1), out.2)
  | _, ff => some ((false, ff), [])

/-- The loop of `kmp_search` with its accesses. -/
def kmp_search_loop_traced (text : List Nat) (text_length : Nat) (pattern : List Nat)
    (pattern_length : Nat) (lps : List Nat) :
    Nat → Nat → Nat → KMPResult → List Access → Option ((Bool × KMPResult) × List Access)
  | 0, i, _, result, accesses =>
    if i < text_length then none else some ((true, result), accesses)
  | fuel + 1, i, j, result, accesses =>
    if i < text_length then
      let accesses1 := accesses ++ [Access.pattern j, Access.text i]
      let j1 := if pattern.getD j 0 = text.getD i 0 then j + 1 else j
      let i1 := if pattern.getD j 0 = text.getD i 0 then i + 1 else i
      if j1 = pattern_length then
        match kmp_result_add_position (some result) (size_sub i1 j1) with
        | (true, some result1) =>
          kmp_search_loop_traced text text_length pattern pattern_length lps fuel
            i1 (lps.getD (j1 - 1) 0) result1
            (accesses1 ++ [Access.sub i1 j1, Access.lps_before j1])
        | _ => some ((false, kmp_result_destroy result), accesses1 ++ [Access.sub i1 j1])
      else if i1 < text_length then
        let accesses2 := accesses1 ++ [Access.pattern j1, Access.text i1]
        if pattern.getD j1 0 ≠ text.getD i1 0 then
          if j1 ≠ 0 then
            kmp_search_loop_traced text text_length pattern pattern_length lps fuel
              i1 (lps.getD (j1 - 1) 0) result (accesses2 ++ [Access.lps_before j1])
          else
            kmp_search_loop_traced text text_length pattern pattern_length lps fuel
              (i1 + 1) j1 result accesses2
        else
          kmp_search_loop_traced text text_length pattern pattern_length lps fuel i1 j1
            result accesses2
      else
        kmp_search_loop_traced text text_length pattern pattern_length lps fuel i1 j1
          result accesses1
    else some ((true, result), accesses)

/-- The function `kmp_search` with the accesses of its call of
`kmp_build_failure_function` and of its scan loop. -/
def kmp_search_traced (fuel : Nat) (text : Option (List Nat)) (text_length : Nat)
    (pattern : Option (List Nat)) (pattern_length : Nat) (result : Option KMPResult) :
    Option ((Bool × Option KMPResult) × List Access) :=
  match text, pattern, result with
  | some t, some p, some r0 =>
    match kmp_result_init (some r0) 10 with
    | (true, some r) =>
      if pattern_length = 0 ∨ text_length = 0 ∨ pattern_length > text_length then
        some ((true, some r), [])
      else
        match kmp_build_failure_function_traced fuel (some p) pattern_length
            (some (List.replicate pattern_length 0)) with
        | none => none
        | some ((true, some lps), accesses) =>
          (kmp_search_loop_traced t text_length p pattern_length lps fuel 0 0 r accesses).map
            fun out => ((out.1.1, some out.1.2), out.2)
        | some (_, accesses) => some ((false, some (kmp_result_destroy r)), accesses)
    | (_, r) => some ((false, r), [])
  | _, _, r => some ((false, r), [])

end KMP

namespace KMP

/-! ## Truncated rendering -/

/-- The opening bracket and the first `j` values of the rendering, without
the closing bracket. -/
def renderOpen (ff : List Nat) (j : Nat) : List Nat :=
  [91] ++ renderFrom 0 (ff.take j)

/-- The rendering cut after `j` values for a buffer of `buffer_size` bytes:
"[" and the first `j` values; after a first value as much of the separator
", " as fits below index `buffer_size - 1`; and "]" when that leaves the
index `buffer_size - 1` free for the terminator. -/
def truncated (ff : List Nat) (buffer_size j : Nat) : List Nat :=
  let head := renderOpen ff j
  let sep := (if j = 0 then [] else [44, 32]).take (buffer_size - 1 - head.length)
  let close := if head.length + sep.length < buffer_size - 1 then [93] else []
  head ++ sep ++ close

end KMP

namespace KMP

/-! ## The matcher searches over an explicit store

The searches with a matcher once more, this time with the memory they work on
made explicit, so that every assignment of the code is a store to an address
and the objects behind two pointers may overlap. An address counts cells; a
cell holds one value (a `char`, a `size_t` or a pointer), the address 0 is
`NULL`, and a struct occupies one cell per member, in the order of its
declaration: `pattern`, `pattern_length`, `failure_function` for a
`KMPMatcher`, and `positions`, `count`, `capacity` for a `KMPResult`. The
allocator hands out the cells from `next` on and never hands out a cell
twice, so `free` leaves the store alone. -/

/-- The store: the value of every cell, and the first address that the
allocator has not handed out. -/
structure Store where
  cells : Nat → Nat
  next : Nat

/-- The assignment `*a = v`. -/
def Store.write (s : Store) (a v : Nat) : Store :=
  { cells := fun x => if x = a then v else s.cells x, next := s.next }

/-- The call `malloc` for a block of `n` cells: the address of the block and
the store afterwards. -/
def Store.malloc (s : Store) (n : Nat) : Nat × Store :=
  (s.next, { cells := s.cells, next := s.next + n })

/-- The call `realloc` that turns the block of `old` cells at address `p` into
a block of `n` cells: the new block is handed out at `next` and receives the
first `min old n` cells of the old one. -/
def Store.realloc (s : Store) (p old n : Nat) : Nat × Store :=
  (s.next,
    { cells := fun x =>
        if s.next ≤ x ∧ x < s.next + min old n then s.cells (p + (x - s.next))
        else s.cells x,
      next := s.next + n })

/-- The function `kmp_result_init`, `result` being the address of the
struct. -/
def kmp_result_init_store (s : Store) (result initial_capacity : Nat) : Bool × Store :=
  if result = 0 then (false, s)
  else
    let s1 := ((s.write result 0).write (result + 1) 0).write (result + 2) 0
    if initial_capacity > 0 then
      let block := s1.malloc (malloc_cells initial_capacity)
      let s2 := block.2.write result block.1
      if s2.cells result = 0 then (false, s2)
      else (true, s2.write (result + 2) initial_capacity)
    else (true, s1)

/-- The function `kmp_result_destroy`, `result` being the address of the
struct. -/
def kmp_result_destroy_store (s : Store) (result : Nat) : Store :=
  if result = 0 then s
  else
    let s1 := if s.cells result ≠ 0 then s.write result 0 else s
    (s1.write (result + 1) 0).write (result + 2) 0

/-- The function `kmp_result_add_position`, `result` being the address of the
struct. As in `kmp_result_add_position`, the products `capacity * 2` and
`new_capacity * sizeof(size_t)` are taken without wrap-around, and the block
behind `positions` is taken to have `capacity` cells, as it has after
`kmp_result_init(result, 10)` and after every growth step. -/
def kmp_result_add_position_store (s : Store) (result position : Nat) : Bool × Store :=
  if result = 0 then (false, s)
  else
    let grown : Bool × Store :=
      if s.cells (result + 1) ≥ s.cells (result + 2) then
        let new_capacity := if s.cells (result + 2) = 0 then 8 else s.cells (result + 2) * 2
        let block := s.realloc (s.cells result) (s.cells (result + 2)) new_capacity
        if block.1 = 0 then (false, s)
        else (true, (block.2.write result block.1).write (result + 2) new_capacity)
      else (true, s)
    if grown.1 then
      let s1 := grown.2.write (grown.2.cells result + grown.2.cells (result + 1)) position
      (true, s1.write (result + 1) (s1.cells (result + 1) + 1))
    else (false, s)

/-- The `while (i < text_length)` loop of `kmp_matcher_search`, with
`matcher`, `text` and `result` the addresses the function was given. -/
def kmp_matcher_search_loop_store (matcher text text_length result : Nat) :
    Nat → Nat → Nat → Store → Option (Bool × Store)
  | 0, i, _, s => if i < text_length then none else some (true, s)
  | fuel + 1, i, j, s =>
    if i < text_length then
      let j1 := if s.cells (s.cells matcher + j) = s.cells (text + i) then j + 1 else j
      let i1 := if s.cells (s.cells matcher + j) = s.cells (text + i) then i + 1 else i
      if j1 = s.cells (matcher + 1) then
        let added := kmp_result_add_position_store s result (size_sub i1 j1)
        if added.1 then
          kmp_matcher_search_loop_store matcher text text_length result fuel
            i1 (added.2.cells (added.2.cells (matcher + 2) + (j1 - 1))) added.2
        else some (false, kmp_result_destroy_store added.2 result)
      else if i1 < text_length ∧ s.cells (s.cells matcher + j1) ≠ s.cells (text + i1) then
        if j1 ≠ 0 then
          kmp_matcher_search_loop_store matcher text text_length result fuel
            i1 (s.cells (s.cells (matcher + 2) + (j1 - 1))) s
        else
          kmp_matcher_search_loop_store matcher text text_length result fuel (i1 + 1) j1 s
      else
        kmp_matcher_search_loop_store matcher text text_length result fuel i1 j1 s
    else some (true, s)

/-- The function `kmp_matcher_search`, with `matcher`, `text` and `result`
the addresses it was given: the returned flag and the store afterwards. -/
def kmp_matcher_search_store (fuel : Nat) (s : Store)
    (matcher text text_length result : Nat) : Option (Bool × Store) :=
  if matcher = 0 ∨ text = 0 ∨ result = 0 then some (false, s)
  else
    let init := kmp_result_init_store s result 10
    if init.1 then
      if init.2.cells (matcher + 1) = 0 ∨ text_length = 0
          ∨ init.2.cells (matcher + 1) > text_length then
        some (true, init.2)
      else kmp_matcher_search_loop_store matcher text text_length result fuel 0 0 init.2
    else some (false, init.2)

/-- The `while (i < text_length)` loop of `kmp_matcher_search_first`, with
`matcher`, `text` and `position` the addresses the function was given. -/
def kmp_matcher_search_first_loop_store (matcher text text_length position : Nat) :
    Nat → Nat → Nat → Store → Option (Bool × Store)
  | 0, i, _, s => if i < text_length then none else some (true, s)
  | fuel + 1, i, j, s =>
    if i < text_length then
      let j1 := if s.cells (s.cells matcher + j) = s.cells (text + i) then j + 1 else j
      let i1 := if s.cells (s.cells matcher + j) = s.cells (text + i) then i + 1 else i
      if j1 = s.cells (matcher + 1) then some (true, s.write position (size_sub i1 j1))
      else if i1 < text_length ∧ s.cells (s.cells matcher + j1) ≠ s.cells (text + i1) then
        if j1 ≠ 0 then
          kmp_matcher_search_first_loop_store matcher text text_length position fuel
            i1 (s.cells (s.cells (matcher + 2) + (j1 - 1))) s
        else
          kmp_matcher_search_first_loop_store matcher text text_length position fuel
            (i1 + 1) j1 s
      else
        kmp_matcher_search_first_loop_store matcher text text_length position fuel i1 j1 s
    else some (true, s)

/-- The function `kmp_matcher_search_first`, with `matcher`, `text` and
`position` the addresses it was given: the returned flag and the store
afterwards. -/
def kmp_matcher_search_first_store (fuel : Nat) (s : Store)
    (matcher text text_length position : Nat) : Option (Bool × Store) :=
  if matcher = 0 ∨ text = 0 ∨ position = 0 then some (false, s)
  else
    let s1 := s.write position SIZE_MAX
    if s1.cells (matcher + 1) = 0 ∨ text_length = 0 ∨ s1.cells (matcher + 1) > text_length then
      some (true, s1)
    else kmp_matcher_search_first_loop_store matcher text text_length position fuel 0 0 s1

/-- The cells from address `a` on hold the list `l`. -/
def Store.Holds (s : Store) (a : Nat) (l : List Nat) : Prop :=
  ∀ k, k < l.length → s.cells (a + k) = l.getD k 0

instance (s : Store) (a : Nat) (l : List Nat) : Decidable (s.Holds a l) := by
  unfold Store.Holds; infer_instance

/-- The positions that the `KMPResult` struct at address `result` reports:
the first `count` cells of the block that `positions` points to. -/
def Store.found (s : Store) (result : Nat) : List Nat :=
  (List.range (s.cells (result + 1))).map fun k => s.cells (s.cells result + k)

/-- The members `pattern`, `pattern_length` and `failure_function` of the
`KMPMatcher` struct at address `matcher`. -/
def Store.matcher (s : Store) (matcher : Nat) : Nat × Nat × Nat :=
  (s.cells matcher, s.cells (matcher + 1), s.cells (matcher + 2))

/-- The objects `[a, a + k)` and `[b, b + l)` do not overlap. -/
def Apart (a k b l : Nat) : Prop := a + k ≤ b ∨ b + l ≤ a

instance (a k b l : Nat) : Decidable (Apart a k b l) := by
  unfold Apart; infer_instance

/-- What a call of a matcher search finds in the store `s`: at the address
`matcher` a `KMPMatcher` struct whose `pattern` points to the characters `p`,
whose `pattern_length` is their number and whose `failure_function` points to
the cells `lps`; at the address `text` the characters `t`; and at the address
`out` an object of `size` cells to write the answer to. None of the pointers
is `NULL`, every object lies in cells that have been handed out, and the
object at `out` overlaps none of the others. -/
def MatcherCall (s : Store) (matcher text out size : Nat) (p lps t : List Nat) : Prop :=
  (0 < matcher ∧ 0 < text ∧ 0 < out) ∧
  (s.cells (matcher + 1) = p.length ∧ lps.length = p.length ∧
    s.Holds (s.cells matcher) p ∧ s.Holds (s.cells (matcher + 2)) lps ∧ s.Holds text t) ∧
  (matcher + 3 ≤ s.next ∧ s.cells matcher + p.length ≤ s.next ∧
    s.cells (matcher + 2) + lps.length ≤ s.next ∧ text + t.length ≤ s.next ∧
    out + size ≤ s.next) ∧
  (Apart out size matcher 3 ∧ Apart out size (s.cells matcher) p.length ∧
    Apart out size (s.cells (matcher + 2)) lps.length ∧ Apart out size text t.length)

instance (s : Store) (matcher text out size : Nat) (p lps t : List Nat) :
    Decidable (MatcherCall s matcher text out size p lps t) := by
  unfold MatcherCall; infer_instance

/-- The store `s` came from `s0` by stores into the `KMPResult` struct at
address `result` and into blocks handed out since, and its struct describes
the result `r`. -/
structure ResultAt (s0 s : Store) (result : Nat) (r : KMPResult) : Prop where
  fresh : s0.next ≤ s.cells result
  below : s.cells result + r.capacity ≤ s.next
  count : s.cells (result + 1) = r.count
  capacity : s.cells (result + 2) = r.capacity
  found : s.found result = r.found
  wf : r.WF
  frame : ∀ a, a < s0.next → ¬ (result ≤ a ∧ a < result + 3) → s.cells a = s0.cells a
  next_le : s0.next ≤ s.next

/-- A store with the given cells from address 0 on, all of them handed
out. -/
def Store.ofList (l : List Nat) : Store :=
  { cells := fun x => l.getD x 0, next := l.length }

end KMP

namespace KMP

/-! ## Matching lemmas -/

theorem mat_zero (p t : List Nat) (i : Nat) : Mat p t i 0 :=
  ⟨Nat.zero_le _, fun _ hx => absurd hx (Nat.not_lt_zero _)⟩

theorem mat_succ {p t : List Nat} {i k : Nat} (h : Mat p t i k)
    (hc : p.getD k 0 = t.getD i 0) : Mat p t (i + 1) (k + 1) := by
  obtain ⟨hki, hm⟩ := h
  refine ⟨by omega, fun x hx => ?_⟩
  rcases Nat.lt_succ_iff_lt_or_eq.mp hx with hlt | rfl
  · have := hm x hlt
    rw [this]; congr 1; omega
  · rw [hc]; congr 1; omega

theorem mat_pred {p t : List Nat} {i k : Nat} (h : Mat p t (i + 1) (k + 1)) :
    Mat p t i k ∧ p.getD k 0 = t.getD i 0 := by
  obtain ⟨hki, hm⟩ := h
  refine ⟨⟨by omega, fun x hx => ?_⟩, ?_⟩
  · have := hm x (by omega)
    rw [this]; congr 1; omega
  · have := hm k (by omega)
    rw [this]; congr 1; omega

theorem mat_trans {p t : List Nat} {i j k : Nat} (h : Mat p t i j) (hb : Mat p p j k) :
    Mat p t i k := by
  obtain ⟨hji, hm⟩ := h
  obtain ⟨hkj, hbm⟩ := hb
  refine ⟨by omega, fun x hx => ?_⟩
  rw [hbm x hx, hm (j - k + x) (by omega)]
  congr 1; omega

theorem mat_border {p t : List Nat} {i j k : Nat} (h : Mat p t i j) (hk : Mat p t i k)
    (hkj : k ≤ j) : Mat p p j k := by
  obtain ⟨hji, hm⟩ := h
  obtain ⟨hki, hkm⟩ := hk
  refine ⟨hkj, fun x hx => ?_⟩
  rw [hkm x hx, hm (j - k + x) (by omega)]
  congr 1; omega

theorem getD_set_eq (l : List Nat) (i k v : Nat) :
    (l.set i v).getD k 0 = if k = i ∧ i < l.length then v else l.getD k 0 := by
  simp only [List.getD_eq_getElem?_getD, List.getElem?_set]
  by_cases hki : k = i
  · subst hki
    by_cases hl : k < l.length
    · simp [hl]
    · simp [hl, List.getElem?_eq_none (Nat.le_of_not_lt hl)]
  · have : ¬ i = k := fun h => hki h.symm
    simp [hki, this]

/-! ## The failure-function loop -/

theorem buildInv_init (p ff : List Nat) (m : Nat) (hm : 1 ≤ m) (hsz : m ≤ ff.length) :
    BuildInv p m (ff.set 0 0) 0 1 where
  i_pos := Nat.le_refl _
  i_le := hm
  len_lt := Nat.zero_lt_one
  size := by simpa using hsz
  border := mat_zero _ _ _
  done := by
    intro k hk
    have hk0 : k = 0 := by omega
    subst hk0
    have h0 : (ff.set 0 0).getD 0 0 = 0 := by
      have hpos : 0 < ff.length := by omega
      rw [getD_set_eq]; simp [hpos]
    rw [h0]
    exact ⟨Nat.le_refl _, mat_zero _ _ _, fun k hk _ => hk⟩
  cand := fun k hk _ => hk

theorem buildInv_cand_next {p : List Nat} {i v : Nat} (h : IsLps p i v) :
    ∀ k, k ≤ i + 1 → Mat p p (i + 1 + 1) k → k ≤ v + 1 := by
  intro k hk hmat
  cases k with
  | zero => omega
  | succ k =>
    have := h.longest k (by omega) (mat_pred hmat).1
    omega

theorem buildInv_done_set {p ff : List Nat} {m len i v : Nat} (h : BuildInv p m ff len i)
    (him : i < m) (hv : IsLps p i v) :
    ∀ k, k < i + 1 → IsLps p k ((ff.set i v).getD k 0) := by
  intro k hk
  rw [getD_set_eq]
  by_cases hki : k = i
  · subst hki
    have : k < ff.length := Nat.lt_of_lt_of_le him h.size
    simpa [this] using hv
  · simp only [hki, false_and, if_false]
    exact h.done k (by omega)

theorem buildInv_match {p ff : List Nat} {m len i : Nat} (h : BuildInv p m ff len i)
    (him : i < m) (hc : p.getD i 0 = p.getD len 0) :
    BuildInv p m (ff.set i (len + 1)) (len + 1) (i + 1) := by
  have hv : IsLps p i (len + 1) :=
    ⟨h.len_lt, mat_succ h.border hc.symm, h.cand⟩
  exact
    { i_pos := by omega
      i_le := him
      len_lt := by have := h.len_lt; omega
      size := by simpa using h.size
      border := hv.border
      done := buildInv_done_set h him hv
      cand := buildInv_cand_next hv }

theorem buildInv_zero {p ff : List Nat} {m i : Nat} (h : BuildInv p m ff 0 i)
    (him : i < m) (hc : p.getD i 0 ≠ p.getD 0 0) :
    BuildInv p m (ff.set i 0) 0 (i + 1) := by
  have hv : IsLps p i 0 := by
    refine ⟨Nat.zero_le _, mat_zero _ _ _, fun k hk hmat => ?_⟩
    have h1 := h.cand k hk hmat
    cases k with
    | zero => exact Nat.le_refl _
    | succ k =>
      have hk0 : k = 0 := by omega
      subst hk0
      exact absurd (mat_pred hmat).2.symm hc
  exact
    { i_pos := by omega
      i_le := him
      len_lt := by omega
      size := by simpa using h.size
      border := mat_zero _ _ _
      done := buildInv_done_set h him hv
      cand := buildInv_cand_next hv }

theorem buildInv_fallback {p ff : List Nat} {m len i : Nat} (h : BuildInv p m ff (len + 1) i)
    (hc : p.getD i 0 ≠ p.getD (len + 1) 0) :
    BuildInv p m ff (ff.getD len 0) i ∧ ff.getD len 0 ≤ len := by
  have hl : IsLps p len (ff.getD len 0) := h.done len (by have := h.len_lt; omega)
  refine ⟨?_, hl.le⟩
  exact
    { i_pos := h.i_pos
      i_le := h.i_le
      len_lt := by have := h.len_lt; have := hl.le; omega
      size := h.size
      border := mat_trans h.border hl.border
      done := h.done
      cand := by
        intro k hk hmat
        cases k with
        | zero => omega
        | succ k =>
          obtain ⟨hmk, hck⟩ := mat_pred hmat
          have h1 := h.cand (k + 1) hk hmat
          have hne : k ≠ len + 1 := by
            rintro rfl
            exact hc hck.symm
          have hb : Mat p p (len + 1) k := mat_border h.border hmk (by omega)
          have := hl.longest k (by omega) hb
          omega }

theorem build_loop_spec (p : List Nat) (m : Nat) :
    ∀ fuel ff len i, BuildInv p m ff len i → 2 * (m - i) + len ≤ fuel →
      ∃ out, kmp_build_failure_function_loop p m fuel ff len i = some out ∧
        out.length = ff.length ∧ ∀ k, k < m → IsLps p k (out.getD k 0) := by
  intro fuel
  induction fuel with
  | zero =>
    intro ff len i h hf
    have him : ¬ i < m := by have := h.i_le; omega
    have hi : i = m := by have := h.i_le; omega
    refine ⟨ff, by simp [kmp_build_failure_function_loop, him], rfl, ?_⟩
    intro k hk
    exact h.done k (by omega)
  | succ fuel ih =>
    intro ff len i h hf
    by_cases him : i < m
    · by_cases hc : p.getD i 0 = p.getD len 0
      · obtain ⟨out, ho, hlen, hspec⟩ :=
          ih _ _ _ (buildInv_match h him hc) (by have := h.len_lt; omega)
        refine ⟨out, ?_, by simpa using hlen, hspec⟩
        simp only [kmp_build_failure_function_loop, him, hc, if_true]
        exact ho
      · cases len with
        | zero =>
          obtain ⟨out, ho, hlen, hspec⟩ := ih _ _ _ (buildInv_zero h him hc) (by omega)
          refine ⟨out, ?_, by simpa using hlen, hspec⟩
          simp only [kmp_build_failure_function_loop, him, hc, if_true, if_false]
          simpa using ho
        | succ len =>
          obtain ⟨hinv, hle⟩ := buildInv_fallback h hc
          obtain ⟨out, ho, hlen, hspec⟩ := ih _ _ _ hinv (by omega)
          refine ⟨out, ?_, hlen, hspec⟩
          simp only [kmp_build_failure_function_loop, him, hc, if_true, if_false]
          simpa using ho
    · have hi : i = m := by have := h.i_le; omega
      refine ⟨ff, by simp [kmp_build_failure_function_loop, him], rfl, ?_⟩
      intro k hk
      exact h.done k (by omega)

/-! ## From index form to list form -/

theorem getD_take_lt (l : List Nat) {n x : Nat} (h : x < n) :
    (l.take n).getD x 0 = l.getD x 0 := by
  simp [List.getElem?_take_of_lt h]

theorem getD_drop_add (l : List Nat) (d x : Nat) :
    (l.drop d).getD x 0 = l.getD (d + x) 0 := by
  simp [List.getElem?_drop]

theorem eq_iff_getD (a b : List Nat) (hl : a.length = b.length) :
    a = b ↔ ∀ x, x < a.length → a.getD x 0 = b.getD x 0 := by
  constructor
  · rintro rfl x _
    rfl
  · intro h
    refine List.ext_getElem hl fun n h1 h2 => ?_
    have := h n h1
    simpa [List.getElem?_eq_getElem h1, List.getElem?_eq_getElem h2] using this

theorem occursAt_iff (t p : List Nat) (k : Nat) (hp : 1 ≤ p.length) :
    OccursAt t p k ↔ k + p.length ≤ t.length ∧ Mat p t (k + p.length) p.length := by
  unfold OccursAt Mat
  constructor
  · intro h
    have hlen : ((t.drop k).take p.length).length = p.length := by rw [h]
    simp only [List.length_take, List.length_drop] at hlen
    refine ⟨by omega, by omega, fun x hx => ?_⟩
    have hx1 : p.getD x 0 = ((t.drop k).take p.length).getD x 0 := by rw [h]
    rw [hx1, getD_take_lt _ hx, getD_drop_add]
    congr 1; omega
  · rintro ⟨hle, -, hm⟩
    have hlen : ((t.drop k).take p.length).length = p.length := by
      simp only [List.length_take, List.length_drop]; omega
    refine (eq_iff_getD _ _ hlen).mpr fun x hx => ?_
    rw [hlen] at hx
    rw [hm x hx, getD_take_lt _ hx, getD_drop_add]
    congr 1; omega

theorem hasBorder_iff (p : List Nat) (i k : Nat) (hi : i < p.length) :
    HasBorder (p.take (i + 1)) k ↔ k ≤ i ∧ Mat p p (i + 1) k := by
  have hs : (p.take (i + 1)).length = i + 1 := by
    simp only [List.length_take]; omega
  unfold HasBorder Mat
  rw [hs]
  constructor
  · rintro ⟨hk, h⟩
    refine ⟨by omega, by omega, fun x hx => ?_⟩
    have hx1 : ((p.take (i + 1)).take k).getD x 0
        = ((p.take (i + 1)).drop (i + 1 - k)).getD x 0 := by rw [h]
    rw [getD_take_lt _ hx, getD_take_lt _ (by omega), getD_drop_add,
      getD_take_lt _ (by omega)] at hx1
    exact hx1
  · rintro ⟨hk, -, hm⟩
    refine ⟨by omega, ?_⟩
    have hlen : ((p.take (i + 1)).take k).length
        = ((p.take (i + 1)).drop (i + 1 - k)).length := by
      simp only [List.length_take, List.length_drop]; omega
    refine (eq_iff_getD _ _ hlen).mpr fun x hx => ?_
    have hxk : x < k := by
      simp only [List.length_take] at hx; omega
    rw [getD_take_lt _ hxk, getD_take_lt _ (by omega), getD_drop_add,
      getD_take_lt _ (by omega)]
    exact hm x hxk

theorem isLps_longestBorder {p : List Nat} {i v : Nat} (hi : i < p.length)
    (h : IsLps p i v) : LongestBorder (p.take (i + 1)) v := by
  refine ⟨(hasBorder_iff p i v hi).mpr ⟨h.le, h.border⟩, fun k hk => ?_⟩
  obtain ⟨hki, hm⟩ := (hasBorder_iff p i k hi).mp hk
  exact h.longest k hki hm

theorem build_spec (p ff : List Nat) (m fuel : Nat) (hm : 1 ≤ m) (hsz : m ≤ ff.length)
    (hf : 2 * m ≤ fuel) :
    ∃ out, kmp_build_failure_function fuel (some p) m (some ff) = some (true, some out) ∧
      out.length = ff.length ∧ ∀ k, k < m → IsLps p k (out.getD k 0) := by
  obtain ⟨out, ho, hlen, hspec⟩ :=
    build_loop_spec p m fuel (ff.set 0 0) 0 1 (buildInv_init p ff m hm hsz) (by omega)
  refine ⟨out, ?_, by simpa using hlen, hspec⟩
  have hm0 : m ≠ 0 := by omega
  simp [kmp_build_failure_function, hm0, ho]

/-! ## Result management lemmas -/

theorem size_sub_eq {a b : Nat} (hba : b ≤ a) (ha : a ≤ SIZE_MAX) : size_sub a b = a - b := by
  unfold size_sub
  have h : a + (SIZE_MAX + 1) - b = (a - b) + (SIZE_MAX + 1) := by omega
  rw [h, Nat.add_mod_right, Nat.mod_eq_of_lt (by omega)]

theorem take_set_succ (l : List Nat) (c v : Nat) (hc : c < l.length) :
    (l.set c v).take (c + 1) = l.take c ++ [v] := by
  rw [List.take_succ, List.set_take,
    List.set_eq_of_length_le (by simp only [List.length_take]; omega),
    List.getElem?_set_self hc]
  rfl

theorem result_init_spec (r0 : KMPResult) :
    ∃ r, kmp_result_init (some r0) 10 = (true, some r) ∧ r.WF ∧ r.found = [] ∧
      r.count = 0 :=
  ⟨_, rfl, ⟨Nat.zero_le _, rfl⟩, rfl, rfl⟩

theorem result_add_spec (r : KMPResult) (pos : Nat) (h : r.WF) :
    ∃ r1, kmp_result_add_position (some r) pos = (true, some r1) ∧ r1.WF ∧
      r1.found = r.found ++ [pos] ∧ r1.count = r.count + 1 := by
  obtain ⟨hcnt, hlen⟩ := h
  refine ⟨_, rfl, ?_, ?_, ?_⟩
  · by_cases hg : r.count ≥ r.capacity
    · simp only [hg, if_true]
      refine ⟨?_, ?_⟩
      · show r.count + 1 ≤ (if r.capacity = 0 then 8 else r.capacity * 2)
        split <;> omega
      · show ((List.take _ (r.positions ++ List.replicate _ 0)).set _ _).length
          = (if r.capacity = 0 then 8 else r.capacity * 2)
        simp only [List.length_set, List.length_take, List.length_append,
          List.length_replicate]
        omega
    · simp only [hg, if_false]
      exact ⟨by show r.count + 1 ≤ r.capacity; omega, by
        show (r.positions.set _ _).length = _
        simpa using hlen⟩
  · by_cases hg : r.count ≥ r.capacity
    · simp only [hg, if_true, KMPResult.found]
      have hc : r.count = r.positions.length := by omega
      have hnc : r.count < (if r.capacity = 0 then 8 else r.capacity * 2) := by
        split <;> omega
      rw [take_set_succ]
      · congr 1
        rw [List.take_take, Nat.min_eq_left (Nat.le_of_lt hnc), hc, List.take_left]
        simp
      · simp only [List.length_take, List.length_append, List.length_replicate]
        omega
    · simp only [hg, if_false, KMPResult.found]
      exact take_set_succ _ _ _ (by omega)
  · by_cases hg : r.count ≥ r.capacity
    · simp only [hg, if_true]
    · simp only [hg, if_false]

/-! ## Occurrence lists -/

theorem occurrences_hit (t p : List Nat) {m i : Nat} (hmi : m ≤ i + 1)
    (h : Mat p t (i + 1) m) :
    occurrences t p m (i + 1 + 1 - m) = occurrences t p m (i + 1 - m) ++ [i + 1 - m] := by
  have h1 : i + 1 + 1 - m = (i + 1 - m) + 1 := by omega
  have h2 : i + 1 - m + m = i + 1 := by omega
  unfold occurrences
  rw [h1, List.range_succ, List.filter_append]
  simp [h2, h]

theorem occurrences_miss (t p : List Nat) {m i : Nat} (h : ¬ Mat p t (i + 1) m) :
    occurrences t p m (i + 1 + 1 - m) = occurrences t p m (i + 1 - m) := by
  by_cases hmi : m ≤ i + 1
  · have h1 : i + 1 + 1 - m = (i + 1 - m) + 1 := by omega
    have h2 : i + 1 - m + m = i + 1 := by omega
    unfold occurrences
    rw [h1, List.range_succ, List.filter_append]
    simp [h2, h]
  · have h1 : i + 1 + 1 - m = 0 := by omega
    have h2 : i + 1 - m = 0 := by omega
    rw [h1, h2]

theorem occurrences_append (t p : List Nat) (m : Nat) {a b : Nat} (hab : a ≤ b) :
    ∃ rest, occurrences t p m b = occurrences t p m a ++ rest := by
  obtain ⟨d, rfl⟩ := Nat.exists_eq_add_of_le hab
  unfold occurrences
  rw [List.range_add, List.filter_append]
  exact ⟨_, rfl⟩

theorem mem_occurrences {t p : List Nat} {m b s : Nat} :
    s ∈ occurrences t p m b ↔ s < b ∧ Mat p t (s + m) m := by
  simp [occurrences]

theorem occurrences_sorted (t p : List Nat) (m b : Nat) :
    (occurrences t p m b).Pairwise (· < ·) :=
  List.Pairwise.sublist (List.filter_sublist _) (List.pairwise_lt_range b)

/-! ## The scan loop -/

theorem scanInv_init (t p : List Nat) (n m : Nat) (hm : 1 ≤ m) : ScanInv t p n m 0 0 where
  i_le := Nat.zero_le _
  j_lt := hm
  mat := mat_zero _ _ _
  cand := fun _ _ h => h.1

theorem scanInv_advance {t p : List Nat} {n m i j : Nat} (h : ScanInv t p n m i j)
    (hin : i < n) (hc : p.getD j 0 = t.getD i 0) (hjm : j + 1 ≠ m) :
    ScanInv t p n m (i + 1) (j + 1) ∧ ¬ Mat p t (i + 1) m := by
  have hj := h.j_lt
  refine ⟨⟨hin, by omega, mat_succ h.mat hc, fun k hk hmat => ?_⟩, fun hmat => ?_⟩
  · cases k with
    | zero => omega
    | succ k =>
      have := h.cand k (by omega) (mat_pred hmat).1
      omega
  · have := h.cand m (Nat.le_refl _) hmat
    omega

theorem scanInv_full {t p lps : List Nat} {n m i j : Nat}
    (hlps : ∀ k, k < m → IsLps p k (lps.getD k 0)) (h : ScanInv t p n m i j)
    (hin : i < n) (hc : p.getD j 0 = t.getD i 0) (hjm : j + 1 = m) :
    ScanInv t p n m (i + 1) (lps.getD j 0) ∧ lps.getD j 0 ≤ j ∧ Mat p t (i + 1) m := by
  have hl := hlps j h.j_lt
  have hfull : Mat p t (i + 1) (j + 1) := mat_succ h.mat hc
  refine ⟨⟨hin, by have := hl.le; omega, mat_trans hfull hl.border, fun k hk hmat => ?_⟩,
    hl.le, hjm ▸ hfull⟩
  cases k with
  | zero => omega
  | succ k =>
    have hk1 : Mat p t (i + 1) k := (mat_pred hmat).1
    have := hl.longest k (by omega) (mat_border hfull hk1 (by omega))
    omega

theorem scanInv_fallback {t p lps : List Nat} {n m i j : Nat}
    (hlps : ∀ k, k < m → IsLps p k (lps.getD k 0)) (h : ScanInv t p n m i (j + 1))
    (hc : p.getD (j + 1) 0 ≠ t.getD i 0) :
    ScanInv t p n m i (lps.getD j 0) ∧ lps.getD j 0 ≤ j := by
  have hj := h.j_lt
  have hl := hlps j (by omega)
  refine ⟨⟨h.i_le, by have := hl.le; omega, mat_trans h.mat hl.border,
    fun k hk hmat => ?_⟩, hl.le⟩
  cases k with
  | zero => omega
  | succ k =>
    obtain ⟨hk1, hck⟩ := mat_pred hmat
    have h1 := h.cand (k + 1) hk hmat
    have hne : k ≠ j + 1 := by
      rintro rfl
      exact hc hck
    have := hl.longest k (by omega) (mat_border h.mat hk1 (by omega))
    omega

theorem scanInv_skip {t p : List Nat} {n m i : Nat} (h : ScanInv t p n m i 0)
    (hin : i < n) (hc : p.getD 0 0 ≠ t.getD i 0) :
    ScanInv t p n m (i + 1) 0 ∧ ¬ Mat p t (i + 1) m := by
  have hnone : ∀ k, k ≤ m → Mat p t (i + 1) k → k = 0 := by
    intro k hk hmat
    have h1 := h.cand k hk hmat
    cases k with
    | zero => rfl
    | succ k =>
      have hk0 : k = 0 := by omega
      subst hk0
      exact absurd (mat_pred hmat).2 hc
  refine ⟨⟨hin, h.j_lt, mat_zero _ _ _, fun k hk hmat => ?_⟩, fun hmat => ?_⟩
  · cases k with
    | zero => omega
    | succ k =>
      have := hnone k (by omega) (mat_pred hmat).1
      omega
  · have := hnone m (Nat.le_refl _) hmat
    have := h.j_lt
    omega

theorem search_loop_spec (t p lps : List Nat) (n m : Nat)
    (hlps : ∀ k, k < m → IsLps p k (lps.getD k 0)) (hn : n ≤ SIZE_MAX) :
    ∀ fuel i j r, ScanInv t p n m i j → r.WF →
      r.found = occurrences t p m (i + 1 - m) → 2 * (n - i) + j ≤ fuel →
      ∃ out, kmp_search_loop t n p m lps fuel i j r = some (true, out) ∧ out.WF ∧
        out.found = occurrences t p m (n + 1 - m) := by
  intro fuel
  induction fuel with
  | zero =>
    intro i j r h hwf hfound hf
    have hi : i = n := by have := h.i_le; omega
    subst hi
    exact ⟨r, by simp [kmp_search_loop], hwf, hfound⟩
  | succ fuel ih =>
    intro i j r h hwf hfound hf
    by_cases hin : i < n
    · by_cases hc : p.getD j 0 = t.getD i 0
      · by_cases hjm : j + 1 = m
        · obtain ⟨hinv, hle, hmat⟩ := scanInv_full hlps h hin hc hjm
          obtain ⟨r1, hadd, hwf1, hfound1, -⟩ := result_add_spec r (i + 1 - m) hwf
          have hmi : m ≤ i + 1 := hmat.1
          obtain ⟨out, ho, hres⟩ := ih (i + 1) (lps.getD j 0) r1 hinv hwf1
            (by rw [hfound1, hfound, occurrences_hit t p hmi hmat]) (by omega)
          refine ⟨out, ?_, hres⟩
          simp only [kmp_search_loop, hin, hc, hjm, if_true]
          rw [size_sub_eq hmi (by omega), hadd]
          simp only [← hjm, Nat.add_sub_cancel]
          simp only [hjm]
          exact ho
        · obtain ⟨hinv, hno⟩ := scanInv_advance h hin hc hjm
          have hfound1 : r.found = occurrences t p m (i + 1 + 1 - m) := by
            rw [hfound, occurrences_miss t p hno]
          by_cases hc1 : i + 1 < n ∧ p.getD (j + 1) 0 ≠ t.getD (i + 1) 0
          · obtain ⟨hinv2, hle2⟩ := scanInv_fallback hlps hinv hc1.2
            obtain ⟨out, ho, hres⟩ := ih (i + 1) (lps.getD j 0) r hinv2 hwf hfound1
              (by omega)
            refine ⟨out, ?_, hres⟩
            simp only [kmp_search_loop, hin, hc, hjm, hc1.1, hc1.2, if_true, if_false, ne_eq,
              not_false_eq_true, and_self]
            simpa using ho
          · obtain ⟨out, ho, hres⟩ := ih (i + 1) (j + 1) r hinv hwf hfound1 (by omega)
            refine ⟨out, ?_, hres⟩
            simp only [kmp_search_loop, hin, hc, hjm, hc1, if_true, if_false]
            exact ho
      · have hjm : j ≠ m := Nat.ne_of_lt h.j_lt
        have hc1 : i < n ∧ p.getD j 0 ≠ t.getD i 0 := ⟨hin, hc⟩
        cases j with
        | zero =>
          obtain ⟨hinv, hno⟩ := scanInv_skip h hin hc
          obtain ⟨out, ho, hres⟩ := ih (i + 1) 0 r hinv hwf
            (by rw [hfound, occurrences_miss t p hno]) (by omega)
          refine ⟨out, ?_, hres⟩
          simp only [kmp_search_loop, hin, hc, hjm, if_true, if_false, ne_eq,
            not_false_eq_true, and_self]
          simpa using ho
        | succ j =>
          obtain ⟨hinv, hle⟩ := scanInv_fallback hlps h hc
          obtain ⟨out, ho, hres⟩ := ih i (lps.getD j 0) r hinv hwf hfound (by omega)
          refine ⟨out, ?_, hres⟩
          simp only [kmp_search_loop, hin, hc, hjm, if_true, if_false, ne_eq,
            not_false_eq_true, and_self]
          simpa using ho
    · have hi : i = n := by have := h.i_le; omega
      subst hi
      exact ⟨r, by simp [kmp_search_loop], hwf, hfound⟩

theorem search_first_loop_spec (t p lps : List Nat) (n m : Nat)
    (hlps : ∀ k, k < m → IsLps p k (lps.getD k 0)) (hn : n ≤ SIZE_MAX) (pos0 : Nat) :
    ∀ fuel i j, ScanInv t p n m i j → occurrences t p m (i + 1 - m) = [] →
      2 * (n - i) + j ≤ fuel →
      kmp_search_first_loop t n p m lps fuel i j pos0
        = some ((occurrences t p m (n + 1 - m)).headD pos0) := by
  intro fuel
  induction fuel with
  | zero =>
    intro i j h hocc hf
    have hi : i = n := by have := h.i_le; omega
    subst hi
    simp [kmp_search_first_loop, hocc]
  | succ fuel ih =>
    intro i j h hocc hf
    by_cases hin : i < n
    · by_cases hc : p.getD j 0 = t.getD i 0
      · by_cases hjm : j + 1 = m
        · obtain ⟨-, -, hmat⟩ := scanInv_full hlps h hin hc hjm
          have hmi : m ≤ i + 1 := hmat.1
          obtain ⟨rest, hrest⟩ :=
            occurrences_append t p m (a := i + 1 + 1 - m) (b := n + 1 - m) (by omega)
          simp only [kmp_search_first_loop, hin, hc, hjm, if_true]
          rw [size_sub_eq hmi (by omega), hrest, occurrences_hit t p hmi hmat, hocc]
          rfl
        · obtain ⟨hinv, hno⟩ := scanInv_advance h hin hc hjm
          have hocc1 : occurrences t p m (i + 1 + 1 - m) = [] := by
            rw [occurrences_miss t p hno, hocc]
          by_cases hc1 : i + 1 < n ∧ p.getD (j + 1) 0 ≠ t.getD (i + 1) 0
          · obtain ⟨hinv2, hle2⟩ := scanInv_fallback hlps hinv hc1.2
            rw [← ih (i + 1) (lps.getD j 0) hinv2 hocc1 (by omega)]
            simp only [kmp_search_first_loop, hin, hc, hjm, hc1.1, hc1.2, if_true, if_false,
              ne_eq, not_false_eq_true, and_self]
            simp
          · rw [← ih (i + 1) (j + 1) hinv hocc1 (by omega)]
            simp only [kmp_search_first_loop, hin, hc, hjm, hc1, if_true, if_false]
      · have hjm : j ≠ m := Nat.ne_of_lt h.j_lt
        cases j with
        | zero =>
          obtain ⟨hinv, hno⟩ := scanInv_skip h hin hc
          rw [← ih (i + 1) 0 hinv (by rw [occurrences_miss t p hno, hocc]) (by omega)]
          simp only [kmp_search_first_loop, hin, hc, hjm, if_true, if_false, ne_eq,
            not_false_eq_true, and_self]
          simp
        | succ j =>
          obtain ⟨hinv, hle⟩ := scanInv_fallback hlps h hc
          rw [← ih i (lps.getD j 0) hinv hocc (by omega)]
          simp only [kmp_search_first_loop, hin, hc, hjm, if_true, if_false, ne_eq,
            not_false_eq_true, and_self]
          simp
    · have hi : i = n := by have := h.i_le; omega
      subst hi
      simp [kmp_search_first_loop, hocc]

/-! ## The functions as a whole -/

theorem search_degenerate (fuel : Nat) (t p : List Nat) (n m : Nat) (r0 : KMPResult)
    (h : m = 0 ∨ n = 0 ∨ m > n) :
    kmp_search fuel (some t) n (some p) m (some r0)
      = some (true, some { positions := List.replicate 10 0, count := 0, capacity := 10 }) := by
  have h10 : malloc_cells 10 = 10 := by decide
  simp [kmp_search, kmp_result_init, h, h10]

theorem search_first_degenerate (fuel : Nat) (t p : List Nat) (n m pos0 : Nat)
    (h : m = 0 ∨ n = 0 ∨ m > n) :
    kmp_search_first fuel (some t) n (some p) m (some pos0) = some (true, some SIZE_MAX) := by
  simp [kmp_search_first, h]

theorem search_spec (t p : List Nat) (n m fuel : Nat) (r0 : KMPResult) (hm : 1 ≤ m)
    (hmn : m ≤ n) (hn : n ≤ SIZE_MAX) (hf : 2 * n ≤ fuel) :
    ∃ r, kmp_search fuel (some t) n (some p) m (some r0) = some (true, some r) ∧ r.WF ∧
      r.found = occurrences t p m (n + 1 - m) := by
  obtain ⟨lps, hb, -, hlps⟩ :=
    build_spec p (List.replicate m 0) m fuel hm (by simp) (by omega)
  obtain ⟨r1, hinit, hwf1, hfound1, -⟩ := result_init_spec r0
  have h0 : 0 + 1 - m = 0 := by omega
  obtain ⟨out, ho, hwf, hfound⟩ :=
    search_loop_spec t p lps n m hlps hn fuel 0 0 r1 (scanInv_init t p n m hm) hwf1
      (by rw [hfound1, h0]; rfl) (by omega)
  refine ⟨out, ?_, hwf, hfound⟩
  have hdeg : ¬ (m = 0 ∨ n = 0 ∨ m > n) := by omega
  simp only [kmp_search, hinit, hdeg, if_false, hb, ho, Option.map_some']

theorem search_first_spec (t p : List Nat) (n m fuel pos0 : Nat) (hm : 1 ≤ m)
    (hmn : m ≤ n) (hn : n ≤ SIZE_MAX) (hf : 2 * n ≤ fuel) :
    kmp_search_first fuel (some t) n (some p) m (some pos0)
      = some (true, some ((occurrences t p m (n + 1 - m)).headD SIZE_MAX)) := by
  obtain ⟨lps, hb, -, hlps⟩ :=
    build_spec p (List.replicate m 0) m fuel hm (by simp) (by omega)
  have h0 : 0 + 1 - m = 0 := by omega
  have ho := search_first_loop_spec t p lps n m hlps hn SIZE_MAX fuel 0 0
    (scanInv_init t p n m hm) (by rw [h0]; rfl) (by omega)
  have hdeg : ¬ (m = 0 ∨ n = 0 ∨ m > n) := by omega
  simp only [kmp_search_first, hdeg, if_false, hb, ho, Option.map_some']

theorem found_length {r : KMPResult} (h : r.WF) : r.found.length = r.count := by
  obtain ⟨h1, h2⟩ := h
  simp only [KMPResult.found, List.length_take]
  omega

/-! ## Properties of `kmp_search` and `kmp_build_failure_function` -/

/-- C1: for a text `t` and a non-empty pattern `p` with `|p| ≤ |t|`, `kmp_search`
succeeds and every offset `k ≤ |t| - |p|` at which `t[k .. k+|p|)` equals `p`
(overlapping occurrences included) is among the positions it returns. -/
theorem kmp_search_complete (t p : List Nat) (fuel : Nat) (r0 : KMPResult)
    (hp : 1 ≤ p.length) (hpt : p.length ≤ t.length) (ht : t.length ≤ SIZE_MAX)
    (hf : 2 * t.length ≤ fuel) :
    ∃ r, kmp_search fuel (some t) t.length (some p) p.length (some r0) = some (true, some r) ∧
      ∀ k, k + p.length ≤ t.length → OccursAt t p k → k ∈ r.found := by
  obtain ⟨r, hr, -, hfound⟩ := search_spec t p t.length p.length fuel r0 hp hpt ht hf
  refine ⟨r, hr, fun k hk hocc => ?_⟩
  rw [hfound, mem_occurrences]
  exact ⟨by omega, ((occursAt_iff t p k hp).mp hocc).2⟩

theorem kmp_search_complete_witness :
    (1 ≤ [65, 65].length ∧ [65, 65].length ≤ [65, 65, 65, 65].length ∧
      [65, 65, 65, 65].length ≤ SIZE_MAX ∧ 2 * [65, 65, 65, 65].length ≤ 8) ∧
    ∃ r, kmp_search 8 (some [65, 65, 65, 65]) [65, 65, 65, 65].length (some [65, 65])
        [65, 65].length (some ⟨[], 0, 0⟩) = some (true, some r) ∧
      ∀ k, k + [65, 65].length ≤ [65, 65, 65, 65].length →
        OccursAt [65, 65, 65, 65] [65, 65] k → k ∈ r.found :=
  ⟨by decide, kmp_search_complete [65, 65, 65, 65] [65, 65] 8 ⟨[], 0, 0⟩ (by decide)
    (by decide) (by decide) (by decide)⟩

/-- C2: for a text `t` and a non-empty pattern `p` with `|p| ≤ |t|`, every
position `k` that `kmp_search` returns satisfies `k + |p| ≤ |t|` and
`t[k .. k+|p|) = p`: there are no false matches. -/
theorem kmp_search_sound (t p : List Nat) (fuel : Nat) (r0 : KMPResult)
    (hp : 1 ≤ p.length) (hpt : p.length ≤ t.length) (ht : t.length ≤ SIZE_MAX)
    (hf : 2 * t.length ≤ fuel) :
    ∃ r, kmp_search fuel (some t) t.length (some p) p.length (some r0) = some (true, some r) ∧
      ∀ k, k ∈ r.found → k + p.length ≤ t.length ∧ OccursAt t p k := by
  obtain ⟨r, hr, -, hfound⟩ := search_spec t p t.length p.length fuel r0 hp hpt ht hf
  refine ⟨r, hr, fun k hk => ?_⟩
  rw [hfound, mem_occurrences] at hk
  have hle : k + p.length ≤ t.length := by omega
  exact ⟨hle, (occursAt_iff t p k hp).mpr ⟨hle, hk.2⟩⟩

theorem kmp_search_sound_witness :
    (1 ≤ [65, 66].length ∧ [65, 66].length ≤ [65, 66, 65, 66, 67].length ∧
      [65, 66, 65, 66, 67].length ≤ SIZE_MAX ∧ 2 * [65, 66, 65, 66, 67].length ≤ 10) ∧
    ∃ r, kmp_search 10 (some [65, 66, 65, 66, 67]) [65, 66, 65, 66, 67].length
        (some [65, 66]) [65, 66].length (some ⟨[7], 1, 1⟩) = some (true, some r) ∧
      ∀ k, k ∈ r.found →
        k + [65, 66].length ≤ [65, 66, 65, 66, 67].length ∧
          OccursAt [65, 66, 65, 66, 67] [65, 66] k :=
  ⟨by decide, kmp_search_sound [65, 66, 65, 66, 67] [65, 66] 10 ⟨[7], 1, 1⟩ (by decide)
    (by decide) (by decide) (by decide)⟩

/-- C3: for every text and pattern, the positions that `kmp_search` returns are
in strictly increasing order, so no offset is reported twice and `count` is
the number of distinct offsets reported. -/
theorem kmp_search_strictly_increasing (t p : List Nat) (fuel : Nat) (r0 : KMPResult)
    (ht : t.length ≤ SIZE_MAX) (hf : 2 * t.length ≤ fuel) :
    ∃ r, kmp_search fuel (some t) t.length (some p) p.length (some r0) = some (true, some r) ∧
      r.found.Pairwise (· < ·) ∧ r.found.Nodup ∧ r.count = r.found.dedup.length := by
  by_cases hdeg : p.length = 0 ∨ t.length = 0 ∨ p.length > t.length
  · refine ⟨_, search_degenerate fuel t p _ _ r0 hdeg, ?_, ?_, ?_⟩ <;>
      simp [KMPResult.found]
  · obtain ⟨r, hr, hwf, hfound⟩ :=
      search_spec t p t.length p.length fuel r0 (by omega) (by omega) ht hf
    have hs : r.found.Pairwise (· < ·) := hfound ▸ occurrences_sorted t p _ _
    have hnd : r.found.Nodup := hs.imp (fun h => Nat.ne_of_lt h)
    exact ⟨r, hr, hs, hnd, by rw [List.Nodup.dedup hnd, found_length hwf]⟩

theorem kmp_search_strictly_increasing_witness :
    ([65, 65, 65, 65, 65].length ≤ SIZE_MAX ∧ 2 * [65, 65, 65, 65, 65].length ≤ 10) ∧
    ∃ r, kmp_search 10 (some [65, 65, 65, 65, 65]) [65, 65, 65, 65, 65].length
        (some [65, 65]) [65, 65].length (some ⟨[], 0, 0⟩) = some (true, some r) ∧
      r.found.Pairwise (· < ·) ∧ r.found.Nodup ∧ r.count = r.found.dedup.length :=
  ⟨by decide, kmp_search_strictly_increasing [65, 65, 65, 65, 65] [65, 65] 10 ⟨[], 0, 0⟩
    (by decide) (by decide)⟩

theorem getElem?_of_getD {l : List Nat} {i : Nat} (h : i < l.length) :
    l[i]? = some (l.getD i 0) := by
  simp [List.getElem?_eq_getElem h]

/-- C4: for every non-empty pattern of length `m`, `kmp_build_failure_function`
succeeds and, for every `i < m`, the value it writes to `failure_function[i]`
is the length of the longest proper prefix of `pattern[0..i]` that is also a
suffix of `pattern[0..i]`; the pattern "ABABCABAB" gives
`[0,0,1,2,0,1,2,3,4]`. -/
theorem kmp_build_failure_function_longest_border :
    (∀ (p ff : List Nat) (fuel : Nat), 1 ≤ p.length → p.length ≤ ff.length →
      2 * p.length ≤ fuel →
      ∃ out, kmp_build_failure_function fuel (some p) p.length (some ff)
          = some (true, some out) ∧
        ∀ i, i < p.length → ∃ v, out[i]? = some v ∧ LongestBorder (p.take (i + 1)) v) ∧
    kmp_build_failure_function 18 (some (bytes "ABABCABAB")) 9 (some (List.replicate 9 0))
      = some (true, some [0, 0, 1, 2, 0, 1, 2, 3, 4]) := by
  refine ⟨fun p ff fuel hp hsz hf => ?_, by decide⟩
  obtain ⟨out, ho, hlen, hspec⟩ := build_spec p ff p.length fuel hp hsz hf
  refine ⟨out, ho, fun i hi => ⟨out.getD i 0, getElem?_of_getD (by omega), ?_⟩⟩
  exact isLps_longestBorder hi (hspec i hi)

theorem kmp_build_failure_function_longest_border_witness :
    (1 ≤ [65, 65, 66, 65].length ∧ [65, 65, 66, 65].length ≤ [9, 9, 9, 9].length ∧
      2 * [65, 65, 66, 65].length ≤ 8) ∧
    ∃ out, kmp_build_failure_function 8 (some [65, 65, 66, 65]) [65, 65, 66, 65].length
        (some [9, 9, 9, 9]) = some (true, some out) ∧
      ∀ i, i < [65, 65, 66, 65].length →
        ∃ v, out[i]? = some v ∧ LongestBorder ([65, 65, 66, 65].take (i + 1)) v :=
  ⟨by decide, kmp_build_failure_function_longest_border.1 [65, 65, 66, 65] [9, 9, 9, 9] 8
    (by decide) (by decide) (by decide)⟩

/-- C5: for every non-empty pattern, the array built by
`kmp_build_failure_function` has `lps[0] = 0` and `0 ≤ lps[i] ≤ i` for every
index `i` below the pattern length. -/
theorem kmp_build_failure_function_bounds (p ff : List Nat) (fuel : Nat)
    (hp : 1 ≤ p.length) (hsz : p.length ≤ ff.length) (hf : 2 * p.length ≤ fuel) :
    ∃ out, kmp_build_failure_function fuel (some p) p.length (some ff)
        = some (true, some out) ∧
      out[0]? = some 0 ∧ ∀ i, i < p.length → ∃ v, out[i]? = some v ∧ 0 ≤ v ∧ v ≤ i := by
  obtain ⟨out, ho, hlen, hspec⟩ := build_spec p ff p.length fuel hp hsz hf
  refine ⟨out, ho, ?_, fun i hi =>
    ⟨out.getD i 0, getElem?_of_getD (by omega), Nat.zero_le _, (hspec i hi).le⟩⟩
  have h0 := (hspec 0 hp).le
  rw [getElem?_of_getD (by omega), Nat.le_zero.mp h0]

theorem kmp_build_failure_function_bounds_witness :
    (1 ≤ [65, 65, 65].length ∧ [65, 65, 65].length ≤ [5, 5, 5, 5].length ∧
      2 * [65, 65, 65].length ≤ 6) ∧
    ∃ out, kmp_build_failure_function 6 (some [65, 65, 65]) [65, 65, 65].length
        (some [5, 5, 5, 5]) = some (true, some out) ∧
      out[0]? = some 0 ∧
        ∀ i, i < [65, 65, 65].length → ∃ v, out[i]? = some v ∧ 0 ≤ v ∧ v ≤ i :=
  ⟨by decide, kmp_build_failure_function_bounds [65, 65, 65] [5, 5, 5, 5] 6 (by decide)
    (by decide) (by decide)⟩

/-- C6: for every text and pattern, `kmp_search_first` stores the smallest
position of the result of `kmp_search` when that result is non-empty, and
stores the not-found sentinel `(size_t)-1` exactly when that result is
empty. -/
theorem kmp_search_first_is_min (t p : List Nat) (fuel : Nat) (r0 : KMPResult) (pos0 : Nat)
    (ht : t.length ≤ SIZE_MAX) (hf : 2 * t.length ≤ fuel) :
    ∃ r pos,
      kmp_search fuel (some t) t.length (some p) p.length (some r0) = some (true, some r) ∧
      kmp_search_first fuel (some t) t.length (some p) p.length (some pos0)
        = some (true, some pos) ∧
      (r.found ≠ [] → pos ∈ r.found ∧ ∀ x, x ∈ r.found → pos ≤ x) ∧
      (pos = SIZE_MAX ↔ r.found = []) := by
  by_cases hdeg : p.length = 0 ∨ t.length = 0 ∨ p.length > t.length
  · refine ⟨_, _, search_degenerate fuel t p _ _ r0 hdeg,
      search_first_degenerate fuel t p _ _ pos0 hdeg, ?_, ?_⟩ <;> simp [KMPResult.found]
  · obtain ⟨r, hr, hwf, hfound⟩ :=
      search_spec t p t.length p.length fuel r0 (by omega) (by omega) ht hf
    refine ⟨r, _, hr, search_first_spec t p _ _ fuel pos0 (by omega) (by omega) ht hf, ?_⟩
    have hs : r.found.Pairwise (· < ·) := hfound ▸ occurrences_sorted t p _ _
    rw [← hfound]
    cases hl : r.found with
    | nil => simp
    | cons x rest =>
      have hx : x ∈ occurrences t p p.length (t.length + 1 - p.length) := by
        rw [← hfound, hl]; exact List.mem_cons_self _ _
      have hxlt := (mem_occurrences.mp hx).1
      rw [hl] at hs
      have hall := (List.pairwise_cons.mp hs).1
      refine ⟨fun _ => ⟨List.mem_cons_self _ _, fun y hy => ?_⟩, ?_⟩
      · rcases List.mem_cons.mp hy with rfl | hy
        · exact Nat.le_refl _
        · exact Nat.le_of_lt (hall y hy)
      · simp only [List.headD_cons, reduceCtorEq, iff_false]
        omega

theorem kmp_search_first_is_min_witness :
    ([1, 2, 1, 2, 1].length ≤ SIZE_MAX ∧ 2 * [1, 2, 1, 2, 1].length ≤ 10) ∧
    ∃ r pos,
      kmp_search 10 (some [1, 2, 1, 2, 1]) [1, 2, 1, 2, 1].length (some [2, 1])
        [2, 1].length (some ⟨[], 0, 0⟩) = some (true, some r) ∧
      kmp_search_first 10 (some [1, 2, 1, 2, 1]) [1, 2, 1, 2, 1].length (some [2, 1])
        [2, 1].length (some 0) = some (true, some pos) ∧
      (r.found ≠ [] → pos ∈ r.found ∧ ∀ x, x ∈ r.found → pos ≤ x) ∧
      (pos = SIZE_MAX ↔ r.found = []) :=
  ⟨by decide, kmp_search_first_is_min [1, 2, 1, 2, 1] [2, 1] 10 ⟨[], 0, 0⟩ 0 (by decide)
    (by decide)⟩

/-- C7: with all references present, if the pattern length is 0, or the text
length is 0, or the pattern is longer than the text, `kmp_search` returns true
with an empty result (`count = 0`) and `kmp_search_first` returns true with
the not-found sentinel; none of these cases is an error. -/
theorem kmp_search_degenerate_ok (fuel : Nat) (t p : List Nat)
    (text_length pattern_length : Nat) (r0 : KMPResult) (pos0 : Nat)
    (h : pattern_length = 0 ∨ text_length = 0 ∨ pattern_length > text_length) :
    (∃ r, kmp_search fuel (some t) text_length (some p) pattern_length (some r0)
        = some (true, some r) ∧ r.count = 0 ∧ r.found = []) ∧
    kmp_search_first fuel (some t) text_length (some p) pattern_length (some pos0)
      = some (true, some SIZE_MAX) :=
  ⟨⟨_, search_degenerate fuel t p _ _ r0 h, rfl, rfl⟩,
    search_first_degenerate fuel t p _ _ pos0 h⟩

theorem kmp_search_degenerate_ok_witness :
    ((5 : Nat) = 0 ∨ (2 : Nat) = 0 ∨ 5 > 2) ∧
    (∃ r, kmp_search 0 (some (bytes "hi")) 2 (some (bytes "hello")) 5 (some ⟨[3], 1, 1⟩)
        = some (true, some r) ∧ r.count = 0 ∧ r.found = []) ∧
    kmp_search_first 0 (some (bytes "hi")) 2 (some (bytes "hello")) 5 (some 0)
      = some (true, some SIZE_MAX) :=
  ⟨by decide, kmp_search_degenerate_ok 0 (bytes "hi") (bytes "hello") 2 5 ⟨[3], 1, 1⟩ 0
    (by decide)⟩

/-- C8, as the code has it: `kmp_search` called with `pattern_length = 0` and
all references present returns true with an empty result; an empty pattern is
not an error for it. -/
theorem kmp_search_empty_pattern_ok (fuel : Nat) (t p : List Nat) (text_length : Nat)
    (r0 : KMPResult) :
    ∃ r, kmp_search fuel (some t) text_length (some p) 0 (some r0) = some (true, some r) ∧
      r.count = 0 ∧ r.found = [] :=
  ⟨_, search_degenerate fuel t p text_length 0 r0 (Or.inl rfl), rfl, rfl⟩

/-- C8 fails as stated: searching "text" for the empty pattern returns true
with no positions, it does not report failure. -/
theorem kmp_search_empty_pattern_not_failure :
    kmp_search 8 (some (bytes "text")) 4 (some (bytes "")) 0 (some ⟨[], 0, 0⟩)
      = some (true, some { positions := List.replicate 10 0, count := 0, capacity := 10 }) := by
  decide

/-- C9: `kmp_build_failure_function` returns false if and only if the pattern
reference is absent, the output array reference is absent, or `pattern_length`
is 0; for every other input it returns true, whatever the pattern holds. -/
theorem kmp_build_failure_function_false_iff (fuel : Nat) (pattern : Option (List Nat))
    (pattern_length : Nat) (failure_function : Option (List Nat))
    (hsz : ∀ ff, failure_function = some ff → pattern_length ≤ ff.length)
    (hf : 2 * pattern_length ≤ fuel) :
    ∃ ok out,
      kmp_build_failure_function fuel pattern pattern_length failure_function
        = some (ok, out) ∧
      (ok = false ↔ pattern = none ∨ failure_function = none ∨ pattern_length = 0) := by
  cases pattern with
  | none => exact ⟨false, failure_function, by simp [kmp_build_failure_function], by simp⟩
  | some p =>
    cases failure_function with
    | none => exact ⟨false, none, by simp [kmp_build_failure_function], by simp⟩
    | some ff =>
      by_cases hm : pattern_length = 0
      · exact ⟨false, some ff, by simp [kmp_build_failure_function, hm], by simp [hm]⟩
      · obtain ⟨out, ho, -⟩ :=
          build_spec p ff pattern_length fuel (by omega) (hsz ff rfl) hf
        exact ⟨true, some out, ho, by simp [hm]⟩

theorem kmp_build_failure_function_false_iff_witness :
    ((∀ ff, some [0, 0, 0] = some ff → 3 ≤ ff.length) ∧ 2 * 3 ≤ 6) ∧
    ∃ ok out,
      kmp_build_failure_function 6 (some [200, 0, 200]) 3 (some [0, 0, 0]) = some (ok, out) ∧
      (ok = false ↔ some [200, 0, 200] = none ∨ some [0, 0, 0] = none ∨ 3 = 0) :=
  ⟨⟨fun ff h => by cases h; decide, by decide⟩,
    kmp_build_failure_function_false_iff 6 (some [200, 0, 200]) 3 (some [0, 0, 0])
      (fun ff h => by cases h; decide) (by decide)⟩

/-- C10: with allocation succeeding, `kmp_search` returns false if and only if
the text, pattern or result reference is absent; it never fails because of
what the text or the pattern holds. -/
theorem kmp_search_false_iff (fuel : Nat) (text : Option (List Nat)) (text_length : Nat)
    (pattern : Option (List Nat)) (pattern_length : Nat) (result : Option KMPResult)
    (hn : text_length ≤ SIZE_MAX) (hf : 2 * text_length ≤ fuel) :
    ∃ ok out,
      kmp_search fuel text text_length pattern pattern_length result = some (ok, out) ∧
      (ok = false ↔ text = none ∨ pattern = none ∨ result = none) := by
  cases text with
  | none => exact ⟨false, result, by simp [kmp_search], by simp⟩
  | some t =>
    cases pattern with
    | none => exact ⟨false, result, by simp [kmp_search], by simp⟩
    | some p =>
      cases result with
      | none => exact ⟨false, none, by simp [kmp_search], by simp⟩
      | some r0 =>
        by_cases hdeg : pattern_length = 0 ∨ text_length = 0 ∨ pattern_length > text_length
        · exact ⟨true, _, search_degenerate fuel t p _ _ r0 hdeg, by simp⟩
        · obtain ⟨r, hr, -⟩ :=
            search_spec t p text_length pattern_length fuel r0 (by omega) (by omega) hn hf
          exact ⟨true, some r, hr, by simp⟩

theorem kmp_search_false_iff_witness :
    ((4 : Nat) ≤ SIZE_MAX ∧ 2 * 4 ≤ 8) ∧
    ∃ ok out,
      kmp_search 8 (some [255, 0, 255, 0]) 4 (some [0, 255]) 2 (some ⟨[], 0, 0⟩)
        = some (ok, out) ∧
      (ok = false ↔
        some [255, 0, 255, 0] = none ∨ some [0, 255] = none ∨ some (⟨[], 0, 0⟩ : KMPResult) = none) :=
  ⟨by decide, kmp_search_false_iff 8 (some [255, 0, 255, 0]) 4 (some [0, 255]) 2
    (some ⟨[], 0, 0⟩) (by decide) (by decide)⟩

/-! ## The reusable matcher -/

theorem isLps_unique {p : List Nat} {i v w : Nat} (hv : IsLps p i v) (hw : IsLps p i w) :
    v = w :=
  Nat.le_antisymm (hw.longest v hv.le hv.border) (hv.longest w hw.le hw.border)

theorem matcher_init_spec (p : List Nat) (m fuel : Nat) (m0 : KMPMatcher) (hm : 1 ≤ m)
    (hf : 2 * m ≤ fuel) :
    ∃ lps, kmp_build_failure_function fuel (some p) m (some (List.replicate m 0))
        = some (true, some lps) ∧
      kmp_matcher_init fuel (some m0) (some p) m
        = some (true, some
            (⟨some p, m, some lps⟩ : KMPMatcher)) ∧
      lps.length = m ∧ ∀ k, k < m → IsLps p k (lps.getD k 0) := by
  obtain ⟨lps, hb, hlen, hlps⟩ :=
    build_spec p (List.replicate m 0) m fuel hm (by simp) hf
  have hm0 : m ≠ 0 := by omega
  exact ⟨lps, hb, by simp only [kmp_matcher_init, hm0, if_false, hb], by simpa using hlen,
    hlps⟩

theorem matcher_search_loop_eq (p lps t : List Nat) (m n : Nat) :
    ∀ fuel i j r,
      kmp_matcher_search_loop
          (⟨some p, m, some lps⟩ : KMPMatcher) t n
          fuel i j r
        = kmp_search_loop t n p m lps fuel i j r := by
  intro fuel
  induction fuel with
  | zero => intro i j r; rfl
  | succ fuel ih =>
    intro i j r
    simp only [kmp_matcher_search_loop, kmp_search_loop, deref, Option.getD_some, ih]

theorem matcher_search_first_loop_eq (p lps t : List Nat) (m n : Nat) :
    ∀ fuel i j pos,
      kmp_matcher_search_first_loop
          (⟨some p, m, some lps⟩ : KMPMatcher) t n
          fuel i j pos
        = kmp_search_first_loop t n p m lps fuel i j pos := by
  intro fuel
  induction fuel with
  | zero => intro i j pos; rfl
  | succ fuel ih =>
    intro i j pos
    simp only [kmp_matcher_search_first_loop, kmp_search_first_loop, deref,
      Option.getD_some, ih]

theorem matcher_search_eq (p lps t : List Nat) (m n fuel : Nat) (r0 : KMPResult)
    (hb : kmp_build_failure_function fuel (some p) m (some (List.replicate m 0))
      = some (true, some lps)) :
    kmp_matcher_search fuel
        (some (⟨some p, m, some lps⟩ : KMPMatcher))
        (some t) n (some r0)
      = (kmp_search fuel (some t) n (some p) m (some r0)).map fun out =>
          (out.1, some (⟨some p, m, some lps⟩ : KMPMatcher), out.2) := by
  obtain ⟨r1, hinit, -⟩ := result_init_spec r0
  by_cases hdeg : m = 0 ∨ n = 0 ∨ m > n
  · simp only [kmp_matcher_search, kmp_search, hinit, hdeg, if_true, Option.map_some']
  · simp only [kmp_matcher_search, kmp_search, hinit, hdeg, if_false, hb,
      matcher_search_loop_eq, Option.map_map]
    rfl

theorem matcher_search_first_eq (p lps t : List Nat) (m n fuel pos0 : Nat)
    (hb : kmp_build_failure_function fuel (some p) m (some (List.replicate m 0))
      = some (true, some lps)) :
    kmp_matcher_search_first fuel
        (some (⟨some p, m, some lps⟩ : KMPMatcher))
        (some t) n (some pos0)
      = (kmp_search_first fuel (some t) n (some p) m (some pos0)).map fun out =>
          (out.1, some (⟨some p, m, some lps⟩ : KMPMatcher), out.2) := by
  by_cases hdeg : m = 0 ∨ n = 0 ∨ m > n
  · simp only [kmp_matcher_search_first, kmp_search_first, hdeg, if_true, Option.map_some']
  · simp only [kmp_matcher_search_first, kmp_search_first, hdeg, if_false, hb,
      matcher_search_first_loop_eq, Option.map_map]
    rfl

theorem search_total (t p : List Nat) (n m fuel : Nat) (r0 : KMPResult)
    (hn : n ≤ SIZE_MAX) (hf : 2 * n ≤ fuel) :
    ∃ r, kmp_search fuel (some t) n (some p) m (some r0) = some (true, some r) := by
  by_cases hdeg : m = 0 ∨ n = 0 ∨ m > n
  · exact ⟨_, search_degenerate fuel t p n m r0 hdeg⟩
  · obtain ⟨r, hr, -⟩ := search_spec t p n m fuel r0 (by omega) (by omega) hn hf
    exact ⟨r, hr⟩

theorem search_first_total (t p : List Nat) (n m fuel pos0 : Nat)
    (hn : n ≤ SIZE_MAX) (hf : 2 * n ≤ fuel) :
    ∃ pos, kmp_search_first fuel (some t) n (some p) m (some pos0)
      = some (true, some pos) := by
  by_cases hdeg : m = 0 ∨ n = 0 ∨ m > n
  · exact ⟨_, search_first_degenerate fuel t p n m pos0 hdeg⟩
  · exact ⟨_, search_first_spec t p n m fuel pos0 (by omega) (by omega) hn hf⟩

theorem search_ignores_initial (fuel : Nat) (t p : List Nat) (n m : Nat)
    (r0 r1 : KMPResult) :
    kmp_search fuel (some t) n (some p) m (some r0)
      = kmp_search fuel (some t) n (some p) m (some r1) := by
  simp only [kmp_search, kmp_result_init]

theorem search_first_ignores_initial (fuel : Nat) (t p : List Nat) (n m pos0 pos1 : Nat) :
    kmp_search_first fuel (some t) n (some p) m (some pos0)
      = kmp_search_first fuel (some t) n (some p) m (some pos1) := by
  simp only [kmp_search_first]

/-- C11: `kmp_matcher_init` fails when the pattern is empty
(`pattern_length = 0`) or a reference is absent; for every non-empty pattern it
succeeds and the matcher then holds that pattern, its length, and a
failure function equal element for element to what
`kmp_build_failure_function` computes for the pattern. -/
theorem kmp_matcher_init_correct :
    (∀ (fuel : Nat) (matcher : Option KMPMatcher) (pattern : Option (List Nat))
        (pattern_length : Nat),
      matcher = none ∨ pattern = none ∨ pattern_length = 0 →
      kmp_matcher_init fuel matcher pattern pattern_length = some (false, matcher)) ∧
    (∀ (p : List Nat) (fuel : Nat) (m0 : KMPMatcher), 1 ≤ p.length → 2 * p.length ≤ fuel →
      ∃ lps, kmp_matcher_init fuel (some m0) (some p) p.length
          = some (true, some ⟨some p, p.length, some lps⟩) ∧
        lps.length = p.length ∧
        ∀ ff out, p.length ≤ ff.length →
          kmp_build_failure_function fuel (some p) p.length (some ff)
            = some (true, some out) →
          ∀ i, i < p.length → lps[i]? = out[i]?) := by
  refine ⟨fun fuel matcher pattern m h => ?_, fun p fuel m0 hp hf => ?_⟩
  · cases matcher with
    | none => simp [kmp_matcher_init]
    | some mt =>
      cases pattern with
      | none => simp [kmp_matcher_init]
      | some p =>
        have hm : m = 0 := by simpa using h
        simp [kmp_matcher_init, hm]
  · obtain ⟨lps, -, hinit, hlen, hlps⟩ := matcher_init_spec p p.length fuel m0 hp hf
    refine ⟨lps, hinit, hlen, fun ff out hsz hout i hi => ?_⟩
    obtain ⟨out1, ho1, hlen1, hspec1⟩ := build_spec p ff p.length fuel hp hsz hf
    rw [ho1] at hout
    have hoo : out1 = out := by simpa using hout
    subst hoo
    rw [getElem?_of_getD (by omega), getElem?_of_getD (by omega),
      isLps_unique (hlps i hi) (hspec1 i hi)]

theorem kmp_matcher_init_correct_witness :
    ((none : Option KMPMatcher) = none ∨ some [65] = none ∨ 1 = 0) ∧
    kmp_matcher_init 0 none (some [65]) 1 = some (false, none) ∧
    (1 ≤ [65, 66, 65].length ∧ 2 * [65, 66, 65].length ≤ 6) ∧
    ∃ lps, kmp_matcher_init 6 (some ⟨none, 0, none⟩) (some [65, 66, 65]) [65, 66, 65].length
        = some (true, some ⟨some [65, 66, 65], [65, 66, 65].length, some lps⟩) ∧
      lps.length = [65, 66, 65].length ∧
      ∀ ff out, [65, 66, 65].length ≤ ff.length →
        kmp_build_failure_function 6 (some [65, 66, 65]) [65, 66, 65].length (some ff)
          = some (true, some out) →
        ∀ i, i < [65, 66, 65].length → lps[i]? = out[i]? :=
  ⟨by decide, kmp_matcher_init_correct.1 0 none (some [65]) 1 (by decide), by decide,
    kmp_matcher_init_correct.2 [65, 66, 65] 6 ⟨none, 0, none⟩ (by decide) (by decide)⟩

/-- C12: for every non-empty pattern `p` and every text `t`, a matcher
initialised with `p` gives the same results as the one-shot functions:
`kmp_matcher_search` returns exactly the result of `kmp_search` on `t` and
`p`, and `kmp_matcher_search_first` stores exactly the position of
`kmp_search_first`. -/
theorem kmp_matcher_search_eq_one_shot (p t : List Nat) (fuel : Nat) (m0 : KMPMatcher)
    (r0 : KMPResult) (pos0 : Nat) (hp : 1 ≤ p.length) (ht : t.length ≤ SIZE_MAX)
    (hfp : 2 * p.length ≤ fuel) (hft : 2 * t.length ≤ fuel) :
    ∃ mt r pos,
      kmp_matcher_init fuel (some m0) (some p) p.length = some (true, some mt) ∧
      kmp_search fuel (some t) t.length (some p) p.length (some r0) = some (true, some r) ∧
      kmp_matcher_search fuel (some mt) (some t) t.length (some r0)
        = some (true, some mt, some r) ∧
      kmp_search_first fuel (some t) t.length (some p) p.length (some pos0)
        = some (true, some pos) ∧
      kmp_matcher_search_first fuel (some mt) (some t) t.length (some pos0)
        = some (true, some mt, some pos) := by
  obtain ⟨lps, hb, hinit, -⟩ := matcher_init_spec p p.length fuel m0 hp hfp
  obtain ⟨r, hr⟩ := search_total t p t.length p.length fuel r0 ht hft
  obtain ⟨pos, hpos⟩ := search_first_total t p t.length p.length fuel pos0 ht hft
  refine ⟨_, r, pos, hinit, hr, ?_, hpos, ?_⟩
  · rw [matcher_search_eq p lps t p.length t.length fuel r0 hb, hr]
    rfl
  · rw [matcher_search_first_eq p lps t p.length t.length fuel pos0 hb, hpos]
    rfl

theorem kmp_matcher_search_eq_one_shot_witness :
    (1 ≤ [97, 110, 97].length ∧ [98, 97, 110, 97, 110, 97].length ≤ SIZE_MAX ∧
      2 * [97, 110, 97].length ≤ 12 ∧ 2 * [98, 97, 110, 97, 110, 97].length ≤ 12) ∧
    ∃ mt r pos,
      kmp_matcher_init 12 (some ⟨none, 0, none⟩) (some [97, 110, 97]) [97, 110, 97].length
        = some (true, some mt) ∧
      kmp_search 12 (some [98, 97, 110, 97, 110, 97]) [98, 97, 110, 97, 110, 97].length
        (some [97, 110, 97]) [97, 110, 97].length (some ⟨[], 0, 0⟩) = some (true, some r) ∧
      kmp_matcher_search 12 (some mt) (some [98, 97, 110, 97, 110, 97])
        [98, 97, 110, 97, 110, 97].length (some ⟨[], 0, 0⟩) = some (true, some mt, some r) ∧
      kmp_search_first 12 (some [98, 97, 110, 97, 110, 97])
        [98, 97, 110, 97, 110, 97].length (some [97, 110, 97]) [97, 110, 97].length (some 0)
        = some (true, some pos) ∧
      kmp_matcher_search_first 12 (some mt) (some [98, 97, 110, 97, 110, 97])
        [98, 97, 110, 97, 110, 97].length (some 0) = some (true, some mt, some pos) :=
  ⟨by decide, kmp_matcher_search_eq_one_shot [97, 110, 97] [98, 97, 110, 97, 110, 97] 12
    ⟨none, 0, none⟩ ⟨[], 0, 0⟩ 0 (by decide) (by decide) (by decide) (by decide)⟩

/-! ## Result management -/

/-- C18, as the code has it: the C++ `buildFailureFunction` applied to the
pattern "ABABCABAB" returns `[0, 0, 1, 2, 0, 1, 2, 3, 4]`. -/
theorem buildFailureFunction_ABABCABAB :
    buildFailureFunction 18 (bytes "ABABCABAB") = some [0, 0, 1, 2, 0, 1, 2, 3, 4] := by
  decide

/-- C18 fails as stated: the C++ `buildFailureFunction` applied to "ABABCABAB"
does not return `[0, 0, 1, 2, 0, 1, 2, 1, 2]`. -/
theorem buildFailureFunction_ABABCABAB_not_test_vector :
    buildFailureFunction 18 (bytes "ABABCABAB") ≠ some [0, 0, 1, 2, 0, 1, 2, 1, 2] := by
  decide

/-- C19, as the code has it: the C++ `kmpSearch` applied to the text
"ABABDABACDABABCABCABCABCABC" and the pattern "ABABCAB" returns the single
position `[10]`. -/
theorem kmpSearch_basic :
    kmpSearch 54 (bytes "ABABDABACDABABCABCABCABCABC") (bytes "ABABCAB") = some [10] := by
  decide

/-- C19 fails as stated: the C++ `kmpSearch` applied to
"ABABDABACDABABCABCABCABCABC" and "ABABCAB" does not return `[15]`. -/
theorem kmpSearch_basic_not_test_vector :
    kmpSearch 54 (bytes "ABABDABACDABABCABCABCABCABC") (bytes "ABABCAB") ≠ some [15] := by
  decide

/-! ## Rendering a failure function -/

theorem decimal_length_pos (v : Nat) : 1 ≤ (decimal v).length := by
  simp only [decimal, List.length_map, Nat.toDigits, Nat.toDigitsCore]
  split
  · simp
  · rw [Nat.toDigitsCore_lens_eq]
    omega

theorem decimal_length_lt (v : Nat) (hv : v ≤ SIZE_MAX) : (decimal v).length < 32 := by
  have h20 : v < 10 ^ 20 := by
    have : SIZE_MAX < 10 ^ 20 := by decide
    omega
  have := Nat.toDigitsCore_length 10 (by decide) (v + 1) v 20 h20 (by decide)
  simp only [decimal, List.length_map, Nat.toDigits]
  omega

theorem put_length (b : OutBuf) (i v : Nat) : (b.put i v).cells.length = b.cells.length := by
  simp [OutBuf.put]

theorem put_take (b : OutBuf) (i v : Nat) (hi : i < b.cells.length) :
    (b.put i v).cells.take (i + 1) = b.cells.take i ++ [v] :=
  take_set_succ b.cells i v hi

theorem memcpy_spec (src : List Nat) :
    ∀ (b : OutBuf) (offset : Nat), offset + src.length ≤ b.cells.length →
      (b.memcpy offset src).cells.length = b.cells.length ∧
      (b.memcpy offset src).cells.take (offset + src.length) = b.cells.take offset ++ src := by
  induction src with
  | nil => intro b offset _; exact ⟨rfl, by simp [OutBuf.memcpy]⟩
  | cons c cs ih =>
    intro b offset h
    simp only [List.length_cons] at h
    obtain ⟨hlen, htake⟩ := ih (b.put offset c) (offset + 1) (by rw [put_length]; omega)
    refine ⟨by rw [OutBuf.memcpy, hlen, put_length], ?_⟩
    have h1 : offset + (c :: cs).length = offset + 1 + cs.length := by
      simp only [List.length_cons]; omega
    rw [OutBuf.memcpy, h1, htake, put_take b offset c (by omega), List.append_assoc]
    rfl

theorem intercalate_cons_eq (v : Nat) (vs : List Nat) :
    List.intercalate [44, 32] ((v :: vs).map decimal) = decimal v ++ renderRest vs := by
  induction vs generalizing v with
  | nil => simp [List.intercalate, renderRest]
  | cons w ws ih =>
    have := ih w
    simp only [List.intercalate, List.map_cons, List.intersperse, List.flatten_cons] at this ⊢
    rw [this]
    simp [renderRest]

theorem render_eq (ff : List Nat) : render ff = [91] ++ renderFrom 0 ff ++ [93] := by
  cases ff with
  | nil => rfl
  | cons v vs => simp only [render, intercalate_cons_eq, renderFrom]

theorem renderFrom_nil (i : Nat) : renderFrom i [] = [] := by
  cases i <;> rfl

theorem renderFrom_succ (i : Nat) (items : List Nat) :
    renderFrom (i + 1) items = renderRest items := by
  cases items <;> rfl

theorem to_string_number_spec (ff : List Nat) (bs i offset : Nat) (buffer : OutBuf)
    (hv : ∀ v, v ∈ ff → v ≤ SIZE_MAX) (hi : i < ff.length)
    (hroom : offset + (decimal (ff.getD i 0)).length + 2 ≤ bs) :
    to_string_number ff bs i offset buffer
        = Flow.next (offset + (decimal (ff.getD i 0)).length)
            (buffer.memcpy offset (decimal (ff.getD i 0))) := by
  have hmem : ff.getD i 0 ∈ ff := by
    rw [List.getD_eq_getElem _ _ hi]; exact List.getElem_mem hi
  have h32 : ¬ (decimal (ff.getD i 0)).length ≥ 32 := by
    have := decimal_length_lt _ (hv _ hmem); omega
  have hfit : ¬ offset + (decimal (ff.getD i 0)).length ≥ bs - 1 := by omega
  simp only [to_string_number, h32, hfit, if_false]

theorem to_string_loop_spec (ff : List Nat) (bs : Nat) (hv : ∀ v, v ∈ ff → v ≤ SIZE_MAX) :
    ∀ fuel i offset (buffer : OutBuf), i ≤ ff.length →
      offset + (renderFrom i (ff.drop i)).length + 2 ≤ bs → bs ≤ buffer.cells.length →
      ff.length - i ≤ fuel →
      ∃ b1, to_string_loop ff ff.length bs fuel i offset buffer
          = some (Flow.brk (offset + (renderFrom i (ff.drop i)).length) b1) ∧
        b1.cells.length = buffer.cells.length ∧
        b1.cells.take (offset + (renderFrom i (ff.drop i)).length)
          = buffer.cells.take offset ++ renderFrom i (ff.drop i) := by
  intro fuel
  induction fuel with
  | zero =>
    intro i offset buffer hi hroom hsz hf
    have hil : i = ff.length := by omega
    subst hil
    refine ⟨buffer, ?_, rfl, ?_⟩
    · simp [to_string_loop, renderFrom_nil]
    · simp [renderFrom_nil]
  | succ fuel ih =>
    intro i offset buffer hi hroom hsz hf
    by_cases hil : i < ff.length
    · have hdrop : ff.drop i = ff.getD i 0 :: ff.drop (i + 1) := by
        rw [List.getD_eq_getElem _ _ hil]; exact List.drop_eq_getElem_cons hil
      have hpos := decimal_length_pos (ff.getD i 0)
      cases i with
      | zero =>
        have hrest : renderFrom 0 (ff.drop 0)
            = decimal (ff.getD 0 0) ++ renderFrom 1 (ff.drop 1) := by
          rw [hdrop, renderFrom_succ]; rfl
        rw [hrest, List.length_append] at hroom ⊢
        have hnum := to_string_number_spec ff bs 0 offset buffer hv hil (by omega)
        obtain ⟨hlen1, htake1⟩ :=
          memcpy_spec (decimal (ff.getD 0 0)) buffer offset (by omega)
        obtain ⟨b1, hb1, hlenb, htakeb⟩ :=
          ih 1 (offset + (decimal (ff.getD 0 0)).length)
            (buffer.memcpy offset (decimal (ff.getD 0 0))) (by omega) (by omega)
            (by omega) (by omega)
        have hcond : 0 < ff.length ∧ offset < bs - 1 := ⟨hil, by omega⟩
        refine ⟨b1, ?_, by omega, ?_⟩
        · simp only [to_string_loop, hcond, and_self, if_true, to_string_body,
            Nat.lt_irrefl, gt_iff_lt, if_false, hnum]
          rw [hb1, Nat.add_assoc]
        · rw [← Nat.add_assoc, htakeb, htake1, List.append_assoc]
      | succ i =>
        have hrest : renderFrom (i + 1) (ff.drop (i + 1))
            = [44, 32] ++ decimal (ff.getD (i + 1) 0)
              ++ renderFrom (i + 1 + 1) (ff.drop (i + 1 + 1)) := by
          rw [hdrop, renderFrom_succ, renderFrom_succ]; rfl
        rw [hrest] at hroom ⊢
        simp only [List.length_append, List.length_cons, List.length_nil] at hroom ⊢
        have hlenp := put_length buffer offset 44
        have hlenq := put_length (buffer.put offset 44) (offset + 1) 32
        have hnum := to_string_number_spec ff bs (i + 1) (offset + 1 + 1)
          ((buffer.put offset 44).put (offset + 1) 32) hv hil (by omega)
        obtain ⟨hlen1, htake1⟩ :=
          memcpy_spec (decimal (ff.getD (i + 1) 0))
            ((buffer.put offset 44).put (offset + 1) 32) (offset + 1 + 1) (by omega)
        obtain ⟨b1, hb1, hlenb, htakeb⟩ :=
          ih (i + 1 + 1) (offset + 1 + 1 + (decimal (ff.getD (i + 1) 0)).length)
            (((buffer.put offset 44).put (offset + 1) 32).memcpy (offset + 1 + 1)
              (decimal (ff.getD (i + 1) 0))) (by omega) (by omega) (by omega) (by omega)
        have hcond : i + 1 < ff.length ∧ offset < bs - 1 := ⟨hil, by omega⟩
        have hbrk : ¬ offset + 1 ≥ bs - 1 := by omega
        have hoff : offset + (0 + 1 + 1 + (decimal (ff.getD (i + 1) 0)).length
              + (renderFrom (i + 1 + 1) (ff.drop (i + 1 + 1))).length)
            = offset + 1 + 1 + (decimal (ff.getD (i + 1) 0)).length
              + (renderFrom (i + 1 + 1) (ff.drop (i + 1 + 1))).length := by omega
        refine ⟨b1, ?_, by omega, ?_⟩
        · simp only [to_string_loop, hcond, and_self, if_true, to_string_body,
            Nat.succ_pos, gt_iff_lt, hbrk, if_false, hnum]
          rw [hb1, hoff]
        · rw [hoff, htakeb, htake1, put_take _ _ _ (by omega),
            put_take _ _ _ (by omega)]
          simp only [List.append_assoc, List.cons_append, List.nil_append]
    · have hil2 : i = ff.length := by omega
      subst hil2
      refine ⟨buffer, ?_, rfl, ?_⟩
      · simp [to_string_loop, renderFrom_nil]
      · simp [renderFrom_nil]

/-- C14: for every failure-function array, whenever `buffer_size` is at least
the length of the full rendering plus one for the terminator,
`kmp_failure_function_to_string` returns true and the buffer holds exactly "["
followed by the decimal values separated by ", " followed by "]" and the
terminator; an array of length 0 renders as "[]". -/
theorem kmp_failure_function_to_string_full :
    (∀ (ff buf : List Nat) (buffer_size fuel : Nat), (∀ v, v ∈ ff → v ≤ SIZE_MAX) →
      (render ff).length + 1 ≤ buffer_size → buffer_size ≤ buf.length → ff.length ≤ fuel →
      ∃ out, kmp_failure_function_to_string fuel (some ff) ff.length (some buf) buffer_size
          = some (true, some out) ∧
        out.cells.take ((render ff).length + 1) = render ff ++ [0]) ∧
    render [] = bytes "[]" ∧
    render [0, 0, 1, 2, 0, 1, 2, 1, 2] = bytes "[0, 0, 1, 2, 0, 1, 2, 1, 2]" := by
  refine ⟨fun ff buf bs fuel hv hroom hsz hf => ?_, by decide, by decide⟩
  have hrl : (render ff).length = (renderFrom 0 ff).length + 2 := by
    rw [render_eq]; simp only [List.length_append, List.length_cons, List.length_nil]; omega
  rw [hrl] at hroom ⊢
  have hbs0 : bs ≠ 0 := by omega
  have hlen0 := put_length { cells := buf, writes := [] } 0 91
  have htake0 := put_take { cells := buf, writes := [] } 0 91 (show 0 < buf.length by omega)
  obtain ⟨b1, hb1, hlen1, htake1⟩ :=
    to_string_loop_spec ff bs hv fuel 0 1 (OutBuf.put { cells := buf, writes := [] } 0 91)
      (Nat.zero_le _) (by rw [List.drop_zero]; omega) (by rw [hlen0]; exact hsz) (by omega)
  rw [List.drop_zero] at hb1 htake1
  have hclose : 1 + (renderFrom 0 ff).length < bs - 1 := by omega
  have hb1len : b1.cells.length = buf.length := by rw [hlen1, hlen0]
  refine ⟨(b1.put (1 + (renderFrom 0 ff).length) 93).put
    (1 + (renderFrom 0 ff).length + 1) 0, ?_, ?_⟩
  · simp only [kmp_failure_function_to_string, hbs0, if_false, hb1, hclose, if_true]
  · have h3 : (renderFrom 0 ff).length + 2 + 1 = 1 + (renderFrom 0 ff).length + 1 + 1 := by
      omega
    rw [h3, put_take _ _ _ (by rw [put_length]; omega), put_take _ _ _ (by omega), htake1,
      htake0, render_eq]
    simp

theorem kmp_failure_function_to_string_full_witness :
    ((∀ v, v ∈ [0, 12] → v ≤ SIZE_MAX) ∧ (render [0, 12]).length + 1 ≤ 8 ∧
      8 ≤ [7, 7, 7, 7, 7, 7, 7, 7].length ∧ [0, 12].length ≤ 2) ∧
    ∃ out, kmp_failure_function_to_string 2 (some [0, 12]) [0, 12].length
        (some [7, 7, 7, 7, 7, 7, 7, 7]) 8 = some (true, some out) ∧
      out.cells.take ((render [0, 12]).length + 1) = render [0, 12] ++ [0] :=
  ⟨by decide, kmp_failure_function_to_string_full.1 [0, 12] [7, 7, 7, 7, 7, 7, 7, 7] 8 2
    (by decide) (by decide) (by decide) (by decide)⟩

theorem to_string_body_cases (ff : List Nat) (bs i offset : Nat) (buffer : OutBuf)
    (hv : ∀ v, v ∈ ff → v ≤ SIZE_MAX) :
    (∃ o b, to_string_body ff bs i offset buffer = Flow.next o b) ∨
      ∃ o b, to_string_body ff bs i offset buffer = Flow.brk o b := by
  have hnum : ∀ off (b : OutBuf),
      (∃ o b1, to_string_number ff bs i off b = Flow.next o b1) ∨
        ∃ o b1, to_string_number ff bs i off b = Flow.brk o b1 := by
    intro off b
    have h32 : ¬ (decimal (ff.getD i 0)).length ≥ 32 := by
      have hle : ff.getD i 0 ≤ SIZE_MAX := by
        by_cases hi : i < ff.length
        · rw [List.getD_eq_getElem _ _ hi]; exact hv _ (List.getElem_mem hi)
        · rw [List.getD_eq_default _ _ (by omega)]; exact Nat.zero_le _
      have := decimal_length_lt _ hle
      omega
    by_cases hfit : off + (decimal (ff.getD i 0)).length ≥ bs - 1
    · exact Or.inr ⟨off, b, by simp only [to_string_number, h32, hfit, if_true, if_false]⟩
    · exact Or.inl ⟨off + (decimal (ff.getD i 0)).length, b.memcpy off (decimal (ff.getD i 0)),
        by simp only [to_string_number, h32, hfit, if_false]⟩
  by_cases hi : i > 0
  · by_cases hb : offset + 1 ≥ bs - 1
    · exact Or.inr ⟨offset + 1, buffer.put offset 44, by
        simp only [to_string_body, hi, hb, if_true]⟩
    · simp only [to_string_body, hi, hb, if_true, if_false]
      exact hnum _ _
  · simp only [to_string_body, hi, if_false]
    exact hnum _ _

theorem to_string_loop_total (ff : List Nat) (length bs : Nat)
    (hv : ∀ v, v ∈ ff → v ≤ SIZE_MAX) :
    ∀ fuel i offset (buffer : OutBuf), length - i ≤ fuel →
      ∃ o b, to_string_loop ff length bs fuel i offset buffer = some (Flow.brk o b) := by
  intro fuel
  induction fuel with
  | zero =>
    intro i offset buffer hf
    have hc : ¬ (i < length ∧ offset < bs - 1) := by omega
    exact ⟨offset, buffer, by simp only [to_string_loop, hc, if_false]⟩
  | succ fuel ih =>
    intro i offset buffer hf
    by_cases hc : i < length ∧ offset < bs - 1
    · rcases to_string_body_cases ff bs i offset buffer hv with ⟨o, b, hb⟩ | ⟨o, b, hb⟩
      · obtain ⟨o1, b1, h1⟩ := ih (i + 1) o b (by omega)
        exact ⟨o1, b1, by simp only [to_string_loop, hc, and_self, if_true, hb, h1]⟩
      · exact ⟨o, b, by simp only [to_string_loop, hc, and_self, if_true, hb]⟩
    · exact ⟨offset, buffer, by simp only [to_string_loop, hc, if_false]⟩

/-! ### Rendering into a buffer that is too small -/

theorem truncated_examples :
    truncated [0, 12, 3] 7 1 = bytes "[0, ]" ∧
    truncated [0, 12, 3] 5 1 = bytes "[0, " ∧
    truncated [0, 12, 3] 4 1 = bytes "[0," ∧
    truncated [0, 12, 3] 3 0 = bytes "[]" ∧
    truncated [0, 12, 3] 2 0 = bytes "[" ∧
    truncated [0, 12, 3] 9 2 = bytes "[0, 12, " ∧
    kmp_failure_function_to_string 3 (some [0, 12, 3]) 3 (some [7, 7, 7, 7, 7, 7, 7, 7]) 7
      = some (true, some
          { cells := bytes "[0, ]" ++ [0, 7, 7], writes := [0, 1, 2, 3, 4, 5] }) := by
  decide

/-- C16 at `buffer_size = 1`: the function stores "[" at index 0 and then the
terminator at index 1, one cell past the end of the one-byte buffer. -/
theorem kmp_failure_function_to_string_overflow :
    kmp_failure_function_to_string 1 (some [0]) 1 (some [7]) 1
      = some (true, some { cells := [91], writes := [0, 1] }) := by
  decide

/-! ## Stores of `kmp_failure_function_to_string` when `buffer_size ≥ 2` -/

theorem safe_put {bs : Nat} {b : OutBuf} (h : b.Safe bs) {i : Nat} (hi : i < bs) (v : Nat) :
    (b.put i v).Safe bs := by
  intro w hw
  simp only [OutBuf.put, List.mem_append, List.mem_singleton] at hw
  rcases hw with hw | rfl
  · exact h w hw
  · exact hi

theorem safe_memcpy {bs : Nat} (src : List Nat) :
    ∀ (b : OutBuf) (offset : Nat), b.Safe bs → offset + src.length ≤ bs →
      (b.memcpy offset src).Safe bs := by
  induction src with
  | nil => intro b offset h _; exact h
  | cons c cs ih =>
    intro b offset h hle
    simp only [List.length_cons] at hle
    exact ih (b.put offset c) (offset + 1) (safe_put h (by omega) c) (by omega)

theorem safe_number (ff : List Nat) (bs i offset : Nat) (b : OutBuf) (h : b.Safe bs)
    (ho : offset ≤ bs - 1) : (to_string_number ff bs i offset b).Safe bs := by
  unfold to_string_number
  by_cases h32 : (decimal (ff.getD i 0)).length ≥ 32
  · simp only [h32, if_true]; exact h
  · by_cases hfit : offset + (decimal (ff.getD i 0)).length ≥ bs - 1
    · simp only [h32, hfit, if_true, if_false]; exact ⟨ho, h⟩
    · simp only [h32, hfit, if_false]
      exact ⟨by omega, safe_memcpy _ b offset h (by omega)⟩

theorem safe_body (ff : List Nat) (bs i offset : Nat) (b : OutBuf) (h : b.Safe bs)
    (ho : offset < bs - 1) : (to_string_body ff bs i offset b).Safe bs := by
  unfold to_string_body
  by_cases hi : i > 0
  · by_cases hb : offset + 1 ≥ bs - 1
    · simp only [hi, hb, if_true]
      exact ⟨by omega, safe_put h (by omega) 44⟩
    · simp only [hi, hb, if_true, if_false]
      exact safe_number ff bs i _ _ (safe_put (safe_put h (by omega) 44) (by omega) 32)
        (by omega)
  · simp only [hi, if_false]
    exact safe_number ff bs i offset b h (by omega)

theorem safe_loop (ff : List Nat) (length bs : Nat) :
    ∀ fuel i offset (b : OutBuf) (f : Flow), b.Safe bs → offset ≤ bs - 1 →
      to_string_loop ff length bs fuel i offset b = some f → f.Safe bs := by
  intro fuel
  induction fuel with
  | zero =>
    intro i offset b f h ho hf
    by_cases hc : i < length ∧ offset < bs - 1
    · simp [to_string_loop, hc] at hf
    · simp only [to_string_loop, hc, if_false, Option.some.injEq] at hf
      subst hf
      exact ⟨ho, h⟩
  | succ fuel ih =>
    intro i offset b f h ho hf
    by_cases hc : i < length ∧ offset < bs - 1
    · have hbody := safe_body ff bs i offset b h hc.2
      simp only [to_string_loop, hc, and_self, if_true] at hf
      cases hb : to_string_body ff bs i offset b with
      | next o1 b1 =>
        rw [hb] at hf hbody
        exact ih (i + 1) o1 b1 f hbody.2 hbody.1 hf
      | brk o1 b1 =>
        rw [hb] at hf hbody
        simp only [Option.some.injEq] at hf
        subst hf
        exact hbody
      | ret v b1 =>
        rw [hb] at hf hbody
        simp only [Option.some.injEq] at hf
        subst hf
        exact hbody
    · simp only [to_string_loop, hc, if_false, Option.some.injEq] at hf
      subst hf
      exact ⟨ho, h⟩

theorem to_string_writes_in_bounds (fuel : Nat) (ff buf : List Nat) (length bs : Nat)
    (ok : Bool) (out : OutBuf) (hbs : 2 ≤ bs)
    (h : kmp_failure_function_to_string fuel (some ff) length (some buf) bs
      = some (ok, some out)) :
    ∀ w, w ∈ out.writes → w < bs := by
  have hbs0 : bs ≠ 0 := by omega
  have h0 : (OutBuf.put { cells := buf, writes := [] } 0 91).Safe bs :=
    safe_put (fun w hw => by simp at hw) (by omega) 91
  simp only [kmp_failure_function_to_string, hbs0, if_false] at h
  cases hl : to_string_loop ff length bs fuel 0 1
      (OutBuf.put { cells := buf, writes := [] } 0 91) with
  | none => rw [hl] at h; simp at h
  | some f =>
    have hsafe := safe_loop ff length bs fuel 0 1 _ f h0 (by omega) hl
    rw [hl] at h
    cases f with
    | ret v b =>
      simp only [Option.some.injEq, Prod.mk.injEq] at h
      obtain ⟨-, rfl⟩ := h
      exact hsafe
    | brk o b =>
      have ho : o ≤ bs - 1 := hsafe.1
      by_cases hclose : o < bs - 1
      · simp only [hclose, if_true, Option.some.injEq, Prod.mk.injEq] at h
        obtain ⟨-, rfl⟩ := h
        exact safe_put (safe_put hsafe.2 (by omega) 93) (by omega) 0
      · simp only [hclose, if_false, Option.some.injEq, Prod.mk.injEq] at h
        obtain ⟨-, rfl⟩ := h
        exact safe_put hsafe.2 (by omega) 0
    | next o b =>
      have ho : o ≤ bs - 1 := hsafe.1
      by_cases hclose : o < bs - 1
      · simp only [hclose, if_true, Option.some.injEq, Prod.mk.injEq] at h
        obtain ⟨-, rfl⟩ := h
        exact safe_put (safe_put hsafe.2 (by omega) 93) (by omega) 0
      · simp only [hclose, if_false, Option.some.injEq, Prod.mk.injEq] at h
        obtain ⟨-, rfl⟩ := h
        exact safe_put hsafe.2 (by omega) 0

end KMP

namespace BinarySearch

/-! ## Correctness of `binary_search` -/

theorem sorted_getD {arr : List Int} (h : arr.Pairwise (· ≤ ·)) {i j : Nat} (hij : i ≤ j)
    (hj : j < arr.length) : arr.getD i 0 ≤ arr.getD j 0 := by
  have hi : i < arr.length := Nat.lt_of_le_of_lt hij hj
  rw [List.getD_eq_getElem _ _ hi, List.getD_eq_getElem _ _ hj]
  rcases Nat.lt_or_eq_of_le hij with hlt | rfl
  · exact List.pairwise_iff_getElem.mp h i j hi hj hlt
  · exact Int.le_refl _

theorem size_to_int_eq {n : Nat} (h : n ≤ INT_MAX) : size_to_int n = (n : Int) := by
  have h1 : n < 2 ^ 31 := by unfold INT_MAX at h; omega
  have h2 : n % 2 ^ 32 = n := Nat.mod_eq_of_lt (by omega)
  simp only [size_to_int, h2, h1, if_true]

theorem binary_search_loop_spec (arr : List Int) (target : Int)
    (hs : arr.Pairwise (· ≤ ·)) :
    ∀ fuel left right, SearchInv arr target left right → right + 1 - left ≤ fuel →
      ∃ res, binary_search_loop arr target fuel left right { index := -1, found := false }
          = some res ∧
        ((∃ mid, mid < arr.length ∧ arr.getD mid 0 = target ∧
            res = { index := size_to_int mid, found := true }) ∨
          (res = { index := -1, found := false } ∧
            ∀ k, k < arr.length → arr.getD k 0 ≠ target)) := by
  intro fuel
  induction fuel with
  | zero =>
    intro left right h hf
    have hlr : ¬ left ≤ right := by omega
    refine ⟨_, by simp [binary_search_loop, hlr], Or.inr ⟨rfl, fun k hk => ?_⟩⟩
    rcases Nat.lt_or_ge k left with hkl | hkl
    · exact Int.ne_of_lt (h.below k hkl)
    · exact (Int.ne_of_lt (h.above k (by omega) hk)).symm
  | succ fuel ih =>
    intro left right h hf
    by_cases hlr : left ≤ right
    · have hr := h.right_lt
      have hmid1 : left ≤ left + (right - left) / 2 := Nat.le_add_right _ _
      have hmid2 : left + (right - left) / 2 ≤ right := by omega
      generalize hmid : left + (right - left) / 2 = mid at hmid1 hmid2
      by_cases heq : arr.getD mid 0 = target
      · refine ⟨_, ?_, Or.inl ⟨mid, by omega, heq, rfl⟩⟩
        simp only [binary_search_loop, hlr, hmid, heq, if_true]
      · by_cases hlt : arr.getD mid 0 < target
        · have hinv : SearchInv arr target (mid + 1) right :=
            ⟨hr, by omega, fun k hk =>
              Int.lt_of_le_of_lt (sorted_getD hs (by omega) (by omega)) hlt, h.above⟩
          obtain ⟨res, hres, hspec⟩ := ih (mid + 1) right hinv (by omega)
          refine ⟨res, ?_, hspec⟩
          simp only [binary_search_loop, hlr, hmid, heq, hlt, if_true, if_false]
          exact hres
        · have hgt : target < arr.getD mid 0 := by omega
          by_cases hm0 : mid = 0
          · refine ⟨_, ?_, Or.inr ⟨rfl, fun k hk => ?_⟩⟩
            · simp only [binary_search_loop, hlr, hmid, heq, hlt, if_true, if_false]
              simp only [hm0, if_true]
            · have := sorted_getD hs (show mid ≤ k by omega) hk
              omega
          · have hinv : SearchInv arr target left (mid - 1) :=
              ⟨by omega, by omega, h.below, fun k hk1 hk2 =>
                Int.lt_of_lt_of_le hgt (sorted_getD hs (by omega) hk2)⟩
            obtain ⟨res, hres, hspec⟩ := ih left (mid - 1) hinv (by omega)
            refine ⟨res, ?_, hspec⟩
            simp only [binary_search_loop, hlr, hmid, heq, hlt, hm0, if_true, if_false]
            exact hres
    · refine ⟨_, by simp [binary_search_loop, hlr], Or.inr ⟨rfl, fun k hk => ?_⟩⟩
      rcases Nat.lt_or_ge k left with hkl | hkl
      · exact Int.ne_of_lt (h.below k hkl)
      · exact (Int.ne_of_lt (h.above k (by omega) hk)).symm

theorem mem_iff_getD (arr : List Int) (target : Int) :
    target ∈ arr ↔ ∃ k, k < arr.length ∧ arr.getD k 0 = target := by
  rw [List.mem_iff_getElem]
  constructor
  · rintro ⟨k, hk, h⟩
    exact ⟨k, hk, by rw [List.getD_eq_getElem _ _ hk]; exact h⟩
  · rintro ⟨k, hk, h⟩
    exact ⟨k, hk, by rw [List.getD_eq_getElem _ _ hk] at h; exact h⟩

/-- C20: for every integer array sorted in non-decreasing order, of size at
most `INT_MAX`, and every target, `binary_search` reports `found = true` if and
only if the target occurs in the array; when found, `0 ≤ index < size` and
`arr[index] = target`; when not found, `index = -1`. -/
theorem binary_search_correct (arr : List Int) (target : Int) (fuel : Nat)
    (hs : arr.Pairwise (· ≤ ·)) (hsz : arr.length ≤ INT_MAX) (hf : arr.length ≤ fuel) :
    ∃ res, binary_search fuel (some arr) arr.length target = some res ∧
      (res.found = true ↔ target ∈ arr) ∧
      (res.found = true →
        0 ≤ res.index ∧ res.index < arr.length ∧ arr[res.index.toNat]? = some target) ∧
      (res.found = false → res.index = -1) := by
  by_cases h0 : arr.length = 0
  · have hnil : arr = [] := List.length_eq_zero.mp h0
    subst hnil
    exact ⟨_, rfl, by simp, by simp, by simp⟩
  · have hinv : SearchInv arr target 0 (arr.length - 1) :=
      ⟨by omega, by omega, fun k hk => absurd hk (Nat.not_lt_zero _), fun k hk1 hk2 => by
        omega⟩
    obtain ⟨res, hres, hspec⟩ :=
      binary_search_loop_spec arr target hs fuel 0 (arr.length - 1) hinv (by omega)
    refine ⟨res, by simp only [binary_search, h0, if_false]; exact hres, ?_⟩
    rcases hspec with ⟨mid, hmid, hval, rfl⟩ | ⟨rfl, hnone⟩
    · have hcast : size_to_int mid = (mid : Int) := size_to_int_eq (by omega)
      refine ⟨⟨fun _ => (mem_iff_getD arr target).mpr ⟨mid, hmid, hval⟩, fun _ => rfl⟩,
        fun _ => ?_, fun h => by simp at h⟩
      simp only [hcast, Int.toNat_ofNat]
      refine ⟨Int.ofNat_nonneg _, by exact_mod_cast hmid, ?_⟩
      rw [List.getElem?_eq_getElem hmid, ← hval, List.getD_eq_getElem _ _ hmid]
    · refine ⟨⟨fun h => by simp at h, fun hmem => ?_⟩, fun h => by simp at h, fun _ => rfl⟩
      obtain ⟨k, hk, hval⟩ := (mem_iff_getD arr target).mp hmem
      exact absurd hval (hnone k hk)

theorem binary_search_correct_witness :
    (([1, 3, 5, 7, 9] : List Int).Pairwise (· ≤ ·) ∧
      ([1, 3, 5, 7, 9] : List Int).length ≤ INT_MAX ∧
      ([1, 3, 5, 7, 9] : List Int).length ≤ 5) ∧
    ∃ res, binary_search 5 (some [1, 3, 5, 7, 9]) ([1, 3, 5, 7, 9] : List Int).length 7
        = some res ∧
      (res.found = true ↔ (7 : Int) ∈ ([1, 3, 5, 7, 9] : List Int)) ∧
      (res.found = true →
        0 ≤ res.index ∧ res.index < ([1, 3, 5, 7, 9] : List Int).length ∧
          ([1, 3, 5, 7, 9] : List Int)[res.index.toNat]? = some 7) ∧
      (res.found = false → res.index = -1) :=
  ⟨by decide, binary_search_correct [1, 3, 5, 7, 9] 7 5 (by decide) (by decide) (by decide)⟩

/-! ## Recursive and iterative search agree -/

theorem recursive_helper_eq_loop (arr : List Int) (target : Int) :
    ∀ fuel left right,
      binary_search_recursive_helper arr target fuel left right
        = binary_search_loop arr target fuel left right { index := -1, found := false } := by
  intro fuel
  induction fuel with
  | zero =>
    intro left right
    by_cases h : left ≤ right
    · have h2 : ¬ left > right := by omega
      simp only [binary_search_recursive_helper, binary_search_loop, h, h2, if_true, if_false]
    · have h2 : left > right := by omega
      simp only [binary_search_recursive_helper, binary_search_loop, h, h2, if_true, if_false]
  | succ fuel ih =>
    intro left right
    by_cases h : left ≤ right
    · have h2 : ¬ left > right := by omega
      simp only [binary_search_recursive_helper, binary_search_loop, h, h2, if_true, if_false,
        ih]
    · have h2 : left > right := by omega
      simp only [binary_search_recursive_helper, binary_search_loop, h, h2, if_true, if_false]

theorem binary_search_loop_total (arr : List Int) (target : Int) :
    ∀ fuel left right (res0 : BinarySearchResult), right + 1 - left ≤ fuel →
      ∃ res, binary_search_loop arr target fuel left right res0 = some res := by
  intro fuel
  induction fuel with
  | zero =>
    intro left right res0 hf
    have h : ¬ left ≤ right := by omega
    exact ⟨res0, by simp only [binary_search_loop, h, if_false]⟩
  | succ fuel ih =>
    intro left right res0 hf
    by_cases h : left ≤ right
    · have hmid2 : left + (right - left) / 2 ≤ right := by omega
      have hmid1 : left ≤ left + (right - left) / 2 := Nat.le_add_right _ _
      generalize hmid : left + (right - left) / 2 = mid at hmid1 hmid2
      by_cases heq : arr.getD mid 0 = target
      · exact ⟨{ res0 with index := size_to_int mid, found := true }, by
          simp only [binary_search_loop, h, hmid, heq, if_true]⟩
      · by_cases hlt : arr.getD mid 0 < target
        · obtain ⟨res, hres⟩ := ih (mid + 1) right res0 (by omega)
          exact ⟨res, by
            simp only [binary_search_loop, h, hmid, heq, hlt, if_true, if_false]; exact hres⟩
        · by_cases hm0 : mid = 0
          · refine ⟨res0, ?_⟩
            simp only [binary_search_loop, h, hmid, heq, hlt, if_true, if_false]
            simp only [hm0, if_true]
          · obtain ⟨res, hres⟩ := ih left (mid - 1) res0 (by omega)
            exact ⟨res, by
              simp only [binary_search_loop, h, hmid, heq, hlt, hm0, if_true, if_false]
              exact hres⟩
    · exact ⟨res0, by simp only [binary_search_loop, h, if_false]⟩

/-- C24: for every integer array, sorted or not, and every target,
`binary_search_recursive` returns the same found flag and the same index as
the iterative `binary_search`. -/
theorem binary_search_recursive_eq_iterative (fuel : Nat) (arr : Option (List Int))
    (size : Nat) (target : Int) (hf : size ≤ fuel) :
    ∃ res, binary_search fuel arr size target = some res ∧
      binary_search_recursive fuel arr size target = some res := by
  cases arr with
  | none => exact ⟨_, rfl, rfl⟩
  | some a =>
    by_cases h0 : size = 0
    · exact ⟨{ index := -1, found := false }, by simp only [binary_search, h0, if_true], by
        simp only [binary_search_recursive, h0, if_true]⟩
    · obtain ⟨res, hres⟩ :=
        binary_search_loop_total a target fuel 0 (size - 1) { index := -1, found := false }
          (by omega)
      refine ⟨res, by simp only [binary_search, h0, if_false]; exact hres, ?_⟩
      simp only [binary_search_recursive, h0, if_false, recursive_helper_eq_loop]
      exact hres

theorem binary_search_recursive_eq_iterative_witness :
    (5 ≤ 5) ∧
    ∃ res, binary_search 5 (some [9, 1, 7, 3, 5]) 5 3 = some res ∧
      binary_search_recursive 5 (some [9, 1, 7, 3, 5]) 5 3 = some res :=
  ⟨by decide, binary_search_recursive_eq_iterative 5 (some [9, 1, 7, 3, 5]) 5 3 (by decide)⟩

/-! ## Insertion point -/

theorem insertion_point_loop_spec (arr : List Int) (target : Int)
    (hs : arr.Pairwise (· ≤ ·)) :
    ∀ fuel left right, InsertInv arr target left right → right - left ≤ fuel →
      ∃ p, binary_search_insertion_point_loop arr target fuel left right = some p ∧
        p ≤ arr.length ∧ (∀ k, k < p → arr.getD k 0 < target) ∧
        ∀ k, p ≤ k → k < arr.length → target ≤ arr.getD k 0 := by
  intro fuel
  induction fuel with
  | zero =>
    intro left right h hf
    have hlr : ¬ left < right := by omega
    have hl : left = right := by have := h.left_le; omega
    exact ⟨left, by simp only [binary_search_insertion_point_loop, hlr, if_false],
      by have := h.right_le; omega, h.below, fun k hk => h.above k (by omega)⟩
  | succ fuel ih =>
    intro left right h hf
    have hrl := h.right_le
    by_cases hlr : left < right
    · have hmid1 : left ≤ left + (right - left) / 2 := Nat.le_add_right _ _
      have hmid2 : left + (right - left) / 2 < right := by omega
      generalize hmid : left + (right - left) / 2 = mid at hmid1 hmid2
      by_cases hlt : arr.getD mid 0 < target
      · have hinv : InsertInv arr target (mid + 1) right :=
          ⟨by omega, hrl, fun k hk =>
            Int.lt_of_le_of_lt (sorted_getD hs (by omega) (by omega)) hlt, h.above⟩
        obtain ⟨p, hp, hspec⟩ := ih (mid + 1) right hinv (by omega)
        exact ⟨p, by
          simp only [binary_search_insertion_point_loop, hlr, hmid, hlt, if_true]
          exact hp, hspec⟩
      · have hge : target ≤ arr.getD mid 0 := by omega
        have hinv : InsertInv arr target left mid :=
          ⟨hmid1, by omega, h.below, fun k hk1 hk2 =>
            Int.le_trans hge (sorted_getD hs hk1 hk2)⟩
        obtain ⟨p, hp, hspec⟩ := ih left mid hinv (by omega)
        exact ⟨p, by
          simp only [binary_search_insertion_point_loop, hlr, hmid, hlt, if_true, if_false]
          exact hp, hspec⟩
    · have hl : left = right := by have := h.left_le; omega
      exact ⟨left, by simp only [binary_search_insertion_point_loop, hlr, if_false],
        by omega, h.below, fun k hk => h.above k (by omega)⟩

theorem mem_take_getD {arr : List Int} {p : Nat} {x : Int} (hp : p ≤ arr.length)
    (hx : x ∈ arr.take p) : ∃ k, k < p ∧ arr.getD k 0 = x := by
  obtain ⟨k, hk, rfl⟩ := List.mem_iff_getElem.mp hx
  have hkp : k < p := by
    simp only [List.length_take] at hk; omega
  refine ⟨k, hkp, ?_⟩
  rw [List.getD_eq_getElem _ _ (by omega), List.getElem_take]

theorem mem_drop_getD {arr : List Int} {p : Nat} {x : Int} (hx : x ∈ arr.drop p) :
    ∃ k, p ≤ k ∧ k < arr.length ∧ arr.getD k 0 = x := by
  obtain ⟨k, hk, rfl⟩ := List.mem_iff_getElem.mp hx
  have hkl : p + k < arr.length := by
    simp only [List.length_drop] at hk; omega
  refine ⟨p + k, Nat.le_add_right _ _, hkl, ?_⟩
  rw [List.getD_eq_getElem _ _ hkl, List.getElem_drop]

/-- C23: for every integer array sorted in non-decreasing order and every
target, `binary_search_insertion_point` returns an index `p ≤ size` such that
every element before `p` is strictly less than the target and every element
at or after `p` is at least the target; inserting the target at `p` keeps the
array sorted, and `p` is the index of the first occurrence of the target when
it is present. -/
theorem binary_search_insertion_point_correct (arr : List Int) (target : Int) (fuel : Nat)
    (hs : arr.Pairwise (· ≤ ·)) (hf : arr.length ≤ fuel) :
    ∃ p, binary_search_insertion_point fuel (some arr) arr.length target = some p ∧
      p ≤ arr.length ∧ (∀ x, x ∈ arr.take p → x < target) ∧
      (∀ x, x ∈ arr.drop p → target ≤ x) ∧
      (arr.take p ++ target :: arr.drop p).Pairwise (· ≤ ·) ∧
      (target ∈ arr → arr[p]? = some target ∧ target ∉ arr.take p) := by
  have hinv : InsertInv arr target 0 arr.length :=
    ⟨Nat.zero_le _, Nat.le_refl _, fun k hk => absurd hk (Nat.not_lt_zero _),
      fun k hk1 hk2 => by omega⟩
  obtain ⟨p, hp, hple, hbelow, habove⟩ :=
    insertion_point_loop_spec arr target hs fuel 0 arr.length hinv (by omega)
  have htake : ∀ x, x ∈ arr.take p → x < target := by
    intro x hx
    obtain ⟨k, hk, rfl⟩ := mem_take_getD hple hx
    exact hbelow k hk
  have hdrop : ∀ x, x ∈ arr.drop p → target ≤ x := by
    intro x hx
    obtain ⟨k, hk1, hk2, rfl⟩ := mem_drop_getD hx
    exact habove k hk1 hk2
  refine ⟨p, hp, hple, htake, hdrop, ?_, fun hmem => ?_⟩
  · rw [List.pairwise_append]
    refine ⟨hs.sublist (List.take_sublist _ _), ?_, ?_⟩
    · rw [List.pairwise_cons]
      exact ⟨hdrop, hs.sublist (List.drop_sublist _ _)⟩
    · intro x hx y hy
      rcases List.mem_cons.mp hy with rfl | hy
      · exact Int.le_of_lt (htake x hx)
      · exact Int.le_trans (Int.le_of_lt (htake x hx)) (hdrop y hy)
  · obtain ⟨k, hk, hval⟩ := (mem_iff_getD arr target).mp hmem
    have hpk : p ≤ k := by
      by_contra hlt
      have := hbelow k (by omega)
      omega
    have h1 := sorted_getD hs hpk hk
    have h2 := habove p (Nat.le_refl _) (by omega)
    refine ⟨?_, fun hin => ?_⟩
    · rw [List.getElem?_eq_getElem (show p < arr.length by omega),
        ← List.getD_eq_getElem _ (0 : Int) (show p < arr.length by omega)]
      congr 1
      omega
    · have := htake target hin
      omega

theorem binary_search_insertion_point_correct_witness :
    (([1, 3, 5, 5, 9] : List Int).Pairwise (· ≤ ·) ∧ ([1, 3, 5, 5, 9] : List Int).length ≤ 5) ∧
    ∃ p, binary_search_insertion_point 5 (some [1, 3, 5, 5, 9])
        ([1, 3, 5, 5, 9] : List Int).length 5 = some p ∧
      p ≤ ([1, 3, 5, 5, 9] : List Int).length ∧
      (∀ x, x ∈ ([1, 3, 5, 5, 9] : List Int).take p → x < 5) ∧
      (∀ x, x ∈ ([1, 3, 5, 5, 9] : List Int).drop p → 5 ≤ x) ∧
      (([1, 3, 5, 5, 9] : List Int).take p ++ 5 :: ([1, 3, 5, 5, 9] : List Int).drop p).Pairwise
        (· ≤ ·) ∧
      ((5 : Int) ∈ ([1, 3, 5, 5, 9] : List Int) →
        ([1, 3, 5, 5, 9] : List Int)[p]? = some 5 ∧
          (5 : Int) ∉ ([1, 3, 5, 5, 9] : List Int).take p) :=
  ⟨by decide, binary_search_insertion_point_correct [1, 3, 5, 5, 9] 5 5 (by decide)
    (by decide)⟩

/-! ## First and last occurrence -/

theorem first_occurrence_loop_spec (arr : List Int) (target : Int)
    (hs : arr.Pairwise (· ≤ ·)) :
    ∀ fuel left right first_index found, FirstInv arr target left right first_index found →
      right + 1 - left ≤ fuel →
      ∃ fi fo, binary_search_first_occurrence_loop arr target fuel left right first_index
          { index := -1, found := found } = some (fi, { index := -1, found := fo }) ∧
        ((fo = true ∧ ∃ k, k < arr.length ∧ fi = size_to_int k ∧ arr.getD k 0 = target ∧
            ∀ j, j < k → arr.getD j 0 < target) ∨
          (fo = false ∧ fi = -1 ∧ ∀ k, k < arr.length → arr.getD k 0 ≠ target)) := by
  have hexit : ∀ left right first_index found,
      FirstInv arr target left right first_index found → ¬ left ≤ right →
      ((found = true ∧ ∃ k, k < arr.length ∧ first_index = size_to_int k ∧
          arr.getD k 0 = target ∧ ∀ j, j < k → arr.getD j 0 < target) ∨
        (found = false ∧ first_index = -1 ∧ ∀ k, k < arr.length → arr.getD k 0 ≠ target)) := by
    intro left right first_index found h hlr
    have hl : left = right + 1 := by have := h.left_le; omega
    cases found with
    | true =>
      obtain ⟨h1, h2, h3⟩ := h.hit rfl
      exact Or.inl ⟨rfl, right + 1, h1, h3, h2, fun j hj => h.below j (by omega)⟩
    | false =>
      obtain ⟨h1, h2⟩ := h.miss rfl
      refine Or.inr ⟨rfl, h1, fun k hk => ?_⟩
      rcases Nat.lt_or_ge k left with hkl | hkl
      · exact Int.ne_of_lt (h.below k hkl)
      · exact (Int.ne_of_lt (h2 k (by omega) hk)).symm
  intro fuel
  induction fuel with
  | zero =>
    intro left right first_index found h hf
    have hlr : ¬ left ≤ right := by omega
    exact ⟨first_index, found, by
      simp only [binary_search_first_occurrence_loop, hlr, if_false],
      hexit left right first_index found h hlr⟩
  | succ fuel ih =>
    intro left right first_index found h hf
    by_cases hlr : left ≤ right
    · have hr := h.right_lt
      have hmid1 : left ≤ left + (right - left) / 2 := Nat.le_add_right _ _
      have hmid2 : left + (right - left) / 2 ≤ right := by omega
      generalize hmid : left + (right - left) / 2 = mid at hmid1 hmid2
      by_cases heq : arr.getD mid 0 = target
      · by_cases hm0 : mid = 0
        · refine ⟨size_to_int mid, true, ?_, Or.inl ⟨rfl, mid, by omega, rfl, heq, fun j hj => ?_⟩⟩
          · simp only [binary_search_first_occurrence_loop, hlr, hmid, heq, if_true]
            simp only [hm0, if_true]
          · omega
        · have hinv : FirstInv arr target left (mid - 1) (size_to_int mid) true :=
            { right_lt := by omega
              left_le := by omega
              below := h.below
              above := fun k hk1 hk2 => heq ▸ sorted_getD hs (by omega) hk2
              hit := fun _ => by
                have hm : mid - 1 + 1 = mid := by omega
                rw [hm]
                exact ⟨by omega, heq, rfl⟩
              miss := fun hc => by simp at hc }
          obtain ⟨fi, fo, hres, hspec⟩ := ih left (mid - 1) (size_to_int mid) true hinv
            (by omega)
          refine ⟨fi, fo, ?_, hspec⟩
          simp only [binary_search_first_occurrence_loop, hlr, hmid, heq, hm0, if_true,
            if_false]
          exact hres
      · by_cases hlt : arr.getD mid 0 < target
        · have hinv : FirstInv arr target (mid + 1) right first_index found :=
            { right_lt := hr
              left_le := by omega
              below := fun k hk =>
                Int.lt_of_le_of_lt (sorted_getD hs (by omega) (by omega)) hlt
              above := h.above
              hit := h.hit
              miss := h.miss }
          obtain ⟨fi, fo, hres, hspec⟩ := ih (mid + 1) right first_index found hinv (by omega)
          refine ⟨fi, fo, ?_, hspec⟩
          simp only [binary_search_first_occurrence_loop, hlr, hmid, heq, hlt, if_true,
            if_false]
          exact hres
        · have hgt : target < arr.getD mid 0 := by omega
          have hfound : found = false := by
            cases found with
            | false => rfl
            | true =>
              obtain ⟨h1, h2, -⟩ := h.hit rfl
              have := sorted_getD hs (show mid ≤ right + 1 by omega) h1
              omega
          subst hfound
          obtain ⟨hfi, -⟩ := h.miss rfl
          by_cases hm0 : mid = 0
          · refine ⟨first_index, false, ?_, Or.inr ⟨rfl, hfi, fun k hk => ?_⟩⟩
            · simp only [binary_search_first_occurrence_loop, hlr, hmid, heq, hlt, if_true,
                if_false]
              simp only [hm0, if_true]
            · have := sorted_getD hs (show mid ≤ k by omega) hk
              omega
          · have habove : ∀ k, mid - 1 < k → k < arr.length → target < arr.getD k 0 :=
              fun k hk1 hk2 => Int.lt_of_lt_of_le hgt (sorted_getD hs (by omega) hk2)
            have hinv : FirstInv arr target left (mid - 1) first_index false :=
              { right_lt := by omega
                left_le := by omega
                below := h.below
                above := fun k hk1 hk2 => Int.le_of_lt (habove k hk1 hk2)
                hit := fun hc => by simp at hc
                miss := fun _ => ⟨hfi, habove⟩ }
            obtain ⟨fi, fo, hres, hspec⟩ := ih left (mid - 1) first_index false hinv (by omega)
            refine ⟨fi, fo, ?_, hspec⟩
            simp only [binary_search_first_occurrence_loop, hlr, hmid, heq, hlt, hm0, if_true,
              if_false]
            exact hres
    · exact ⟨first_index, found, by
        simp only [binary_search_first_occurrence_loop, hlr, if_false],
        hexit left right first_index found h hlr⟩

theorem first_occurrence_spec (arr : List Int) (target : Int) (fuel : Nat)
    (hs : arr.Pairwise (· ≤ ·)) (hf : arr.length ≤ fuel) :
    ∃ res, binary_search_first_occurrence fuel (some arr) arr.length target = some res ∧
      ((∃ k, k < arr.length ∧ res = { index := size_to_int k, found := true } ∧
          arr.getD k 0 = target ∧ ∀ j, j < k → arr.getD j 0 < target) ∨
        (res = { index := -1, found := false } ∧
          ∀ k, k < arr.length → arr.getD k 0 ≠ target)) := by
  by_cases h0 : arr.length = 0
  · refine ⟨{ index := -1, found := false }, ?_, Or.inr ⟨rfl, fun k hk => by omega⟩⟩
    simp only [binary_search_first_occurrence, h0, if_true]
  · have hinv : FirstInv arr target 0 (arr.length - 1) (-1) false :=
      { right_lt := by omega
        left_le := by omega
        below := fun k hk => absurd hk (Nat.not_lt_zero _)
        above := fun k hk1 hk2 => by omega
        hit := fun hc => by simp at hc
        miss := fun _ => ⟨rfl, fun k hk1 hk2 => by omega⟩ }
    obtain ⟨fi, fo, hres, hspec⟩ :=
      first_occurrence_loop_spec arr target hs fuel 0 (arr.length - 1) (-1) false hinv
        (by omega)
    refine ⟨{ index := fi, found := fo }, ?_, ?_⟩
    · simp only [binary_search_first_occurrence, h0, if_false, hres, Option.map_some']
    · rcases hspec with ⟨rfl, k, hk, rfl, hval, hmin⟩ | ⟨rfl, rfl, hnone⟩
      · exact Or.inl ⟨k, hk, rfl, hval, hmin⟩
      · exact Or.inr ⟨rfl, hnone⟩

theorem last_occurrence_loop_spec (arr : List Int) (target : Int)
    (hs : arr.Pairwise (· ≤ ·)) :
    ∀ fuel left right last_index found, LastInv arr target left right last_index found →
      right + 1 - left ≤ fuel →
      ∃ li fo, binary_search_last_occurrence_loop arr target fuel left right last_index
          { index := -1, found := found } = some (li, { index := -1, found := fo }) ∧
        ((fo = true ∧ ∃ k, k < arr.length ∧ li = size_to_int k ∧ arr.getD k 0 = target ∧
            ∀ j, k < j → j < arr.length → target < arr.getD j 0) ∨
          (fo = false ∧ li = -1 ∧ ∀ k, k < arr.length → arr.getD k 0 ≠ target)) := by
  have hexit : ∀ left right last_index found,
      LastInv arr target left right last_index found → ¬ left ≤ right →
      ((found = true ∧ ∃ k, k < arr.length ∧ last_index = size_to_int k ∧
          arr.getD k 0 = target ∧ ∀ j, k < j → j < arr.length → target < arr.getD j 0) ∨
        (found = false ∧ last_index = -1 ∧ ∀ k, k < arr.length → arr.getD k 0 ≠ target)) := by
    intro left right last_index found h hlr
    have hl : left = right + 1 := by have := h.left_le; omega
    have hr := h.right_lt
    cases found with
    | true =>
      obtain ⟨h1, h2, h3⟩ := h.hit rfl
      exact Or.inl ⟨rfl, left - 1, by omega, h3, h2, fun j hj1 hj2 =>
        h.above j (by omega) hj2⟩
    | false =>
      obtain ⟨h1, h2⟩ := h.miss rfl
      refine Or.inr ⟨rfl, h1, fun k hk => ?_⟩
      rcases Nat.lt_or_ge k left with hkl | hkl
      · exact Int.ne_of_lt (h2 k hkl)
      · exact (Int.ne_of_lt (h.above k (by omega) hk)).symm
  intro fuel
  induction fuel with
  | zero =>
    intro left right last_index found h hf
    have hlr : ¬ left ≤ right := by omega
    exact ⟨last_index, found, by
      simp only [binary_search_last_occurrence_loop, hlr, if_false],
      hexit left right last_index found h hlr⟩
  | succ fuel ih =>
    intro left right last_index found h hf
    by_cases hlr : left ≤ right
    · have hr := h.right_lt
      have hmid1 : left ≤ left + (right - left) / 2 := Nat.le_add_right _ _
      have hmid2 : left + (right - left) / 2 ≤ right := by omega
      generalize hmid : left + (right - left) / 2 = mid at hmid1 hmid2
      by_cases heq : arr.getD mid 0 = target
      · have hinv : LastInv arr target (mid + 1) right (size_to_int mid) true :=
          { right_lt := hr
            left_le := by omega
            below := fun k hk => heq ▸ sorted_getD hs (show k ≤ mid by omega) (by omega)
            above := h.above
            hit := fun _ => ⟨by omega, by rw [Nat.add_sub_cancel]; exact heq, by
              rw [Nat.add_sub_cancel]⟩
            miss := fun hc => by simp at hc }
        obtain ⟨li, fo, hres, hspec⟩ := ih (mid + 1) right (size_to_int mid) true hinv
          (by omega)
        refine ⟨li, fo, ?_, hspec⟩
        simp only [binary_search_last_occurrence_loop, hlr, hmid, heq, if_true]
        exact hres
      · by_cases hlt : arr.getD mid 0 < target
        · have hfound : found = false := by
            cases found with
            | false => rfl
            | true =>
              obtain ⟨h1, h2, -⟩ := h.hit rfl
              have := sorted_getD hs (show left - 1 ≤ mid by omega) (by omega)
              omega
          subst hfound
          obtain ⟨hli, -⟩ := h.miss rfl
          have hbelow : ∀ k, k < mid + 1 → arr.getD k 0 < target := fun k hk =>
            Int.lt_of_le_of_lt (sorted_getD hs (show k ≤ mid by omega) (by omega)) hlt
          have hinv : LastInv arr target (mid + 1) right last_index false :=
            { right_lt := hr
              left_le := by omega
              below := fun k hk => Int.le_of_lt (hbelow k hk)
              above := h.above
              hit := fun hc => by simp at hc
              miss := fun _ => ⟨hli, hbelow⟩ }
          obtain ⟨li, fo, hres, hspec⟩ := ih (mid + 1) right last_index false hinv (by omega)
          refine ⟨li, fo, ?_, hspec⟩
          simp only [binary_search_last_occurrence_loop, hlr, hmid, heq, hlt, if_true,
            if_false]
          exact hres
        · have hgt : target < arr.getD mid 0 := by omega
          by_cases hm0 : mid = 0
          · have hfound : found = false := by
              cases found with
              | false => rfl
              | true =>
                obtain ⟨h1, h2, -⟩ := h.hit rfl
                have := sorted_getD hs (show mid ≤ left - 1 by omega)
                  (show left - 1 < arr.length by omega)
                omega
            subst hfound
            obtain ⟨hli, -⟩ := h.miss rfl
            refine ⟨last_index, false, ?_, Or.inr ⟨rfl, hli, fun k hk => ?_⟩⟩
            · simp only [binary_search_last_occurrence_loop, hlr, hmid, heq, hlt, if_true,
                if_false]
              simp only [hm0, if_true]
            · have := sorted_getD hs (show mid ≤ k by omega) hk
              omega
          · have hinv : LastInv arr target left (mid - 1) last_index found :=
              { right_lt := by omega
                left_le := by omega
                below := h.below
                above := fun k hk1 hk2 =>
                  Int.lt_of_lt_of_le hgt (sorted_getD hs (by omega) hk2)
                hit := h.hit
                miss := h.miss }
            obtain ⟨li, fo, hres, hspec⟩ := ih left (mid - 1) last_index found hinv (by omega)
            refine ⟨li, fo, ?_, hspec⟩
            simp only [binary_search_last_occurrence_loop, hlr, hmid, heq, hlt, hm0, if_true,
              if_false]
            exact hres
    · exact ⟨last_index, found, by
        simp only [binary_search_last_occurrence_loop, hlr, if_false],
        hexit left right last_index found h hlr⟩

theorem last_occurrence_spec (arr : List Int) (target : Int) (fuel : Nat)
    (hs : arr.Pairwise (· ≤ ·)) (hf : arr.length ≤ fuel) :
    ∃ res, binary_search_last_occurrence fuel (some arr) arr.length target = some res ∧
      ((∃ k, k < arr.length ∧ res = { index := size_to_int k, found := true } ∧
          arr.getD k 0 = target ∧ ∀ j, k < j → j < arr.length → target < arr.getD j 0) ∨
        (res = { index := -1, found := false } ∧
          ∀ k, k < arr.length → arr.getD k 0 ≠ target)) := by
  by_cases h0 : arr.length = 0
  · refine ⟨{ index := -1, found := false }, ?_, Or.inr ⟨rfl, fun k hk => by omega⟩⟩
    simp only [binary_search_last_occurrence, h0, if_true]
  · have hinv : LastInv arr target 0 (arr.length - 1) (-1) false :=
      { right_lt := by omega
        left_le := by omega
        below := fun k hk => absurd hk (Nat.not_lt_zero _)
        above := fun k hk1 hk2 => by omega
        hit := fun hc => by simp at hc
        miss := fun _ => ⟨rfl, fun k hk => absurd hk (Nat.not_lt_zero _)⟩ }
    obtain ⟨li, fo, hres, hspec⟩ :=
      last_occurrence_loop_spec arr target hs fuel 0 (arr.length - 1) (-1) false hinv
        (by omega)
    refine ⟨{ index := li, found := fo }, ?_, ?_⟩
    · simp only [binary_search_last_occurrence, h0, if_false, hres, Option.map_some']
    · rcases hspec with ⟨rfl, k, hk, rfl, hval, hmax⟩ | ⟨rfl, rfl, hnone⟩
      · exact Or.inl ⟨k, hk, rfl, hval, hmax⟩
      · exact Or.inr ⟨rfl, hnone⟩

theorem getElem?_getD_eq {arr : List Int} {i : Nat} {v : Int} (h : arr[i]? = some v) :
    i < arr.length ∧ arr.getD i 0 = v := by
  have hi : i < arr.length := by
    by_contra hc
    rw [List.getElem?_eq_none (by omega)] at h
    exact absurd h (by simp)
  refine ⟨hi, ?_⟩
  rw [List.getElem?_eq_getElem hi] at h
  rw [List.getD_eq_getElem _ _ hi]
  exact Option.some.inj h

/-- C21, for arrays whose indices fit an `int`: for every integer array
sorted in non-decreasing order, of size at most `INT_MAX`, and every target,
`binary_search_first_occurrence` returns found with index equal to the
smallest `i` such that `arr[i] = target` when the target occurs, and
`found = false` with `index = -1` otherwise. -/
theorem binary_search_first_occurrence_correct (arr : List Int) (target : Int) (fuel : Nat)
    (hs : arr.Pairwise (· ≤ ·)) (hsz : arr.length ≤ INT_MAX) (hf : arr.length ≤ fuel) :
    ∃ res, binary_search_first_occurrence fuel (some arr) arr.length target = some res ∧
      (target ∈ arr →
        res.found = true ∧ 0 ≤ res.index ∧ arr[res.index.toNat]? = some target ∧
          ∀ i : Nat, arr[i]? = some target → res.index ≤ (i : Int)) ∧
      (target ∉ arr → res.found = false ∧ res.index = -1) := by
  obtain ⟨res, hres, hspec⟩ := first_occurrence_spec arr target fuel hs hf
  refine ⟨res, hres, ?_⟩
  rcases hspec with ⟨k, hk, rfl, hval, hmin⟩ | ⟨rfl, hnone⟩
  · have hcast : size_to_int k = (k : Int) := size_to_int_eq (by omega)
    refine ⟨fun _ => ⟨rfl, ?_, ?_, fun i hi => ?_⟩, fun hnot => ?_⟩
    · simp only [hcast]; exact Int.ofNat_nonneg _
    · simp only [hcast, Int.toNat_ofNat]
      rw [List.getElem?_eq_getElem hk, ← hval, List.getD_eq_getElem _ _ hk]
    · obtain ⟨hil, hiv⟩ := getElem?_getD_eq hi
      simp only [hcast]
      by_contra hc
      have hik : i < k := by omega
      have := hmin i hik
      omega
    · exact absurd ((mem_iff_getD arr target).mpr ⟨k, hk, hval⟩) hnot
  · refine ⟨fun hmem => ?_, fun _ => ⟨rfl, rfl⟩⟩
    obtain ⟨k, hk, hval⟩ := (mem_iff_getD arr target).mp hmem
    exact absurd hval (hnone k hk)

theorem binary_search_first_occurrence_correct_witness :
    (([1, 2, 2, 2, 3] : List Int).Pairwise (· ≤ ·) ∧
      ([1, 2, 2, 2, 3] : List Int).length ≤ INT_MAX ∧ ([1, 2, 2, 2, 3] : List Int).length ≤ 5) ∧
    ∃ res, binary_search_first_occurrence 5 (some [1, 2, 2, 2, 3])
        ([1, 2, 2, 2, 3] : List Int).length 2 = some res ∧
      ((2 : Int) ∈ ([1, 2, 2, 2, 3] : List Int) →
        res.found = true ∧ 0 ≤ res.index ∧
          ([1, 2, 2, 2, 3] : List Int)[res.index.toNat]? = some 2 ∧
          ∀ i : Nat, ([1, 2, 2, 2, 3] : List Int)[i]? = some 2 → res.index ≤ (i : Int)) ∧
      ((2 : Int) ∉ ([1, 2, 2, 2, 3] : List Int) → res.found = false ∧ res.index = -1) :=
  ⟨by decide, binary_search_first_occurrence_correct [1, 2, 2, 2, 3] 2 5 (by decide)
    (by decide) (by decide)⟩

/-- C22, for arrays whose indices fit an `int`: for every integer array
sorted in non-decreasing order, of size at most `INT_MAX`, and every target,
`binary_search_last_occurrence` returns found with index equal to the largest
`i` such that `arr[i] = target` when the target occurs, and `found = false`
with `index = -1` otherwise. -/
theorem binary_search_last_occurrence_correct (arr : List Int) (target : Int) (fuel : Nat)
    (hs : arr.Pairwise (· ≤ ·)) (hsz : arr.length ≤ INT_MAX) (hf : arr.length ≤ fuel) :
    ∃ res, binary_search_last_occurrence fuel (some arr) arr.length target = some res ∧
      (target ∈ arr →
        res.found = true ∧ 0 ≤ res.index ∧ arr[res.index.toNat]? = some target ∧
          ∀ i : Nat, arr[i]? = some target → (i : Int) ≤ res.index) ∧
      (target ∉ arr → res.found = false ∧ res.index = -1) := by
  obtain ⟨res, hres, hspec⟩ := last_occurrence_spec arr target fuel hs hf
  refine ⟨res, hres, ?_⟩
  rcases hspec with ⟨k, hk, rfl, hval, hmax⟩ | ⟨rfl, hnone⟩
  · have hcast : size_to_int k = (k : Int) := size_to_int_eq (by omega)
    refine ⟨fun _ => ⟨rfl, ?_, ?_, fun i hi => ?_⟩, fun hnot => ?_⟩
    · simp only [hcast]; exact Int.ofNat_nonneg _
    · simp only [hcast, Int.toNat_ofNat]
      rw [List.getElem?_eq_getElem hk, ← hval, List.getD_eq_getElem _ _ hk]
    · obtain ⟨hil, hiv⟩ := getElem?_getD_eq hi
      simp only [hcast]
      by_contra hc
      have hik : k < i := by omega
      have := hmax i hik hil
      omega
    · exact absurd ((mem_iff_getD arr target).mpr ⟨k, hk, hval⟩) hnot
  · refine ⟨fun hmem => ?_, fun _ => ⟨rfl, rfl⟩⟩
    obtain ⟨k, hk, hval⟩ := (mem_iff_getD arr target).mp hmem
    exact absurd hval (hnone k hk)

theorem binary_search_last_occurrence_correct_witness :
    (([1, 2, 2, 2, 3] : List Int).Pairwise (· ≤ ·) ∧
      ([1, 2, 2, 2, 3] : List Int).length ≤ INT_MAX ∧ ([1, 2, 2, 2, 3] : List Int).length ≤ 5) ∧
    ∃ res, binary_search_last_occurrence 5 (some [1, 2, 2, 2, 3])
        ([1, 2, 2, 2, 3] : List Int).length 2 = some res ∧
      ((2 : Int) ∈ ([1, 2, 2, 2, 3] : List Int) →
        res.found = true ∧ 0 ≤ res.index ∧
          ([1, 2, 2, 2, 3] : List Int)[res.index.toNat]? = some 2 ∧
          ∀ i : Nat, ([1, 2, 2, 2, 3] : List Int)[i]? = some 2 → (i : Int) ≤ res.index) ∧
      ((2 : Int) ∉ ([1, 2, 2, 2, 3] : List Int) → res.found = false ∧ res.index = -1) :=
  ⟨by decide, binary_search_last_occurrence_correct [1, 2, 2, 2, 3] 2 5 (by decide)
    (by decide) (by decide)⟩

/-! ## Arrays with more than `INT_MAX` elements -/

theorem getD_zeros_one (n k : Nat) :
    (List.replicate n (0 : Int) ++ [1]).getD k 0 = if k = n then 1 else 0 := by
  rcases Nat.lt_trichotomy k n with h | h | h
  · have hne : k ≠ n := by omega
    rw [List.getD_append _ _ _ _ (by simpa using h)]
    simp [hne, List.getD_eq_getElem?_getD, List.getElem?_replicate, h]
  · subst h
    rw [List.getD_append_right _ _ _ _ (by simp)]
    simp
  · have hne : k ≠ n := by omega
    rw [List.getD_eq_default _ _ (by simp; omega)]
    simp [hne]

theorem zeros_one_sorted (n : Nat) : (List.replicate n (0 : Int) ++ [1]).Pairwise (· ≤ ·) := by
  rw [List.pairwise_append]
  refine ⟨?_, List.pairwise_singleton _ _, fun x hx y hy => ?_⟩
  · rw [List.pairwise_replicate]
    exact Or.inr (Int.le_refl _)
  · rw [List.mem_replicate] at hx
    rw [List.mem_singleton] at hy
    rw [hx.2, hy]
    decide

theorem first_occurrence_zeros_one (n fuel : Nat) (hf : n + 1 ≤ fuel) :
    binary_search_first_occurrence fuel (some (List.replicate n (0 : Int) ++ [1])) (n + 1) 1
      = some { index := size_to_int n, found := true } := by
  have hlen : (List.replicate n (0 : Int) ++ [1]).length = n + 1 := by simp
  obtain ⟨res, hres, hspec⟩ :=
    first_occurrence_spec (List.replicate n (0 : Int) ++ [1]) 1 fuel (zeros_one_sorted n)
      (by rw [hlen]; exact hf)
  rw [hlen] at hres hspec
  rw [hres]
  rcases hspec with ⟨k, hk, rfl, hval, -⟩ | ⟨-, hnone⟩
  · rw [getD_zeros_one] at hval
    have hkn : k = n := by
      by_contra hc
      simp [hc] at hval
    rw [hkn]
  · have := hnone n (by omega)
    rw [getD_zeros_one] at this
    simp at this

theorem last_occurrence_zeros_one (n fuel : Nat) (hf : n + 1 ≤ fuel) :
    binary_search_last_occurrence fuel (some (List.replicate n (0 : Int) ++ [1])) (n + 1) 1
      = some { index := size_to_int n, found := true } := by
  have hlen : (List.replicate n (0 : Int) ++ [1]).length = n + 1 := by simp
  obtain ⟨res, hres, hspec⟩ :=
    last_occurrence_spec (List.replicate n (0 : Int) ++ [1]) 1 fuel (zeros_one_sorted n)
      (by rw [hlen]; exact hf)
  rw [hlen] at hres hspec
  rw [hres]
  rcases hspec with ⟨k, hk, rfl, hval, -⟩ | ⟨-, hnone⟩
  · rw [getD_zeros_one] at hval
    have hkn : k = n := by
      by_contra hc
      simp [hc] at hval
    rw [hkn]
  · have := hnone n (by omega)
    rw [getD_zeros_one] at this
    simp at this

theorem size_to_int_wraps : size_to_int (2 ^ 31) = -2147483648 := by
  decide

/-- C21 fails as stated: on the sorted array of `2 ^ 31` zeros followed by a
one, the only occurrence of 1 is at index `2 ^ 31`, and
`binary_search_first_occurrence` reports the index `-2147483648`. -/
theorem binary_search_first_occurrence_index_wraps :
    (List.replicate (2 ^ 31) (0 : Int) ++ [1]).Pairwise (· ≤ ·) ∧
    binary_search_first_occurrence (2 ^ 31 + 1)
        (some (List.replicate (2 ^ 31) (0 : Int) ++ [1])) (2 ^ 31 + 1) 1
      = some { index := -2147483648, found := true } :=
  ⟨zeros_one_sorted (2 ^ 31), by
    rw [first_occurrence_zeros_one (2 ^ 31) (2 ^ 31 + 1) (Nat.le_refl _), size_to_int_wraps]⟩

/-- C22 fails as stated: on the sorted array of `2 ^ 31` zeros followed by a
one, the only occurrence of 1 is at index `2 ^ 31`, and
`binary_search_last_occurrence` reports the index `-2147483648`. -/
theorem binary_search_last_occurrence_index_wraps :
    (List.replicate (2 ^ 31) (0 : Int) ++ [1]).Pairwise (· ≤ ·) ∧
    binary_search_last_occurrence (2 ^ 31 + 1)
        (some (List.replicate (2 ^ 31) (0 : Int) ++ [1])) (2 ^ 31 + 1) 1
      = some { index := -2147483648, found := true } :=
  ⟨zeros_one_sorted (2 ^ 31), by
    rw [last_occurrence_zeros_one (2 ^ 31) (2 ^ 31 + 1) (Nat.le_refl _), size_to_int_wraps]⟩

end BinarySearch

namespace BubbleSort

/-! ## Correctness of `bubble_sort` -/

theorem getD_set_int (l : List Int) (i k : Nat) (v : Int) :
    (l.set i v).getD k 0 = if k = i ∧ i < l.length then v else l.getD k 0 := by
  simp only [List.getD_eq_getElem?_getD, List.getElem?_set]
  by_cases hki : k = i
  · subst hki
    by_cases hl : k < l.length
    · simp [hl]
    · simp [hl, List.getElem?_eq_none (Nat.le_of_not_lt hl)]
  · have : ¬ i = k := fun h => hki h.symm
    simp [hki, this]

theorem swap_length (arr : List Int) (a b : Nat) : (swap arr a b).length = arr.length := by
  simp [swap]

theorem swap_getD (arr : List Int) (j k : Nat) (hj : j + 1 < arr.length) :
    (swap arr j (j + 1)).getD k 0
      = if k = j then arr.getD (j + 1) 0 else if k = j + 1 then arr.getD j 0
        else arr.getD k 0 := by
  simp only [swap, getD_set_int, List.length_set]
  by_cases h1 : k = j
  · have h2 : ¬ k = j + 1 := by omega
    have hjl : j < arr.length := by omega
    simp [h1, hjl]
  · by_cases h2 : k = j + 1
    · simp [h2, hj]
    · simp [h1, h2]

theorem swap_perm (arr : List Int) :
    ∀ j, j + 1 < arr.length → (swap arr j (j + 1)).Perm arr := by
  induction arr with
  | nil => intro j hj; simp at hj
  | cons x xs ih =>
    intro j hj
    cases j with
    | zero =>
      cases xs with
      | nil => simp at hj
      | cons y ys =>
        simp only [swap, List.getD_cons_zero, List.getD_cons_succ, List.set_cons_zero,
          List.set_cons_succ]
        exact List.Perm.swap x y ys
    | succ j =>
      have hj1 : j + 1 < xs.length := by simpa using hj
      have : swap (x :: xs) (j + 1) (j + 1 + 1) = x :: swap xs j (j + 1) := by
        simp only [swap, List.getD_cons_succ, List.set_cons_succ]
      rw [this]
      exact List.Perm.cons x (ih j hj1)

theorem inner_spec (length i b : Nat) (hb : length - i - 1 = b) :
    ∀ fuel j (arr : List Int) (sw : Bool), j ≤ b → b - j ≤ fuel → b < arr.length →
      ∃ out sw1, bubble_sort_inner length i fuel j arr sw = some (out, sw1) ∧
        InnerPost arr out j b sw sw1 := by
  have hdone : ∀ (arr : List Int) (sw : Bool), InnerPost arr arr b b sw sw := fun arr sw =>
    { perm := List.Perm.refl _
      length_eq := rfl
      tail_eq := fun _ _ => rfl
      bound := fun _ h => h
      top := fun h => h
      quiet := fun _ => ⟨rfl, fun k hk1 hk2 => by omega⟩
      sticky := fun h => h }
  intro fuel
  induction fuel with
  | zero =>
    intro j arr sw hj hf hlen
    have hjb : j = b := by omega
    subst hjb
    have hc : ¬ j < length - i - 1 := by omega
    exact ⟨arr, sw, by simp only [bubble_sort_inner, hc, if_false], hdone arr sw⟩
  | succ fuel ih =>
    intro j arr sw hj hf hlen
    by_cases hjb : j < b
    · have hc : j < length - i - 1 := by omega
      by_cases hgt : arr.getD j 0 > arr.getD (j + 1) 0
      · have hj1 : j + 1 < arr.length := by omega
        obtain ⟨out, sw1, hrun, hpost⟩ :=
          ih (j + 1) (swap arr j (j + 1)) true (by omega) (by omega)
            (by rw [swap_length]; exact hlen)
        have hsw1 : sw1 = true := hpost.sticky rfl
        refine ⟨out, sw1, ?_, ?_⟩
        · simp only [bubble_sort_inner, hc, hgt, if_true]
          exact hrun
        · exact
            { perm := hpost.perm.trans (swap_perm arr j hj1)
              length_eq := by rw [hpost.length_eq, swap_length]
              tail_eq := fun k hk => by
                rw [hpost.tail_eq k hk, swap_getD arr j k hj1]
                have h1 : ¬ k = j := by omega
                have h2 : ¬ k = j + 1 := by omega
                simp only [h1, h2, if_false]
              bound := fun M hM => hpost.bound M fun k hk => by
                rw [swap_getD arr j k hj1]
                split
                · exact hM (j + 1) (by omega)
                · split
                  · exact hM j (by omega)
                  · exact hM k hk
              top := fun htop => hpost.top fun k hk => by
                rw [swap_getD arr j k hj1, swap_getD arr j (j + 1) hj1]
                have h3 : ¬ j + 1 = j := by omega
                simp only [h3, if_false, if_true]
                split
                · omega
                · split
                  · exact Int.le_refl _
                  · exact htop k (by omega)
              quiet := fun h => by rw [hsw1] at h; simp at h
              sticky := fun _ => hsw1 }
      · have hle : arr.getD j 0 ≤ arr.getD (j + 1) 0 := by omega
        obtain ⟨out, sw1, hrun, hpost⟩ := ih (j + 1) arr sw (by omega) (by omega) hlen
        refine ⟨out, sw1, ?_, ?_⟩
        · simp only [bubble_sort_inner, hc, hgt, if_true, if_false]
          exact hrun
        · exact
            { perm := hpost.perm
              length_eq := hpost.length_eq
              tail_eq := hpost.tail_eq
              bound := hpost.bound
              top := fun htop => hpost.top fun k hk => by
                rcases Nat.lt_or_ge k (j + 1) with h | h
                · exact Int.le_trans (htop k (by omega)) hle
                · have hk1 : k = j + 1 := by omega
                  rw [hk1]
              quiet := fun h => by
                obtain ⟨h1, h2⟩ := hpost.quiet h
                refine ⟨h1, fun k hk1 hk2 => ?_⟩
                rcases Nat.lt_or_ge j k with h3 | h3
                · exact h2 k (by omega) hk2
                · have hkj : k = j := by omega
                  rw [hkj]; exact hle
              sticky := hpost.sticky }
    · have hjb2 : j = b := by omega
      subst hjb2
      have hc : ¬ j < length - i - 1 := by omega
      exact ⟨arr, sw, by simp only [bubble_sort_inner, hc, if_false], hdone arr sw⟩

theorem chain_le (arr : List Int) (b : Nat)
    (h : ∀ k, k < b → arr.getD k 0 ≤ arr.getD (k + 1) 0) :
    ∀ l, l ≤ b → ∀ k, k ≤ l → arr.getD k 0 ≤ arr.getD l 0 := by
  intro l
  induction l with
  | zero =>
    intro _ k hk
    have : k = 0 := by omega
    rw [this]
  | succ l ih =>
    intro hl k hk
    rcases Nat.lt_or_ge k (l + 1) with h1 | h1
    · exact Int.le_trans (ih (by omega) k (by omega)) (h l (by omega))
    · have : k = l + 1 := by omega
      rw [this]

theorem outer_spec (n inner_fuel : Nat) (hif : n ≤ inner_fuel) :
    ∀ fuel i (arr : List Int), arr.length = n → i ≤ n → Settled arr n (n - i) →
      n - i ≤ fuel →
      ∃ out, bubble_sort_outer n inner_fuel fuel i arr = some out ∧ out.Perm arr ∧
        Settled out n 0 := by
  intro fuel
  induction fuel with
  | zero =>
    intro i arr hlen hi hset hf
    have hin : i = n := by omega
    subst hin
    have hc : ¬ i < i := Nat.lt_irrefl _
    exact ⟨arr, by simp only [bubble_sort_outer, hc, if_false], List.Perm.refl _, by
      simpa using hset⟩
  | succ fuel ih =>
    intro i arr hlen hi hset hf
    by_cases hc : i < n
    · obtain ⟨out1, sw1, hrun, hpost⟩ :=
        inner_spec n i (n - i - 1) rfl inner_fuel 0 arr false (Nat.zero_le _) (by omega)
          (by omega)
      cases hsw : sw1 with
      | false =>
        obtain ⟨heq, hadj⟩ := hpost.quiet hsw
        subst heq
        refine ⟨out1, ?_, List.Perm.refl _, fun k l _ hkl hl => ?_⟩
        · simp only [bubble_sort_outer, hc, if_true, hrun, hsw, Bool.not_false]
        · rcases Nat.lt_or_ge l (n - i) with h1 | h1
          · exact chain_le out1 (n - i - 1) (fun k hk => hadj k (Nat.zero_le _) hk) l
              (by omega) k hkl
          · exact hset k l h1 hkl hl
      | true =>
        have hset1 : Settled out1 n (n - (i + 1)) := by
          intro k l hl1 hkl hl2
          rcases Nat.lt_or_ge (n - i - 1) l with h1 | h1
          · rw [hpost.tail_eq l h1]
            rcases Nat.lt_or_ge (n - i - 1) k with h2 | h2
            · rw [hpost.tail_eq k h2]
              exact hset k l (by omega) hkl hl2
            · exact hpost.bound (arr.getD l 0)
                (fun k1 hk1 => hset k1 l (by omega) (by omega) hl2) k h2
          · have hlb : l = n - i - 1 := by omega
            rw [hlb]
            exact hpost.top (fun k1 hk1 => by
              have : k1 = 0 := by omega
              rw [this]) k (by omega)
        obtain ⟨out, hout, hperm, hsorted⟩ :=
          ih (i + 1) out1 (by rw [hpost.length_eq, hlen]) (by omega) hset1 (by omega)
        refine ⟨out, ?_, hperm.trans hpost.perm, hsorted⟩
        simp only [bubble_sort_outer, hc, if_true, hrun, hsw, Bool.not_true]
        exact hout
    · have hin : i = n := by omega
      subst hin
      exact ⟨arr, by simp only [bubble_sort_outer, hc, if_false], List.Perm.refl _, by
        simpa using hset⟩

/-- C25: for every integer array, `bubble_sort` returns true and leaves the
array sorted in ascending order and a permutation of its original contents;
arrays of length 0 or 1 are left unchanged. -/
theorem bubble_sort_correct (arr : List Int) (fuel : Nat) (hf : arr.length ≤ fuel) :
    ∃ out, bubble_sort fuel (some arr) arr.length = some (true, some out) ∧
      out.Pairwise (· ≤ ·) ∧ out.Perm arr ∧ (arr.length ≤ 1 → out = arr) := by
  have hfinish : ∀ out : List Int, out.Perm arr → Settled out arr.length 0 →
      out.Pairwise (· ≤ ·) ∧ out.Perm arr ∧ (arr.length ≤ 1 → out = arr) := by
    intro out hperm hset
    have hlen : out.length = arr.length := hperm.length_eq
    refine ⟨?_, hperm, fun h1 => ?_⟩
    · rw [List.pairwise_iff_getElem]
      intro a b ha hb hab
      have := hset a b (Nat.zero_le _) (by omega) (by omega)
      rwa [List.getD_eq_getElem _ _ ha, List.getD_eq_getElem _ _ hb] at this
    · match arr, hperm, h1 with
      | [], hperm, _ => exact List.Perm.eq_nil hperm
      | [x], hperm, _ => exact List.perm_singleton.mp hperm
      | _ :: _ :: _, _, h1 => simp at h1
  by_cases h0 : arr.length = 0
  · have hnil : arr = [] := List.length_eq_zero.mp h0
    subst hnil
    exact ⟨[], rfl, List.Pairwise.nil, List.Perm.refl _, fun _ => rfl⟩
  · obtain ⟨out, hout, hperm, hset⟩ :=
      outer_spec arr.length fuel hf fuel 0 arr rfl (Nat.zero_le _)
        (fun k l hl _ hl2 => by omega) (by omega)
    exact ⟨out, by simp only [bubble_sort, h0, if_false, hout, Option.map_some'],
      hfinish out hperm hset⟩

theorem bubble_sort_correct_witness :
    (([64, 34, 25, 12, 22] : List Int).length ≤ 5) ∧
    ∃ out, bubble_sort 5 (some [64, 34, 25, 12, 22]) ([64, 34, 25, 12, 22] : List Int).length
        = some (true, some out) ∧
      out.Pairwise (· ≤ ·) ∧ out.Perm [64, 34, 25, 12, 22] ∧
      (([64, 34, 25, 12, 22] : List Int).length ≤ 1 → out = [64, 34, 25, 12, 22]) :=
  ⟨by decide, bubble_sort_correct [64, 34, 25, 12, 22] 5 (by decide)⟩

end BubbleSort


/-!
# Stack: push, pop, peek and copy-out
-/

namespace CStack

open StackResult

/-- Claim C28 (stack, C), the code as it is: on a stack initialised with
capacity 0 the first eight pushes return `STACK_SUCCESS` and leave the
capacity at 8, and the ninth push returns `STACK_ERROR_OVERFLOW`. -/
theorem stack_push_unlimited_ninth_overflows :
    (List.range 8).foldl (fun acc x => stack_push acc.2 x)
        (stack_init (some { items := [], size := 0, capacity := 0 }) 0) =
      (STACK_SUCCESS, some { items := [0, 1, 2, 3, 4, 5, 6, 7], size := 8, capacity := 8 }) ∧
    stack_push (some { items := [0, 1, 2, 3, 4, 5, 6, 7], size := 8, capacity := 8 }) 8 =
      (STACK_ERROR_OVERFLOW,
        some { items := [0, 1, 2, 3, 4, 5, 6, 7], size := 8, capacity := 8 }) := by
  decide

end CStack

/-!
# Stack, C++: the minimum stack and the bracket check
-/

namespace CppStack

/-! ## `MinStack` -/

theorem minima_nil : minima [] = [] := rfl

theorem minima_concat (l : List Int) (x : Int) :
    minima (l ++ [x]) =
      match (minima l).getLast? with
      | none => minima l ++ [x]
      | some back => if x ≤ back then minima l ++ [x] else minima l := by
  simp only [minima, List.foldl_append, List.foldl_cons, List.foldl_nil]

/-- The last recorded minimum is the least element. -/
theorem minima_getLast (l : List Int) (hl : l ≠ []) :
    ∃ m, (minima l).getLast? = some m ∧ m ∈ l ∧ ∀ x, x ∈ l → m ≤ x := by
  induction l using List.reverseRecOn with
  | nil => exact absurd rfl hl
  | append_singleton l x ih =>
    rw [minima_concat]
    by_cases hnil : l = []
    · subst hnil
      simp [minima_nil]
    · obtain ⟨m, hm, hmem, hmin⟩ := ih hnil
      simp only [hm]
      by_cases hx : x ≤ m
      · refine ⟨x, by simp [hx], by simp, fun y hy => ?_⟩
        rcases List.mem_append.mp hy with hy | hy
        · exact le_trans hx (hmin y hy)
        · simp at hy
          omega
      · refine ⟨m, by simp [hx, hm], by simp [hmem], fun y hy => ?_⟩
        rcases List.mem_append.mp hy with hy | hy
        · exact hmin y hy
        · simp at hy
          omega

theorem minStack_push_inv (s : MinStack) (item : Int) (h : s._minStack = minima s._stack) :
    (s.push item)._stack = s._stack ++ [item] ∧
      (s.push item)._minStack = minima (s.push item)._stack := by
  have hstack : (s.push item)._stack = s._stack ++ [item] := by
    unfold MinStack.push
    cases hb : s._minStack.getLast? with
    | none => rfl
    | some back => by_cases hle : item ≤ back <;> simp [hle]
  refine ⟨hstack, ?_⟩
  rw [hstack, minima_concat, ← h]
  unfold MinStack.push
  cases hb : s._minStack.getLast? with
  | none => rfl
  | some back => by_cases hle : item ≤ back <;> simp [hle]

theorem minStack_pop_inv (s s1 : MinStack) (popped : Int) (h : s._minStack = minima s._stack)
    (hpop : s.pop = Except.ok (popped, s1)) :
    s1._stack = s._stack.dropLast ∧ s1._minStack = minima s1._stack := by
  rcases List.eq_nil_or_concat s._stack with hnil | ⟨l, x, hl⟩
  · simp [MinStack.pop, hnil] at hpop
  · rw [List.concat_eq_append] at hl
    have hmin : s._minStack = minima (l ++ [x]) := by rw [h, hl]
    rw [minima_concat] at hmin
    have hlast : s._stack.getLast? = some x := by simp [hl]
    have hdrop : s._stack.dropLast = l := by simp [hl]
    unfold MinStack.pop at hpop
    simp only [hlast, hdrop] at hpop
    cases hb : (minima l).getLast? with
    | none =>
      rw [hb] at hmin
      simp only at hmin
      have h1 : s._minStack.getLast? = some x := by simp [hmin]
      have h2 : s._minStack.dropLast = minima l := by simp [hmin]
      simp only [h1, if_true, h2, Except.ok.injEq, Prod.mk.injEq] at hpop
      obtain ⟨-, rfl⟩ := hpop
      exact ⟨hdrop.symm, rfl⟩
    | some back =>
      rw [hb] at hmin
      by_cases hle : x ≤ back
      · simp only [if_pos hle] at hmin
        have h1 : s._minStack.getLast? = some x := by simp [hmin]
        have h2 : s._minStack.dropLast = minima l := by simp [hmin]
        simp only [h1, if_true, h2, Except.ok.injEq, Prod.mk.injEq] at hpop
        obtain ⟨-, rfl⟩ := hpop
        exact ⟨hdrop.symm, rfl⟩
      · simp only [if_neg hle] at hmin
        have h1 : ¬ s._minStack.getLast? = some x := by
          rw [hmin, hb]
          intro heq
          have : back = x := Option.some.inj heq
          omega
        simp only [h1, if_false, Except.ok.injEq, Prod.mk.injEq] at hpop
        obtain ⟨-, rfl⟩ := hpop
        exact ⟨hdrop.symm, hmin⟩

theorem minStack_run_inv :
    ∀ (ops : List MinStackOp) (s s1 : MinStack), s._minStack = minima s._stack →
      MinStack.run ops s = Except.ok s1 →
      s1._stack = contents ops s._stack ∧ s1._minStack = minima s1._stack := by
  intro ops
  induction ops with
  | nil =>
    intro s s1 h hrun
    simp only [MinStack.run, Except.ok.injEq] at hrun
    subst hrun
    exact ⟨rfl, h⟩
  | cons op ops ih =>
    intro s s1 h hrun
    cases op with
    | push item =>
      obtain ⟨hst, hinv⟩ := minStack_push_inv s item h
      obtain ⟨h1, h2⟩ := ih (s.push item) s1 hinv hrun
      exact ⟨by rw [h1, hst]; rfl, h2⟩
    | pop =>
      simp only [MinStack.run] at hrun
      cases hp : s.pop with
      | error e => simp [hp] at hrun
      | ok res =>
        obtain ⟨popped, s2⟩ := res
        simp only [hp] at hrun
        obtain ⟨hst, hinv⟩ := minStack_pop_inv s s2 popped h hp
        obtain ⟨h1, h2⟩ := ih s2 s1 hinv hrun
        exact ⟨by rw [h1, hst]; rfl, h2⟩

/-- Claim C31 (stack, C++): after any sequence of `push` and `pop` calls on a
new `MinStack` in which no `pop` throws, the stack holds the elements pushed
and not yet popped, and if it is not empty `getMin` returns an element of the
stack that is at most every element of the stack. -/
theorem minStack_getMin_is_minimum (ops : List MinStackOp) (s : MinStack)
    (hrun : MinStack.run ops MinStack.new = Except.ok s) (hne : s._stack ≠ []) :
    s._stack = contents ops [] ∧
    ∃ m, s.getMin = Except.ok m ∧ m ∈ s._stack ∧ ∀ x, x ∈ s._stack → m ≤ x := by
  obtain ⟨hst, hinv⟩ := minStack_run_inv ops MinStack.new s rfl hrun
  obtain ⟨m, hm, hmem, hmin⟩ := minima_getLast s._stack hne
  refine ⟨hst, m, ?_, hmem, hmin⟩
  simp only [MinStack.getMin, hinv, hm]

theorem minStack_getMin_is_minimum_witness :
    (MinStack.run
        [MinStackOp.push 5, MinStackOp.push 3, MinStackOp.push 7, MinStackOp.push 2,
          MinStackOp.push 8, MinStackOp.pop, MinStackOp.pop]
        MinStack.new = Except.ok { _stack := [5, 3, 7], _minStack := [5, 3] } ∧
      (MinStack.mk [5, 3, 7] [5, 3])._stack ≠ []) ∧
    ((MinStack.mk [5, 3, 7] [5, 3])._stack =
        contents
          [MinStackOp.push 5, MinStackOp.push 3, MinStackOp.push 7, MinStackOp.push 2,
            MinStackOp.push 8, MinStackOp.pop, MinStackOp.pop] [] ∧
      ∃ m, (MinStack.mk [5, 3, 7] [5, 3]).getMin = Except.ok m ∧
        m ∈ (MinStack.mk [5, 3, 7] [5, 3])._stack ∧
        ∀ x, x ∈ (MinStack.mk [5, 3, 7] [5, 3])._stack → m ≤ x) :=
  ⟨⟨rfl, by decide⟩,
    minStack_getMin_is_minimum
      [MinStackOp.push 5, MinStackOp.push 3, MinStackOp.push 7, MinStackOp.push 2,
        MinStackOp.push 8, MinStackOp.pop, MinStackOp.pop]
      ⟨[5, 3, 7], [5, 3]⟩ rfl (by decide)⟩

end CppStack

namespace CppStack

/-! ## `balancedParentheses` -/

/-- The loop on a `Stack<char>` without capacity limit is the check on the
reversed element list. -/
theorem balancedParentheses_loop_eq_check :
    ∀ (expression : List Char) (items : List Char),
      balancedParentheses_loop expression { _items := items, _capacity := 0 } =
        Except.ok (check expression items.reverse) := by
  intro expression
  induction expression with
  | nil =>
    intro items
    cases items <;> simp [balancedParentheses_loop, check, Stack.isEmpty]
  | cons ch rest ih =>
    intro items
    by_cases hopen : ch = '(' ∨ ch = '[' ∨ ch = '{'
    · simp only [balancedParentheses_loop, check, hopen, if_true, Stack.push, gt_iff_lt,
        Nat.lt_irrefl, false_and, if_false, ih, List.reverse_append, List.reverse_cons,
        List.reverse_nil, List.nil_append, List.singleton_append]
    · by_cases hclose : ch = ')' ∨ ch = ']' ∨ ch = '}'
      · rcases List.eq_nil_or_concat items with hnil | ⟨l, top, hl⟩
        · subst hnil
          simp [balancedParentheses_loop, check, hopen, hclose, Stack.isEmpty]
        · rw [List.concat_eq_append] at hl
          subst hl
          by_cases hbad : (ch = ')' ∧ top ≠ '(') ∨ (ch = ']' ∧ top ≠ '[') ∨
              (ch = '}' ∧ top ≠ '{')
          · simp [balancedParentheses_loop, check, hopen, hclose, Stack.isEmpty, Stack.pop,
              hbad]
          · simp [balancedParentheses_loop, check, hopen, hclose, Stack.isEmpty, Stack.pop,
              hbad, ih]
      · simp only [balancedParentheses_loop, check, hopen, hclose, if_false, ih]

theorem check_filter :
    ∀ (w st : List Char), check (w.filter isBracket) st = check w st := by
  intro w
  induction w with
  | nil => intro st; rfl
  | cons ch rest ih =>
    intro st
    by_cases hopen : ch = '(' ∨ ch = '[' ∨ ch = '{'
    · have hb : isBracket ch = true := by
        rcases hopen with h | h | h <;> subst h <;> decide
      rw [List.filter_cons_of_pos hb]
      simp only [check, hopen, if_true, ih]
    · by_cases hclose : ch = ')' ∨ ch = ']' ∨ ch = '}'
      · have hb : isBracket ch = true := by
          rcases hclose with h | h | h <;> subst h <;> decide
        rw [List.filter_cons_of_pos hb]
        cases st with
        | nil => simp only [check, hopen, hclose, if_true, if_false]
        | cons top st1 => simp only [check, hopen, hclose, if_true, if_false, ih]
      · have hb : ¬ isBracket ch = true := by
          simp only [isBracket, decide_eq_true_eq]
          tauto
        rw [List.filter_cons_of_neg hb]
        simp only [check, hopen, hclose, if_false, ih]

theorem check_nested {u : List Char} (h : Nested u) :
    ∀ (w st : List Char), check (u ++ w) st = check w st := by
  induction h with
  | nil => intro w st; rfl
  | round v _ ih =>
    intro w st
    have h1 : '(' :: v ++ [')'] ++ w = '(' :: (v ++ ')' :: w) := by simp
    rw [h1]
    simp only [check, true_or, if_true, ih]
    simp [check]
  | square v _ ih =>
    intro w st
    have h1 : '[' :: v ++ [']'] ++ w = '[' :: (v ++ ']' :: w) := by simp
    rw [h1]
    simp only [check, true_or, or_true, if_true, ih]
    simp [check]
  | curly v _ ih =>
    intro w st
    have h1 : '{' :: v ++ ['}'] ++ w = '{' :: (v ++ '}' :: w) := by simp
    rw [h1]
    simp only [check, or_true, if_true, ih]
    simp [check]
  | append a b _ _ iha ihb =>
    intro w st
    rw [List.append_assoc, iha, ihb]

theorem pending_append :
    ∀ (st p q : List Char), Pending st p → Nested q → Pending st (p ++ q) := by
  intro st p q hp hq
  cases st with
  | nil => exact Nested.append p q hp hq
  | cons o st =>
    obtain ⟨p1, p2, rfl, h1, h2⟩ := hp
    exact ⟨p1, p2 ++ q, by simp, h1, Nested.append p2 q h2 hq⟩

theorem nested_of_check :
    ∀ (w st p : List Char), Pending st p → check w st = true →
      Nested (p ++ w.filter isBracket) := by
  intro w
  induction w with
  | nil =>
    intro st p hp hc
    cases st with
    | nil => simpa using hp
    | cons o st => simp [check] at hc
  | cons ch rest ih =>
    intro st p hp hc
    by_cases hopen : ch = '(' ∨ ch = '[' ∨ ch = '{'
    · have hb : isBracket ch = true := by
        rcases hopen with h | h | h <;> subst h <;> decide
      rw [List.filter_cons_of_pos hb]
      simp only [check, hopen, if_true] at hc
      have := ih (ch :: st) (p ++ [ch]) ⟨p, [], rfl, hp, Nested.nil⟩ hc
      simpa using this
    · by_cases hclose : ch = ')' ∨ ch = ']' ∨ ch = '}'
      · have hb : isBracket ch = true := by
          rcases hclose with h | h | h <;> subst h <;> decide
        rw [List.filter_cons_of_pos hb]
        cases st with
        | nil => simp [check, hopen, hclose] at hc
        | cons top st1 =>
          obtain ⟨p1, p2, rfl, h1, h2⟩ := hp
          by_cases hbad : (ch = ')' ∧ top ≠ '(') ∨ (ch = ']' ∧ top ≠ '[') ∨
              (ch = '}' ∧ top ≠ '{')
          · simp [check, hopen, hclose, hbad] at hc
          · simp only [check, hopen, hclose, hbad, if_true, if_false] at hc
            have hpair : Nested (top :: p2 ++ [ch]) := by
              rcases hclose with h | h | h
              · subst h
                have : top = '(' := by
                  by_contra hne
                  exact hbad (Or.inl ⟨rfl, hne⟩)
                subst this
                exact Nested.round p2 h2
              · subst h
                have : top = '[' := by
                  by_contra hne
                  exact hbad (Or.inr (Or.inl ⟨rfl, hne⟩))
                subst this
                exact Nested.square p2 h2
              · subst h
                have : top = '{' := by
                  by_contra hne
                  exact hbad (Or.inr (Or.inr ⟨rfl, hne⟩))
                subst this
                exact Nested.curly p2 h2
            have := ih st1 (p1 ++ (top :: p2 ++ [ch])) (pending_append st1 p1 _ h1 hpair) hc
            simpa using this
      · have hb : ¬ isBracket ch = true := by
          simp only [isBracket, decide_eq_true_eq]
          tauto
        rw [List.filter_cons_of_neg hb]
        simp only [check, hopen, hclose, if_false] at hc
        exact ih st p hp hc

/-- Claim C32 (stack, C++): for every string, `balancedParentheses` returns
without throwing, and it returns true if and only if the bracket characters of
the string, every other character left out, form a properly nested
sequence. -/
theorem balancedParentheses_iff_nested (expression : List Char) :
    ∃ b, balancedParentheses expression = Except.ok b ∧
      (b = true ↔ Nested (expression.filter isBracket)) := by
  refine ⟨check expression [], ?_, ?_, ?_⟩
  · have := balancedParentheses_loop_eq_check expression []
    simpa [balancedParentheses, Stack.new] using this
  · intro h
    have := nested_of_check expression [] [] Nested.nil h
    simpa using this
  · intro h
    have := check_nested h [] []
    rw [List.append_nil, check_filter] at this
    rw [this]
    rfl

end CppStack

/-!
# Bubble sort: the counters of `bubble_sort_with_result`
-/

namespace BubbleSort

/-! ## Inversions -/

theorem inversions_sorted (arr : List Int) (h : arr.Pairwise (· ≤ ·)) : inversions arr = 0 := by
  induction arr with
  | nil => rfl
  | cons x xs ih =>
    obtain ⟨hx, hxs⟩ := List.pairwise_cons.mp h
    have h0 : xs.countP (fun y => decide (x > y)) = 0 := by
      rw [List.countP_eq_zero]
      intro y hy
      have := hx y hy
      simp only [gt_iff_lt, decide_eq_true_eq, not_lt]
      exact this
    simp only [inversions, h0, ih hxs]

theorem inversions_swap (arr : List Int) :
    ∀ j, j + 1 < arr.length → arr.getD j 0 > arr.getD (j + 1) 0 →
      inversions (swap arr j (j + 1)) + 1 = inversions arr := by
  induction arr with
  | nil => intro j hj; simp at hj
  | cons x xs ih =>
    intro j hj hgt
    cases j with
    | zero =>
      cases xs with
      | nil => simp at hj
      | cons y ys =>
        simp only [List.getD_cons_zero, List.getD_cons_succ] at hgt
        have hxy : decide (x > y) = true := by simpa using hgt
        have hyx : ¬ decide (y > x) = true := by
          simp only [gt_iff_lt, decide_eq_true_eq, not_lt]
          omega
        simp only [swap, List.getD_cons_zero, List.getD_cons_succ, List.set_cons_zero,
          List.set_cons_succ, inversions, List.countP_cons, hxy, hyx, if_true, if_false,
          Bool.false_eq_true]
        omega
    | succ j =>
      have hj1 : j + 1 < xs.length := by simpa using hj
      have hsw : swap (x :: xs) (j + 1) (j + 1 + 1) = x :: swap xs j (j + 1) := by
        simp only [swap, List.getD_cons_succ, List.set_cons_succ]
      have hgt1 : xs.getD j 0 > xs.getD (j + 1) 0 := by
        simpa only [List.getD_cons_succ] using hgt
      rw [hsw]
      simp only [inversions]
      rw [(swap_perm xs j hj1).countP_eq, ← ih j hj1 hgt1]
      omega

theorem inversions_ones_zeros (a b : Nat) :
    inversions (List.replicate a (1 : Int) ++ List.replicate b 0) = a * b := by
  induction a with
  | zero =>
    simp only [List.replicate_zero, List.nil_append, Nat.zero_mul]
    exact inversions_sorted _ (by simp [List.pairwise_replicate])
  | succ a ih =>
    rw [List.replicate_succ, List.cons_append]
    simp only [inversions, ih, List.countP_append, List.countP_replicate]
    simp
    ring

theorem length_filter_product {α β : Type} (p : α × β → Bool) (A : List α) (B : List β) :
    ((A.product B).filter p).length = (A.map fun a => B.countP fun b => p (a, b)).sum := by
  induction A with
  | nil => rfl
  | cons a A ih =>
    have h : (a :: A).product B = B.map (fun b => (a, b)) ++ A.product B := by
      simp [List.product, List.flatMap_cons]
    rw [h, List.filter_append, List.length_append, ih, List.map_cons, List.sum_cons]
    congr 1
    rw [← List.countP_eq_length_filter, List.countP_map]
    rfl

theorem countP_range_succ (g : Nat → Bool) (n : Nat) :
    (List.range (n + 1)).countP g
      = (if g 0 = true then 1 else 0) + (List.range n).countP (fun j => g (j + 1)) := by
  rw [List.range_succ_eq_map, List.countP_cons, List.countP_map]
  have : (g ∘ Nat.succ) = fun j => g (j + 1) := rfl
  rw [this]
  omega

theorem countP_range_getD (P : Int → Bool) (l : List Int) :
    (List.range l.length).countP (fun j => P (l.getD j 0)) = l.countP P := by
  induction l with
  | nil => rfl
  | cons x xs ih =>
    rw [List.length_cons, countP_range_succ, List.countP_cons]
    simp only [List.getD_cons_zero, List.getD_cons_succ, ih]
    omega

theorem inversions_eq_pairs (arr : List Int) : inversions arr = (inversion_pairs arr).length := by
  induction arr with
  | nil => rfl
  | cons x xs ih =>
    rw [inversion_pairs, length_filter_product, List.length_cons, List.range_succ_eq_map,
      List.map_cons, List.sum_cons, List.map_map]
    have hfirst : (0 :: List.map Nat.succ (List.range xs.length)).countP
        (fun b => decide ((0, b).1 < (0, b).2 ∧
          (x :: xs).getD (0, b).1 0 > (x :: xs).getD (0, b).2 0))
        = xs.countP (fun y => decide (x > y)) := by
      rw [List.countP_cons, List.countP_map, ← countP_range_getD (fun y => decide (x > y)) xs]
      simp only [Nat.lt_irrefl, false_and]
      have hz : (if decide False = true then 1 else 0) = 0 := by simp
      rw [hz, Nat.add_zero]
      congr 1
      funext j
      simp [Function.comp]
    have hrest : (List.map
        ((fun a => (0 :: List.map Nat.succ (List.range xs.length)).countP
          (fun b => decide ((a, b).1 < (a, b).2 ∧
            (x :: xs).getD (a, b).1 0 > (x :: xs).getD (a, b).2 0))) ∘ Nat.succ)
        (List.range xs.length)).sum = (inversion_pairs xs).length := by
      rw [inversion_pairs, length_filter_product]
      congr 1
      apply List.map_congr_left
      intro i _
      simp only [Function.comp]
      rw [List.countP_cons, List.countP_map]
      simp only [Nat.not_lt_zero, false_and]
      have hz : (if decide False = true then 1 else 0) = 0 := by simp
      rw [hz, Nat.add_zero]
      congr 1
      funext j
      simp [Function.comp]
    rw [hfirst, hrest, inversions, ih]

/-! ## The loops of `bubble_sort_with_result` -/

/-- The inner loop of `bubble_sort_with_result` moves the array like the inner
loop of `bubble_sort`, counts one comparison for every step and one swap for
every inversion it removes. -/
theorem with_result_inner_spec (length i b : Nat) (hb : length - i - 1 = b) :
    ∀ fuel j (arr : List Int) (sw : Bool) (res : BubbleSortResult), j ≤ b → b - j ≤ fuel →
      b < arr.length → res.comparisons < SIZE_MAX + 1 → res.swaps < SIZE_MAX + 1 →
      ∃ out sw1 res1 S,
        bubble_sort_with_result_inner length i fuel j arr sw res = some (out, sw1, res1) ∧
        bubble_sort_inner length i fuel j arr sw = some (out, sw1) ∧
        out.length = arr.length ∧
        res1.length = res.length ∧
        res1.comparisons = (res.comparisons + (b - j)) % (SIZE_MAX + 1) ∧
        res1.swaps = (res.swaps + S) % (SIZE_MAX + 1) ∧
        inversions arr = inversions out + S ∧ S ≤ b - j ∧
        (S = 0 → sw1 = sw ∧ out = arr) := by
  have hdone : ∀ (arr : List Int) (sw : Bool) (res : BubbleSortResult),
      res.comparisons < SIZE_MAX + 1 → res.swaps < SIZE_MAX + 1 →
      ∃ out sw1 res1 S,
        some (arr, sw, res) = some (out, sw1, res1) ∧
        some (arr, sw) = some (out, sw1) ∧
        out.length = arr.length ∧
        res1.length = res.length ∧
        res1.comparisons = (res.comparisons + (b - b)) % (SIZE_MAX + 1) ∧
        res1.swaps = (res.swaps + S) % (SIZE_MAX + 1) ∧
        inversions arr = inversions out + S ∧ S ≤ b - b ∧
        (S = 0 → sw1 = sw ∧ out = arr) := by
    intro arr sw res h1 h2
    refine ⟨arr, sw, res, 0, rfl, rfl, rfl, rfl, ?_, ?_, rfl, Nat.zero_le _,
      fun _ => ⟨rfl, rfl⟩⟩
    · rw [Nat.sub_self, Nat.add_zero, Nat.mod_eq_of_lt h1]
    · rw [Nat.add_zero, Nat.mod_eq_of_lt h2]
  intro fuel
  induction fuel with
  | zero =>
    intro j arr sw res hj hf hlen h1 h2
    have hjb : j = b := by omega
    subst hjb
    have hc : ¬ j < length - i - 1 := by omega
    simp only [bubble_sort_with_result_inner, bubble_sort_inner, hc, if_false]
    exact hdone arr sw res h1 h2
  | succ fuel ih =>
    intro j arr sw res hj hf hlen h1 h2
    have hW : 0 < SIZE_MAX + 1 := Nat.succ_pos _
    by_cases hjb : j < b
    · have hc : j < length - i - 1 := by omega
      by_cases hgt : arr.getD j 0 > arr.getD (j + 1) 0
      · have hj1 : j + 1 < arr.length := by omega
        obtain ⟨out, sw1, res1, S, hrun, hrun0, hlen1, hl, hcmp, hswp, hinv, hS, -⟩ :=
          ih (j + 1) (swap arr j (j + 1)) true
            { length := res.length
              comparisons := (res.comparisons + 1) % (SIZE_MAX + 1)
              swaps := (res.swaps + 1) % (SIZE_MAX + 1) }
            (by omega) (by omega) (by rw [swap_length]; exact hlen) (Nat.mod_lt _ hW)
            (Nat.mod_lt _ hW)
        refine ⟨out, sw1, res1, S + 1, ?_, ?_, by rw [hlen1, swap_length], hl, ?_, ?_, ?_,
          by omega, fun h => by omega⟩
        · simp only [bubble_sort_with_result_inner, hc, hgt, if_true]
          exact hrun
        · simp only [bubble_sort_inner, hc, hgt, if_true]
          exact hrun0
        · rw [hcmp]
          simp only [Nat.mod_add_mod]
          congr 1
          omega
        · rw [hswp]
          simp only [Nat.mod_add_mod]
          congr 1
          omega
        · rw [← inversions_swap arr j hj1 hgt, hinv]
          omega
      · obtain ⟨out, sw1, res1, S, hrun, hrun0, hlen1, hl, hcmp, hswp, hinv, hS, hq⟩ :=
          ih (j + 1) arr sw
            { length := res.length
              comparisons := (res.comparisons + 1) % (SIZE_MAX + 1)
              swaps := res.swaps }
            (by omega) (by omega) hlen (Nat.mod_lt _ hW) h2
        refine ⟨out, sw1, res1, S, ?_, ?_, hlen1, hl, ?_, hswp, hinv, by omega, hq⟩
        · simp only [bubble_sort_with_result_inner, hc, hgt, if_true, if_false]
          exact hrun
        · simp only [bubble_sort_inner, hc, hgt, if_true, if_false]
          exact hrun0
        · rw [hcmp]
          simp only [Nat.mod_add_mod]
          congr 1
          omega
    · have hjb2 : j = b := by omega
      subst hjb2
      have hc : ¬ j < length - i - 1 := by omega
      simp only [bubble_sort_with_result_inner, bubble_sort_inner, hc, if_false]
      exact hdone arr sw res h1 h2

/-- The outer loop of `bubble_sort_with_result` leaves the array as the outer
loop of `bubble_sort` does; the comparisons it adds are at least the swaps it
adds, and the swaps are the inversions it removes. -/
theorem with_result_outer_spec (n inner_fuel : Nat) (hif : n ≤ inner_fuel) :
    ∀ fuel i (arr : List Int) (res : BubbleSortResult), arr.length = n → i ≤ n →
      n - i ≤ fuel → res.comparisons < SIZE_MAX + 1 → res.swaps < SIZE_MAX + 1 →
      ∃ out res1 K S,
        bubble_sort_with_result_outer n inner_fuel fuel i arr res = some (out, res1) ∧
        bubble_sort_outer n inner_fuel fuel i arr = some out ∧
        res1.length = res.length ∧
        res1.comparisons = (res.comparisons + K) % (SIZE_MAX + 1) ∧
        res1.swaps = (res.swaps + S) % (SIZE_MAX + 1) ∧
        inversions arr = inversions out + S ∧ S ≤ K ∧ K ≤ (n - i) * (n - 1) ∧
        (S = 0 → i < n → K = n - i - 1 ∧ out = arr) := by
  have hdone : ∀ (i : Nat) (arr : List Int) (res : BubbleSortResult), ¬ i < n →
      res.comparisons < SIZE_MAX + 1 → res.swaps < SIZE_MAX + 1 →
      ∃ out res1 K S,
        some (arr, res) = some (out, res1) ∧
        some arr = some out ∧
        res1.length = res.length ∧
        res1.comparisons = (res.comparisons + K) % (SIZE_MAX + 1) ∧
        res1.swaps = (res.swaps + S) % (SIZE_MAX + 1) ∧
        inversions arr = inversions out + S ∧ S ≤ K ∧ K ≤ (n - i) * (n - 1) ∧
        (S = 0 → i < n → K = n - i - 1 ∧ out = arr) := by
    intro i arr res hin h1 h2
    refine ⟨arr, res, 0, 0, rfl, rfl, rfl, ?_, ?_, rfl, Nat.le_refl _, Nat.zero_le _,
      fun _ h => absurd h hin⟩
    · rw [Nat.add_zero, Nat.mod_eq_of_lt h1]
    · rw [Nat.add_zero, Nat.mod_eq_of_lt h2]
  intro fuel
  induction fuel with
  | zero =>
    intro i arr res hlen hi hf h1 h2
    have hc : ¬ i < n := by omega
    obtain ⟨out, res1, K, S, e1, e2, rest⟩ := hdone i arr res hc h1 h2
    exact ⟨out, res1, K, S, by simp only [bubble_sort_with_result_outer, hc, if_false]; exact e1,
      by simp only [bubble_sort_outer, hc, if_false]; exact e2, rest⟩
  | succ fuel ih =>
    intro i arr res hlen hi hf h1 h2
    have hW : 0 < SIZE_MAX + 1 := Nat.succ_pos _
    by_cases hc : i < n
    · obtain ⟨out1, sw1, res1, S1, hrun, hrun0, hlen1, hl1, hcmp1, hswp1, hinv1, hS1, hq1⟩ :=
        with_result_inner_spec n i (n - i - 1) rfl inner_fuel 0 arr false res (Nat.zero_le _)
          (by omega) (by omega) h1 h2
      have hK : n - i - 1 - 0 = n - i - 1 := Nat.sub_zero _
      rw [hK] at hcmp1 hS1
      cases hsw : sw1 with
      | false =>
        subst hsw
        refine ⟨out1, res1, n - i - 1, S1, ?_, ?_, hl1, hcmp1, hswp1, hinv1, hS1, ?_,
          fun h0 _ => ⟨rfl, (hq1 h0).2⟩⟩
        · simp only [bubble_sort_with_result_outer, hc, if_true, hrun, Bool.not_false]
        · simp only [bubble_sort_outer, hc, if_true, hrun0, Bool.not_false]
        · have : n - i - 1 ≤ n - 1 := by omega
          calc n - i - 1 ≤ 1 * (n - 1) := by omega
            _ ≤ (n - i) * (n - 1) := Nat.mul_le_mul_right _ (by omega)
      | true =>
        subst hsw
        have hS1pos : S1 ≠ 0 := fun h0 => by
          have := (hq1 h0).1
          simp at this
        obtain ⟨out, res2, K, S, hrun2, hrun20, hl2, hcmp2, hswp2, hinv2, hSK, hKb, -⟩ :=
          ih (i + 1) out1 res1 (by rw [hlen1, hlen]) (by omega) (by omega)
            (by rw [hcmp1]; exact Nat.mod_lt _ hW) (by rw [hswp1]; exact Nat.mod_lt _ hW)
        refine ⟨out, res2, (n - i - 1) + K, S1 + S, ?_, ?_, by rw [hl2, hl1], ?_, ?_,
          by omega, by omega, ?_, fun h0 _ => by omega⟩
        · simp only [bubble_sort_with_result_outer, hc, if_true, hrun, Bool.not_true,
            Bool.false_eq_true, if_false]
          exact hrun2
        · simp only [bubble_sort_outer, hc, if_true, hrun0, Bool.not_true,
            Bool.false_eq_true, if_false]
          exact hrun20
        · rw [hcmp2, hcmp1]
          simp only [Nat.mod_add_mod]
          congr 1
          omega
        · rw [hswp2, hswp1]
          simp only [Nat.mod_add_mod]
          congr 1
          omega
        · have h3 : n - i = (n - (i + 1)) + 1 := by omega
          have h4 : n - i - 1 ≤ n - 1 := by omega
          rw [h3, Nat.add_mul, Nat.one_mul]
          omega
    · obtain ⟨out, res1, K, S, e1, e2, rest⟩ := hdone i arr res hc h1 h2
      exact ⟨out, res1, K, S,
        by simp only [bubble_sort_with_result_outer, hc, if_false]; exact e1,
        by simp only [bubble_sort_outer, hc, if_false]; exact e2, rest⟩

/-- The outer loop of `bubble_sort`, run on the whole array, returns a sorted
array. -/
theorem bubble_sort_outer_sorted (arr : List Int) (fuel : Nat) (hf : arr.length ≤ fuel) :
    ∃ out, bubble_sort_outer arr.length fuel fuel 0 arr = some out ∧
      out.Pairwise (· ≤ ·) := by
  obtain ⟨out, hout, hperm, hset⟩ :=
    outer_spec arr.length fuel hf fuel 0 arr rfl (Nat.zero_le _)
      (fun k l hl _ hl2 => by omega) (by omega)
  refine ⟨out, hout, ?_⟩
  have hlen : out.length = arr.length := hperm.length_eq
  rw [List.pairwise_iff_getElem]
  intro a b ha hb hab
  have := hset a b (Nat.zero_le _) (by omega) (by omega)
  rwa [List.getD_eq_getElem _ _ ha, List.getD_eq_getElem _ _ hb] at this

/-- The whole of `bubble_sort_with_result` on a non-empty array: the array
ends as `bubble_sort` leaves it, sorted; `swaps` is the number of inversions
modulo `SIZE_MAX + 1`, `comparisons` is a count `K` modulo `SIZE_MAX + 1` with
`inversions ≤ K ≤ n * (n - 1)`. -/
theorem with_result_spec (arr : List Int) (fuel : Nat) (r0 : BubbleSortResult)
    (hf : arr.length ≤ fuel) :
    ∃ out res K,
      bubble_sort_with_result fuel (some arr) arr.length (some r0)
        = some (true, some out, some res) ∧
      bubble_sort fuel (some arr) arr.length = some (true, some out) ∧
      res.length = arr.length ∧
      res.comparisons = K % (SIZE_MAX + 1) ∧
      res.swaps = inversions arr % (SIZE_MAX + 1) ∧
      inversions arr ≤ K ∧ K ≤ arr.length * (arr.length - 1) ∧
      (inversions arr = 0 → 1 ≤ arr.length → K = arr.length - 1 ∧ out = arr) := by
  by_cases h0 : arr.length = 0
  · have hnil : arr = [] := List.length_eq_zero.mp h0
    subst hnil
    exact ⟨[], ⟨0, 0, 0⟩, 0, rfl, rfl, rfl, rfl, rfl, Nat.le_refl _, Nat.le_refl _,
      fun _ h => by simp at h⟩
  · have hW : 0 < SIZE_MAX + 1 := Nat.succ_pos _
    obtain ⟨out, res, K, S, hrun, hrun0, hl, hcmp, hswp, hinv, hSK, hKb, hq⟩ :=
      with_result_outer_spec arr.length fuel hf fuel 0 arr ⟨arr.length, 0, 0⟩ rfl
        (Nat.zero_le _) (by omega) hW hW
    obtain ⟨out0, hsort, hsorted⟩ := bubble_sort_outer_sorted arr fuel hf
    have hb : bubble_sort fuel (some arr) arr.length = some (true, some out) := by
      simp only [bubble_sort, h0, if_false, hrun0, Option.map_some']
    have hoo : out0 = out := by
      rw [hrun0] at hsort
      exact (Option.some.inj hsort).symm
    subst hoo
    have hzero : inversions out0 = 0 := inversions_sorted out0 hsorted
    have hS : S = inversions arr := by omega
    subst hS
    refine ⟨out0, res, K, ?_, hb, hl, ?_, ?_, hSK, by simpa using hKb, fun hi0 h1 => ?_⟩
    · simp only [bubble_sort_with_result, h0, if_false, hrun, Option.map_some']
    · simpa using hcmp
    · simpa using hswp
    · have := hq hi0 (by omega)
      simpa using this

end BubbleSort

namespace BubbleSort

/-- Claim C38 (bubble sort, C): on an array of length `n >= 1` that is
already sorted in ascending order `bubble_sort_with_result` returns true after
a single pass: the array is unchanged, `comparisons` is `n - 1` and `swaps`
is 0. -/
theorem bubble_sort_with_result_sorted_input (arr : List Int) (fuel : Nat)
    (r0 : BubbleSortResult) (hs : arr.Pairwise (· ≤ ·)) (h1 : 1 ≤ arr.length)
    (hn : arr.length ≤ SIZE_MAX) (hf : arr.length ≤ fuel) :
    bubble_sort_with_result fuel (some arr) arr.length (some r0)
      = some (true, some arr,
          some { length := arr.length, comparisons := arr.length - 1, swaps := 0 }) := by
  obtain ⟨out, res, K, hrun, -, hl, hcmp, hswp, -, -, hq⟩ := with_result_spec arr fuel r0 hf
  have hzero : inversions arr = 0 := inversions_sorted arr hs
  obtain ⟨hK, hout⟩ := hq hzero h1
  subst hout
  rw [hrun]
  have h2 : res.comparisons = out.length - 1 := by
    rw [hcmp, hK]
    exact Nat.mod_eq_of_lt (by omega)
  have h3 : res.swaps = 0 := by rw [hswp, hzero]; rfl
  cases res
  simp only at hl h2 h3
  subst hl h2 h3
  rfl

theorem bubble_sort_with_result_sorted_input_witness :
    (([1, 2, 2, 5] : List Int).Pairwise (· ≤ ·) ∧ 1 ≤ ([1, 2, 2, 5] : List Int).length ∧
      ([1, 2, 2, 5] : List Int).length ≤ SIZE_MAX ∧ ([1, 2, 2, 5] : List Int).length ≤ 4) ∧
    bubble_sort_with_result 4 (some [1, 2, 2, 5]) ([1, 2, 2, 5] : List Int).length
        (some ⟨7, 7, 7⟩)
      = some (true, some [1, 2, 2, 5],
          some { length := ([1, 2, 2, 5] : List Int).length,
                 comparisons := ([1, 2, 2, 5] : List Int).length - 1, swaps := 0 }) :=
  ⟨by decide,
    bubble_sort_with_result_sorted_input [1, 2, 2, 5] 4 ⟨7, 7, 7⟩ (by decide) (by decide)
      (by decide) (by decide)⟩

/-- Claim C39 (bubble sort, C), for arrays of at most `2 ^ 32` elements: the
`swaps` count reported by `bubble_sort_with_result` is the number of
inversions of the input (pairs `i < j` with `arr[i] > arr[j]`), the
`comparisons` count is at least the `swaps` count, and the array ends up
exactly as `bubble_sort` leaves it. -/
theorem bubble_sort_with_result_counts (arr : List Int) (fuel : Nat) (r0 : BubbleSortResult)
    (hn : arr.length ≤ 2 ^ 32) (hf : arr.length ≤ fuel) :
    ∃ out res,
      bubble_sort_with_result fuel (some arr) arr.length (some r0)
        = some (true, some out, some res) ∧
      bubble_sort fuel (some arr) arr.length = some (true, some out) ∧
      res.swaps = (inversion_pairs arr).length ∧ res.swaps ≤ res.comparisons := by
  obtain ⟨out, res, K, hrun, hsort, -, hcmp, hswp, hinvK, hKb, -⟩ :=
    with_result_spec arr fuel r0 hf
  have hK : K < SIZE_MAX + 1 := by
    have h2 : (2 : Nat) ^ 32 * 2 ^ 32 = SIZE_MAX + 1 := by decide
    by_cases h0 : arr.length = 0
    · rw [h0] at hKb
      simp at hKb
      omega
    · have h5 : arr.length * arr.length ≤ 2 ^ 32 * 2 ^ 32 := Nat.mul_le_mul hn hn
      have h6 : arr.length * (arr.length - 1) < arr.length * arr.length :=
        (Nat.mul_lt_mul_left (by omega)).2 (by omega)
      omega
  have hcmp1 : res.comparisons = K := by rw [hcmp]; exact Nat.mod_eq_of_lt hK
  have hswp1 : res.swaps = inversions arr := by
    rw [hswp]
    exact Nat.mod_eq_of_lt (by omega)
  exact ⟨out, res, hrun, hsort, by rw [hswp1, inversions_eq_pairs], by omega⟩

theorem bubble_sort_with_result_counts_witness :
    (([5, 2, 8, 1, 9] : List Int).length ≤ 2 ^ 32 ∧ ([5, 2, 8, 1, 9] : List Int).length ≤ 5) ∧
    ∃ out res,
      bubble_sort_with_result 5 (some [5, 2, 8, 1, 9]) ([5, 2, 8, 1, 9] : List Int).length
          (some ⟨0, 0, 0⟩)
        = some (true, some out, some res) ∧
      bubble_sort 5 (some [5, 2, 8, 1, 9]) ([5, 2, 8, 1, 9] : List Int).length
        = some (true, some out) ∧
      res.swaps = (inversion_pairs [5, 2, 8, 1, 9]).length ∧ res.swaps ≤ res.comparisons :=
  ⟨by decide, bubble_sort_with_result_counts [5, 2, 8, 1, 9] 5 ⟨0, 0, 0⟩ (by decide) (by decide)⟩

theorem with_result_ones_zeros (N : Nat) (r0 : BubbleSortResult) :
    ∃ out res,
      bubble_sort_with_result (2 * N)
          (some (List.replicate N (1 : Int) ++ List.replicate N 0)) (2 * N) (some r0)
        = some (true, some out, some res) ∧
      res.swaps = (N * N) % (SIZE_MAX + 1) ∧
      inversions (List.replicate N (1 : Int) ++ List.replicate N 0) = N * N := by
  have hlen : (List.replicate N (1 : Int) ++ List.replicate N 0).length = 2 * N := by
    simp only [List.length_append, List.length_replicate]
    omega
  obtain ⟨out, res, K, hrun, -, -, -, hswp, -, -, -⟩ :=
    with_result_spec (List.replicate N (1 : Int) ++ List.replicate N 0) (2 * N) r0
      (by rw [hlen])
  rw [hlen] at hrun
  rw [inversions_ones_zeros] at hswp
  exact ⟨out, res, hrun, hswp, inversions_ones_zeros N N⟩

/-- C39 fails as stated: on the array of `2 ^ 32` ones followed by `2 ^ 32`
zeros, which has `2 ^ 64` inversions, `bubble_sort_with_result` reports
`swaps == 0`. -/
theorem bubble_sort_with_result_swaps_wrap :
    ∃ out res,
      bubble_sort_with_result (2 * 2 ^ 32)
          (some (List.replicate (2 ^ 32) (1 : Int) ++ List.replicate (2 ^ 32) 0)) (2 * 2 ^ 32)
          (some ⟨0, 0, 0⟩)
        = some (true, some out, some res) ∧
      res.swaps = 0 ∧
      (inversion_pairs (List.replicate (2 ^ 32) (1 : Int) ++ List.replicate (2 ^ 32) 0)).length
        = 2 ^ 64 := by
  obtain ⟨out, res, hrun, hswp, hinv⟩ := with_result_ones_zeros (2 ^ 32) ⟨0, 0, 0⟩
  have h1 : (2 : Nat) ^ 32 * 2 ^ 32 % (SIZE_MAX + 1) = 0 := by decide
  have h2 : (2 : Nat) ^ 32 * 2 ^ 32 = 2 ^ 64 := by decide
  exact ⟨out, res, hrun, by rw [hswp, h1], by rw [← inversions_eq_pairs, hinv, h2]⟩

end BubbleSort

/-!
# Bubble sort: `bubble_sort_generic`
-/

namespace BubbleSort

theorem getD_set_block (l : List (List Nat)) (i k : Nat) (v : List Nat) :
    (l.set i v).getD k [] = if k = i ∧ i < l.length then v else l.getD k [] := by
  simp only [List.getD_eq_getElem?_getD, List.getElem?_set]
  by_cases hki : k = i
  · subst hki
    by_cases hl : k < l.length
    · simp [hl]
    · simp [hl, List.getElem?_eq_none (Nat.le_of_not_lt hl)]
  · have : ¬ i = k := fun h => hki h.symm
    simp [hki, this]

/-- The byte loop exchanges the bytes from `k` on. -/
theorem generic_swap_loop_spec (es : Nat) :
    ∀ fuel k (e1 e2 : List Nat), e1.length = es → e2.length = es → k ≤ es → es - k ≤ fuel →
      ∃ o1 o2, bubble_sort_generic_swap es fuel k e1 e2 = some (o1, o2) ∧
        o1.length = es ∧ o2.length = es ∧
        (∀ x, o1.getD x 0 = if k ≤ x then e2.getD x 0 else e1.getD x 0) ∧
        (∀ x, o2.getD x 0 = if k ≤ x then e1.getD x 0 else e2.getD x 0) := by
  intro fuel
  induction fuel with
  | zero =>
    intro k e1 e2 h1 h2 hk hf
    have hc : ¬ k < es := by omega
    refine ⟨e1, e2, by simp only [bubble_sort_generic_swap, hc, if_false], h1, h2,
      fun x => ?_, fun x => ?_⟩
    · by_cases hx : k ≤ x
      · rw [if_pos hx, List.getD_eq_default _ _ (by omega), List.getD_eq_default _ _ (by omega)]
      · rw [if_neg hx]
    · by_cases hx : k ≤ x
      · rw [if_pos hx, List.getD_eq_default _ _ (by omega), List.getD_eq_default _ _ (by omega)]
      · rw [if_neg hx]
  | succ fuel ih =>
    intro k e1 e2 h1 h2 hk hf
    by_cases hc : k < es
    · obtain ⟨o1, o2, hrun, hl1, hl2, hg1, hg2⟩ :=
        ih (k + 1) (e1.set k (e2.getD k 0)) (e2.set k (e1.getD k 0))
          (by simpa using h1) (by simpa using h2) (by omega) (by omega)
      refine ⟨o1, o2, by simp only [bubble_sort_generic_swap, hc, if_true]; exact hrun, hl1,
        hl2, fun x => ?_, fun x => ?_⟩
      · rw [hg1 x, KMP.getD_set_eq, KMP.getD_set_eq]
        by_cases hx : x = k
        · subst hx
          rw [if_neg (by omega), if_pos ⟨rfl, by omega⟩, if_pos (Nat.le_refl _)]
        · by_cases hx1 : k + 1 ≤ x
          · rw [if_pos hx1, if_neg (fun h => hx h.1), if_pos (by omega)]
          · rw [if_neg hx1, if_neg (fun h => hx h.1), if_neg (by omega)]
      · rw [hg2 x, KMP.getD_set_eq, KMP.getD_set_eq]
        by_cases hx : x = k
        · subst hx
          rw [if_neg (by omega), if_pos ⟨rfl, by omega⟩, if_pos (Nat.le_refl _)]
        · by_cases hx1 : k + 1 ≤ x
          · rw [if_pos hx1, if_neg (fun h => hx h.1), if_pos (by omega)]
          · rw [if_neg hx1, if_neg (fun h => hx h.1), if_neg (by omega)]
    · refine ⟨e1, e2, by simp only [bubble_sort_generic_swap, hc, if_false], h1, h2,
        fun x => ?_, fun x => ?_⟩
      · by_cases hx : k ≤ x
        · rw [if_pos hx, List.getD_eq_default _ _ (by omega),
            List.getD_eq_default _ _ (by omega)]
        · rw [if_neg hx]
      · by_cases hx : k ≤ x
        · rw [if_pos hx, List.getD_eq_default _ _ (by omega),
            List.getD_eq_default _ _ (by omega)]
        · rw [if_neg hx]

/-- The byte loop run from 0 exchanges two elements of `es` bytes. -/
theorem generic_swap_spec (es fuel : Nat) (e1 e2 : List Nat) (h1 : e1.length = es)
    (h2 : e2.length = es) (hf : es ≤ fuel) :
    bubble_sort_generic_swap es fuel 0 e1 e2 = some (e2, e1) := by
  obtain ⟨o1, o2, hrun, hl1, hl2, hg1, hg2⟩ :=
    generic_swap_loop_spec es fuel 0 e1 e2 h1 h2 (Nat.zero_le _) (by omega)
  have ho1 : o1 = e2 := (KMP.eq_iff_getD o1 e2 (by omega)).2 fun x _ => by
    rw [hg1 x, if_pos (Nat.zero_le _)]
  have ho2 : o2 = e1 := (KMP.eq_iff_getD o2 e1 (by omega)).2 fun x _ => by
    rw [hg2 x, if_pos (Nat.zero_le _)]
  rw [hrun, ho1, ho2]

theorem exchange_getD (arr : List (List Nat)) (j k : Nat) (hj : j + 1 < arr.length) :
    ((arr.set j (arr.getD (j + 1) [])).set (j + 1) (arr.getD j [])).getD k []
      = if k = j then arr.getD (j + 1) [] else if k = j + 1 then arr.getD j []
        else arr.getD k [] := by
  simp only [getD_set_block, List.length_set]
  by_cases h1 : k = j
  · have h2 : ¬ k = j + 1 := by omega
    have hjl : j < arr.length := by omega
    simp [h1, hjl]
  · by_cases h2 : k = j + 1
    · simp [h2, hj]
    · simp [h1, h2]

theorem exchange_perm (arr : List (List Nat)) :
    ∀ j, j + 1 < arr.length →
      ((arr.set j (arr.getD (j + 1) [])).set (j + 1) (arr.getD j [])).Perm arr := by
  induction arr with
  | nil => intro j hj; simp at hj
  | cons x xs ih =>
    intro j hj
    cases j with
    | zero =>
      cases xs with
      | nil => simp at hj
      | cons y ys =>
        simp only [List.getD_cons_zero, List.getD_cons_succ, List.set_cons_zero,
          List.set_cons_succ]
        exact List.Perm.swap x y ys
    | succ j =>
      have hj1 : j + 1 < xs.length := by simpa using hj
      simp only [List.getD_cons_succ, List.set_cons_succ]
      exact List.Perm.cons x (ih j hj1)

/-- Exchanging two neighbours of which at most one passes a filter does not
change what the filter keeps. -/
theorem exchange_filter (p : List Nat → Bool) (arr : List (List Nat)) :
    ∀ j, j + 1 < arr.length → ¬ (p (arr.getD j []) = true ∧ p (arr.getD (j + 1) []) = true) →
      ((arr.set j (arr.getD (j + 1) [])).set (j + 1) (arr.getD j [])).filter p
        = arr.filter p := by
  induction arr with
  | nil => intro j hj; simp at hj
  | cons x xs ih =>
    intro j hj hnot
    cases j with
    | zero =>
      cases xs with
      | nil => simp at hj
      | cons y ys =>
        simp only [List.getD_cons_zero, List.getD_cons_succ, List.set_cons_zero,
          List.set_cons_succ] at hnot ⊢
        by_cases hx : p x = true
        · have hy : ¬ p y = true := fun h => hnot ⟨hx, h⟩
          simp [List.filter_cons, hx, hy]
        · simp [List.filter_cons, hx]
    | succ j =>
      have hj1 : j + 1 < xs.length := by simpa using hj
      simp only [List.getD_cons_succ, List.set_cons_succ] at hnot ⊢
      simp only [List.filter_cons, ih j hj1 hnot]

theorem generic_inner_spec (n es : Nat) (compare : List Nat → List Nat → Int)
    (hp : TotalPreorder compare) (i b swap_fuel : Nat) (hb : n - i - 1 = b)
    (hsf : es ≤ swap_fuel) :
    ∀ fuel j (arr : List (List Nat)) (sw : Bool), j ≤ b → b - j ≤ fuel → b < arr.length →
      (∀ e, e ∈ arr → e.length = es) →
      ∃ out sw1, bubble_sort_generic_inner n es compare i swap_fuel fuel j arr sw
          = some (out, sw1) ∧
        GenericPost compare arr out j b sw sw1 := by
  have hrefl : ∀ a, compare a a ≤ 0 := fun a => (hp.1 a a).elim id id
  have hdone : ∀ (arr : List (List Nat)) (sw : Bool), GenericPost compare arr arr b b sw sw :=
    fun arr sw =>
      { perm := List.Perm.refl _
        length_eq := rfl
        stable := fun _ => rfl
        tail_eq := fun _ _ => rfl
        bound := fun _ h => h
        top := fun h => h
        quiet := fun _ => ⟨rfl, fun k hk1 hk2 => by omega⟩
        sticky := fun h => h }
  intro fuel
  induction fuel with
  | zero =>
    intro j arr sw hj hf hlen hsz
    have hjb : j = b := by omega
    subst hjb
    have hc : ¬ j < n - i - 1 := by omega
    exact ⟨arr, sw, by simp only [bubble_sort_generic_inner, hc, if_false], hdone arr sw⟩
  | succ fuel ih =>
    intro j arr sw hj hf hlen hsz
    by_cases hjb : j < b
    · have hc : j < n - i - 1 := by omega
      have hj1 : j + 1 < arr.length := by omega
      have hj0 : j < arr.length := by omega
      by_cases hgt : compare (arr.getD j []) (arr.getD (j + 1) []) > 0
      · have hm1 : arr.getD j [] ∈ arr := by
          rw [List.getD_eq_getElem _ _ hj0]
          exact List.getElem_mem _
        have hm2 : arr.getD (j + 1) [] ∈ arr := by
          rw [List.getD_eq_getElem _ _ hj1]
          exact List.getElem_mem _
        have hswap := generic_swap_spec es swap_fuel _ _ (hsz _ hm1) (hsz _ hm2) hsf
        have hperm := exchange_perm arr j hj1
        have hba : compare (arr.getD (j + 1) []) (arr.getD j []) ≤ 0 := by
          rcases hp.1 (arr.getD j []) (arr.getD (j + 1) []) with h | h
          · omega
          · exact h
        obtain ⟨out, sw1, hrun, hpost⟩ :=
          ih (j + 1) ((arr.set j (arr.getD (j + 1) [])).set (j + 1) (arr.getD j [])) true
            (by omega) (by omega) (by simpa using hlen)
            (fun e he => hsz e (hperm.mem_iff.mp he))
        have hsw1 : sw1 = true := hpost.sticky rfl
        refine ⟨out, sw1, ?_, ?_⟩
        · simp only [bubble_sort_generic_inner, hc, hgt, if_true, hswap]
          exact hrun
        · exact
            { perm := hpost.perm.trans hperm
              length_eq := by rw [hpost.length_eq]; simp
              stable := fun x => by
                rw [hpost.stable x]
                refine exchange_filter _ arr j hj1 fun hboth => ?_
                have h1 : Equal compare x (arr.getD j []) := by simpa using hboth.1
                have h2 : Equal compare x (arr.getD (j + 1) []) := by simpa using hboth.2
                have := hp.2 _ _ _ h1.2 h2.1
                omega
              tail_eq := fun k hk => by
                rw [hpost.tail_eq k hk, exchange_getD arr j k hj1]
                have h1 : ¬ k = j := by omega
                have h2 : ¬ k = j + 1 := by omega
                simp only [h1, h2, if_false]
              bound := fun M hM => hpost.bound M fun k hk => by
                rw [exchange_getD arr j k hj1]
                split
                · exact hM (j + 1) (by omega)
                · split
                  · exact hM j (by omega)
                  · exact hM k hk
              top := fun htop => hpost.top fun k hk => by
                rw [exchange_getD arr j k hj1, exchange_getD arr j (j + 1) hj1]
                have h3 : ¬ j + 1 = j := by omega
                simp only [h3, if_false, if_true]
                split
                · exact hba
                · split
                  · exact hrefl _
                  · exact htop k (by omega)
              quiet := fun h => by rw [hsw1] at h; simp at h
              sticky := fun _ => hsw1 }
      · have hle : compare (arr.getD j []) (arr.getD (j + 1) []) ≤ 0 := by omega
        obtain ⟨out, sw1, hrun, hpost⟩ := ih (j + 1) arr sw (by omega) (by omega) hlen hsz
        refine ⟨out, sw1, ?_, ?_⟩
        · simp only [bubble_sort_generic_inner, hc, hgt, if_true, if_false]
          exact hrun
        · exact
            { perm := hpost.perm
              length_eq := hpost.length_eq
              stable := hpost.stable
              tail_eq := hpost.tail_eq
              bound := hpost.bound
              top := fun htop => hpost.top fun k hk => by
                rcases Nat.lt_or_ge k (j + 1) with h | h
                · exact hp.2 _ _ _ (htop k (by omega)) hle
                · have hk1 : k = j + 1 := by omega
                  rw [hk1]
                  exact hrefl _
              quiet := fun h => by
                obtain ⟨h1, h2⟩ := hpost.quiet h
                refine ⟨h1, fun k hk1 hk2 => ?_⟩
                rcases Nat.lt_or_ge j k with h3 | h3
                · exact h2 k (by omega) hk2
                · have hkj : k = j := by omega
                  rw [hkj]; exact hle
              sticky := hpost.sticky }
    · have hjb2 : j = b := by omega
      subst hjb2
      have hc : ¬ j < n - i - 1 := by omega
      exact ⟨arr, sw, by simp only [bubble_sort_generic_inner, hc, if_false], hdone arr sw⟩

theorem generic_chain (compare : List Nat → List Nat → Int) (hp : TotalPreorder compare)
    (arr : List (List Nat)) (b : Nat)
    (h : ∀ k, k < b → compare (arr.getD k []) (arr.getD (k + 1) []) ≤ 0) :
    ∀ l, l ≤ b → ∀ k, k ≤ l → compare (arr.getD k []) (arr.getD l []) ≤ 0 := by
  have hrefl : ∀ a, compare a a ≤ 0 := fun a => (hp.1 a a).elim id id
  intro l
  induction l with
  | zero =>
    intro _ k hk
    have : k = 0 := by omega
    rw [this]
    exact hrefl _
  | succ l ih =>
    intro hl k hk
    rcases Nat.lt_or_ge k (l + 1) with h1 | h1
    · exact hp.2 _ _ _ (ih (by omega) k (by omega)) (h l (by omega))
    · have : k = l + 1 := by omega
      rw [this]
      exact hrefl _

theorem generic_outer_spec (n es : Nat) (compare : List Nat → List Nat → Int)
    (hp : TotalPreorder compare) (inner_fuel : Nat) (hif : n ≤ inner_fuel)
    (hsf : es ≤ inner_fuel) :
    ∀ fuel i (arr : List (List Nat)), arr.length = n → i ≤ n →
      (∀ e, e ∈ arr → e.length = es) → SettledBy compare arr n (n - i) → n - i ≤ fuel →
      ∃ out, bubble_sort_generic_outer n es compare inner_fuel fuel i arr = some out ∧
        out.Perm arr ∧
        (∀ x, out.filter (fun y => decide (Equal compare x y))
          = arr.filter (fun y => decide (Equal compare x y))) ∧
        SettledBy compare out n 0 := by
  intro fuel
  induction fuel with
  | zero =>
    intro i arr hlen hi hsz hset hf
    have hin : i = n := by omega
    subst hin
    have hc : ¬ i < i := Nat.lt_irrefl _
    exact ⟨arr, by simp only [bubble_sort_generic_outer, hc, if_false], List.Perm.refl _,
      fun _ => rfl, by simpa using hset⟩
  | succ fuel ih =>
    intro i arr hlen hi hsz hset hf
    by_cases hc : i < n
    · obtain ⟨out1, sw1, hrun, hpost⟩ :=
        generic_inner_spec n es compare hp i (n - i - 1) inner_fuel rfl hsf inner_fuel 0 arr
          false (Nat.zero_le _) (by omega) (by omega) hsz
      cases hsw : sw1 with
      | false =>
        obtain ⟨heq, hadj⟩ := hpost.quiet hsw
        subst heq
        refine ⟨out1, ?_, List.Perm.refl _, fun _ => rfl, fun k l _ hkl hl => ?_⟩
        · simp only [bubble_sort_generic_outer, hc, if_true, hrun, hsw, Bool.not_false]
        · rcases Nat.lt_or_ge l (n - i) with h1 | h1
          · exact generic_chain compare hp out1 (n - i - 1)
              (fun k hk => hadj k (Nat.zero_le _) hk) l (by omega) k hkl
          · exact hset k l h1 hkl hl
      | true =>
        have hset1 : SettledBy compare out1 n (n - (i + 1)) := by
          intro k l hl1 hkl hl2
          rcases Nat.lt_or_ge (n - i - 1) l with h1 | h1
          · rw [hpost.tail_eq l h1]
            rcases Nat.lt_or_ge (n - i - 1) k with h2 | h2
            · rw [hpost.tail_eq k h2]
              exact hset k l (by omega) hkl hl2
            · exact hpost.bound (arr.getD l [])
                (fun k1 hk1 => hset k1 l (by omega) (by omega) hl2) k h2
          · have hlb : l = n - i - 1 := by omega
            rw [hlb]
            exact hpost.top (fun k1 hk1 => by
              have : k1 = 0 := by omega
              rw [this]
              exact (hp.1 _ _).elim id id) k (by omega)
        obtain ⟨out, hout, hperm, hstable, hsorted⟩ :=
          ih (i + 1) out1 (by rw [hpost.length_eq, hlen]) (by omega)
            (fun e he => hsz e (hpost.perm.mem_iff.mp he)) hset1 (by omega)
        refine ⟨out, ?_, hperm.trans hpost.perm, fun x => by rw [hstable x, hpost.stable x],
          hsorted⟩
        simp only [bubble_sort_generic_outer, hc, if_true, hrun, hsw, Bool.not_true]
        exact hout
    · have hin : i = n := by omega
      subst hin
      exact ⟨arr, by simp only [bubble_sort_generic_outer, hc, if_false], List.Perm.refl _,
        fun _ => rfl, by simpa using hset⟩

theorem compare_first_byte_preorder : TotalPreorder compare_first_byte := by
  refine ⟨fun a b => ?_, fun a b c h1 h2 => ?_⟩
  · simp only [compare_first_byte]
    omega
  · simp only [compare_first_byte] at h1 h2 ⊢
    omega

/-- Claim C40 (bubble sort, C): `bubble_sort_generic` is a stable sort. For
every array of `num_elements` elements of `element_size` bytes each and every
comparison function that is a total preorder it returns true, the result is
ordered by the comparison and is a permutation of the input, and for every
element `x` the elements that compare equal to `x` stand in the result in the
order they had in the input. -/
theorem bubble_sort_generic_stable (arr : List (List Nat)) (element_size fuel : Nat)
    (compare : List Nat → List Nat → Int) (hp : TotalPreorder compare)
    (hsz : ∀ e, e ∈ arr → e.length = element_size) (hf : arr.length ≤ fuel)
    (hfs : element_size ≤ fuel) :
    ∃ out, bubble_sort_generic fuel (some arr) arr.length element_size (some compare)
        = some (true, some out) ∧
      out.Pairwise (fun a b => compare a b ≤ 0) ∧ out.Perm arr ∧
      ∀ x, out.filter (fun y => decide (Equal compare x y))
        = arr.filter (fun y => decide (Equal compare x y)) := by
  by_cases h0 : arr.length = 0 ∨ element_size = 0
  · refine ⟨arr, by simp only [bubble_sort_generic, h0, if_true], ?_, List.Perm.refl _,
      fun _ => rfl⟩
    rcases h0 with h0 | h0
    · have hnil : arr = [] := List.length_eq_zero.mp h0
      subst hnil
      exact List.Pairwise.nil
    · subst h0
      rw [List.pairwise_iff_getElem]
      intro a b ha hb _
      have h1 : arr[a] = [] := List.length_eq_zero.mp (hsz _ (List.getElem_mem _))
      have h2 : arr[b] = [] := List.length_eq_zero.mp (hsz _ (List.getElem_mem _))
      rw [h1, h2]
      exact (hp.1 [] []).elim id id
  · obtain ⟨out, hout, hperm, hstable, hset⟩ :=
      generic_outer_spec arr.length element_size compare hp fuel hf hfs fuel 0 arr rfl
        (Nat.zero_le _) hsz (fun k l hl _ hl2 => by omega) (by omega)
    refine ⟨out, by simp only [bubble_sort_generic, h0, if_false, hout, Option.map_some'],
      ?_, hperm, hstable⟩
    have hlen : out.length = arr.length := hperm.length_eq
    rw [List.pairwise_iff_getElem]
    intro a b ha hb hab
    have := hset a b (Nat.zero_le _) (by omega) (by omega)
    rwa [List.getD_eq_getElem _ _ ha, List.getD_eq_getElem _ _ hb] at this

theorem bubble_sort_generic_stable_witness :
    (TotalPreorder compare_first_byte ∧
      (∀ e, e ∈ [[2, 1], [1, 1], [2, 2], [1, 2]] → e.length = 2) ∧
      [[2, 1], [1, 1], [2, 2], [1, 2]].length ≤ 4 ∧ 2 ≤ 4) ∧
    ∃ out,
      bubble_sort_generic 4 (some [[2, 1], [1, 1], [2, 2], [1, 2]])
          [[2, 1], [1, 1], [2, 2], [1, 2]].length 2 (some compare_first_byte)
        = some (true, some out) ∧
      out.Pairwise (fun a b => compare_first_byte a b ≤ 0) ∧
      out.Perm [[2, 1], [1, 1], [2, 2], [1, 2]] ∧
      ∀ x, out.filter (fun y => decide (Equal compare_first_byte x y))
        = [[2, 1], [1, 1], [2, 2], [1, 2]].filter
            (fun y => decide (Equal compare_first_byte x y)) :=
  ⟨⟨compare_first_byte_preorder, by decide, by decide, by decide⟩,
    bubble_sort_generic_stable [[2, 1], [1, 1], [2, 2], [1, 2]] 2 4 compare_first_byte
      compare_first_byte_preorder (by decide) (by decide) (by decide)⟩

end BubbleSort

/-!
# Binary search: termination and the bounds of the reads
-/

namespace BinarySearch

theorem safe_snoc {size : Nat} {events : List Event} {e : Event}
    (h : ∀ x, x ∈ events → x.Safe size) (he : e.Safe size) :
    ∀ x, x ∈ events ++ [e] → x.Safe size := by
  intro x hx
  rcases List.mem_append.mp hx with h1 | h1
  · exact h x h1
  · rw [List.mem_singleton.mp h1]
    exact he

theorem binary_search_loop_traced_spec (arr : List Int) (target : Int) (size : Nat) :
    ∀ fuel left right (res0 : BinarySearchResult) (events : List Event),
      right < size → right + 1 - left ≤ fuel → (∀ x, x ∈ events → x.Safe size) →
      ∃ res ev, binary_search_loop_traced arr target fuel left right res0 events
          = some (res, ev) ∧
        binary_search_loop arr target fuel left right res0 = some res ∧
        ∀ x, x ∈ ev → x.Safe size := by
  intro fuel
  induction fuel with
  | zero =>
    intro left right res0 events hr hf hs
    have h : ¬ left ≤ right := by omega
    exact ⟨res0, events, by simp only [binary_search_loop_traced, h, if_false],
      by simp only [binary_search_loop, h, if_false], hs⟩
  | succ fuel ih =>
    intro left right res0 events hr hf hs
    by_cases h : left ≤ right
    · have hmid2 : left + (right - left) / 2 ≤ right := by omega
      have hmid1 : left ≤ left + (right - left) / 2 := Nat.le_add_right _ _
      generalize hmid : left + (right - left) / 2 = mid at hmid1 hmid2
      have hread : (Event.read left mid right).Safe size := ⟨hmid1, hmid2, hr⟩
      have hs1 := safe_snoc hs hread
      have hs2 := safe_snoc hs1 hread
      by_cases heq : arr.getD mid 0 = target
      · exact ⟨{ res0 with index := size_to_int mid, found := true }, _,
          by simp only [binary_search_loop_traced, h, hmid, heq, if_true],
          by simp only [binary_search_loop, h, hmid, heq, if_true], hs1⟩
      · by_cases hlt : arr.getD mid 0 < target
        · obtain ⟨res, ev, h1, h2, h3⟩ := ih (mid + 1) right res0 _ hr (by omega) hs2
          exact ⟨res, ev,
            by simp only [binary_search_loop_traced, h, hmid, heq, hlt, if_true, if_false]
               exact h1,
            by simp only [binary_search_loop, h, hmid, heq, hlt, if_true, if_false]
               exact h2, h3⟩
        · by_cases hm0 : mid = 0
          · refine ⟨res0, _, ?_, ?_, hs2⟩
            · simp only [binary_search_loop_traced, h, hmid, heq, hlt, if_true, if_false]
              simp only [hm0, if_true]
            · simp only [binary_search_loop, h, hmid, heq, hlt, if_true, if_false]
              simp only [hm0, if_true]
          · have hdec : (Event.decrement mid).Safe size := by
              show 1 ≤ mid
              omega
            obtain ⟨res, ev, h1, h2, h3⟩ :=
              ih left (mid - 1) res0 _ (by omega) (by omega) (safe_snoc hs2 hdec)
            exact ⟨res, ev,
              by simp only [binary_search_loop_traced, h, hmid, heq, hlt, hm0, if_true,
                   if_false]
                 exact h1,
              by simp only [binary_search_loop, h, hmid, heq, hlt, hm0, if_true, if_false]
                 exact h2, h3⟩
    · exact ⟨res0, events, by simp only [binary_search_loop_traced, h, if_false],
        by simp only [binary_search_loop, h, if_false], hs⟩

theorem first_occurrence_loop_traced_spec (arr : List Int) (target : Int) (size : Nat) :
    ∀ fuel left right (fi : Int) (res0 : BinarySearchResult) (events : List Event),
      right < size → right + 1 - left ≤ fuel → (∀ x, x ∈ events → x.Safe size) →
      ∃ res ev,
        binary_search_first_occurrence_loop_traced arr target fuel left right fi res0 events
          = some (res, ev) ∧
        binary_search_first_occurrence_loop arr target fuel left right fi res0 = some res ∧
        ∀ x, x ∈ ev → x.Safe size := by
  intro fuel
  induction fuel with
  | zero =>
    intro left right fi res0 events hr hf hs
    have h : ¬ left ≤ right := by omega
    exact ⟨(fi, res0), events,
      by simp only [binary_search_first_occurrence_loop_traced, h, if_false],
      by simp only [binary_search_first_occurrence_loop, h, if_false], hs⟩
  | succ fuel ih =>
    intro left right fi res0 events hr hf hs
    by_cases h : left ≤ right
    · have hmid2 : left + (right - left) / 2 ≤ right := by omega
      have hmid1 : left ≤ left + (right - left) / 2 := Nat.le_add_right _ _
      generalize hmid : left + (right - left) / 2 = mid at hmid1 hmid2
      have hread : (Event.read left mid right).Safe size := ⟨hmid1, hmid2, hr⟩
      have hs1 := safe_snoc hs hread
      have hs2 := safe_snoc hs1 hread
      by_cases heq : arr.getD mid 0 = target
      · by_cases hm0 : mid = 0
        · refine ⟨(size_to_int mid, { res0 with found := true }), _, ?_, ?_, hs1⟩
          · simp only [binary_search_first_occurrence_loop_traced, h, hmid, heq, if_true]
            simp only [hm0, if_true]
          · simp only [binary_search_first_occurrence_loop, h, hmid, heq, if_true]
            simp only [hm0, if_true]
        · have hdec : (Event.decrement mid).Safe size := by
            show 1 ≤ mid
            omega
          obtain ⟨res, ev, h1, h2, h3⟩ :=
            ih left (mid - 1) (size_to_int mid) { res0 with found := true } _ (by omega)
              (by omega) (safe_snoc hs1 hdec)
          exact ⟨res, ev,
            by simp only [binary_search_first_occurrence_loop_traced, h, hmid, heq, hm0,
                 if_true, if_false]
               exact h1,
            by simp only [binary_search_first_occurrence_loop, h, hmid, heq, hm0, if_true,
                 if_false]
               exact h2, h3⟩
      · by_cases hlt : arr.getD mid 0 < target
        · obtain ⟨res, ev, h1, h2, h3⟩ := ih (mid + 1) right fi res0 _ hr (by omega) hs2
          exact ⟨res, ev,
            by simp only [binary_search_first_occurrence_loop_traced, h, hmid, heq, hlt,
                 if_true, if_false]
               exact h1,
            by simp only [binary_search_first_occurrence_loop, h, hmid, heq, hlt, if_true,
                 if_false]
               exact h2, h3⟩
        · by_cases hm0 : mid = 0
          · refine ⟨(fi, res0), _, ?_, ?_, hs2⟩
            · simp only [binary_search_first_occurrence_loop_traced, h, hmid, heq, hlt,
                if_true, if_false]
              simp only [hm0, if_true]
            · simp only [binary_search_first_occurrence_loop, h, hmid, heq, hlt, if_true,
                if_false]
              simp only [hm0, if_true]
          · have hdec : (Event.decrement mid).Safe size := by
              show 1 ≤ mid
              omega
            obtain ⟨res, ev, h1, h2, h3⟩ :=
              ih left (mid - 1) fi res0 _ (by omega) (by omega) (safe_snoc hs2 hdec)
            exact ⟨res, ev,
              by simp only [binary_search_first_occurrence_loop_traced, h, hmid, heq, hlt,
                   hm0, if_true, if_false]
                 exact h1,
              by simp only [binary_search_first_occurrence_loop, h, hmid, heq, hlt, hm0,
                   if_true, if_false]
                 exact h2, h3⟩
    · exact ⟨(fi, res0), events,
        by simp only [binary_search_first_occurrence_loop_traced, h, if_false],
        by simp only [binary_search_first_occurrence_loop, h, if_false], hs⟩

theorem last_occurrence_loop_traced_spec (arr : List Int) (target : Int) (size : Nat) :
    ∀ fuel left right (li : Int) (res0 : BinarySearchResult) (events : List Event),
      right < size → right + 1 - left ≤ fuel → (∀ x, x ∈ events → x.Safe size) →
      ∃ res ev,
        binary_search_last_occurrence_loop_traced arr target fuel left right li res0 events
          = some (res, ev) ∧
        binary_search_last_occurrence_loop arr target fuel left right li res0 = some res ∧
        ∀ x, x ∈ ev → x.Safe size := by
  intro fuel
  induction fuel with
  | zero =>
    intro left right li res0 events hr hf hs
    have h : ¬ left ≤ right := by omega
    exact ⟨(li, res0), events,
      by simp only [binary_search_last_occurrence_loop_traced, h, if_false],
      by simp only [binary_search_last_occurrence_loop, h, if_false], hs⟩
  | succ fuel ih =>
    intro left right li res0 events hr hf hs
    by_cases h : left ≤ right
    · have hmid2 : left + (right - left) / 2 ≤ right := by omega
      have hmid1 : left ≤ left + (right - left) / 2 := Nat.le_add_right _ _
      generalize hmid : left + (right - left) / 2 = mid at hmid1 hmid2
      have hread : (Event.read left mid right).Safe size := ⟨hmid1, hmid2, hr⟩
      have hs1 := safe_snoc hs hread
      have hs2 := safe_snoc hs1 hread
      by_cases heq : arr.getD mid 0 = target
      · obtain ⟨res, ev, h1, h2, h3⟩ :=
          ih (mid + 1) right (size_to_int mid) { res0 with found := true } _ hr (by omega) hs1
        exact ⟨res, ev,
          by simp only [binary_search_last_occurrence_loop_traced, h, hmid, heq, if_true]
             exact h1,
          by simp only [binary_search_last_occurrence_loop, h, hmid, heq, if_true]
             exact h2, h3⟩
      · by_cases hlt : arr.getD mid 0 < target
        · obtain ⟨res, ev, h1, h2, h3⟩ := ih (mid + 1) right li res0 _ hr (by omega) hs2
          exact ⟨res, ev,
            by simp only [binary_search_last_occurrence_loop_traced, h, hmid, heq, hlt,
                 if_true, if_false]
               exact h1,
            by simp only [binary_search_last_occurrence_loop, h, hmid, heq, hlt, if_true,
                 if_false]
               exact h2, h3⟩
        · by_cases hm0 : mid = 0
          · refine ⟨(li, res0), _, ?_, ?_, hs2⟩
            · simp only [binary_search_last_occurrence_loop_traced, h, hmid, heq, hlt,
                if_true, if_false]
              simp only [hm0, if_true]
            · simp only [binary_search_last_occurrence_loop, h, hmid, heq, hlt, if_true,
                if_false]
              simp only [hm0, if_true]
          · have hdec : (Event.decrement mid).Safe size := by
              show 1 ≤ mid
              omega
            obtain ⟨res, ev, h1, h2, h3⟩ :=
              ih left (mid - 1) li res0 _ (by omega) (by omega) (safe_snoc hs2 hdec)
            exact ⟨res, ev,
              by simp only [binary_search_last_occurrence_loop_traced, h, hmid, heq, hlt,
                   hm0, if_true, if_false]
                 exact h1,
              by simp only [binary_search_last_occurrence_loop, h, hmid, heq, hlt, hm0,
                   if_true, if_false]
                 exact h2, h3⟩
    · exact ⟨(li, res0), events,
        by simp only [binary_search_last_occurrence_loop_traced, h, if_false],
        by simp only [binary_search_last_occurrence_loop, h, if_false], hs⟩

/-- Claim C37 (binary search, C): for every non-empty integer array, sorted
or not, and every target, `binary_search`, `binary_search_first_occurrence`
and `binary_search_last_occurrence` return; what they return is what the
loops with the event record return; every read of the array is at an index
`mid` with `left <= mid <= right < size`; and no unsigned value is decremented
below zero. -/
theorem binary_search_loops_safe (arr : List Int) (target : Int) (fuel : Nat)
    (hne : 1 ≤ arr.length) (hf : arr.length ≤ fuel) :
    (∃ res ev, binary_search_traced fuel (some arr) arr.length target = some (res, ev) ∧
      binary_search fuel (some arr) arr.length target = some res ∧
      ∀ x, x ∈ ev → x.Safe arr.length) ∧
    (∃ res ev,
      binary_search_first_occurrence_traced fuel (some arr) arr.length target
        = some (res, ev) ∧
      binary_search_first_occurrence fuel (some arr) arr.length target = some res ∧
      ∀ x, x ∈ ev → x.Safe arr.length) ∧
    (∃ res ev,
      binary_search_last_occurrence_traced fuel (some arr) arr.length target
        = some (res, ev) ∧
      binary_search_last_occurrence fuel (some arr) arr.length target = some res ∧
      ∀ x, x ∈ ev → x.Safe arr.length) := by
  have h0 : ¬ arr.length = 0 := by omega
  have hinit : ∀ x, x ∈ [Event.decrement arr.length] → x.Safe arr.length := by
    intro x hx
    rw [List.mem_singleton.mp hx]
    exact hne
  refine ⟨?_, ?_, ?_⟩
  · obtain ⟨res, ev, h1, h2, h3⟩ :=
      binary_search_loop_traced_spec arr target arr.length fuel 0 (arr.length - 1)
        { index := -1, found := false } _ (by omega) (by omega) hinit
    exact ⟨res, ev, by simp only [binary_search_traced, h0, if_false]; exact h1,
      by simp only [binary_search, h0, if_false]; exact h2, h3⟩
  · obtain ⟨res, ev, h1, h2, h3⟩ :=
      first_occurrence_loop_traced_spec arr target arr.length fuel 0 (arr.length - 1) (-1)
        { index := -1, found := false } _ (by omega) (by omega) hinit
    exact ⟨{ res.2 with index := res.1 }, ev,
      by simp only [binary_search_first_occurrence_traced, h0, if_false, h1,
           Option.map_some'],
      by simp only [binary_search_first_occurrence, h0, if_false, h2, Option.map_some'], h3⟩
  · obtain ⟨res, ev, h1, h2, h3⟩ :=
      last_occurrence_loop_traced_spec arr target arr.length fuel 0 (arr.length - 1) (-1)
        { index := -1, found := false } _ (by omega) (by omega) hinit
    exact ⟨{ res.2 with index := res.1 }, ev,
      by simp only [binary_search_last_occurrence_traced, h0, if_false, h1,
           Option.map_some'],
      by simp only [binary_search_last_occurrence, h0, if_false, h2, Option.map_some'], h3⟩

theorem binary_search_loops_safe_witness :
    (1 ≤ ([7, 3, 9, 3, 1] : List Int).length ∧ ([7, 3, 9, 3, 1] : List Int).length ≤ 5) ∧
    ((∃ res ev,
      binary_search_traced 5 (some [7, 3, 9, 3, 1]) ([7, 3, 9, 3, 1] : List Int).length 3
        = some (res, ev) ∧
      binary_search 5 (some [7, 3, 9, 3, 1]) ([7, 3, 9, 3, 1] : List Int).length 3
        = some res ∧
      ∀ x, x ∈ ev → x.Safe ([7, 3, 9, 3, 1] : List Int).length) ∧
    (∃ res ev,
      binary_search_first_occurrence_traced 5 (some [7, 3, 9, 3, 1])
          ([7, 3, 9, 3, 1] : List Int).length 3
        = some (res, ev) ∧
      binary_search_first_occurrence 5 (some [7, 3, 9, 3, 1])
          ([7, 3, 9, 3, 1] : List Int).length 3 = some res ∧
      ∀ x, x ∈ ev → x.Safe ([7, 3, 9, 3, 1] : List Int).length) ∧
    (∃ res ev,
      binary_search_last_occurrence_traced 5 (some [7, 3, 9, 3, 1])
          ([7, 3, 9, 3, 1] : List Int).length 3
        = some (res, ev) ∧
      binary_search_last_occurrence 5 (some [7, 3, 9, 3, 1])
          ([7, 3, 9, 3, 1] : List Int).length 3 = some res ∧
      ∀ x, x ∈ ev → x.Safe ([7, 3, 9, 3, 1] : List Int).length)) :=
  ⟨by decide, binary_search_loops_safe [7, 3, 9, 3, 1] 3 5 (by decide) (by decide)⟩

end BinarySearch

/-!
# KMP: termination of the loops
-/

namespace KMP

/-! ## The loop of `kmp_build_failure_function` -/

/-- The loop is the iteration of its body. -/
theorem build_loop_eq_passes (p : List Nat) (m : Nat) :
    ∀ fuel (s : BuildState),
      kmp_build_failure_function_loop p m fuel s.failure_function s.length s.i
        = if (kmp_build_failure_function_passes p m fuel s).i < m then none
          else some (kmp_build_failure_function_passes p m fuel s).failure_function := by
  intro fuel
  induction fuel with
  | zero =>
    intro s
    simp only [kmp_build_failure_function_loop, kmp_build_failure_function_passes]
  | succ fuel ih =>
    intro s
    by_cases him : s.i < m
    · simp only [kmp_build_failure_function_passes, him, if_true]
      rw [← ih]
      by_cases hc : p.getD s.i 0 = p.getD s.length 0
      · simp only [kmp_build_failure_function_loop, kmp_build_failure_function_body, him, hc,
          if_true]
      · by_cases hl : s.length ≠ 0
        · simp only [kmp_build_failure_function_loop, kmp_build_failure_function_body, him, hc,
            if_true, if_false]
          simp only [if_pos hl]
        · simp only [kmp_build_failure_function_loop, kmp_build_failure_function_body, him, hc,
            if_true, if_false]
          simp only [if_neg hl]
    · simp only [kmp_build_failure_function_loop, kmp_build_failure_function_passes, him,
        if_false]

/-- The body keeps the loop invariant, makes progress and lowers the measure
`2 * (m - i) + length`. -/
theorem build_body_spec (p : List Nat) (m : Nat) (s : BuildState)
    (h : BuildInv p m s.failure_function s.length s.i) (him : s.i < m) :
    BuildInv p m (kmp_build_failure_function_body p s).failure_function
        (kmp_build_failure_function_body p s).length (kmp_build_failure_function_body p s).i ∧
      s.Progress (kmp_build_failure_function_body p s) ∧
      2 * (m - (kmp_build_failure_function_body p s).i)
          + (kmp_build_failure_function_body p s).length
        < 2 * (m - s.i) + s.length := by
  obtain ⟨ff, len, i⟩ := s
  simp only at h him
  by_cases hc : p.getD i 0 = p.getD len 0
  · simp only [kmp_build_failure_function_body, hc, if_true, BuildState.Progress]
    exact ⟨buildInv_match h him hc, Or.inl trivial, by omega⟩
  · cases len with
    | zero =>
      simp only [kmp_build_failure_function_body, hc, if_false, ne_eq, not_true_eq_false,
        BuildState.Progress]
      exact ⟨buildInv_zero h him hc, Or.inl trivial, by omega⟩
    | succ len =>
      obtain ⟨hinv, hle⟩ := buildInv_fallback h hc
      simp only [kmp_build_failure_function_body, hc, if_false, ne_eq, Nat.add_one_ne_zero,
        not_false_eq_true, if_true, Nat.add_sub_cancel, BuildState.Progress]
      exact ⟨hinv, Or.inr ⟨trivial, by omega⟩, by omega⟩

theorem build_passes_inv (p : List Nat) (m : Nat) :
    ∀ k (s : BuildState), BuildInv p m s.failure_function s.length s.i →
      BuildInv p m (kmp_build_failure_function_passes p m k s).failure_function
        (kmp_build_failure_function_passes p m k s).length
        (kmp_build_failure_function_passes p m k s).i := by
  intro k
  induction k with
  | zero => intro s h; exact h
  | succ k ih =>
    intro s h
    by_cases him : s.i < m
    · simp only [kmp_build_failure_function_passes, him, if_true]
      exact ih _ (build_body_spec p m s h him).1
    · simp only [kmp_build_failure_function_passes, him, if_false]
      exact h

theorem build_passes_done (p : List Nat) (m : Nat) :
    ∀ k (s : BuildState), BuildInv p m s.failure_function s.length s.i →
      2 * (m - s.i) + s.length ≤ k → (kmp_build_failure_function_passes p m k s).i = m := by
  intro k
  induction k with
  | zero =>
    intro s h hk
    have := h.i_le
    simp only [kmp_build_failure_function_passes]
    omega
  | succ k ih =>
    intro s h hk
    by_cases him : s.i < m
    · obtain ⟨hinv, -, hlt⟩ := build_body_spec p m s h him
      simp only [kmp_build_failure_function_passes, him, if_true]
      exact ih _ hinv (by omega)
    · have := h.i_le
      simp only [kmp_build_failure_function_passes, him, if_false]
      omega

/-- Claim C33 (KMP, C): for a pattern of length `m >= 1` and an output array
of at least `m` cells, after any number of passes through the loop of
`kmp_build_failure_function` the running prefix length is below `i` and `i`
is at most `m`, and while `i < m` the next pass either advances `i` or leaves
it and strictly decreases the prefix length; after `2 * m` passes at the
latest `i == m`, the loop is left, and the function returns true with the
array the passes have built. -/
theorem kmp_build_failure_function_terminates (p ff : List Nat) (m : Nat) (hm : 1 ≤ m)
    (hsz : m ≤ ff.length) :
    (∀ k,
      (kmp_build_failure_function_passes p m k (kmp_build_failure_function_start ff)).length
        < (kmp_build_failure_function_passes p m k (kmp_build_failure_function_start ff)).i ∧
      (kmp_build_failure_function_passes p m k (kmp_build_failure_function_start ff)).i ≤ m ∧
      ((kmp_build_failure_function_passes p m k (kmp_build_failure_function_start ff)).i < m →
        (kmp_build_failure_function_passes p m k (kmp_build_failure_function_start ff)).Progress
          (kmp_build_failure_function_body p
            (kmp_build_failure_function_passes p m k (kmp_build_failure_function_start ff))))) ∧
    (∀ fuel, 2 * m ≤ fuel →
      (kmp_build_failure_function_passes p m fuel (kmp_build_failure_function_start ff)).i = m ∧
      kmp_build_failure_function fuel (some p) m (some ff)
        = some (true, some
            (kmp_build_failure_function_passes p m fuel
              (kmp_build_failure_function_start ff)).failure_function)) := by
  have h0 : BuildInv p m (kmp_build_failure_function_start ff).failure_function
      (kmp_build_failure_function_start ff).length (kmp_build_failure_function_start ff).i :=
    buildInv_init p ff m hm hsz
  refine ⟨fun k => ?_, fun fuel hf => ?_⟩
  · have hk := build_passes_inv p m k _ h0
    exact ⟨hk.len_lt, hk.i_le, fun him => (build_body_spec p m _ hk him).2.1⟩
  · have hdone := build_passes_done p m fuel _ h0 (by
      simp only [kmp_build_failure_function_start]
      omega)
    refine ⟨hdone, ?_⟩
    have hloop := build_loop_eq_passes p m fuel (kmp_build_failure_function_start ff)
    rw [if_neg (by omega)] at hloop
    have hm0 : m ≠ 0 := by omega
    simp only [kmp_build_failure_function_start] at hloop
    simp only [kmp_build_failure_function, hm0, if_false, hloop, Option.map_some']
    rfl

theorem kmp_build_failure_function_terminates_witness :
    (1 ≤ 4 ∧ 4 ≤ [9, 9, 9, 9].length) ∧
    ((∀ k,
      (kmp_build_failure_function_passes [65, 65, 66, 65] 4 k
          (kmp_build_failure_function_start [9, 9, 9, 9])).length
        < (kmp_build_failure_function_passes [65, 65, 66, 65] 4 k
          (kmp_build_failure_function_start [9, 9, 9, 9])).i ∧
      (kmp_build_failure_function_passes [65, 65, 66, 65] 4 k
          (kmp_build_failure_function_start [9, 9, 9, 9])).i ≤ 4 ∧
      ((kmp_build_failure_function_passes [65, 65, 66, 65] 4 k
          (kmp_build_failure_function_start [9, 9, 9, 9])).i < 4 →
        (kmp_build_failure_function_passes [65, 65, 66, 65] 4 k
            (kmp_build_failure_function_start [9, 9, 9, 9])).Progress
          (kmp_build_failure_function_body [65, 65, 66, 65]
            (kmp_build_failure_function_passes [65, 65, 66, 65] 4 k
              (kmp_build_failure_function_start [9, 9, 9, 9]))))) ∧
    (∀ fuel, 2 * 4 ≤ fuel →
      (kmp_build_failure_function_passes [65, 65, 66, 65] 4 fuel
          (kmp_build_failure_function_start [9, 9, 9, 9])).i = 4 ∧
      kmp_build_failure_function fuel (some [65, 65, 66, 65]) 4 (some [9, 9, 9, 9])
        = some (true, some
            (kmp_build_failure_function_passes [65, 65, 66, 65] 4 fuel
              (kmp_build_failure_function_start [9, 9, 9, 9])).failure_function))) :=
  ⟨by decide, kmp_build_failure_function_terminates [65, 65, 66, 65] [9, 9, 9, 9] 4 (by decide)
    (by decide)⟩

end KMP

namespace KMP

/-! ## The scan loop -/

/-- The body of the scan loop keeps the loop invariant, makes progress and
lowers the measure `2 * (n - i) + j`. -/
theorem scan_body_spec (t p lps : List Nat) (n m : Nat)
    (hlps : ∀ k, k < m → IsLps p k (lps.getD k 0)) (s : ScanState)
    (h : ScanInv t p n m s.i s.j) (hin : s.i < n) :
    ScanInv t p n m (kmp_search_body t n p m lps s).i (kmp_search_body t n p m lps s).j ∧
      s.Progress (kmp_search_body t n p m lps s) ∧
      2 * (n - (kmp_search_body t n p m lps s).i) + (kmp_search_body t n p m lps s).j
        < 2 * (n - s.i) + s.j := by
  obtain ⟨i, j⟩ := s
  simp only at h hin
  by_cases hc : p.getD j 0 = t.getD i 0
  · by_cases hjm : j + 1 = m
    · obtain ⟨hinv, hle, -⟩ := scanInv_full hlps h hin hc hjm
      subst hjm
      simp only [kmp_search_body, hc, if_true, Nat.add_sub_cancel, ScanState.Progress]
      exact ⟨hinv, Or.inl trivial, by omega⟩
    · obtain ⟨hinv, -⟩ := scanInv_advance h hin hc hjm
      by_cases hc1 : i + 1 < n ∧ p.getD (j + 1) 0 ≠ t.getD (i + 1) 0
      · obtain ⟨hinv2, hle2⟩ := scanInv_fallback hlps hinv hc1.2
        simp only [kmp_search_body, hc, hjm, hc1.1, hc1.2, if_true, if_false, ne_eq,
          not_false_eq_true, and_self, Nat.add_one_ne_zero, Nat.add_sub_cancel,
          ScanState.Progress]
        exact ⟨hinv2, Or.inl trivial, by omega⟩
      · simp only [kmp_search_body, hc, hjm, hc1, if_true, if_false, ScanState.Progress]
        exact ⟨hinv, Or.inl trivial, by omega⟩
  · have hjm : j ≠ m := Nat.ne_of_lt h.j_lt
    cases j with
    | zero =>
      obtain ⟨hinv, -⟩ := scanInv_skip h hin hc
      simp only [kmp_search_body, hc, hjm, hin, if_true, if_false, ne_eq, not_false_eq_true,
        and_self, not_true_eq_false, ScanState.Progress]
      exact ⟨hinv, Or.inl trivial, by omega⟩
    | succ j =>
      obtain ⟨hinv, hle⟩ := scanInv_fallback hlps h hc
      simp only [kmp_search_body, hc, hjm, hin, if_true, if_false, ne_eq, not_false_eq_true,
        and_self, Nat.add_one_ne_zero, Nat.add_sub_cancel, ScanState.Progress]
      exact ⟨hinv, Or.inr ⟨trivial, by omega⟩, by omega⟩

theorem scan_passes_inv (t p lps : List Nat) (n m : Nat)
    (hlps : ∀ k, k < m → IsLps p k (lps.getD k 0)) :
    ∀ k (s : ScanState), ScanInv t p n m s.i s.j →
      ScanInv t p n m (kmp_search_passes t n p m lps k s).i
        (kmp_search_passes t n p m lps k s).j := by
  intro k
  induction k with
  | zero => intro s h; exact h
  | succ k ih =>
    intro s h
    by_cases hin : s.i < n
    · simp only [kmp_search_passes, hin, if_true]
      exact ih _ (scan_body_spec t p lps n m hlps s h hin).1
    · simp only [kmp_search_passes, hin, if_false]
      exact h

theorem scan_passes_done (t p lps : List Nat) (n m : Nat)
    (hlps : ∀ k, k < m → IsLps p k (lps.getD k 0)) :
    ∀ k (s : ScanState), ScanInv t p n m s.i s.j → 2 * (n - s.i) + s.j ≤ k →
      (kmp_search_passes t n p m lps k s).i = n := by
  intro k
  induction k with
  | zero =>
    intro s h hk
    have := h.i_le
    simp only [kmp_search_passes]
    omega
  | succ k ih =>
    intro s h hk
    by_cases hin : s.i < n
    · obtain ⟨hinv, -, hlt⟩ := scan_body_spec t p lps n m hlps s h hin
      simp only [kmp_search_passes, hin, if_true]
      exact ih _ hinv (by omega)
    · have := h.i_le
      simp only [kmp_search_passes, hin, if_false]
      omega

/-- One iteration of the loop of `kmp_search` is one pass of the body. -/
theorem search_loop_pass (t p lps : List Nat) (n m : Nat) (fuel i j : Nat) (r : KMPResult)
    (hin : i < n) :
    ∃ r1, kmp_search_loop t n p m lps (fuel + 1) i j r
      = kmp_search_loop t n p m lps fuel (kmp_search_body t n p m lps ⟨i, j⟩).i
          (kmp_search_body t n p m lps ⟨i, j⟩).j r1 := by
  by_cases hc : p.getD j 0 = t.getD i 0
  · by_cases hjm : j + 1 = m
    · refine ⟨((kmp_result_add_position (some r) (size_sub (i + 1) (j + 1))).2).getD r, ?_⟩
      simp only [kmp_search_loop, kmp_search_body, hin, hc, hjm, if_true,
        kmp_result_add_position, Option.getD_some]
    · by_cases hc1 : i + 1 < n ∧ p.getD (j + 1) 0 ≠ t.getD (i + 1) 0
      · refine ⟨r, ?_⟩
        simp only [kmp_search_loop, kmp_search_body, hin, hc, hjm, if_true, if_false]
        simp only [if_pos hc1, ne_eq, Nat.add_one_ne_zero, not_false_eq_true, if_true]
      · refine ⟨r, ?_⟩
        simp only [kmp_search_loop, kmp_search_body, hin, hc, hjm, if_true, if_false]
        simp only [if_neg hc1]
  · by_cases hjm : j = m
    · subst hjm
      refine ⟨((kmp_result_add_position (some r) (size_sub i j)).2).getD r, ?_⟩
      simp only [kmp_search_loop, kmp_search_body, hin, hc, if_true, if_false,
        kmp_result_add_position, Option.getD_some]
    · by_cases hj0 : j = 0
      · subst hj0
        refine ⟨r, ?_⟩
        simp only [kmp_search_loop, kmp_search_body, hin, hc, hjm, if_true, if_false,
          true_and, ne_eq, not_false_eq_true, not_true_eq_false]
      · refine ⟨r, ?_⟩
        simp only [kmp_search_loop, kmp_search_body, hin, hc, hjm, hj0, if_true, if_false,
          true_and, ne_eq, not_false_eq_true]

/-- One iteration of the loop of `kmp_search_first` returns or is one pass of
the body. -/
theorem search_first_loop_pass (t p lps : List Nat) (n m : Nat) (fuel i j pos : Nat)
    (hin : i < n) :
    (∃ v, kmp_search_first_loop t n p m lps (fuel + 1) i j pos = some v) ∨
    kmp_search_first_loop t n p m lps (fuel + 1) i j pos
      = kmp_search_first_loop t n p m lps fuel (kmp_search_body t n p m lps ⟨i, j⟩).i
          (kmp_search_body t n p m lps ⟨i, j⟩).j pos := by
  by_cases hc : p.getD j 0 = t.getD i 0
  · by_cases hjm : j + 1 = m
    · refine Or.inl ⟨size_sub (i + 1) (j + 1), ?_⟩
      simp only [kmp_search_first_loop, hin, hc, hjm, if_true]
    · by_cases hc1 : i + 1 < n ∧ p.getD (j + 1) 0 ≠ t.getD (i + 1) 0
      · refine Or.inr ?_
        simp only [kmp_search_first_loop, kmp_search_body, hin, hc, hjm, if_true, if_false]
        simp only [if_pos hc1, ne_eq, Nat.add_one_ne_zero, not_false_eq_true, if_true]
      · refine Or.inr ?_
        simp only [kmp_search_first_loop, kmp_search_body, hin, hc, hjm, if_true, if_false]
        simp only [if_neg hc1]
  · by_cases hjm : j = m
    · subst hjm
      refine Or.inl ⟨size_sub i j, ?_⟩
      simp only [kmp_search_first_loop, hin, hc, if_true, if_false]
    · by_cases hj0 : j = 0
      · subst hj0
        refine Or.inr ?_
        simp only [kmp_search_first_loop, kmp_search_body, hin, hc, hjm, if_true,
          if_false, true_and, ne_eq, not_false_eq_true, not_true_eq_false]
      · refine Or.inr ?_
        simp only [kmp_search_first_loop, kmp_search_body, hin, hc, hjm, hj0, if_true,
          if_false, true_and, ne_eq, not_false_eq_true]

/-- Claim C34 (KMP, C): for every text and every non-empty pattern, with the
failure function `lps` that `kmp_build_failure_function` computes, every pass
through the scan loop from `i = j = 0` either advances the text index `i` or
leaves it and strictly decreases the pattern index `j`; one iteration of the
loop of `kmp_search`, `kmp_matcher_search`, `kmp_search_first` or
`kmp_matcher_search_first` is one such pass (or, in the last two, a
`return`); and the four functions return. -/
theorem kmp_scan_terminates (t p : List Nat) (n m fuel : Nat) (r0 : KMPResult) (pos0 : Nat)
    (hm : 1 ≤ m) (hn : n ≤ SIZE_MAX) (hfn : 2 * n ≤ fuel) (hfm : 2 * m ≤ fuel) :
    ∃ lps,
      kmp_build_failure_function fuel (some p) m (some (List.replicate m 0))
        = some (true, some lps) ∧
      (∀ k, (kmp_search_passes t n p m lps k ⟨0, 0⟩).i < n →
        (kmp_search_passes t n p m lps k ⟨0, 0⟩).Progress
          (kmp_search_body t n p m lps (kmp_search_passes t n p m lps k ⟨0, 0⟩))) ∧
      (kmp_search_passes t n p m lps (2 * n) ⟨0, 0⟩).i = n ∧
      (∀ f i j r, i < n →
        ∃ r1, kmp_search_loop t n p m lps (f + 1) i j r
          = kmp_search_loop t n p m lps f (kmp_search_body t n p m lps ⟨i, j⟩).i
              (kmp_search_body t n p m lps ⟨i, j⟩).j r1) ∧
      (∀ f i j r, i < n →
        ∃ r1, kmp_matcher_search_loop ⟨some p, m, some lps⟩ t n (f + 1) i j r
          = kmp_matcher_search_loop ⟨some p, m, some lps⟩ t n f
              (kmp_search_body t n p m lps ⟨i, j⟩).i
              (kmp_search_body t n p m lps ⟨i, j⟩).j r1) ∧
      (∀ f i j pos, i < n →
        (∃ v, kmp_search_first_loop t n p m lps (f + 1) i j pos = some v) ∨
        kmp_search_first_loop t n p m lps (f + 1) i j pos
          = kmp_search_first_loop t n p m lps f (kmp_search_body t n p m lps ⟨i, j⟩).i
              (kmp_search_body t n p m lps ⟨i, j⟩).j pos) ∧
      (∀ f i j pos, i < n →
        (∃ v, kmp_matcher_search_first_loop ⟨some p, m, some lps⟩ t n (f + 1) i j pos
          = some v) ∨
        kmp_matcher_search_first_loop ⟨some p, m, some lps⟩ t n (f + 1) i j pos
          = kmp_matcher_search_first_loop ⟨some p, m, some lps⟩ t n f
              (kmp_search_body t n p m lps ⟨i, j⟩).i
              (kmp_search_body t n p m lps ⟨i, j⟩).j pos) ∧
      (∃ r, kmp_search fuel (some t) n (some p) m (some r0) = some (true, some r)) ∧
      (∃ pos, kmp_search_first fuel (some t) n (some p) m (some pos0)
        = some (true, some pos)) ∧
      (∃ r, kmp_matcher_search fuel (some ⟨some p, m, some lps⟩) (some t) n (some r0)
        = some (true, some ⟨some p, m, some lps⟩, some r)) ∧
      (∃ pos, kmp_matcher_search_first fuel (some ⟨some p, m, some lps⟩) (some t) n
          (some pos0)
        = some (true, some ⟨some p, m, some lps⟩, some pos)) := by
  obtain ⟨lps, hb, -, hlps⟩ := build_spec p (List.replicate m 0) m fuel hm (by simp) hfm
  have h0 : ScanInv t p n m (ScanState.mk 0 0).i (ScanState.mk 0 0).j := scanInv_init t p n m hm
  obtain ⟨r, hr⟩ := search_total t p n m fuel r0 hn hfn
  obtain ⟨pos, hpos⟩ := search_first_total t p n m fuel pos0 hn hfn
  refine ⟨lps, hb, fun k hk => ?_, ?_, fun f i j r hin => search_loop_pass t p lps n m f i j r hin,
    fun f i j r hin => ?_, fun f i j pos hin => search_first_loop_pass t p lps n m f i j pos hin,
    fun f i j pos hin => ?_, ⟨r, hr⟩, ⟨pos, hpos⟩, ⟨r, ?_⟩, ⟨pos, ?_⟩⟩
  · exact (scan_body_spec t p lps n m hlps _ (scan_passes_inv t p lps n m hlps k _ h0) hk).2.1
  · exact scan_passes_done t p lps n m hlps (2 * n) _ h0 (by simp)
  · simp only [matcher_search_loop_eq]
    exact search_loop_pass t p lps n m f i j r hin
  · simp only [matcher_search_first_loop_eq]
    exact search_first_loop_pass t p lps n m f i j pos hin
  · rw [matcher_search_eq p lps t m n fuel r0 hb, hr]
    rfl
  · rw [matcher_search_first_eq p lps t m n fuel pos0 hb, hpos]
    rfl

end KMP

namespace KMP

theorem kmp_scan_terminates_witness :
    ((1 ≤ 3 ∧ (5 : Nat) ≤ SIZE_MAX ∧ 2 * 5 ≤ 10 ∧ 2 * 3 ≤ 10)) ∧
    ∃ lps,
      kmp_build_failure_function 10 (some [65, 66, 65]) 3 (some (List.replicate 3 0))
        = some (true, some lps) ∧
      (kmp_search_passes [65, 66, 65, 66, 65] 5 [65, 66, 65] 3 lps (2 * 5) ⟨0, 0⟩).i = 5 ∧
      (∃ r, kmp_search 10 (some [65, 66, 65, 66, 65]) 5 (some [65, 66, 65]) 3 (some ⟨[], 0, 0⟩)
        = some (true, some r)) :=
  ⟨by decide,
    match kmp_scan_terminates [65, 66, 65, 66, 65] [65, 66, 65] 5 3 10 ⟨[], 0, 0⟩ 0 (by decide)
        (by decide) (by decide) (by decide) with
    | ⟨lps, hb, _, hdone, _, _, _, _, hsearch, _⟩ => ⟨lps, hb, hdone, hsearch⟩⟩

end KMP

/-!
# KMP: the bounds of the array accesses
-/

namespace KMP

theorem all_snoc {P : Access → Prop} {tr : List Access} {a : Access}
    (h : ∀ x, x ∈ tr → P x) (ha : P a) : ∀ x, x ∈ tr ++ [a] → P x := by
  intro x hx
  rcases List.mem_append.mp hx with h1 | h1
  · exact h x h1
  · rw [List.mem_singleton.mp h1]
    exact ha

theorem all_snoc2 {P : Access → Prop} {tr : List Access} {a b : Access}
    (h : ∀ x, x ∈ tr → P x) (ha : P a) (hb : P b) : ∀ x, x ∈ tr ++ [a, b] → P x := by
  intro x hx
  rcases List.mem_append.mp hx with h1 | h1
  · exact h x h1
  · simp only [List.mem_cons, List.mem_singleton, List.not_mem_nil, or_false] at h1
    rcases h1 with h1 | h1
    · rw [h1]; exact ha
    · rw [h1]; exact hb

theorem build_loop_traced_spec (p : List Nat) (n m : Nat) :
    ∀ fuel ff len i (tr : List Access), BuildInv p m ff len i → 2 * (m - i) + len ≤ fuel →
      (∀ x, x ∈ tr → x.InBounds n m) →
      ∃ out tr1, kmp_build_failure_function_loop_traced p m fuel ff len i tr
          = some (out, tr1) ∧
        kmp_build_failure_function_loop p m fuel ff len i = some out ∧
        (∀ k, k < m → IsLps p k (out.getD k 0)) ∧
        ∀ x, x ∈ tr1 → x.InBounds n m := by
  intro fuel
  induction fuel with
  | zero =>
    intro ff len i tr h hf hs
    have him : ¬ i < m := by have := h.i_le; omega
    refine ⟨ff, tr, by simp only [kmp_build_failure_function_loop_traced, him, if_false],
      by simp only [kmp_build_failure_function_loop, him, if_false], fun k hk => ?_, hs⟩
    exact h.done k (by have := h.i_le; omega)
  | succ fuel ih =>
    intro ff len i tr h hf hs
    by_cases him : i < m
    · have hlen := h.len_lt
      have hs1 : ∀ x, x ∈ tr ++ [Access.pattern i, Access.pattern len] → x.InBounds n m :=
        all_snoc2 hs (show i < m from him) (show len < m by omega)
      by_cases hc : p.getD i 0 = p.getD len 0
      · obtain ⟨out, tr1, h1, h2, h3, h4⟩ :=
          ih _ _ _ _ (buildInv_match h him hc) (by omega)
            (all_snoc hs1 (show (Access.lps_write i).InBounds n m from him))
        refine ⟨out, tr1, ?_, ?_, h3, h4⟩
        · simp only [kmp_build_failure_function_loop_traced, him, hc, if_true]
          exact h1
        · simp only [kmp_build_failure_function_loop, him, hc, if_true]
          exact h2
      · cases len with
        | zero =>
          obtain ⟨out, tr1, h1, h2, h3, h4⟩ :=
            ih _ _ _ _ (buildInv_zero h him hc) (by omega)
              (all_snoc hs1 (show (Access.lps_write i).InBounds n m from him))
          refine ⟨out, tr1, ?_, ?_, h3, h4⟩
          · simp only [kmp_build_failure_function_loop_traced, him, hc, if_true, if_false,
              ne_eq, not_true_eq_false]
            exact h1
          · simp only [kmp_build_failure_function_loop, him, hc, if_true, if_false, ne_eq,
              not_true_eq_false]
            exact h2
        | succ len =>
          obtain ⟨hinv, hle⟩ := buildInv_fallback h hc
          have hb : (Access.lps_before (len + 1)).InBounds n m := by
            show 1 ≤ len + 1 ∧ len + 1 - 1 < m
            omega
          obtain ⟨out, tr1, h1, h2, h3, h4⟩ := ih _ _ _ _ hinv (by omega) (all_snoc hs1 hb)
          refine ⟨out, tr1, ?_, ?_, h3, h4⟩
          · simp only [kmp_build_failure_function_loop_traced, him, hc, if_true, if_false,
              ne_eq, Nat.add_one_ne_zero, not_false_eq_true, Nat.add_sub_cancel]
            exact h1
          · simp only [kmp_build_failure_function_loop, him, hc, if_true, if_false, ne_eq,
              Nat.add_one_ne_zero, not_false_eq_true, Nat.add_sub_cancel]
            exact h2
    · refine ⟨ff, tr, by simp only [kmp_build_failure_function_loop_traced, him, if_false],
        by simp only [kmp_build_failure_function_loop, him, if_false], fun k hk => ?_, hs⟩
      exact h.done k (by have := h.i_le; omega)

theorem build_traced_spec (p ff : List Nat) (n m fuel : Nat) (hm : 1 ≤ m) (hsz : m ≤ ff.length)
    (hf : 2 * m ≤ fuel) :
    ∃ out tr, kmp_build_failure_function_traced fuel (some p) m (some ff)
        = some ((true, some out), tr) ∧
      kmp_build_failure_function fuel (some p) m (some ff) = some (true, some out) ∧
      (∀ k, k < m → IsLps p k (out.getD k 0)) ∧
      ∀ x, x ∈ tr → x.InBounds n m := by
  have hinit : ∀ x, x ∈ [Access.lps_write 0] → x.InBounds n m := by
    intro x hx
    rw [List.mem_singleton.mp hx]
    exact hm
  obtain ⟨out, tr, h1, h2, h3, h4⟩ :=
    build_loop_traced_spec p n m fuel (ff.set 0 0) 0 1 _ (buildInv_init p ff m hm hsz)
      (by omega) hinit
  have hm0 : m ≠ 0 := by omega
  exact ⟨out, tr,
    by simp only [kmp_build_failure_function_traced, hm0, if_false, h1, Option.map_some'],
    by simp only [kmp_build_failure_function, hm0, if_false, h2, Option.map_some'], h3, h4⟩

theorem search_loop_traced_spec (t p lps : List Nat) (n m : Nat)
    (hlps : ∀ k, k < m → IsLps p k (lps.getD k 0)) :
    ∀ fuel i j (r : KMPResult) (tr : List Access), ScanInv t p n m i j →
      2 * (n - i) + j ≤ fuel → (∀ x, x ∈ tr → x.InBounds n m) →
      ∃ out tr1, kmp_search_loop_traced t n p m lps fuel i j r tr = some (out, tr1) ∧
        kmp_search_loop t n p m lps fuel i j r = some out ∧ out.1 = true ∧
        ∀ x, x ∈ tr1 → x.InBounds n m := by
  intro fuel
  induction fuel with
  | zero =>
    intro i j r tr h hf hs
    have hin : ¬ i < n := by have := h.i_le; omega
    exact ⟨(true, r), tr, by simp only [kmp_search_loop_traced, hin, if_false],
      by simp only [kmp_search_loop, hin, if_false], rfl, hs⟩
  | succ fuel ih =>
    intro i j r tr h hf hs
    by_cases hin : i < n
    · have hjm0 := h.j_lt
      have hji : j ≤ i := h.mat.1
      have hs1 : ∀ x, x ∈ tr ++ [Access.pattern j, Access.text i] → x.InBounds n m :=
        all_snoc2 hs (show j < m from hjm0) (show i < n from hin)
      by_cases hc : p.getD j 0 = t.getD i 0
      · by_cases hjm : j + 1 = m
        · obtain ⟨hinv, hle, -⟩ := scanInv_full hlps h hin hc hjm
          have hs2 : ∀ x,
              x ∈ (tr ++ [Access.pattern j, Access.text i])
                ++ [Access.sub (i + 1) (j + 1), Access.lps_before (j + 1)] →
              x.InBounds n m :=
            all_snoc2 hs1 (show j + 1 ≤ i + 1 by omega)
              (show 1 ≤ j + 1 ∧ j + 1 - 1 < m by omega)
          obtain ⟨out, tr1, h1, h2, hok, h3⟩ :=
            ih (i + 1) (lps.getD j 0)
              (((kmp_result_add_position (some r) (size_sub (i + 1) (j + 1))).2).getD r) _
              hinv (by omega) hs2
          subst hjm
          refine ⟨out, tr1, ?_, ?_, hok, h3⟩
          · simp only [kmp_search_loop_traced, hin, hc, if_true, kmp_result_add_position,
              Nat.add_sub_cancel]
            simpa only [kmp_result_add_position, Option.getD_some] using h1
          · simp only [kmp_search_loop, hin, hc, if_true, kmp_result_add_position,
              Nat.add_sub_cancel]
            simpa only [kmp_result_add_position, Option.getD_some] using h2
        · obtain ⟨hinv, -⟩ := scanInv_advance h hin hc hjm
          by_cases hin1 : i + 1 < n
          · have hs2 : ∀ x,
                x ∈ (tr ++ [Access.pattern j, Access.text i])
                  ++ [Access.pattern (j + 1), Access.text (i + 1)] →
                x.InBounds n m :=
              all_snoc2 hs1 (show j + 1 < m by omega) (show i + 1 < n from hin1)
            by_cases hc1 : p.getD (j + 1) 0 = t.getD (i + 1) 0
            · obtain ⟨out, tr1, h1, h2, hok, h3⟩ := ih (i + 1) (j + 1) r _ hinv (by omega) hs2
              refine ⟨out, tr1, ?_, ?_, hok, h3⟩
              · simp only [kmp_search_loop_traced, hin, hc, hjm, hin1, hc1, if_true, if_false,
                  ne_eq, not_true_eq_false]
                exact h1
              · simp only [kmp_search_loop, hin, hc, hjm, hin1, hc1, if_true, if_false,
                  ne_eq, not_true_eq_false, and_false]
                exact h2
            · obtain ⟨hinv2, hle2⟩ := scanInv_fallback hlps hinv hc1
              have hb : (Access.lps_before (j + 1)).InBounds n m := by
                show 1 ≤ j + 1 ∧ j + 1 - 1 < m
                omega
              obtain ⟨out, tr1, h1, h2, hok, h3⟩ :=
                ih (i + 1) (lps.getD j 0) r _ hinv2 (by omega) (all_snoc hs2 hb)
              refine ⟨out, tr1, ?_, ?_, hok, h3⟩
              · simp only [kmp_search_loop_traced, hin, hc, hjm, hin1, hc1, if_true, if_false,
                  ne_eq, not_false_eq_true, Nat.add_one_ne_zero, Nat.add_sub_cancel]
                exact h1
              · simp only [kmp_search_loop, hin, hc, hjm, hin1, hc1, if_true, if_false,
                  ne_eq, not_false_eq_true, Nat.add_one_ne_zero, Nat.add_sub_cancel, and_self]
                exact h2
          · obtain ⟨out, tr1, h1, h2, hok, h3⟩ := ih (i + 1) (j + 1) r _ hinv (by omega) hs1
            refine ⟨out, tr1, ?_, ?_, hok, h3⟩
            · simp only [kmp_search_loop_traced, hin, hc, hjm, hin1, if_true, if_false]
              exact h1
            · simp only [kmp_search_loop, hin, hc, hjm, hin1, if_true, if_false, false_and]
              exact h2
      · have hjm : j ≠ m := Nat.ne_of_lt h.j_lt
        have hs2 : ∀ x,
            x ∈ (tr ++ [Access.pattern j, Access.text i])
              ++ [Access.pattern j, Access.text i] →
            x.InBounds n m :=
          all_snoc2 hs1 (show j < m from hjm0) (show i < n from hin)
        cases j with
        | zero =>
          obtain ⟨hinv, -⟩ := scanInv_skip h hin hc
          obtain ⟨out, tr1, h1, h2, hok, h3⟩ := ih (i + 1) 0 r _ hinv (by omega) hs2
          refine ⟨out, tr1, ?_, ?_, hok, h3⟩
          · simp only [kmp_search_loop_traced, hin, hc, hjm, if_true, if_false, ne_eq,
              not_false_eq_true, not_true_eq_false]
            exact h1
          · simp only [kmp_search_loop, hin, hc, hjm, if_true, if_false, ne_eq,
              not_false_eq_true, and_self, not_true_eq_false]
            exact h2
        | succ j =>
          obtain ⟨hinv, hle⟩ := scanInv_fallback hlps h hc
          have hb : (Access.lps_before (j + 1)).InBounds n m := by
            show 1 ≤ j + 1 ∧ j + 1 - 1 < m
            omega
          obtain ⟨out, tr1, h1, h2, hok, h3⟩ :=
            ih i (lps.getD j 0) r _ hinv (by omega) (all_snoc hs2 hb)
          refine ⟨out, tr1, ?_, ?_, hok, h3⟩
          · simp only [kmp_search_loop_traced, hin, hc, hjm, if_true, if_false, ne_eq,
              not_false_eq_true, Nat.add_one_ne_zero, Nat.add_sub_cancel]
            exact h1
          · simp only [kmp_search_loop, hin, hc, hjm, if_true, if_false, ne_eq,
              not_false_eq_true, and_self, Nat.add_one_ne_zero, Nat.add_sub_cancel]
            exact h2
    · exact ⟨(true, r), tr, by simp only [kmp_search_loop_traced, hin, if_false],
        by simp only [kmp_search_loop, hin, if_false], rfl, hs⟩

/-- Claim C35 (KMP, C): for a text of length `n` and a pattern of length `m`
with `1 <= m <= n`, `kmp_build_failure_function` and `kmp_search` return what
the functions with the access record return, and every access they make is in
bounds: `pattern` is read below `m`, `text` below `n`, the failure function
is read at `j - 1` or `length - 1` only with that index at least 0 and below
`m` and written below `m`, and `i - j` does not wrap when a match is
recorded. Both functions return true. -/
theorem kmp_accesses_in_bounds (t p ff : List Nat) (n m fuel : Nat) (r0 : KMPResult)
    (hm : 1 ≤ m) (hmn : m ≤ n) (hsz : m ≤ ff.length) (hf : 2 * n ≤ fuel) :
    (∃ out tr,
      kmp_build_failure_function_traced fuel (some p) m (some ff)
        = some ((true, some out), tr) ∧
      kmp_build_failure_function fuel (some p) m (some ff) = some (true, some out) ∧
      ∀ x, x ∈ tr → x.InBounds n m) ∧
    (∃ r tr,
      kmp_search_traced fuel (some t) n (some p) m (some r0) = some ((true, some r), tr) ∧
      kmp_search fuel (some t) n (some p) m (some r0) = some (true, some r) ∧
      ∀ x, x ∈ tr → x.InBounds n m) := by
  refine ⟨?_, ?_⟩
  · obtain ⟨out, tr, h1, h2, -, h4⟩ := build_traced_spec p ff n m fuel hm hsz (by omega)
    exact ⟨out, tr, h1, h2, h4⟩
  · obtain ⟨lps, tr0, hb1, hb2, hlps, hs0⟩ :=
      build_traced_spec p (List.replicate m 0) n m fuel hm (by simp) (by omega)
    obtain ⟨r1, hinit, -⟩ := result_init_spec r0
    obtain ⟨out, tr, h1, h2, hok, h3⟩ :=
      search_loop_traced_spec t p lps n m hlps fuel 0 0 r1 tr0 (scanInv_init t p n m hm)
        (by omega) hs0
    have hdeg : ¬ (m = 0 ∨ n = 0 ∨ m > n) := by omega
    refine ⟨out.2, tr, ?_, ?_, h3⟩
    · simp only [kmp_search_traced, hinit, hdeg, if_false, hb1, h1, Option.map_some', hok]
    · simp only [kmp_search, hinit, hdeg, if_false, hb2, h2, Option.map_some', hok]

theorem kmp_accesses_in_bounds_witness :
    (1 ≤ 3 ∧ 3 ≤ 5 ∧ 3 ≤ [7, 7, 7].length ∧ 2 * 5 ≤ 10) ∧
    ((∃ out tr,
      kmp_build_failure_function_traced 10 (some [65, 66, 65]) 3 (some [7, 7, 7])
        = some ((true, some out), tr) ∧
      kmp_build_failure_function 10 (some [65, 66, 65]) 3 (some [7, 7, 7])
        = some (true, some out) ∧
      ∀ x, x ∈ tr → x.InBounds 5 3) ∧
    (∃ r tr,
      kmp_search_traced 10 (some [65, 66, 65, 66, 65]) 5 (some [65, 66, 65]) 3
          (some ⟨[], 0, 0⟩)
        = some ((true, some r), tr) ∧
      kmp_search 10 (some [65, 66, 65, 66, 65]) 5 (some [65, 66, 65]) 3 (some ⟨[], 0, 0⟩)
        = some (true, some r) ∧
      ∀ x, x ∈ tr → x.InBounds 5 3)) :=
  ⟨by decide,
    kmp_accesses_in_bounds [65, 66, 65, 66, 65] [65, 66, 65] [7, 7, 7] 5 3 10 ⟨[], 0, 0⟩
      (by decide) (by decide) (by decide) (by decide)⟩

end KMP

/-!
# KMP: the C++ functions against the C functions
-/

namespace KMP

theorem static_cast_int_eq {n : Nat} (h : n ≤ INT_MAX) : static_cast_int n = (n : Int) := by
  have h1 : n < 2 ^ 31 := by
    have : INT_MAX = 2 ^ 31 - 1 := rfl
    omega
  have h2 : n % 2 ^ 32 = n := Nat.mod_eq_of_lt (by omega)
  simp only [static_cast_int, h2, h1, if_true]

theorem getD_map_cast (l : List Nat) (k : Nat) :
    (l.map (fun x : Nat => (x : Int))).getD k 0 = ((l.getD k 0 : Nat) : Int) := by
  simp only [List.getD_eq_getElem?_getD, List.getElem?_map]
  cases l[k]? <;> simp

/-- The C++ loop that builds the failure function goes the way of the C
loop. -/
theorem cpp_build_loop_eq (p : List Nat) (m : Nat) :
    ∀ fuel (ff : List Nat) (len i : Nat),
      buildFailureFunction_loop p (m : Int) fuel (ff.map (fun x : Nat => (x : Int)))
          (len : Int) (i : Int)
        = (kmp_build_failure_function_loop p m fuel ff len i).map
            (List.map (fun x : Nat => (x : Int))) := by
  intro fuel
  induction fuel with
  | zero =>
    intro ff len i
    by_cases him : i < m
    · have him2 : (i : Int) < (m : Int) := by omega
      simp only [buildFailureFunction_loop, kmp_build_failure_function_loop, him, him2,
        if_true, Option.map_none']
    · have him2 : ¬ (i : Int) < (m : Int) := by omega
      simp only [buildFailureFunction_loop, kmp_build_failure_function_loop, him, him2,
        if_false, Option.map_some']
  | succ fuel ih =>
    intro ff len i
    by_cases him : i < m
    · have him2 : (i : Int) < (m : Int) := by omega
      have e1 : (i : Int) + 1 = ((i + 1 : Nat) : Int) := by omega
      have e2 : (len : Int) + 1 = ((len + 1 : Nat) : Int) := by omega
      by_cases hc : p.getD i 0 = p.getD len 0
      · simp only [buildFailureFunction_loop, kmp_build_failure_function_loop, him, him2,
          Int.toNat_ofNat, hc, if_true]
        rw [e1, e2, ← ih]
        simp only [List.map_set]
      · by_cases hl : len = 0
        · have hl1 : ¬ len ≠ 0 := fun h => h hl
          have hl2 : ¬ (len : Int) ≠ 0 := by omega
          simp only [buildFailureFunction_loop, kmp_build_failure_function_loop, him, him2,
            Int.toNat_ofNat, hc, if_true, if_false]
          simp only [if_neg hl1, if_neg hl2]
          rw [e1, ← ih]
          simp only [List.map_set, Nat.cast_zero]
        · have hl2 : (len : Int) ≠ 0 := by omega
          have e3 : ((len : Int) - 1).toNat = len - 1 := by omega
          simp only [buildFailureFunction_loop, kmp_build_failure_function_loop, him, him2,
            Int.toNat_ofNat, hc, if_true, if_false, ne_eq, hl, hl2, not_false_eq_true, e3,
            getD_map_cast]
          rw [← ih]
    · have him2 : ¬ (i : Int) < (m : Int) := by omega
      simp only [buildFailureFunction_loop, kmp_build_failure_function_loop, him, him2,
        if_false, Option.map_some']

theorem set_replicate_zero (m : Nat) :
    (List.replicate m (0 : Nat)).set 0 0 = List.replicate m 0 := by
  cases m with
  | zero => rfl
  | succ m => simp [List.replicate_succ]

/-- The C++ `buildFailureFunction` computes the failure function of the C
`kmp_build_failure_function`. -/
theorem cpp_build_spec (p : List Nat) (fuel : Nat) (hm : 1 ≤ p.length)
    (hmax : p.length ≤ INT_MAX) (hf : 2 * p.length ≤ fuel) :
    ∃ lps, buildFailureFunction fuel p = some (lps.map (fun x : Nat => (x : Int))) ∧
      kmp_build_failure_function fuel (some p) p.length
        (some (List.replicate p.length 0)) = some (true, some lps) ∧
      ∀ k, k < p.length → IsLps p k (lps.getD k 0) := by
  obtain ⟨lps, hb, -, hlps⟩ :=
    build_spec p (List.replicate p.length 0) p.length fuel hm (by simp) hf
  refine ⟨lps, ?_, hb, hlps⟩
  have hne : p.isEmpty = false := by
    cases p with
    | nil => simp at hm
    | cons _ _ => rfl
  have hm0 : p.length ≠ 0 := by omega
  simp only [kmp_build_failure_function, hm0, if_false, set_replicate_zero] at hb
  have hloop : kmp_build_failure_function_loop p p.length fuel (List.replicate p.length 0) 0 1
      = some lps := by
    cases hl : kmp_build_failure_function_loop p p.length fuel (List.replicate p.length 0) 0 1
      with
    | none => simp [hl] at hb
    | some out => simpa [hl] using hb
  have hcpp := cpp_build_loop_eq p p.length fuel (List.replicate p.length 0) 0 1
  rw [hloop] at hcpp
  simp only [buildFailureFunction, hne, Bool.false_eq_true, if_false, static_cast_int_eq hmax,
    Int.toNat_ofNat]
  simpa using hcpp

/-- One iteration of the C++ scan loop, with natural numbers for the
indices. -/
theorem cpp_search_loop_step (t p lps : List Nat) (n m fuel i j : Nat) (pos : List Int) :
    kmpSearch_loop t p (n : Int) (m : Int) (lps.map (fun x : Nat => (x : Int))) (fuel + 1)
        (i : Int) (j : Int) pos
      = if i < n then
          if p.getD j 0 = t.getD i 0 then
            if j + 1 = m then
              kmpSearch_loop t p (n : Int) (m : Int) (lps.map (fun x : Nat => (x : Int))) fuel
                ((i + 1 : Nat) : Int) ((lps.getD j 0 : Nat) : Int)
                (pos ++ [((i + 1 : Nat) : Int) - ((j + 1 : Nat) : Int)])
            else if i + 1 < n ∧ p.getD (j + 1) 0 ≠ t.getD (i + 1) 0 then
              kmpSearch_loop t p (n : Int) (m : Int) (lps.map (fun x : Nat => (x : Int))) fuel
                ((i + 1 : Nat) : Int) ((lps.getD j 0 : Nat) : Int) pos
            else
              kmpSearch_loop t p (n : Int) (m : Int) (lps.map (fun x : Nat => (x : Int))) fuel
                ((i + 1 : Nat) : Int) ((j + 1 : Nat) : Int) pos
          else if j = m then
            kmpSearch_loop t p (n : Int) (m : Int) (lps.map (fun x : Nat => (x : Int))) fuel
              (i : Int) ((lps.getD (j - 1) 0 : Nat) : Int) (pos ++ [(i : Int) - (j : Int)])
          else if j ≠ 0 then
            kmpSearch_loop t p (n : Int) (m : Int) (lps.map (fun x : Nat => (x : Int))) fuel
              (i : Int) ((lps.getD (j - 1) 0 : Nat) : Int) pos
          else
            kmpSearch_loop t p (n : Int) (m : Int) (lps.map (fun x : Nat => (x : Int))) fuel
              ((i + 1 : Nat) : Int) (j : Int) pos
        else some pos := by
  by_cases hin : i < n
  · have hin2 : (i : Int) < (n : Int) := by omega
    have e1 : (i : Int) + 1 = ((i + 1 : Nat) : Int) := by omega
    have e2 : (j : Int) + 1 = ((j + 1 : Nat) : Int) := by omega
    by_cases hc : p.getD j 0 = t.getD i 0
    · have e3 : (((j + 1 : Nat) : Int) - 1).toNat = j := by omega
      simp only [kmpSearch_loop, hin, hin2, Int.toNat_ofNat, hc, if_true]
      rw [e1, e2]
      by_cases hjm : j + 1 = m
      · have hjm2 : ((j + 1 : Nat) : Int) = (m : Int) := by omega
        simp only [hjm, hjm2, if_true, e3, getD_map_cast]
        subst hjm
        simp only [e3, getD_map_cast]
      · have hjm2 : ¬ ((j + 1 : Nat) : Int) = (m : Int) := by omega
        have hj0 : ¬ ((j + 1 : Nat) : Int) = 0 := by omega
        by_cases hin1 : i + 1 < n
        · have hin3 : ((i + 1 : Nat) : Int) < (n : Int) := by omega
          simp only [hjm, hjm2, if_false, Int.toNat_ofNat, hin1, hin3, true_and, ne_eq, hj0,
            not_false_eq_true, if_true, e3, getD_map_cast]
        · have hin3 : ¬ ((i + 1 : Nat) : Int) < (n : Int) := by omega
          simp only [hjm, hjm2, if_false, hin1, hin3, false_and]
    · simp only [kmpSearch_loop, hin, hin2, Int.toNat_ofNat, hc, if_true, if_false]
      by_cases hjm : j = m
      · have e3 : ((j : Int) - 1).toNat = j - 1 := by omega
        subst hjm
        simp only [if_true, e3, getD_map_cast]
      · have hjm2 : ¬ (j : Int) = (m : Int) := by omega
        by_cases hj0 : j = 0
        · have hj01 : ¬ ¬ j = 0 := fun h => h hj0
          have hj02 : ¬ ¬ (j : Int) = 0 := by omega
          simp only [hjm, hjm2, if_false, Int.toNat_ofNat, hin2, hc, ne_eq, not_false_eq_true,
            and_self, if_true]
          simp only [if_neg hj01, if_neg hj02, e1]
        · have hj02 : ¬ (j : Int) = 0 := by omega
          have e3 : ((j : Int) - 1).toNat = j - 1 := by omega
          simp only [hjm, hjm2, if_false, Int.toNat_ofNat, hin2, hc, ne_eq, not_false_eq_true,
            and_self, if_true, hj0, hj02, e3, getD_map_cast]
  · have hin2 : ¬ (i : Int) < (n : Int) := by omega
    simp only [kmpSearch_loop, hin, hin2, if_false]

end KMP

namespace KMP

theorem cpp_search_loop_spec (t p lps : List Nat) (n m : Nat)
    (hlps : ∀ k, k < m → IsLps p k (lps.getD k 0)) :
    ∀ fuel i j, ScanInv t p n m i j → 2 * (n - i) + j ≤ fuel →
      kmpSearch_loop t p (n : Int) (m : Int) (lps.map (fun x : Nat => (x : Int))) fuel
          (i : Int) (j : Int) ((occurrences t p m (i + 1 - m)).map (fun x : Nat => (x : Int)))
        = some ((occurrences t p m (n + 1 - m)).map (fun x : Nat => (x : Int))) := by
  intro fuel
  induction fuel with
  | zero =>
    intro i j h hf
    have hi : i = n := by have := h.i_le; omega
    subst hi
    have hin2 : ¬ (i : Int) < (i : Int) := by omega
    simp only [kmpSearch_loop, hin2, if_false]
  | succ fuel ih =>
    intro i j h hf
    rw [cpp_search_loop_step]
    by_cases hin : i < n
    · by_cases hc : p.getD j 0 = t.getD i 0
      · by_cases hjm : j + 1 = m
        · obtain ⟨hinv, hle, hmat⟩ := scanInv_full hlps h hin hc hjm
          have hmi : m ≤ i + 1 := hmat.1
          have hpos : ((i + 1 : Nat) : Int) - (m : Int) = ((i + 1 - m : Nat) : Int) := by
            omega
          have := ih (i + 1) (lps.getD j 0) hinv (by omega)
          rw [occurrences_hit t p hmi hmat, List.map_append] at this
          simp only [List.map_cons, List.map_nil] at this
          simp only [hin, hc, hjm, if_true]
          rw [hpos]
          exact this
        · obtain ⟨hinv, hno⟩ := scanInv_advance h hin hc hjm
          have hocc : occurrences t p m (i + 1 + 1 - m) = occurrences t p m (i + 1 - m) :=
            occurrences_miss t p hno
          by_cases hc1 : i + 1 < n ∧ p.getD (j + 1) 0 ≠ t.getD (i + 1) 0
          · obtain ⟨hinv2, hle2⟩ := scanInv_fallback hlps hinv hc1.2
            have := ih (i + 1) (lps.getD j 0) hinv2 (by omega)
            rw [hocc] at this
            simp only [hin, hc, hjm, if_true, if_false]
            rw [if_pos hc1]
            exact this
          · have := ih (i + 1) (j + 1) hinv (by omega)
            rw [hocc] at this
            simp only [hin, hc, hjm, if_true, if_false]
            rw [if_neg hc1]
            exact this
      · have hjm : ¬ j = m := Nat.ne_of_lt h.j_lt
        cases j with
        | zero =>
          obtain ⟨hinv, hno⟩ := scanInv_skip h hin hc
          have := ih (i + 1) 0 hinv (by omega)
          rw [occurrences_miss t p hno] at this
          simp only [hin, hc, hjm, if_true, if_false, ne_eq, not_true_eq_false]
          exact this
        | succ j =>
          obtain ⟨hinv, hle⟩ := scanInv_fallback hlps h hc
          have := ih i (lps.getD j 0) hinv (by omega)
          simp only [hin, hc, hjm, if_true, if_false, ne_eq, Nat.add_one_ne_zero,
            not_false_eq_true, Nat.add_sub_cancel]
          exact this
    · have hi : i = n := by have := h.i_le; omega
      subst hi
      simp only [hin, if_false]

/-- The C++ `kmpSearch` on non-empty strings returns the offsets at which the
pattern occurs. -/
theorem cpp_search_spec (t p : List Nat) (fuel : Nat) (hn : 1 ≤ t.length)
    (hm : 1 ≤ p.length) (hnmax : t.length ≤ INT_MAX) (hmmax : p.length ≤ INT_MAX)
    (hfn : 2 * t.length ≤ fuel) (hfm : 2 * p.length ≤ fuel) :
    kmpSearch fuel t p
      = some ((occurrences t p p.length (t.length + 1 - p.length)).map
          (fun x : Nat => (x : Int))) := by
  obtain ⟨lps, hb, -, hlps⟩ := cpp_build_spec p fuel hm hmmax hfm
  have hne : ¬ (t.isEmpty = true ∨ p.isEmpty = true) := by
    cases t with
    | nil => simp at hn
    | cons _ _ =>
      cases p with
      | nil => simp at hm
      | cons _ _ => simp
  have h0 : 0 + 1 - p.length = 0 := by omega
  have hloop := cpp_search_loop_spec t p lps t.length p.length hlps fuel 0 0
    (scanInv_init t p t.length p.length hm) (by omega)
  rw [h0] at hloop
  simp only [kmpSearch, hne, if_false, static_cast_int_eq hnmax, static_cast_int_eq hmmax, hb]
  exact hloop

/-- Claim C36 (KMP, C++ against C): for every text and pattern whose lengths
fit in an `int`, the C++ `kmpSearch` returns the sequence of positions that
the C `kmp_search` reports, also when the pattern is longer than the text;
and the C++ `kmpSearchFirst` returns -1 exactly when the C `kmp_search_first`
stores its not-found sentinel `(size_t)-1`, and the position it stores
otherwise. -/
theorem kmpSearch_eq_kmp_search (t p : List Nat) (fuel pos0 : Nat) (r0 : KMPResult)
    (hnmax : t.length ≤ INT_MAX) (hmmax : p.length ≤ INT_MAX) (hfn : 2 * t.length ≤ fuel)
    (hfm : 2 * p.length ≤ fuel) :
    ∃ r pos v,
      kmp_search fuel (some t) t.length (some p) p.length (some r0) = some (true, some r) ∧
      kmpSearch fuel t p = some (r.found.map (fun x : Nat => (x : Int))) ∧
      kmp_search_first fuel (some t) t.length (some p) p.length (some pos0)
        = some (true, some pos) ∧
      kmpSearchFirst fuel t p = some v ∧
      (v = -1 ↔ pos = SIZE_MAX) ∧ (pos ≠ SIZE_MAX → v = (pos : Int)) := by
  have hint : INT_MAX = 2 ^ 31 - 1 := rfl
  have hsize : SIZE_MAX = 2 ^ 64 - 1 := rfl
  by_cases hempty : t.length = 0 ∨ p.length = 0
  · have hdeg : p.length = 0 ∨ t.length = 0 ∨ p.length > t.length := by omega
    have hcpp : kmpSearch fuel t p = some [] := by
      have : t.isEmpty = true ∨ p.isEmpty = true := by
        rcases hempty with h | h
        · exact Or.inl (by simpa using List.length_eq_zero.mp h)
        · exact Or.inr (by simpa using List.length_eq_zero.mp h)
      simp only [kmpSearch, this, if_true]
    refine ⟨_, SIZE_MAX, -1, search_degenerate fuel t p _ _ r0 hdeg, ?_,
      search_first_degenerate fuel t p _ _ pos0 hdeg, ?_, by simp, fun h => absurd rfl h⟩
    · rw [hcpp]
      rfl
    · simp only [kmpSearchFirst, hcpp, Option.map_some']
      rfl
  · have hn : 1 ≤ t.length := by omega
    have hm : 1 ≤ p.length := by omega
    have hcpp := cpp_search_spec t p fuel hn hm hnmax hmmax hfn hfm
    have hC : ∃ r pos,
        kmp_search fuel (some t) t.length (some p) p.length (some r0) = some (true, some r) ∧
        r.found = occurrences t p p.length (t.length + 1 - p.length) ∧
        kmp_search_first fuel (some t) t.length (some p) p.length (some pos0)
          = some (true, some pos) ∧
        pos = (occurrences t p p.length (t.length + 1 - p.length)).headD SIZE_MAX := by
      by_cases hmn : p.length ≤ t.length
      · obtain ⟨r, hr, -, hfound⟩ :=
          search_spec t p t.length p.length fuel r0 hm hmn (by omega) hfn
        exact ⟨r, _, hr, hfound,
          search_first_spec t p t.length p.length fuel pos0 hm hmn (by omega) hfn, rfl⟩
      · have hdeg : p.length = 0 ∨ t.length = 0 ∨ p.length > t.length := by omega
        have h0 : t.length + 1 - p.length = 0 := by omega
        refine ⟨_, SIZE_MAX, search_degenerate fuel t p _ _ r0 hdeg, ?_,
          search_first_degenerate fuel t p _ _ pos0 hdeg, ?_⟩
        · rw [h0]
          rfl
        · rw [h0]
          rfl
    obtain ⟨r, pos, hr, hfound, hpos, hposv⟩ := hC
    refine ⟨r, pos,
      if ((occurrences t p p.length (t.length + 1 - p.length)).map
          (fun x : Nat => (x : Int))).isEmpty then -1
      else ((occurrences t p p.length (t.length + 1 - p.length)).map
          (fun x : Nat => (x : Int))).getD 0 0,
      hr, by rw [hcpp, hfound], hpos, ?_, ?_, ?_⟩
    · simp only [kmpSearchFirst, hcpp, Option.map_some']
    · cases hocc : occurrences t p p.length (t.length + 1 - p.length) with
      | nil =>
        rw [hocc] at hposv
        simp [hposv]
      | cons k rest =>
        rw [hocc] at hposv
        have hk : k ∈ occurrences t p p.length (t.length + 1 - p.length) := by
          rw [hocc]
          exact List.mem_cons_self _ _
        have hk2 := (mem_occurrences.mp hk).1
        simp only [List.map_cons, List.isEmpty_cons, Bool.false_eq_true, if_false,
          List.getD_cons_zero, List.headD_cons] at hposv ⊢
        subst hposv
        constructor
        · intro h
          omega
        · intro h
          omega
    · intro hne
      cases hocc : occurrences t p p.length (t.length + 1 - p.length) with
      | nil =>
        rw [hocc] at hposv
        exact absurd hposv hne
      | cons k rest =>
        rw [hocc] at hposv
        simp only [List.map_cons, List.isEmpty_cons, Bool.false_eq_true, if_false,
          List.getD_cons_zero, List.headD_cons] at hposv ⊢
        rw [hposv]

theorem kmpSearch_eq_kmp_search_witness :
    ([65, 66].length ≤ INT_MAX ∧ [65, 66, 65].length ≤ INT_MAX ∧ 2 * [65, 66].length ≤ 6 ∧
      2 * [65, 66, 65].length ≤ 6) ∧
    ∃ r pos v,
      kmp_search 6 (some [65, 66]) [65, 66].length (some [65, 66, 65]) [65, 66, 65].length
          (some ⟨[], 0, 0⟩)
        = some (true, some r) ∧
      kmpSearch 6 [65, 66] [65, 66, 65] = some (r.found.map (fun x : Nat => (x : Int))) ∧
      kmp_search_first 6 (some [65, 66]) [65, 66].length (some [65, 66, 65])
          [65, 66, 65].length (some 0)
        = some (true, some pos) ∧
      kmpSearchFirst 6 [65, 66] [65, 66, 65] = some v ∧
      (v = -1 ↔ pos = SIZE_MAX) ∧ (pos ≠ SIZE_MAX → v = (pos : Int)) :=
  ⟨by decide,
    kmpSearch_eq_kmp_search [65, 66] [65, 66, 65] 6 0 ⟨[], 0, 0⟩ (by decide) (by decide)
      (by decide) (by decide)⟩

end KMP

namespace KMP

/-! ## The matcher searches over an explicit store -/

theorem write_cells_eq (s : Store) (a v : Nat) : (s.write a v).cells a = v := by
  simp [Store.write]

theorem write_cells_ne (s : Store) (a v x : Nat) (h : x ≠ a) :
    (s.write a v).cells x = s.cells x := by
  simp [Store.write, h]

theorem write_next (s : Store) (a v : Nat) : (s.write a v).next = s.next := rfl

theorem found_snoc (s s1 : Store) (result c pos : Nat) (hc : s.cells (result + 1) = c)
    (hc1 : s1.cells (result + 1) = c + 1)
    (hkeep : ∀ k, k < c → s1.cells (s1.cells result + k) = s.cells (s.cells result + k))
    (hnew : s1.cells (s1.cells result + c) = pos) :
    s1.found result = s.found result ++ [pos] := by
  simp only [Store.found, hc, hc1, List.range_succ, List.map_append, List.map_cons,
    List.map_nil, hnew]
  congr 1
  apply List.map_congr_left
  intro k hk
  exact hkeep k (List.mem_range.mp hk)

theorem result_add_capacity_eq (r r1 : KMPResult) (pos : Nat)
    (hadd : kmp_result_add_position (some r) pos = (true, some r1)) :
    r1.capacity = if r.count ≥ r.capacity then (if r.capacity = 0 then 8 else r.capacity * 2)
      else r.capacity := by
  simp only [kmp_result_add_position, Prod.mk.injEq, Option.some.injEq, true_and] at hadd
  subst hadd
  by_cases hg : r.count ≥ r.capacity
  · simp only [hg, if_true]
  · simp only [hg, if_false]

theorem result_init_store_eq (s : Store) (result : Nat) (hres : 0 < result)
    (hb : result + 3 ≤ s.next) :
    kmp_result_init_store s result 10
      = (true, (((⟨(((s.write result 0).write (result + 1) 0).write (result + 2) 0).cells,
          s.next + 10⟩ : Store).write result s.next).write (result + 2) 10)) := by
  have h10 : malloc_cells 10 = 10 := by decide
  have hres0 : result ≠ 0 := by omega
  have hnext : ¬ s.next = 0 := by omega
  simp only [kmp_result_init_store, hres0, if_false, h10, Store.malloc, write_next,
    write_cells_eq, hnext, show (10 : Nat) > 0 by decide, if_true]

theorem result_init_store_spec (s : Store) (result : Nat) (hres : 0 < result)
    (hb : result + 3 ≤ s.next) :
    ∃ s1, kmp_result_init_store s result 10 = (true, s1) ∧
      ResultAt s s1 result { positions := List.replicate 10 0, count := 0, capacity := 10 } := by
  refine ⟨_, result_init_store_eq s result hres hb, ?_⟩
  have hcount : ((((⟨(((s.write result 0).write (result + 1) 0).write (result + 2) 0).cells,
      s.next + 10⟩ : Store).write result s.next).write (result + 2) 10)).cells (result + 1)
        = 0 := by
    rw [write_cells_ne _ _ _ _ (by omega), write_cells_ne _ _ _ _ (by omega)]
    show (((s.write result 0).write (result + 1) 0).write (result + 2) 0).cells (result + 1) = 0
    rw [write_cells_ne _ _ _ _ (by omega), write_cells_eq]
  refine ⟨?_, ?_, hcount, ?_, ?_, ⟨Nat.zero_le _, by simp⟩, ?_, ?_⟩
  · rw [write_cells_ne _ _ _ _ (by omega), write_cells_eq]
  · rw [write_cells_ne _ _ _ _ (by omega), write_cells_eq]
    simp only [write_next]
    omega
  · rw [write_cells_eq]
  · simp [Store.found, hcount, KMPResult.found]
  · intro a ha hout
    rw [write_cells_ne _ _ _ _ (by omega), write_cells_ne _ _ _ _ (by omega)]
    show (((s.write result 0).write (result + 1) 0).write (result + 2) 0).cells a = s.cells a
    rw [write_cells_ne _ _ _ _ (by omega), write_cells_ne _ _ _ _ (by omega),
      write_cells_ne _ _ _ _ (by omega)]
  · simp only [write_next]
    omega

theorem result_add_store_spec (s0 s : Store) (result pos : Nat) (r r1 : KMPResult)
    (h : ResultAt s0 s result r) (hres : 0 < result) (hb : result + 3 ≤ s0.next)
    (hadd : kmp_result_add_position (some r) pos = (true, some r1)) :
    ∃ s1, kmp_result_add_position_store s result pos = (true, s1) ∧
      ResultAt s0 s1 result r1 := by
  obtain ⟨r2, hadd2, hwf1, hfound1, hcount1⟩ := result_add_spec r pos h.wf
  have hr : r2 = r1 := by
    rw [hadd] at hadd2
    simp only [Prod.mk.injEq, Option.some.injEq, true_and] at hadd2
    exact hadd2.symm
  subst hr
  have hcap1 := result_add_capacity_eq r r2 pos hadd
  have hres0 : result ≠ 0 := by omega
  have hfresh := h.fresh
  have hbelow := h.below
  have hnl := h.next_le
  have hwf := h.wf.1
  by_cases hg : r.count ≥ r.capacity
  · have hcc : r.count = r.capacity := by omega
    have hgs : s.cells (result + 1) ≥ s.cells (result + 2) := by rw [h.count, h.capacity]; exact hg
    have hnext : ¬ s.next = 0 := by omega
    simp only [hg, if_true] at hcap1
    have hnc : r.capacity ≤ r2.capacity := by rw [hcap1]; split <;> omega
    have hmin : min r.capacity r2.capacity = r.capacity := Nat.min_eq_left hnc
    have heq : kmp_result_add_position_store s result pos
        = (true,
            (((((s.realloc (s.cells result) r.capacity r2.capacity).2.write result s.next).write
              (result + 2) r2.capacity).write (s.next + r.count) pos).write (result + 1)
                (r.count + 1))) := by
      have e1 : ∀ st : Store, ((st.write result s.next).write (result + 2) r2.capacity).cells result
          = s.next := by
        intro st
        rw [write_cells_ne _ _ _ _ (by omega), write_cells_eq]
      have e2 : ((((s.realloc (s.cells result) r.capacity r2.capacity).2.write result
          s.next).write (result + 2) r2.capacity)).cells (result + 1) = r.count := by
        rw [write_cells_ne _ _ _ _ (by omega), write_cells_ne _ _ _ _ (by omega)]
        simp only [Store.realloc]
        rw [if_neg (by omega)]
        exact h.count
      have e3 : ∀ st : Store, st.cells (result + 1) = r.count →
          (st.write (s.next + r.count) pos).cells (result + 1) = r.count := by
        intro st hst
        rw [write_cells_ne _ _ _ _ (by omega)]
        exact hst
      have hcap1s : (if s.cells (result + 2) = 0 then 8 else s.cells (result + 2) * 2)
          = r2.capacity := by rw [h.capacity, hcap1]
      simp only [kmp_result_add_position_store, hres0, if_false, hgs, if_true, hcap1s]
      have hb1 : ∀ a old n, (s.realloc a old n).1 = s.next := fun _ _ _ => rfl
      simp only [hb1, hnext, if_false, if_true, h.capacity, e1, e2, e3 _ e2]
    refine ⟨_, heq, ?_⟩
    have cells_low : ∀ a, a < s.next → a ≠ result → a ≠ result + 1 → a ≠ result + 2 →
        (((((s.realloc (s.cells result) r.capacity r2.capacity).2.write result s.next).write
          (result + 2) r2.capacity).write (s.next + r.count) pos).write (result + 1)
            (r.count + 1)).cells a = s.cells a := by
      intro a ha h0 h1 h2
      rw [write_cells_ne _ _ _ _ h1, write_cells_ne _ _ _ _ (by omega),
        write_cells_ne _ _ _ _ h2, write_cells_ne _ _ _ _ h0]
      simp only [Store.realloc]
      rw [if_neg (by omega)]
    have hptr : (((((s.realloc (s.cells result) r.capacity r2.capacity).2.write result
          s.next).write (result + 2) r2.capacity).write (s.next + r.count) pos).write
            (result + 1) (r.count + 1)).cells result = s.next := by
      rw [write_cells_ne _ _ _ _ (by omega), write_cells_ne _ _ _ _ (by omega),
        write_cells_ne _ _ _ _ (by omega), write_cells_eq]
    refine ⟨?_, ?_, ?_, ?_, ?_, hwf1, ?_, ?_⟩
    · rw [hptr]; exact hnl
    · rw [hptr]
      simp only [write_next, Store.realloc]
      exact Nat.le_refl _
    · rw [write_cells_eq, hcount1]
    · rw [write_cells_ne _ _ _ _ (by omega), write_cells_ne _ _ _ _ (by omega),
        write_cells_eq]
    · rw [hfound1, ← h.found]
      apply found_snoc s _ result r.count pos h.count
      · rw [write_cells_eq]
      · intro k hk
        rw [hptr, write_cells_ne _ _ _ _ (by omega), write_cells_ne _ _ _ _ (by omega),
          write_cells_ne _ _ _ _ (by omega), write_cells_ne _ _ _ _ (by omega)]
        simp only [Store.realloc]
        rw [if_pos ⟨by omega, by omega⟩]
        congr 2
        omega
      · rw [hptr, write_cells_ne _ _ _ _ (by omega), write_cells_eq]
    · intro a ha hout
      rw [cells_low a (by omega) (by omega) (by omega) (by omega)]
      exact h.frame a ha hout
    · simp only [write_next, Store.realloc]
      omega
  · have hgs : ¬ s.cells (result + 1) ≥ s.cells (result + 2) := by
      rw [h.count, h.capacity]; exact hg
    simp only [hg, if_false] at hcap1
    have heq : kmp_result_add_position_store s result pos
        = (true, (s.write (s.cells result + r.count) pos).write (result + 1) (r.count + 1)) := by
      have e3 : (s.write (s.cells result + r.count) pos).cells (result + 1) = r.count := by
        rw [write_cells_ne _ _ _ _ (by omega)]
        exact h.count
      simp only [kmp_result_add_position_store, hres0, if_false, h.count, h.capacity, hg,
        if_true, e3]
    refine ⟨_, heq, ?_⟩
    have hptr : ((s.write (s.cells result + r.count) pos).write (result + 1)
        (r.count + 1)).cells result = s.cells result := by
      rw [write_cells_ne _ _ _ _ (by omega), write_cells_ne _ _ _ _ (by omega)]
    refine ⟨?_, ?_, ?_, ?_, ?_, hwf1, ?_, ?_⟩
    · rw [hptr]; exact hfresh
    · rw [hptr, hcap1]
      simp only [write_next]
      exact hbelow
    · rw [write_cells_eq, hcount1]
    · rw [write_cells_ne _ _ _ _ (by omega), write_cells_ne _ _ _ _ (by omega), hcap1]
      exact h.capacity
    · rw [hfound1, ← h.found]
      apply found_snoc s _ result r.count pos h.count
      · rw [write_cells_eq]
      · intro k hk
        rw [hptr, write_cells_ne _ _ _ _ (by omega), write_cells_ne _ _ _ _ (by omega)]
      · rw [hptr, write_cells_ne _ _ _ _ (by omega), write_cells_eq]
    · intro a ha hout
      rw [write_cells_ne _ _ _ _ (by omega), write_cells_ne _ _ _ _ (by omega)]
      exact h.frame a ha hout
    · simp only [write_next]
      exact hnl

theorem matcherCall_reads {s0 s : Store} {matcher text out size : Nat} {p lps t : List Nat}
    (h : MatcherCall s0 matcher text out size p lps t)
    (hframe : ∀ a, a < s0.next → ¬ (out ≤ a ∧ a < out + size) → s.cells a = s0.cells a) :
    s.matcher matcher = s0.matcher matcher ∧ s.cells (matcher + 1) = p.length ∧
    (∀ j, j < p.length → s.cells (s.cells matcher + j) = p.getD j 0) ∧
    (∀ j, j < p.length → s.cells (s.cells (matcher + 2) + j) = lps.getD j 0) ∧
    (∀ i, i < t.length → s.cells (text + i) = t.getD i 0) := by
  obtain ⟨-, ⟨hlen, hll, hp, hl, ht⟩, ⟨hb1, hb2, hb3, hb4, -⟩, ⟨ha1, ha2, ha3, ha4⟩⟩ := h
  simp only [Apart] at ha1 ha2 ha3 ha4
  have h0 : s.cells matcher = s0.cells matcher := hframe _ (by omega) (by omega)
  have h1 : s.cells (matcher + 1) = s0.cells (matcher + 1) := hframe _ (by omega) (by omega)
  have h2 : s.cells (matcher + 2) = s0.cells (matcher + 2) := hframe _ (by omega) (by omega)
  refine ⟨by simp only [Store.matcher, h0, h1, h2], by rw [h1, hlen], ?_, ?_, ?_⟩
  · intro j hj
    rw [h0, hframe _ (by omega) (by omega)]
    exact hp j hj
  · intro j hj
    rw [h2, hframe _ (by omega) (by omega)]
    exact hl j (by omega)
  · intro i hi
    rw [hframe _ (by omega) (by omega)]
    exact ht i hi

theorem matcherCall_frame {s0 s : Store} {matcher text out size : Nat} {p lps t : List Nat}
    (h : MatcherCall s0 matcher text out size p lps t)
    (hframe : ∀ a, a < s0.next → ¬ (out ≤ a ∧ a < out + size) → s.cells a = s0.cells a)
    (hnext : s0.next ≤ s.next) : MatcherCall s matcher text out size p lps t := by
  obtain ⟨hm, hlen, hpp, hll, ht⟩ := matcherCall_reads h hframe
  simp only [Store.matcher, Prod.mk.injEq] at hm
  obtain ⟨h0, h1, h2⟩ := hm
  obtain ⟨hpos, ⟨-, hlpslen, -, -, -⟩, ⟨hb1, hb2, hb3, hb4, hb5⟩, ⟨ha1, ha2, ha3, ha4⟩⟩ := h
  refine ⟨hpos, ⟨hlen, hlpslen, hpp, fun k hk => hll k (by omega), ht⟩,
    ⟨by omega, by omega, by omega, by omega, by omega⟩, ⟨ha1, ?_, ?_, ha4⟩⟩
  · rw [h0]; exact ha2
  · rw [h2]; exact ha3

theorem matcher_search_loop_store_spec (p lps t : List Nat) (s0 : Store)
    (matcher text result : Nat) (hcall : MatcherCall s0 matcher text result 3 p lps t)
    (hlps : ∀ k, k < p.length → lps.getD k 0 ≤ k) :
    ∀ fuel i j (s : Store) (r out : KMPResult), ResultAt s0 s result r → j < p.length →
      kmp_search_loop t t.length p p.length lps fuel i j r = some (true, out) →
      ∃ s1, kmp_matcher_search_loop_store matcher text t.length result fuel i j s
          = some (true, s1) ∧ ResultAt s0 s1 result out := by
  have hres : 0 < result := hcall.1.2.2
  have hrb : result + 3 ≤ s0.next := hcall.2.2.1.2.2.2.2
  intro fuel
  induction fuel with
  | zero =>
    intro i j s r out hR hj hfun
    by_cases hin : i < t.length
    · simp [kmp_search_loop, hin] at hfun
    · simp only [kmp_search_loop, hin, if_false, Option.some.injEq, Prod.mk.injEq,
        true_and] at hfun
      subst hfun
      exact ⟨s, by simp only [kmp_matcher_search_loop_store, hin, if_false], hR⟩
  | succ fuel ih =>
    intro i j s r out hR hj hfun
    obtain ⟨-, hlen, hpp, hll, htt⟩ := matcherCall_reads hcall hR.frame
    by_cases hin : i < t.length
    · have hstep : ∀ (j1 i1 : Nat), j1 ≤ p.length →
          (if j1 = p.length then
            match kmp_result_add_position (some r) (size_sub i1 j1) with
            | (true, some result1) =>
              kmp_search_loop t t.length p p.length lps fuel i1 (lps.getD (j1 - 1) 0) result1
            | _ => some (false, kmp_result_destroy r)
          else if i1 < t.length ∧ p.getD j1 0 ≠ t.getD i1 0 then
            if j1 ≠ 0 then
              kmp_search_loop t t.length p p.length lps fuel i1 (lps.getD (j1 - 1) 0) r
            else kmp_search_loop t t.length p p.length lps fuel (i1 + 1) j1 r
          else kmp_search_loop t t.length p p.length lps fuel i1 j1 r) = some (true, out) →
          ∃ s1,
            (if j1 = s.cells (matcher + 1) then
              if (kmp_result_add_position_store s result (size_sub i1 j1)).1 then
                kmp_matcher_search_loop_store matcher text t.length result fuel i1
                  ((kmp_result_add_position_store s result (size_sub i1 j1)).2.cells
                    ((kmp_result_add_position_store s result (size_sub i1 j1)).2.cells
                      (matcher + 2) + (j1 - 1)))
                  (kmp_result_add_position_store s result (size_sub i1 j1)).2
              else some (false, kmp_result_destroy_store
                (kmp_result_add_position_store s result (size_sub i1 j1)).2 result)
            else if i1 < t.length ∧ s.cells (s.cells matcher + j1) ≠ s.cells (text + i1) then
              if j1 ≠ 0 then
                kmp_matcher_search_loop_store matcher text t.length result fuel i1
                  (s.cells (s.cells (matcher + 2) + (j1 - 1))) s
              else kmp_matcher_search_loop_store matcher text t.length result fuel (i1 + 1) j1 s
            else kmp_matcher_search_loop_store matcher text t.length result fuel i1 j1 s)
              = some (true, s1) ∧ ResultAt s0 s1 result out := by
        intro j1 i1 hj1 hf
        rw [hlen]
        by_cases hjm : j1 = p.length
        · simp only [hjm, if_true] at hf ⊢
          obtain ⟨r1, hadd, -⟩ := result_add_spec r (size_sub i1 p.length) hR.wf
          obtain ⟨s1, hadds, hR1⟩ :=
            result_add_store_spec s0 s result (size_sub i1 p.length) r r1 hR hres hrb hadd
          obtain ⟨-, -, -, hll1, -⟩ := matcherCall_reads hcall hR1.frame
          simp only [hadd] at hf
          simp only [hadds, if_true]
          rw [hll1 _ (by omega)]
          exact ih i1 _ s1 r1 out hR1
            (Nat.lt_of_le_of_lt (hlps _ (by omega)) (by omega)) hf
        · have hjlt : j1 < p.length := by omega
          simp only [hjm, if_false] at hf ⊢
          have hcond : (i1 < t.length ∧ s.cells (s.cells matcher + j1) ≠ s.cells (text + i1))
              ↔ (i1 < t.length ∧ p.getD j1 0 ≠ t.getD i1 0) := by
            constructor
            · rintro ⟨h1, h2⟩
              rw [hpp _ hjlt, htt _ h1] at h2
              exact ⟨h1, h2⟩
            · rintro ⟨h1, h2⟩
              rw [← hpp _ hjlt, ← htt _ h1] at h2
              exact ⟨h1, h2⟩
          by_cases hc : i1 < t.length ∧ p.getD j1 0 ≠ t.getD i1 0
          · have hcs := hcond.mpr hc
            rw [if_pos hc] at hf
            rw [if_pos hcs]
            by_cases hj0 : j1 ≠ 0
            · simp only [hj0, ne_eq, not_false_eq_true, if_true] at hf ⊢
              rw [hll _ (by omega)]
              exact ih i1 _ s r out hR
                (Nat.lt_of_le_of_lt (hlps _ (by omega)) (by omega)) hf
            · simp only [hj0, if_false] at hf ⊢
              exact ih (i1 + 1) j1 s r out hR hjlt hf
          · have hcs : ¬ (i1 < t.length ∧ s.cells (s.cells matcher + j1) ≠ s.cells (text + i1)) :=
              fun h => hc (hcond.mp h)
            rw [if_neg hc] at hf
            rw [if_neg hcs]
            exact ih i1 j1 s r out hR hjlt hf
      simp only [kmp_search_loop, hin, if_true] at hfun
      simp only [kmp_matcher_search_loop_store, hin, if_true, hpp j hj, htt i hin]
      by_cases hhit : p.getD j 0 = t.getD i 0
      · simp only [hhit, if_true] at hfun ⊢
        exact hstep (j + 1) (i + 1) (by omega) hfun
      · simp only [hhit, if_false] at hfun ⊢
        exact hstep j i (by omega) hfun
    · simp only [kmp_search_loop, hin, if_false, Option.some.injEq, Prod.mk.injEq,
        true_and] at hfun
      subst hfun
      exact ⟨s, by simp only [kmp_matcher_search_loop_store, hin, if_false], hR⟩

theorem matcher_search_first_loop_store_spec (p lps t : List Nat) (s0 : Store)
    (matcher text position : Nat) (hcall : MatcherCall s0 matcher text position 1 p lps t)
    (hlps : ∀ k, k < p.length → lps.getD k 0 ≤ k) (s : Store)
    (hframe : ∀ a, a ≠ position → s.cells a = s0.cells a) (hnext : s.next = s0.next) :
    ∀ fuel i j (pos : Nat), j < p.length →
      kmp_search_first_loop t t.length p p.length lps fuel i j (s.cells position) = some pos →
      ∃ s1, kmp_matcher_search_first_loop_store matcher text t.length position fuel i j s
          = some (true, s1) ∧
        s1.cells position = pos ∧ (∀ a, a ≠ position → s1.cells a = s0.cells a) ∧
        s1.next = s0.next := by
  obtain ⟨-, hlen, hpp, hll, htt⟩ :=
    matcherCall_reads hcall (fun a _ hout => hframe a (by omega))
  intro fuel
  induction fuel with
  | zero =>
    intro i j pos hj hfun
    by_cases hin : i < t.length
    · simp [kmp_search_first_loop, hin] at hfun
    · simp only [kmp_search_first_loop, hin, if_false, Option.some.injEq] at hfun
      exact ⟨s, by simp only [kmp_matcher_search_first_loop_store, hin, if_false], hfun, hframe,
        hnext⟩
  | succ fuel ih =>
    intro i j pos hj hfun
    by_cases hin : i < t.length
    · have hstep : ∀ (j1 i1 : Nat), j1 ≤ p.length →
          (if j1 = p.length then some (size_sub i1 j1)
          else if i1 < t.length ∧ p.getD j1 0 ≠ t.getD i1 0 then
            if j1 ≠ 0 then
              kmp_search_first_loop t t.length p p.length lps fuel i1 (lps.getD (j1 - 1) 0)
                (s.cells position)
            else kmp_search_first_loop t t.length p p.length lps fuel (i1 + 1) j1
              (s.cells position)
          else kmp_search_first_loop t t.length p p.length lps fuel i1 j1 (s.cells position))
            = some pos →
          ∃ s1,
            (if j1 = s.cells (matcher + 1) then some (true, s.write position (size_sub i1 j1))
            else if i1 < t.length ∧ s.cells (s.cells matcher + j1) ≠ s.cells (text + i1) then
              if j1 ≠ 0 then
                kmp_matcher_search_first_loop_store matcher text t.length position fuel i1
                  (s.cells (s.cells (matcher + 2) + (j1 - 1))) s
              else
                kmp_matcher_search_first_loop_store matcher text t.length position fuel
                  (i1 + 1) j1 s
            else kmp_matcher_search_first_loop_store matcher text t.length position fuel i1 j1 s)
              = some (true, s1) ∧
            s1.cells position = pos ∧ (∀ a, a ≠ position → s1.cells a = s0.cells a) ∧
            s1.next = s0.next := by
        intro j1 i1 hj1 hf
        rw [hlen]
        by_cases hjm : j1 = p.length
        · simp only [hjm, if_true, Option.some.injEq] at hf ⊢
          refine ⟨_, rfl, ?_, ?_, ?_⟩
          · rw [write_cells_eq]; exact hf
          · intro a ha
            rw [write_cells_ne _ _ _ _ ha]
            exact hframe a ha
          · rw [write_next]; exact hnext
        · have hjlt : j1 < p.length := by omega
          simp only [hjm, if_false] at hf ⊢
          have hcond : (i1 < t.length ∧ s.cells (s.cells matcher + j1) ≠ s.cells (text + i1))
              ↔ (i1 < t.length ∧ p.getD j1 0 ≠ t.getD i1 0) := by
            constructor
            · rintro ⟨h1, h2⟩
              rw [hpp _ hjlt, htt _ h1] at h2
              exact ⟨h1, h2⟩
            · rintro ⟨h1, h2⟩
              rw [← hpp _ hjlt, ← htt _ h1] at h2
              exact ⟨h1, h2⟩
          by_cases hc : i1 < t.length ∧ p.getD j1 0 ≠ t.getD i1 0
          · have hcs := hcond.mpr hc
            rw [if_pos hc] at hf
            rw [if_pos hcs]
            by_cases hj0 : j1 ≠ 0
            · simp only [hj0, ne_eq, not_false_eq_true, if_true] at hf ⊢
              rw [hll _ (by omega)]
              exact ih i1 _ pos (Nat.lt_of_le_of_lt (hlps _ (by omega)) (by omega)) hf
            · simp only [hj0, if_false] at hf ⊢
              exact ih (i1 + 1) j1 pos hjlt hf
          · have hcs : ¬ (i1 < t.length ∧ s.cells (s.cells matcher + j1) ≠ s.cells (text + i1)) :=
              fun h => hc (hcond.mp h)
            rw [if_neg hc] at hf
            rw [if_neg hcs]
            exact ih i1 j1 pos hjlt hf
      simp only [kmp_search_first_loop, hin, if_true] at hfun
      simp only [kmp_matcher_search_first_loop_store, hin, if_true, hpp j hj, htt i hin]
      by_cases hhit : p.getD j 0 = t.getD i 0
      · simp only [hhit, if_true] at hfun ⊢
        exact hstep (j + 1) (i + 1) (by omega) hfun
      · simp only [hhit, if_false] at hfun ⊢
        exact hstep j i (by omega) hfun
    · simp only [kmp_search_first_loop, hin, if_false, Option.some.injEq] at hfun
      exact ⟨s, by simp only [kmp_matcher_search_first_loop_store, hin, if_false], hfun, hframe,
        hnext⟩

theorem occurrences_zero (t p : List Nat) (m : Nat) : occurrences t p m 0 = [] := rfl

theorem matcher_search_store_spec (p lps t : List Nat) (fuel : Nat) (s : Store)
    (matcher text result : Nat) (hp : 1 ≤ p.length) (ht : t.length ≤ SIZE_MAX)
    (hft : 2 * t.length ≤ fuel) (hlps : ∀ k, k < p.length → IsLps p k (lps.getD k 0))
    (hcall : MatcherCall s matcher text result 3 p lps t) :
    ∃ s1, kmp_matcher_search_store fuel s matcher text t.length result = some (true, s1) ∧
      (∀ a, a < s.next → ¬ (result ≤ a ∧ a < result + 3) → s1.cells a = s.cells a) ∧
      s.next ≤ s1.next ∧
      s1.found result = occurrences t p p.length (t.length + 1 - p.length) := by
  have hres : 0 < result := hcall.1.2.2
  have hrb : result + 3 ≤ s.next := hcall.2.2.1.2.2.2.2
  have hnz : ¬ (matcher = 0 ∨ text = 0 ∨ result = 0) := by
    have h1 := hcall.1.1
    have h2 := hcall.1.2.1
    omega
  obtain ⟨s1, hinit, hR1⟩ := result_init_store_spec s result hres hrb
  obtain ⟨-, hlen, -⟩ := matcherCall_reads hcall hR1.frame
  by_cases hdeg : t.length = 0 ∨ p.length > t.length
  · have hd : s1.cells (matcher + 1) = 0 ∨ t.length = 0 ∨ s1.cells (matcher + 1) > t.length := by
      rw [hlen]; omega
    refine ⟨s1, ?_, hR1.frame, hR1.next_le, ?_⟩
    · simp only [kmp_matcher_search_store, hnz, if_false, hinit, if_true, hd]
    · have h0 : t.length + 1 - p.length = 0 := by omega
      rw [hR1.found, h0, occurrences_zero]
      rfl
  · have hd : ¬ (s1.cells (matcher + 1) = 0 ∨ t.length = 0
        ∨ s1.cells (matcher + 1) > t.length) := by
      rw [hlen]; omega
    have h0 : 0 + 1 - p.length = 0 := by omega
    obtain ⟨out, ho, -, hfound⟩ :=
      search_loop_spec t p lps t.length p.length hlps ht fuel 0 0
        { positions := List.replicate 10 0, count := 0, capacity := 10 }
        (scanInv_init t p t.length p.length hp) hR1.wf (by rw [h0]; rfl) (by omega)
    obtain ⟨s2, hs2, hR2⟩ :=
      matcher_search_loop_store_spec p lps t s matcher text result hcall
        (fun k hk => (hlps k hk).le) fuel 0 0 s1 _ out hR1 (by omega) ho
    refine ⟨s2, ?_, hR2.frame, hR2.next_le, ?_⟩
    · simp only [kmp_matcher_search_store, hnz, if_false, hinit, if_true, hd]
      exact hs2
    · rw [hR2.found, hfound]

theorem matcher_search_first_store_spec (p lps t : List Nat) (fuel : Nat) (s : Store)
    (matcher text position : Nat) (hp : 1 ≤ p.length) (ht : t.length ≤ SIZE_MAX)
    (hft : 2 * t.length ≤ fuel) (hlps : ∀ k, k < p.length → IsLps p k (lps.getD k 0))
    (hcall : MatcherCall s matcher text position 1 p lps t) :
    ∃ s1, kmp_matcher_search_first_store fuel s matcher text t.length position
        = some (true, s1) ∧
      (∀ a, a ≠ position → s1.cells a = s.cells a) ∧ s1.next = s.next ∧
      s1.cells position = (occurrences t p p.length (t.length + 1 - p.length)).headD SIZE_MAX := by
  have hnz : ¬ (matcher = 0 ∨ text = 0 ∨ position = 0) := by
    have h1 := hcall.1.1
    have h2 := hcall.1.2.1
    have h3 := hcall.1.2.2
    omega
  have hframe : ∀ a, a ≠ position → (s.write position SIZE_MAX).cells a = s.cells a :=
    fun a ha => write_cells_ne _ _ _ _ ha
  obtain ⟨-, hlen, -⟩ :=
    matcherCall_reads (s := s.write position SIZE_MAX) hcall
      (fun a _ hout => hframe a (by omega))
  by_cases hdeg : t.length = 0 ∨ p.length > t.length
  · have hd : (s.write position SIZE_MAX).cells (matcher + 1) = 0 ∨ t.length = 0
        ∨ (s.write position SIZE_MAX).cells (matcher + 1) > t.length := by
      rw [hlen]; omega
    refine ⟨_, ?_, hframe, rfl, ?_⟩
    · simp only [kmp_matcher_search_first_store, hnz, if_false, hd, if_true]
    · have h0 : t.length + 1 - p.length = 0 := by omega
      rw [write_cells_eq, h0, occurrences_zero]
      rfl
  · have hd : ¬ ((s.write position SIZE_MAX).cells (matcher + 1) = 0 ∨ t.length = 0
        ∨ (s.write position SIZE_MAX).cells (matcher + 1) > t.length) := by
      rw [hlen]; omega
    have h0 : 0 + 1 - p.length = 0 := by omega
    have ho := search_first_loop_spec t p lps t.length p.length hlps ht SIZE_MAX fuel 0 0
      (scanInv_init t p t.length p.length hp) (by rw [h0]; rfl) (by omega)
    obtain ⟨s2, hs2, hpos, hfr, hnx⟩ :=
      matcher_search_first_loop_store_spec p lps t s matcher text position hcall
        (fun k hk => (hlps k hk).le) (s.write position SIZE_MAX) hframe rfl fuel 0 0 _
        (by omega) (by rw [write_cells_eq]; exact ho)
    refine ⟨s2, ?_, hfr, hnx, hpos⟩
    simp only [kmp_matcher_search_first_store, hnz, if_false, hd]
    exact hs2

theorem matcher_init_lps (p lps : List Nat) (fuel : Nat) (m0 : KMPMatcher)
    (hp : 1 ≤ p.length) (hfp : 2 * p.length ≤ fuel)
    (hinit : kmp_matcher_init fuel (some m0) (some p) p.length
      = some (true, some ⟨some p, p.length, some lps⟩)) :
    kmp_build_failure_function fuel (some p) p.length (some (List.replicate p.length 0))
      = some (true, some lps) ∧
    ∀ k, k < p.length → IsLps p k (lps.getD k 0) := by
  obtain ⟨lps1, hb, hinit1, -, hlps⟩ := matcher_init_spec p p.length fuel m0 hp hfp
  rw [hinit] at hinit1
  simp only [Option.some.injEq, Prod.mk.injEq, true_and, KMPMatcher.mk.injEq] at hinit1
  obtain rfl := hinit1
  exact ⟨hb, hlps⟩

theorem matcherCall_kept {s0 s : Store} {matcher text out size : Nat} {p lps t : List Nat}
    (h : MatcherCall s0 matcher text out size p lps t)
    (hframe : ∀ a, a < s0.next → ¬ (out ≤ a ∧ a < out + size) → s.cells a = s0.cells a) :
    s.matcher matcher = s0.matcher matcher ∧ s.Holds (s0.cells matcher) p ∧
      s.Holds (s0.cells (matcher + 2)) lps := by
  obtain ⟨hm, -, hpp, hll, -⟩ := matcherCall_reads h hframe
  have hm2 := hm
  simp only [Store.matcher, Prod.mk.injEq] at hm2
  obtain ⟨h0, -, h2⟩ := hm2
  have hlen : lps.length = p.length := h.2.1.2.1
  refine ⟨hm, ?_, ?_⟩
  · intro k hk
    rw [← h0]
    exact hpp k hk
  · intro k hk
    rw [← h2]
    exact hll k (by omega)

/-- C13, for an out-parameter that does not overlap what the matcher reads: let
the store hold a matcher that `kmp_matcher_init` built for the pattern `p`
(the struct, the characters of `p` and the failure function `lps`), and the
text `t`. If the `KMPResult` struct behind `result` overlaps none of these
objects, `kmp_matcher_search` returns true and stores only into that struct and
into blocks it allocates, so the members `pattern`, `pattern_length` and
`failure_function` of the matcher, the characters of the pattern and the cells
of the failure function are what they were; a second search of the same text
with the same matcher does the same and reports the same positions. Likewise,
if the `size_t` behind `position` overlaps none of these objects,
`kmp_matcher_search_first` returns true and stores only into `*position`, and
a second search stores the same position. -/
theorem kmp_matcher_search_frame (p lps t : List Nat) (fuel : Nat) (m0 : KMPMatcher)
    (s : Store) (matcher text result position : Nat) (hp : 1 ≤ p.length)
    (ht : t.length ≤ SIZE_MAX) (hfp : 2 * p.length ≤ fuel) (hft : 2 * t.length ≤ fuel)
    (hinit : kmp_matcher_init fuel (some m0) (some p) p.length
      = some (true, some ⟨some p, p.length, some lps⟩))
    (hres : MatcherCall s matcher text result 3 p lps t)
    (hpos : MatcherCall s matcher text position 1 p lps t) :
    (∃ s1 s2,
      kmp_matcher_search_store fuel s matcher text t.length result = some (true, s1) ∧
      (∀ a, a < s.next → ¬ (result ≤ a ∧ a < result + 3) → s1.cells a = s.cells a) ∧
      (s1.matcher matcher = s.matcher matcher ∧ s1.Holds (s.cells matcher) p ∧
        s1.Holds (s.cells (matcher + 2)) lps) ∧
      kmp_matcher_search_store fuel s1 matcher text t.length result = some (true, s2) ∧
      (∀ a, a < s.next → ¬ (result ≤ a ∧ a < result + 3) → s2.cells a = s.cells a) ∧
      (s2.matcher matcher = s.matcher matcher ∧ s2.Holds (s.cells matcher) p ∧
        s2.Holds (s.cells (matcher + 2)) lps) ∧
      s2.found result = s1.found result) ∧
    (∃ s1 s2,
      kmp_matcher_search_first_store fuel s matcher text t.length position
        = some (true, s1) ∧
      (∀ a, a ≠ position → s1.cells a = s.cells a) ∧
      (s1.matcher matcher = s.matcher matcher ∧ s1.Holds (s.cells matcher) p ∧
        s1.Holds (s.cells (matcher + 2)) lps) ∧
      kmp_matcher_search_first_store fuel s1 matcher text t.length position
        = some (true, s2) ∧
      (∀ a, a ≠ position → s2.cells a = s.cells a) ∧
      (s2.matcher matcher = s.matcher matcher ∧ s2.Holds (s.cells matcher) p ∧
        s2.Holds (s.cells (matcher + 2)) lps) ∧
      s2.cells position = s1.cells position) := by
  obtain ⟨-, hlps⟩ := matcher_init_lps p lps fuel m0 hp hfp hinit
  constructor
  · obtain ⟨s1, hs1, hfr1, hn1, hfound1⟩ :=
      matcher_search_store_spec p lps t fuel s matcher text result hp ht hft hlps hres
    have hcall1 := matcherCall_frame hres hfr1 hn1
    obtain ⟨s2, hs2, hfr2, -, hfound2⟩ :=
      matcher_search_store_spec p lps t fuel s1 matcher text result hp ht hft hlps hcall1
    have hfr12 : ∀ a, a < s.next → ¬ (result ≤ a ∧ a < result + 3) → s2.cells a = s.cells a := by
      intro a ha hout
      rw [hfr2 a (by omega) hout]
      exact hfr1 a ha hout
    exact ⟨s1, s2, hs1, hfr1, matcherCall_kept hres hfr1, hs2, hfr12,
      matcherCall_kept hres hfr12, by rw [hfound2, hfound1]⟩
  · obtain ⟨s1, hs1, hfr1, hn1, hp1⟩ :=
      matcher_search_first_store_spec p lps t fuel s matcher text position hp ht hft hlps hpos
    have hfr1b : ∀ a, a < s.next → ¬ (position ≤ a ∧ a < position + 1) →
        s1.cells a = s.cells a := fun a _ hout => hfr1 a (by omega)
    have hcall1 := matcherCall_frame hpos hfr1b (by omega)
    obtain ⟨s2, hs2, hfr2, -, hp2⟩ :=
      matcher_search_first_store_spec p lps t fuel s1 matcher text position hp ht hft hlps
        hcall1
    have hfr12 : ∀ a, a ≠ position → s2.cells a = s.cells a := by
      intro a ha
      rw [hfr2 a ha]
      exact hfr1 a ha
    exact ⟨s1, s2, hs1, hfr1, matcherCall_kept hpos hfr1b, hs2, hfr12,
      matcherCall_kept hpos (fun a _ hout => hfr12 a (by omega)), by rw [hp2, hp1]⟩

theorem kmp_matcher_search_frame_witness :
    (1 ≤ [97, 98].length ∧ [120, 120, 97, 98].length ≤ SIZE_MAX ∧ 2 * [97, 98].length ≤ 8 ∧
      2 * [120, 120, 97, 98].length ≤ 8 ∧
      kmp_matcher_init 8 (some ⟨none, 0, none⟩) (some [97, 98]) [97, 98].length
        = some (true, some ⟨some [97, 98], [97, 98].length, some [0, 0]⟩) ∧
      MatcherCall (Store.ofList [0, 4, 2, 6, 97, 98, 0, 0, 120, 120, 97, 98, 0, 0, 0, 0])
        1 8 12 3 [97, 98] [0, 0] [120, 120, 97, 98] ∧
      MatcherCall (Store.ofList [0, 4, 2, 6, 97, 98, 0, 0, 120, 120, 97, 98, 0, 0, 0, 0])
        1 8 15 1 [97, 98] [0, 0] [120, 120, 97, 98]) ∧
    (∃ s1 s2,
      kmp_matcher_search_store 8
          (Store.ofList [0, 4, 2, 6, 97, 98, 0, 0, 120, 120, 97, 98, 0, 0, 0, 0]) 1 8
          [120, 120, 97, 98].length 12 = some (true, s1) ∧
      (∀ a, a < (Store.ofList [0, 4, 2, 6, 97, 98, 0, 0, 120, 120, 97, 98, 0, 0, 0, 0]).next →
        ¬ (12 ≤ a ∧ a < 12 + 3) →
        s1.cells a
          = (Store.ofList [0, 4, 2, 6, 97, 98, 0, 0, 120, 120, 97, 98, 0, 0, 0, 0]).cells a) ∧
      (s1.matcher 1
          = (Store.ofList [0, 4, 2, 6, 97, 98, 0, 0, 120, 120, 97, 98, 0, 0, 0, 0]).matcher 1 ∧
        s1.Holds
          ((Store.ofList [0, 4, 2, 6, 97, 98, 0, 0, 120, 120, 97, 98, 0, 0, 0, 0]).cells 1)
          [97, 98] ∧
        s1.Holds
          ((Store.ofList [0, 4, 2, 6, 97, 98, 0, 0, 120, 120, 97, 98, 0, 0, 0, 0]).cells (1 + 2))
          [0, 0]) ∧
      kmp_matcher_search_store 8 s1 1 8 [120, 120, 97, 98].length 12 = some (true, s2) ∧
      (∀ a, a < (Store.ofList [0, 4, 2, 6, 97, 98, 0, 0, 120, 120, 97, 98, 0, 0, 0, 0]).next →
        ¬ (12 ≤ a ∧ a < 12 + 3) →
        s2.cells a
          = (Store.ofList [0, 4, 2, 6, 97, 98, 0, 0, 120, 120, 97, 98, 0, 0, 0, 0]).cells a) ∧
      (s2.matcher 1
          = (Store.ofList [0, 4, 2, 6, 97, 98, 0, 0, 120, 120, 97, 98, 0, 0, 0, 0]).matcher 1 ∧
        s2.Holds
          ((Store.ofList [0, 4, 2, 6, 97, 98, 0, 0, 120, 120, 97, 98, 0, 0, 0, 0]).cells 1)
          [97, 98] ∧
        s2.Holds
          ((Store.ofList [0, 4, 2, 6, 97, 98, 0, 0, 120, 120, 97, 98, 0, 0, 0, 0]).cells (1 + 2))
          [0, 0]) ∧
      s2.found 12 = s1.found 12) ∧
    (∃ s1 s2,
      kmp_matcher_search_first_store 8
          (Store.ofList [0, 4, 2, 6, 97, 98, 0, 0, 120, 120, 97, 98, 0, 0, 0, 0]) 1 8
          [120, 120, 97, 98].length 15 = some (true, s1) ∧
      (∀ a, a ≠ 15 →
        s1.cells a
          = (Store.ofList [0, 4, 2, 6, 97, 98, 0, 0, 120, 120, 97, 98, 0, 0, 0, 0]).cells a) ∧
      (s1.matcher 1
          = (Store.ofList [0, 4, 2, 6, 97, 98, 0, 0, 120, 120, 97, 98, 0, 0, 0, 0]).matcher 1 ∧
        s1.Holds
          ((Store.ofList [0, 4, 2, 6, 97, 98, 0, 0, 120, 120, 97, 98, 0, 0, 0, 0]).cells 1)
          [97, 98] ∧
        s1.Holds
          ((Store.ofList [0, 4, 2, 6, 97, 98, 0, 0, 120, 120, 97, 98, 0, 0, 0, 0]).cells (1 + 2))
          [0, 0]) ∧
      kmp_matcher_search_first_store 8 s1 1 8 [120, 120, 97, 98].length 15 = some (true, s2) ∧
      (∀ a, a ≠ 15 →
        s2.cells a
          = (Store.ofList [0, 4, 2, 6, 97, 98, 0, 0, 120, 120, 97, 98, 0, 0, 0, 0]).cells a) ∧
      (s2.matcher 1
          = (Store.ofList [0, 4, 2, 6, 97, 98, 0, 0, 120, 120, 97, 98, 0, 0, 0, 0]).matcher 1 ∧
        s2.Holds
          ((Store.ofList [0, 4, 2, 6, 97, 98, 0, 0, 120, 120, 97, 98, 0, 0, 0, 0]).cells 1)
          [97, 98] ∧
        s2.Holds
          ((Store.ofList [0, 4, 2, 6, 97, 98, 0, 0, 120, 120, 97, 98, 0, 0, 0, 0]).cells (1 + 2))
          [0, 0]) ∧
      s2.cells 15 = s1.cells 15) :=
  ⟨by decide,
    kmp_matcher_search_frame [97, 98] [0, 0] [120, 120, 97, 98] 8 ⟨none, 0, none⟩
      (Store.ofList [0, 4, 2, 6, 97, 98, 0, 0, 120, 120, 97, 98, 0, 0, 0, 0]) 1 8 12 15
      (by decide) (by decide) (by decide) (by decide) (by decide) (by decide) (by decide)⟩

/-- C13 fails as stated: `kmp_matcher_search_first` stores through `position`
before it reads the matcher, and nothing keeps `position` away from the
matcher. The store holds a matcher for "ab" as `kmp_matcher_init` builds it
(struct at address 1, pattern at 4, failure function at 6) and the text "xxab"
at address 8. With `position` the address 12 of a `size_t` of its own the
search stores the offset 2 and leaves the matcher alone; with `position` the
address 2 of the matcher's own member `pattern_length` it returns true having
overwritten that member with `(size_t)-1`, and the same search as before, run
afterwards, reports no occurrence. -/
theorem kmp_matcher_search_first_overwrites_matcher :
    kmp_matcher_init 8 (some ⟨none, 0, none⟩) (some [97, 98]) 2
      = some (true, some ⟨some [97, 98], 2, some [0, 0]⟩) ∧
    ((Store.ofList [0, 4, 2, 6, 97, 98, 0, 0, 120, 120, 97, 98, 0]).matcher 1 = (4, 2, 6) ∧
      (Store.ofList [0, 4, 2, 6, 97, 98, 0, 0, 120, 120, 97, 98, 0]).Holds 4 [97, 98] ∧
      (Store.ofList [0, 4, 2, 6, 97, 98, 0, 0, 120, 120, 97, 98, 0]).Holds 6 [0, 0] ∧
      (Store.ofList [0, 4, 2, 6, 97, 98, 0, 0, 120, 120, 97, 98, 0]).Holds 8
        [120, 120, 97, 98]) ∧
    (kmp_matcher_search_first_store 8
        (Store.ofList [0, 4, 2, 6, 97, 98, 0, 0, 120, 120, 97, 98, 0]) 1 8 4 12).map
        (fun out => (out.1, out.2.cells 12, out.2.matcher 1))
      = some (true, 2, (4, 2, 6)) ∧
    (kmp_matcher_search_first_store 8
        (Store.ofList [0, 4, 2, 6, 97, 98, 0, 0, 120, 120, 97, 98, 0]) 1 8 4 2).map
        (fun out => (out.1, out.2.matcher 1))
      = some (true, (4, SIZE_MAX, 6)) ∧
    ((kmp_matcher_search_first_store 8
        (Store.ofList [0, 4, 2, 6, 97, 98, 0, 0, 120, 120, 97, 98, 0]) 1 8 4 2).bind
        (fun out => kmp_matcher_search_first_store 8 out.2 1 8 4 12)).map
        (fun out => (out.1, out.2.cells 12))
      = some (true, SIZE_MAX) := by
  decide

/-- The searches over the store report what the searches of the functional
embedding report: for an out-parameter that overlaps nothing the matcher
reads, the positions in the result struct are those that `kmp_matcher_search`
finds, and
the position stored by `kmp_matcher_search_first_store` is the one that
`kmp_matcher_search_first` returns. -/
theorem matcher_search_store_refines (p lps t : List Nat) (fuel : Nat) (m0 : KMPMatcher)
    (r0 : KMPResult) (pos0 : Nat) (s : Store) (matcher text result position : Nat)
    (hp : 1 ≤ p.length) (ht : t.length ≤ SIZE_MAX) (hfp : 2 * p.length ≤ fuel)
    (hft : 2 * t.length ≤ fuel)
    (hinit : kmp_matcher_init fuel (some m0) (some p) p.length
      = some (true, some ⟨some p, p.length, some lps⟩))
    (hres : MatcherCall s matcher text result 3 p lps t)
    (hpos : MatcherCall s matcher text position 1 p lps t) :
    (∃ s1 r,
      kmp_matcher_search_store fuel s matcher text t.length result = some (true, s1) ∧
      kmp_matcher_search fuel (some ⟨some p, p.length, some lps⟩) (some t) t.length (some r0)
        = some (true, some ⟨some p, p.length, some lps⟩, some r) ∧
      s1.found result = r.found) ∧
    (∃ s1 pos,
      kmp_matcher_search_first_store fuel s matcher text t.length position
        = some (true, s1) ∧
      kmp_matcher_search_first fuel (some ⟨some p, p.length, some lps⟩) (some t) t.length
          (some pos0)
        = some (true, some ⟨some p, p.length, some lps⟩, some pos) ∧
      s1.cells position = pos) := by
  obtain ⟨hb, hlps⟩ := matcher_init_lps p lps fuel m0 hp hfp hinit
  obtain ⟨s1, hs1, -, -, hfound1⟩ :=
    matcher_search_store_spec p lps t fuel s matcher text result hp ht hft hlps hres
  obtain ⟨s2, hs2, -, -, hp2⟩ :=
    matcher_search_first_store_spec p lps t fuel s matcher text position hp ht hft hlps hpos
  have hm := matcher_search_eq p lps t p.length t.length fuel r0 hb
  have hmf := matcher_search_first_eq p lps t p.length t.length fuel pos0 hb
  by_cases hdeg : p.length = 0 ∨ t.length = 0 ∨ p.length > t.length
  · have h0 : t.length + 1 - p.length = 0 := by omega
    rw [h0, occurrences_zero] at hfound1 hp2
    rw [search_degenerate fuel t p _ _ r0 hdeg] at hm
    rw [search_first_degenerate fuel t p _ _ pos0 hdeg] at hmf
    exact ⟨⟨s1, _, hs1, hm, by rw [hfound1]; rfl⟩, s2, _, hs2, hmf, by rw [hp2]; rfl⟩
  · obtain ⟨r, hr, -, hrf⟩ := search_spec t p t.length p.length fuel r0 hp (by omega) ht hft
    have hf := search_first_spec t p t.length p.length fuel pos0 hp (by omega) ht hft
    rw [hr] at hm
    rw [hf] at hmf
    exact ⟨⟨s1, r, hs1, hm, by rw [hfound1, hrf]⟩, s2, _, hs2, hmf, hp2⟩

/-- The searches over the store on the text "xxab" and on a text of twelve
"a" (where the result block grows from 10 to 20 cells), with the matcher
struct at address 1: they report the occurrences, hand out the blocks after
the cells in use and leave the matcher struct as it was. -/
theorem matcher_search_store_examples :
    (kmp_matcher_search_store 8
        (Store.ofList [0, 4, 2, 6, 97, 98, 0, 0, 120, 120, 97, 98, 0, 0, 0, 0]) 1 8 4 12).map
        (fun out => (out.1, out.2.found 12, out.2.matcher 1, out.2.matcher 12, out.2.next))
      = some (true, [2], (4, 2, 6), (16, 1, 10), 26) ∧
    (kmp_matcher_search_first_store 8
        (Store.ofList [0, 4, 2, 6, 97, 98, 0, 0, 120, 120, 97, 98, 0, 0, 0, 0]) 1 8 4 15).map
        (fun out => (out.1, out.2.cells 15, out.2.matcher 1, out.2.next))
      = some (true, 2, (4, 2, 6), 16) ∧
    (kmp_matcher_search_store 24
        (Store.ofList
          [0, 4, 1, 5, 97, 0, 97, 97, 97, 97, 97, 97, 97, 97, 97, 97, 97, 97, 0, 0, 0])
        1 6 12 18).map
        (fun out => (out.1, out.2.found 18, out.2.matcher 1, out.2.matcher 18, out.2.next))
      = some (true, [0, 1, 2, 3, 4, 5, 6, 7, 8, 9, 10, 11], (4, 1, 5), (31, 12, 20), 51) := by
  exact ⟨rfl, rfl, rfl⟩

end KMP
